import Mathlib

/-!
The x265 frame encoder: wavefront row scheduling, VBV rollback, reference sync

A shallow embedding of `source/encoder/frameencoder.cpp` (class `FrameEncoder`)
and theorems about it.  Line numbers in the comments refer to that file.

Conventions of the embedding:

* C++ arrays indexed by row / CU address are total functions `Nat → α`,
  updated with `upd`.
* External collaborators (analysis engine, entropy coder, rate control,
  worker-pool queue) are function-valued fields of `Collab`.
* `double`-typed quantities (QPs, satd costs) are carried as `Int` tokens; no
  statement below depends on floating-point arithmetic.
* Ghost fields (an event log and a program counter per row worker) record what
  the code does; they never influence a branch of the code.
-/

namespace X265

/-! ## Access-unit bit count (compressFrame, lines 374-387) -/

/-- One entry of `m_nalList.m_nal` : the NAL unit type and its serialized size
(`uint32_t sizeBytes`). -/
structure Nal where
  type : Int
  sizeBytes : Nat
deriving DecidableEq, Repr

/-- Pointwise update of an array modelled as a function. -/
def upd {α : Type} (f : Nat → α) (i : Nat) (v : α) : Nat → α :=
  fun j => if j = i then v else f j

/-- The helper `Clip3(minVal, maxVal, a)`. -/
def Clip3 (minVal maxVal a : Int) : Int :=
  if a < minVal then minVal else if a > maxVal then maxVal else a

/-- An `Entropy` coder object, as far as the row processor distinguishes its
parts: the arithmetic-coder engine state (what `copyState` copies) and the
adaptive context models (what `loadContexts` copies); `load` copies both. -/
structure Entropy where
  engine : Nat
  contexts : Nat
deriving DecidableEq, Repr

/-- The fields of `rowStats` that the row processor accumulates
(lines 695-705) and `memset`s (line 776). -/
structure FrameStats where
  mvBits : Int
  coeffBits : Int
  miscBits : Int
  iCuCnt : Int
  pCuCnt : Int
  skipCuCnt : Int
deriving DecidableEq, Repr

/-- The all-zero statistics record (`memset(&rowStats, 0, sizeof(rowStats))`). -/
def FrameStats.zero : FrameStats := ⟨0, 0, 0, 0, 0, 0⟩

/-- One `CTURow`. The row's `rdEntropyCoders[0][CI_CURR_BEST]` is kept in
`EncState.rdEntropyCoders`, next to the rows. -/
structure CTURow where
  completed : Nat
  active : Bool
  busy : Bool
  rowStats : FrameStats
  bufferEntropyCoder : Entropy
deriving DecidableEq, Repr

/-- What the analysis of one CTU leaves behind for the row processor: the bit
counts of the `TComDataCU`, and the per-depth counters of the thread-local
statistic log (`qTreeIntraCnt[depth]` and so on). -/
structure CuData where
  m_totalBits : Int
  m_mvBits : Int
  m_coeffBits : Int
  qTreeIntraCnt : Nat → Nat
  qTreeInterCnt : Nat → Nat
  qTreeSkipCnt : Nat → Nat
  decisions : Nat

/-- The per-row and per-CU arrays of `Frame` (and of its CUs) that the row
processor reads and writes. `m_qpaAq` is a pointer that may be null. -/
structure Frame where
  m_avgQpRc : Int
  m_rowDiagQp : Nat → Int
  m_rowDiagQScale : Nat → Int
  m_qpaAq : Option (Nat → Int)
  m_qpaRc : Nat → Int
  m_rowEncodedBits : Nat → Int
  m_numEncodedCusPerRow : Nat → Int
  m_rowDiagSatd : Nat → Int
  m_rowDiagIntraSatd : Nat → Int
  m_cuCostsForVbv : Nat → Int
  m_intraCuCostsForVbv : Nat → Int
  m_baseQp : Nat → Int
  m_totalBits : Nat → Int
  m_qp : Nat → Int

/-- The fields of `x265_param` (and of `rc`) read by the modelled code. -/
structure Param where
  bEnableWavefront : Bool
  bEnableSAO : Bool
  bSaoNonDeblocked : Bool
  bEnableLoopFilter : Bool
  vbvBufferSize : Int
  vbvMaxBitrate : Int
  aqMode : Int
  cuTree : Bool
  bStatWrite : Bool
  rateControlModeIsABR : Bool
  fpsNum : Nat
  fpsDenom : Nat
  searchRange : Nat
  bEmitHRDSEI : Bool
  noiseReduction : Nat
deriving DecidableEq, Repr

/-- Global constants and tables declared outside the translated file. -/
structure Globals where
  g_maxCUSize : Nat
  g_maxCUDepth : Nat
  NTAPS_LUMA : Nat
  QP_MIN : Int
  QP_MAX_SPEC : Int
  QP_MAX_MAX : Int
  LOWRES_COST_MASK : Nat
deriving DecidableEq, Repr

/-- The picture-level inputs of `calcQpForCu`: source picture size and the
lowres arrays indexed by 16x16 block. -/
structure Lowres where
  width : Nat
  height : Nat
  isReferenced : Bool
  qpCuTreeOffset : Nat → Int
  qpAqOffset : Nat → Int
  lowresCostForRc : Nat → Nat
  intraCost : Nat → Int

/-- Everything that is fixed while one frame is compressed. -/
structure Cfg where
  param : Param
  glob : Globals
  lowres : Lowres
  m_numRows : Nat
  m_numCols : Nat
  m_refLagRows : Nat
  hasPool : Bool
  encodeOrder : Nat
  m_sliceQp : Int
  m_initSliceContext : Entropy

/-- External collaborators, as functions. `compressCU` and
`rowDiagonalVbvRateControl` get the number of earlier calls as first argument,
so that they may answer differently from call to call. -/
structure Collab where
  compressCU : Nat → Nat → Int → Entropy → CuData
  encodeCTU : Entropy → CuData → Entropy
  finishSlice : Entropy → Entropy
  rowDiagonalVbvRateControl : Nat → Nat → Int → Int × Int
  x265_qp2qScale : Int → Int
  roundedQp : Int → Int → Nat → Int
  dequeueRow : Nat → Bool

/-- Ghost record of the calls the modelled code makes, in program order.
`processRowEncoder` and `processRowFilter` are recorded by `processRow` when it
dispatches a task, the other events where the call of that name is made. -/
inductive Event where
  | compressCU (cuAddr : Nat)
  | encodeCTU (cuAddr : Nat)
  | loadContexts (row : Nat) (contexts : Nat)
  | saveContexts (row : Nat) (col : Nat) (contexts : Nat)
  | rowDiagonalVbvRateControl (row : Nat) (col : Nat)
  | resetBits (r : Nat)
  | enqueueRowEncoder (row : Nat)
  | suspend (row : Nat)
  | finishSlice (row : Nat)
  | rateControlUpdateStats (bits : Int)
  | enableRowFilter (i : Int)
  | enqueueRowFilter (i : Nat)
  | calcSaoStatsCu_BeforeDblk (col : Nat) (row : Nat)
  | simultaneousRowAccess (row : Nat)
  | processRowEncoder (row : Nat)
  | processRowFilter (row : Nat)
  | completionTrigger
  | refReady (row : Nat) (l : Nat) (ref : Nat) (v : Int) (waits : Nat)
  | applyWeight (l : Nat) (ref : Nat) (rowEnd : Int)
  | clearEnabledRowMask
  | enqueue
  | enableRowEncoder (row : Nat)
  | pokeIdleThread
  | completionWait
  | dequeue
deriving DecidableEq, Repr

/-- Ghost program counter of the worker that owns a row: in the CTU loop
(line 630), or inside the rollback loop of lines 741-784 with cursor `r`,
either before the deactivation loop (line 745) or in the busy wait
(lines 759-771). -/
inductive Pc where
  | loop
  | rbDeactivate (r : Nat)
  | rbWaitIdle (r : Nat)
deriving DecidableEq, Repr

/-- Mutable state of the frame encoder while rows are compressed. The last
five fields are ghost. -/
structure EncState where
  m_rows : Nat → CTURow
  rdEntropyCoders : Nat → Entropy
  m_bAllRowsStop : Bool
  m_vbvResetTriggerRow : Int
  m_frame : Frame
  pc : Nat → Pc
  rcCalls : Nat
  nCompress : Nat
  col1Ctx : Nat → Option Nat
  log : List Event

/-- Line 628 / 912: `rc.vbvBufferSize > 0 && rc.vbvMaxBitrate > 0`. -/
def bIsVbv (p : Param) : Bool :=
  decide (p.vbvBufferSize > 0) && decide (p.vbvMaxBitrate > 0)

/-- Lines 88-89 of `init`: the filter row delay. -/
def filterRowDelay (p : Param) : Nat :=
  if p.bEnableSAO && p.bSaoNonDeblocked then 2
  else if p.bEnableSAO || p.bEnableLoopFilter then 1 else 0

/-- Lines 613-614: index of the row whose coder is `rowCoder`. -/
def rowCoderIdx (p : Param) (row : Nat) : Nat :=
  if p.bEnableWavefront then row else 0

/-! ## calcQpForCu (lines 906-952) -/

/-- The offset-map indices `idx` visited by the two nested loops of
lines 932-946 for the CTU at `cuAddr`, in visiting order. Each loop stops at
the first index that fails its bound test. -/
def calcQpBlocks (cfg : Cfg) (cuAddr : Nat) : List Nat :=
  let maxBlockCols := (cfg.lowres.width + (16 - 1)) / 16
  let maxBlockRows := (cfg.lowres.height + (16 - 1)) / 16
  let noOfBlocks := cfg.glob.g_maxCUSize / 16
  let block_y := (cuAddr / cfg.m_numCols) * noOfBlocks
  let block_x := (cuAddr * noOfBlocks) - block_y * cfg.m_numCols
  ((List.range noOfBlocks).takeWhile (fun h => decide (block_y + h < maxBlockRows))).flatMap
    (fun h => ((List.range noOfBlocks).takeWhile (fun w => decide (block_x + w < maxBlockCols))).map
      (fun w => block_x + w + ((block_y + h) * maxBlockCols)))

/-- The function `calcQpForCu`: the new frame arrays and the returned QP. The floating-point
average and rounding `(int)(baseQp + qp_offset / cnt + 0.5)` is the
collaborator `roundedQp`, given the base QP, the offset sum and `cnt`. -/
def calcQpForCu (cfg : Cfg) (orc : Collab) (f : Frame) (cuAddr : Nat) (baseQp : Int) :
    Frame × Int :=
  let blocks := calcQpBlocks cfg cuAddr
  let qpoffs := if cfg.lowres.isReferenced && cfg.param.cuTree
    then cfg.lowres.qpCuTreeOffset else cfg.lowres.qpAqOffset
  let qp_offset : Int := if cfg.param.aqMode ≠ 0 then (blocks.map qpoffs).sum else 0
  let cnt := blocks.length
  let f1 : Frame :=
    if bIsVbv cfg.param then
      { f with
        m_cuCostsForVbv := upd f.m_cuCostsForVbv cuAddr
          ((blocks.map (fun idx =>
            ((cfg.lowres.lowresCostForRc idx &&& cfg.glob.LOWRES_COST_MASK : Nat) : Int))).sum)
        m_intraCuCostsForVbv := upd f.m_intraCuCostsForVbv cuAddr
          ((blocks.map cfg.lowres.intraCost).sum) }
    else f
  (f1, Clip3 cfg.glob.QP_MIN cfg.glob.QP_MAX_MAX (orc.roundedQp baseQp qp_offset cnt))

/-! ## processRowEncoder: one CTU (lines 630-818) -/

/-- Lines 638-652: the base QP of the CTU at (`row`, `col`). -/
def deriveBaseQp (cfg : Cfg) (orc : Collab) (row col : Nat) (s : EncState) : Frame :=
  let f := s.m_frame
  let cuAddr := row * cfg.m_numCols + col
  if bIsVbv cfg.param then
    let f1 : Frame :=
      if row = 0 then
        { f with
          m_rowDiagQp := upd f.m_rowDiagQp row f.m_avgQpRc
          m_rowDiagQScale := upd f.m_rowDiagQScale row (orc.x265_qp2qScale f.m_avgQpRc) }
      else f
    if row ≥ col ∧ row ≠ 0 ∧ s.m_vbvResetTriggerRow ≠ (row : Int) then
      { f1 with m_baseQp := upd f1.m_baseQp cuAddr (f1.m_baseQp (cuAddr - cfg.m_numCols + 1)) }
    else
      { f1 with m_baseQp := upd f1.m_baseQp cuAddr (f1.m_rowDiagQp row) }
  else
    { f with m_baseQp := upd f.m_baseQp cuAddr f.m_avgQpRc }

/-- Lines 636 and 654-662: the QP handed to the analysis (second component)
and the frame arrays after recording the clipped QP. -/
def applyCuQp (cfg : Cfg) (orc : Collab) (row cuAddr : Nat) (f : Frame) : Frame × Int :=
  if cfg.param.aqMode ≠ 0 ∨ bIsVbv cfg.param = true then
    let r := calcQpForCu cfg orc f cuAddr (f.m_baseQp cuAddr)
    let qp := Clip3 cfg.glob.QP_MIN cfg.glob.QP_MAX_SPEC r.2
    let f2 : Frame := { r.1 with m_qp := upd r.1.m_qp cuAddr qp }
    let f3 : Frame :=
      if cfg.param.aqMode ≠ 0 then
        { f2 with m_qpaAq := f2.m_qpaAq.map (fun a => upd a row (a row + qp)) }
      else f2
    (f3, r.2)
  else
    ({ f with m_qp := upd f.m_qp cuAddr cfg.m_sliceQp }, cfg.m_sliceQp)

/-- Lines 664-675: seeding of the coders before the CTU is analysed. With
wavefront, at column 0 of a row other than row 0, the row coder takes the
engine state of `m_initSliceContext` and the contexts of the buffer of the row
above; without wavefront the row's own coder is loaded from the shared one. -/
def seedCoders (cfg : Cfg) (row col : Nat) (s : EncState) : Nat → Entropy :=
  if cfg.param.bEnableWavefront then
    if col = 0 ∧ row ≠ 0 then
      upd s.rdEntropyCoders row
        { engine := cfg.m_initSliceContext.engine
          contexts := (s.m_rows (row - 1)).bufferEntropyCoder.contexts }
    else s.rdEntropyCoders
  else if row ≠ 0 then
    upd s.rdEntropyCoders row (s.rdEntropyCoders 0)
  else s.rdEntropyCoders

/-- The context a row loads from the buffer of the row above when it starts
column `col`, if it loads one (lines 666-671). -/
def seedContext (cfg : Cfg) (row col : Nat) (s : EncState) : Option Nat :=
  if cfg.param.bEnableWavefront = true ∧ col = 0 ∧ row ≠ 0 then
    some (s.m_rows (row - 1)).bufferEntropyCoder.contexts
  else none

/-- Lines 693-710: accumulation of the two-pass statistics of one CTU. -/
def accumRowStats (cfg : Cfg) (cu : CuData) (st : FrameStats) : FrameStats :=
  if cfg.param.bStatWrite then
    let depths := List.range (cfg.glob.g_maxCUDepth + 1)
    let shifted (cnt : Nat → Nat) : Int :=
      ((depths.map (fun depth => cnt depth <<< (2 * (cfg.glob.g_maxCUDepth - depth)))).sum : Nat)
    { mvBits := st.mvBits + cu.m_mvBits
      coeffBits := st.coeffBits + cu.m_coeffBits
      miscBits := st.miscBits + (cu.m_totalBits - (cu.m_mvBits + cu.m_coeffBits))
      iCuCnt := st.iCuCnt + shifted cu.qTreeIntraCnt
      pCuCnt := st.pCuCnt + shifted cu.qTreeInterCnt
      skipCuCnt := st.skipCuCnt + shifted cu.qTreeSkipCnt }
  else st

/-- Lines 715-719: per-row VBV accounting after a CTU. -/
def vbvAccount (row cuAddr : Nat) (cu : CuData) (f : Frame) : Frame :=
  { f with
    m_rowDiagSatd := upd f.m_rowDiagSatd row (f.m_rowDiagSatd row + f.m_cuCostsForVbv cuAddr)
    m_rowDiagIntraSatd :=
      upd f.m_rowDiagIntraSatd row (f.m_rowDiagIntraSatd row + f.m_intraCuCostsForVbv cuAddr)
    m_rowEncodedBits := upd f.m_rowEncodedBits row (f.m_rowEncodedBits row + cu.m_totalBits)
    m_numEncodedCusPerRow := upd f.m_numEncodedCusPerRow row (cuAddr : Int)
    m_qpaRc := upd f.m_qpaRc row (f.m_qpaRc row + f.m_baseQp cuAddr) }

/-- The call recorded when the row coder is seeded from the buffer of the row
above (lines 666-671), if it is. -/
def seedEvents (cfg : Cfg) (row col : Nat) (s : EncState) : List Event :=
  match seedContext cfg row col s with
  | some c => [Event.loadContexts row c]
  | none => []

/-- The calls recorded while one CTU is analysed and coded: the seeding
of the row coder if there is one, the analysis (line 679), the coding
(line 683), and the saving of the contexts at column 1 (line 687); `coded` is
the row coder after the coding. -/
def encodeEvents (cfg : Cfg) (row col : Nat) (s : EncState) (coded : Entropy) : List Event :=
  seedEvents cfg row col s
  ++ [Event.compressCU (row * cfg.m_numCols + col), Event.encodeCTU (row * cfg.m_numCols + col)]
  ++ (if cfg.param.bEnableWavefront && decide (col = 1)
      then [Event.saveContexts row col coded.contexts] else [])

/-- Lines 632-710: the CTU at column `completed` of `row` is given its QP,
analysed and coded, the contexts are saved at column 1, `completed` is
incremented and the statistics are accumulated. The second component is the
data of the CTU. -/
def ctuEncode (cfg : Cfg) (orc : Collab) (row : Nat) (s : EncState) : EncState × CuData :=
  let curRow := s.m_rows row
  let col := curRow.completed
  let cuAddr := row * cfg.m_numCols + col
  let q := applyCuQp cfg orc row cuAddr (deriveBaseQp cfg orc row col s)
  let coders1 := seedCoders cfg row col s
  let cu := orc.compressCU s.nCompress cuAddr q.2 (coders1 row)
  let idx := rowCoderIdx cfg.param row
  let coded := orc.encodeCTU (coders1 idx) cu
  let buffer : Entropy :=
    if cfg.param.bEnableWavefront && decide (col = 1)
    then { curRow.bufferEntropyCoder with contexts := coded.contexts }
    else curRow.bufferEntropyCoder
  ({ s with
      m_rows := upd s.m_rows row
        { curRow with
          bufferEntropyCoder := buffer
          completed := curRow.completed + 1
          rowStats := accumRowStats cfg cu curRow.rowStats }
      rdEntropyCoders := upd coders1 idx coded
      m_frame := { q.1 with m_totalBits := upd q.1.m_totalBits cuAddr cu.m_totalBits }
      nCompress := s.nCompress + 1
      col1Ctx := if col = 1 then upd s.col1Ctx row (some coded.contexts) else s.col1Ctx
      log := s.log ++ encodeEvents cfg row col s coded },
    cu)

/-- Lines 712-739: VBV accounting for the CTU at (`row`, `col`) and, on the
diagonal of a row other than row 0, the checkpoint. The Boolean says whether
rate control asked for a re-encode (`reEncode < 0`), in which case
lines 738-739 have set the trigger row and the stop flag and the rollback loop
comes next. -/
def vbvCheckpoint (cfg : Cfg) (orc : Collab) (row col : Nat) (cu : CuData) (s : EncState) :
    EncState × Bool :=
  let cuAddr := row * cfg.m_numCols + col
  if bIsVbv cfg.param then
    let f2 := vbvAccount row cuAddr cu s.m_frame
    if row = col ∧ row ≠ 0 then
      let rc := orc.rowDiagonalVbvRateControl s.rcCalls row (f2.m_baseQp cuAddr)
      let qpBase := Clip3 cfg.glob.QP_MIN cfg.glob.QP_MAX_MAX rc.2
      let s2 : EncState :=
        { s with
          m_frame :=
            { f2 with
              m_rowDiagQp := upd f2.m_rowDiagQp row qpBase
              m_rowDiagQScale := upd f2.m_rowDiagQScale row (orc.x265_qp2qScale qpBase) }
          rcCalls := s.rcCalls + 1
          log := s.log ++ [Event.rowDiagonalVbvRateControl row col] }
      if rc.1 < 0 then
        ({ s2 with m_vbvResetTriggerRow := (row : Int), m_bAllRowsStop := true }, true)
      else (s2, false)
    else ({ s with m_frame := f2 }, false)
  else (s, false)

/-- Lines 632-739: everything one iteration of the CTU loop does up to and
including the diagonal checkpoint. -/
def ctuHead (cfg : Cfg) (orc : Collab) (row : Nat) (s : EncState) : EncState × Bool :=
  let e := ctuEncode cfg orc row s
  vbvCheckpoint cfg orc row (s.m_rows row).completed e.2 e.1

/-- What one atomic step of a row worker leads to: the worker is still inside
`processRowEncoder`, it has returned, or it cannot move (it spins in a wait
loop whose condition does not hold yet). -/
inductive Outcome where
  | running (s : EncState)
  | returned (s : EncState)
  | blocked

/-- The tests of lines 797 and 800-802 together: the row below is to be
activated. -/
def wantsNextRow (cfg : Cfg) (row : Nat) (s : EncState) : Prop :=
  ((s.m_rows row).completed ≥ 2 ∧ (row : Int) < (cfg.m_numRows : Int) - 1) ∧
    ((s.m_rows (row + 1)).active = false ∧
      (s.m_rows (row + 1)).completed + 2 ≤ (s.m_rows row).completed ∧
      (s.m_bAllRowsStop = false ∨ ((row : Int) + 1 < s.m_vbvResetTriggerRow)))

instance (cfg : Cfg) (row : Nat) (s : EncState) : Decidable (wantsNextRow cfg row s) := by
  unfold wantsNextRow; infer_instance

/-- The test of lines 810-811: this row has to stop, because a rollback is
under way at a row above it, or because it has caught up with the row above. -/
def mustSuspend (cfg : Cfg) (row : Nat) (s : EncState) : Prop :=
  (s.m_bAllRowsStop = true ∧ (row : Int) > s.m_vbvResetTriggerRow) ∨
    (row > 0 ∧ (s.m_rows row).completed < cfg.m_numCols - 1 ∧
      (s.m_rows (row - 1)).completed < (s.m_rows row).completed + 2)

instance (cfg : Cfg) (row : Nat) (s : EncState) : Decidable (mustSuspend cfg row s) := by
  unfold mustSuspend; infer_instance

/-- Lines 796-807: activation of the row below. -/
def activateNext (cfg : Cfg) (row : Nat) (s : EncState) : EncState :=
  if wantsNextRow cfg row s then
    { s with
      m_rows := upd s.m_rows (row + 1) { s.m_rows (row + 1) with active := true }
      log := s.log ++ [Event.enqueueRowEncoder (row + 1)] }
  else s

/-- Lines 813-816: the row is given up. -/
def suspendRow (row : Nat) (s : EncState) : EncState :=
  { s with
    m_rows := upd s.m_rows row { s.m_rows row with active := false, busy := false }
    log := s.log ++ [Event.suspend row] }

/-- Lines 791-794: SAO statistics on non-deblocked pixels for the CTU at
(`row`, `col`). -/
def saoStats (cfg : Cfg) (row col : Nat) (s : EncState) : EncState :=
  if cfg.param.bEnableSAO && cfg.param.bSaoNonDeblocked then
    { s with log := s.log ++ [Event.calcSaoStatsCu_BeforeDblk col row] }
  else s

/-- Lines 791-817: the end of one iteration of the CTU loop: SAO statistics,
activation of the next row, and the test that suspends this row. `col` is the
column the iteration worked on. -/
def ctuTail (cfg : Cfg) (row col : Nat) (s : EncState) : Outcome :=
  if mustSuspend cfg row (activateNext cfg row (saoStats cfg row col s)) then
    Outcome.returned (suspendRow row (activateNext cfg row (saoStats cfg row col s)))
  else Outcome.running (activateNext cfg row (saoStats cfg row col s))

/-- Lines 774-783: the reset of row `r` during a rollback. -/
def resetRow (r : Nat) (s : EncState) : EncState :=
  let f := s.m_frame
  { s with
    m_rows := upd s.m_rows r { s.m_rows r with completed := 0, rowStats := FrameStats.zero }
    m_frame :=
      { f with
        m_qpaAq := f.m_qpaAq.map (fun a => upd a r 0)
        m_qpaRc := upd f.m_qpaRc r 0
        m_rowEncodedBits := upd f.m_rowEncodedBits r 0
        m_numEncodedCusPerRow := upd f.m_numEncodedCusPerRow r 0
        m_rowDiagSatd := upd f.m_rowDiagSatd r 0
        m_rowDiagIntraSatd := upd f.m_rowDiagIntraSatd r 0 }
    col1Ctx := upd s.col1Ctx r none
    log := s.log ++ [Event.resetBits r] }

/-- Lines 832-839: the row after which statistics are reported to rate
control. -/
def statsRowCount (cfg : Cfg) : Int :=
  if cfg.param.rateControlModeIsABR then
    if cfg.encodeOrder ≤ 2 * (cfg.param.fpsNum / cfg.param.fpsDenom) then
      min ((((cfg.m_numRows + 1) / 2 : Nat) : Int)) ((cfg.m_numRows : Int) - 1)
    else
      min (cfg.m_refLagRows : Int) ((cfg.m_numRows : Int) - 1)
  else 0

/-- Lines 853-866: the filter rows a finished encode row enables and
enqueues. -/
def filterTriggers (cfg : Cfg) (row : Nat) : List Event :=
  let d := filterRowDelay cfg.param
  (if row ≥ d then
      [Event.enableRowFilter ((row : Int) - (d : Int))]
        ++ (if row = d then [Event.enqueueRowFilter 0] else [])
    else [])
  ++ (if (row : Int) = (cfg.m_numRows : Int) - 1 then
      (List.range d).map (fun j => Event.enableRowFilter ((cfg.m_numRows : Int) - (d : Int) + (j : Int)))
    else [])

/-- Lines 820-869: what `processRowEncoder` does once the row has been encoded. -/
def finishRow (cfg : Cfg) (orc : Collab) (row : Nat) (s : EncState) : EncState :=
  let idx := rowCoderIdx cfg.param row
  let flush : Bool := !cfg.param.bEnableSAO &&
    (cfg.param.bEnableWavefront || decide ((row : Int) = (cfg.m_numRows : Int) - 1))
  let coders := if flush then upd s.rdEntropyCoders idx (orc.finishSlice (s.rdEntropyCoders idx))
    else s.rdEntropyCoders
  let log1 := if flush then s.log ++ [Event.finishSlice row] else s.log
  let log2 :=
    if (row : Int) = statsRowCount cfg then
      log1 ++ [Event.rateControlUpdateStats
        (((List.range (row * cfg.m_numCols)).map s.m_frame.m_totalBits).sum)]
    else log1
  { s with
    m_rows := upd s.m_rows row { s.m_rows row with busy := false }
    rdEntropyCoders := coders
    log := log2 ++ filterTriggers cfg row }

/-- The loop step `r--` and loop test `r >= row` of line 741 after row `r` has
been reset; when the loop is left, line 786 clears the stop flag and the
iteration of the CTU loop goes on at line 791 (its column is `row`, the
diagonal). -/
def rollbackNext (cfg : Cfg) (row r : Nat) (s : EncState) : Outcome :=
  if (r : Int) - 1 ≥ (row : Int) then
    Outcome.running { s with pc := upd s.pc row (Pc.rbDeactivate (r - 1)) }
  else
    ctuTail cfg row row { s with m_bAllRowsStop := false, pc := upd s.pc row Pc.loop }

/-- One atomic step of the worker that owns row `row` (its `busy` flag is set):
a whole iteration of the CTU loop when no re-encode is asked for; otherwise the
iteration up to line 739, then one step per wait loop of the rollback
(lines 749-755 and 759-771, the latter together with the reset of
lines 774-783). The rollback loop starts with `r = m_numRows - 1`, which is at
least `row`. The deactivation loop of lines 749-755 ends only once
`dequeueRow` succeeds. -/
def workerStep (cfg : Cfg) (orc : Collab) (row : Nat) (s : EncState) : Outcome :=
  match s.pc row with
  | Pc.loop =>
    if (s.m_rows row).completed < cfg.m_numCols then
      let col := (s.m_rows row).completed
      let h := ctuHead cfg orc row s
      if h.2 then
        Outcome.running { h.1 with pc := upd h.1.pc row (Pc.rbDeactivate (cfg.m_numRows - 1)) }
      else ctuTail cfg row col h.1
    else Outcome.returned (finishRow cfg orc row s)
  | Pc.rbDeactivate r =>
    if r ≠ row then
      if (s.m_rows r).active then
        if orc.dequeueRow (r * 2) then
          Outcome.running
            { s with
              m_rows := upd s.m_rows r { s.m_rows r with active := false }
              pc := upd s.pc row (Pc.rbWaitIdle r) }
        else Outcome.blocked
      else Outcome.running { s with pc := upd s.pc row (Pc.rbWaitIdle r) }
    else rollbackNext cfg row r (resetRow r s)
  | Pc.rbWaitIdle r =>
    if (s.m_rows r).busy then Outcome.blocked
    else rollbackNext cfg row r (resetRow r s)

/-- The worker of `row` runs on its own until `processRowEncoder` returns;
`none` when it gets stuck in a wait loop or `fuel` steps do not suffice. -/
def runWorker (cfg : Cfg) (orc : Collab) (row : Nat) : Nat → EncState → Option EncState
  | 0, _ => none
  | fuel + 1, s =>
    match workerStep cfg orc row s with
    | Outcome.running s1 => runWorker cfg orc row fuel s1
    | Outcome.returned s1 => some s1
    | Outcome.blocked => none

/-- Lines 590-609: the entry guard. The Boolean is false when the call returns
at once, true when the caller now owns the row. -/
def enterRow (row : Nat) (s : EncState) : EncState × Bool :=
  if (s.m_rows row).active = false then (s, false)
  else if (s.m_rows row).busy = true then
    ({ s with log := s.log ++ [Event.simultaneousRowAccess row] }, false)
  else ({ s with m_rows := upd s.m_rows row { s.m_rows row with busy := true } }, true)

/-- The function `processRowEncoder`, run without interference by other workers. -/
def processRowEncoder (cfg : Cfg) (orc : Collab) (fuel : Nat) (row : Nat) (s : EncState) :
    Option EncState :=
  let e := enterRow row s
  if e.2 then runWorker cfg orc row fuel e.1 else some e.1

/-- The function `processRow` (lines 564-583); `row` is the task number, even for an encode
row and odd for a filter row. -/
def processRow (cfg : Cfg) (orc : Collab) (fuel : Nat) (row : Nat) (s : EncState) :
    Option EncState :=
  let realRow := row >>> 1
  let typeNum := row &&& 1
  if typeNum = 0 then
    processRowEncoder cfg orc fuel realRow
      { s with log := s.log ++ [Event.processRowEncoder realRow] }
  else
    let s1 : EncState := { s with log := s.log ++ [Event.processRowFilter realRow] }
    if (realRow : Int) ≠ (cfg.m_numRows : Int) - 1 then
      some { s1 with log := s1.log ++ [Event.enqueueRowFilter (realRow + 1)] }
    else
      some { s1 with log := s1.log ++ [Event.completionTrigger] }

/-! ## compressCTURows (lines 476-562) -/

/-- Slice types. -/
inductive SliceType where
  | B_SLICE
  | P_SLICE
  | I_SLICE
deriving DecidableEq, Repr

/-- The slice-level inputs of `compressCTURows`. `m_reconRowCount row l ref`
is what the reconstruction-row counter of the reference picture in slot
(`l`, `ref`) returns while row `row` waits for it: the value read by `get()`,
then the values returned by successive calls of `waitForChange`. -/
structure Slice where
  m_sliceType : SliceType
  m_numRefIdx : Nat → Nat
  bUseWeightPred : Bool
  bUseWeightedBiPred : Bool
  isWeighted : Nat → Nat → Bool
  m_reconRowCount : Nat → Nat → Nat → Int × List Int

/-- Line 491: `isInterP() ? 1 : isInterB() ? 2 : 0`. -/
def numPredDir (sl : Slice) : Nat :=
  if sl.m_sliceType = SliceType.P_SLICE then 1
  else if sl.m_sliceType = SliceType.B_SLICE then 2 else 0

/-- The wait loop of lines 509-510 (and 544-545): `c` is the value read last,
the list holds what later calls of `waitForChange` return. The result is the
value with which the loop is left and the number of waits; `none` when the
counter never reaches an admissible value. -/
def waitLoop (numRows need : Int) : Int → List Int → Option (Int × Nat)
  | c, [] => if c ≠ numRows ∧ c < need then none else some (c, 0)
  | c, c1 :: rest =>
    if c ≠ numRows ∧ c < need then
      (waitLoop numRows need c1 rest).map (fun p => (p.1, p.2 + 1))
    else some (c, 0)

/-- The reference slots (`l`, `ref`) in the order the loops of lines 502-504
visit them. -/
def refSlots (sl : Slice) : List (Nat × Nat) :=
  (List.range (numPredDir sl)).flatMap
    (fun l => (List.range (sl.m_numRefIdx l)).map (fun ref => (l, ref)))

/-- Lines 502-515 (and 536-550) for one row: the wait on every reference slot,
followed by its weighting when weighted prediction applies. -/
def syncRefs (cfg : Cfg) (sl : Slice) (row : Nat) : List (Nat × Nat) → Option (List Event)
  | [] => some []
  | (l, ref) :: rest =>
    let bUseWeightP := sl.bUseWeightPred && decide (sl.m_sliceType = SliceType.P_SLICE)
    let bUseWeightB := sl.bUseWeightedBiPred && decide (sl.m_sliceType = SliceType.B_SLICE)
    let need : Int := (row : Int) + (cfg.m_refLagRows : Int)
    match waitLoop (cfg.m_numRows : Int) need
        (sl.m_reconRowCount row l ref).1 (sl.m_reconRowCount row l ref).2 with
    | none => none
    | some (v, waits) =>
      (syncRefs cfg sl row rest).map (fun evs =>
        [Event.refReady row l ref v waits]
          ++ (if (bUseWeightP || bUseWeightB) && sl.isWeighted l ref
              then [Event.applyWeight l ref need] else [])
          ++ evs)

/-- Lines 499-522: the loop of the worker-pool path over the rows, from the
list of rows still to enable. -/
def enableRows (cfg : Cfg) (sl : Slice) : List Nat → Option (List Event)
  | [] => some []
  | row :: rest =>
    match syncRefs cfg sl row (refSlots sl) with
    | none => none
    | some evs =>
      (enableRows cfg sl rest).map (fun more =>
        evs ++ [Event.enableRowEncoder row]
          ++ (if row = 0 then [Event.enqueueRowEncoder 0] else [Event.pokeIdleThread])
          ++ more)

/-- Lines 532-553: the encode half of iteration `i` of the sequential loop. -/
def seqEncode (cfg : Cfg) (orc : Collab) (sl : Slice) (fuel : Nat) (i : Nat)
    (s : EncState) : Option EncState :=
  if i < cfg.m_numRows then
    match syncRefs cfg sl i (refSlots sl) with
    | none => none
    | some evs => processRow cfg orc fuel (i * 2 + 0) { s with log := s.log ++ evs }
  else some s

/-- One iteration of the loop of lines 530-558 (sequential path). -/
def seqIteration (cfg : Cfg) (orc : Collab) (sl : Slice) (fuel : Nat) (i : Nat)
    (s : EncState) : Option EncState :=
  match seqEncode cfg orc sl fuel i s with
  | none => none
  | some s1 =>
    if i ≥ filterRowDelay cfg.param then
      processRow cfg orc fuel ((i - filterRowDelay cfg.param) * 2 + 1) s1
    else some s1

/-- The loop of lines 530-558 over the remaining values of `i`. -/
def seqLoop (cfg : Cfg) (orc : Collab) (sl : Slice) (fuel : Nat) :
    List Nat → EncState → Option EncState
  | [], s => some s
  | i :: rest, s =>
    match seqIteration cfg orc sl fuel i s with
    | none => none
    | some s1 => seqLoop cfg orc sl fuel rest s1

/-- Lines 481-493: what `compressCTURows` sets up before it schedules rows. -/
def startRows (s : EncState) : EncState :=
  { s with
    m_bAllRowsStop := false
    m_vbvResetTriggerRow := -1
    m_rows := upd s.m_rows 0 { s.m_rows 0 with active := true } }

/-- The state of `m_completionEvent` (an `Event` object, declared outside the
translated file), as a function of the calls made on it, which the record
keeps in order: a signal is pending when `trigger()` (line 581, by the filter
task of the last row) has been called more often than `wait()`. -/
def completionPending (log : List Event) : Bool :=
  decide (log.count Event.completionWait < log.count Event.completionTrigger)

/-- The function `compressCTURows`, as run by the calling thread. On the
sequential path the rows are compressed in line. On the worker-pool path the
calling thread only enables the rows (lines 496-522) and then blocks in
`m_completionEvent.wait()` (line 524) until the completion signal is raised;
the rows are compressed and the signal is raised by the workers (see `Step`),
which are no part of this function, so that the call returns only when a
signal is already pending when line 524 is reached. `none` when a wait never
ends. -/
def compressCTURows (cfg : Cfg) (orc : Collab) (sl : Slice) (fuel : Nat) (s : EncState) :
    Option EncState :=
  let s0 := startRows s
  if cfg.hasPool && cfg.param.bEnableWavefront then
    match enableRows cfg sl (List.range cfg.m_numRows) with
    | none => none
    | some evs =>
      let s1 : EncState :=
        { s0 with log := s0.log ++ [Event.clearEnabledRowMask, Event.enqueue] ++ evs }
      if completionPending s1.log then
        some { s1 with log := s1.log ++ [Event.completionWait, Event.dequeue] }
      else none
  else
    seqLoop cfg orc sl fuel (List.range (cfg.m_numRows + filterRowDelay cfg.param)) s0

/-! ## Rows compressed by concurrent workers -/

/-- One step of the frame encoder with any number of workers: some worker is
handed a row (`processRowEncoder` is entered and runs its guard), or the worker
that owns a row takes its next atomic step. -/
inductive Step (cfg : Cfg) (orc : Collab) : EncState → EncState → Prop where
  | enter (s : EncState) (row : Nat) (hrow : row < cfg.m_numRows) :
      Step cfg orc s (enterRow row s).1
  | run (s s1 : EncState) (row : Nat) (hrow : row < cfg.m_numRows)
      (hbusy : (s.m_rows row).busy = true)
      (hstep : workerStep cfg orc row s = Outcome.running s1) : Step cfg orc s s1
  | ret (s s1 : EncState) (row : Nat) (hrow : row < cfg.m_numRows)
      (hbusy : (s.m_rows row).busy = true)
      (hstep : workerStep cfg orc row s = Outcome.returned s1) : Step cfg orc s s1

/-- A frame whose rows have just been initialised (`CTURow::init`, called at
line 208): nothing completed, no row active or busy, every worker counter at
the loop, no context recorded. -/
def FreshRows (s : EncState) : Prop :=
  ∀ r, (s.m_rows r).completed = 0 ∧ (s.m_rows r).active = false ∧ (s.m_rows r).busy = false
    ∧ s.pc r = Pc.loop ∧ s.col1Ctx r = none

/-- States the workers can reach after `compressCTURows` has set up a freshly
initialised frame. -/
inductive Reachable (cfg : Cfg) (orc : Collab) : EncState → Prop where
  | start (s : EncState) (h : FreshRows s) : Reachable cfg orc (startRows s)
  | step (s s1 : EncState) (h : Reachable cfg orc s) (hs : Step cfg orc s s1) :
      Reachable cfg orc s1

/-! ## Concrete inputs used by the witnesses -/

/-- Parameters of a plain run: wavefront on, no SAO, no loop filter, no VBV. -/
def demoParam : Param :=
  { bEnableWavefront := true, bEnableSAO := false, bSaoNonDeblocked := false,
    bEnableLoopFilter := false, vbvBufferSize := 0, vbvMaxBitrate := 0, aqMode := 0,
    cuTree := false, bStatWrite := true, rateControlModeIsABR := false, fpsNum := 25,
    fpsDenom := 1, searchRange := 57, bEmitHRDSEI := false, noiseReduction := 0 }

/-- The same parameters with VBV switched on. -/
def demoParamVbv : Param :=
  { demoParam with vbvBufferSize := 1000, vbvMaxBitrate := 1000 }

/-- Constants as x265 defines them for 64x64 CTUs. -/
def demoGlobals : Globals :=
  { g_maxCUSize := 64, g_maxCUDepth := 3, NTAPS_LUMA := 8, QP_MIN := 0, QP_MAX_SPEC := 51,
    QP_MAX_MAX := 69, LOWRES_COST_MASK := 16383 }

/-- A 256x256 picture with flat offset maps. -/
def demoLowres : Lowres :=
  { width := 256, height := 256, isReferenced := true, qpCuTreeOffset := fun _ => 0,
    qpAqOffset := fun _ => 0, lowresCostForRc := fun _ => 1, intraCost := fun _ => 1 }

/-- A frame of 4 rows by 4 columns, no worker pool. -/
def demoCfg : Cfg :=
  { param := demoParam, glob := demoGlobals, lowres := demoLowres, m_numRows := 4,
    m_numCols := 4, m_refLagRows := 3, hasPool := false, encodeOrder := 0, m_sliceQp := 30,
    m_initSliceContext := ⟨0, 0⟩ }

/-- The 4 by 4 frame with VBV switched on. -/
def demoCfgVbv : Cfg := { demoCfg with param := demoParamVbv }

/-- Collaborators for the witnesses: every CTU costs 10 bits, the entropy coder
counts what it has coded, and rate control asks for a re-encode at its first
checkpoint of row 2 only. -/
def demoCollab : Collab :=
  { compressCU := fun _ cuAddr _ _ =>
      { m_totalBits := 10, m_mvBits := 3, m_coeffBits := 5, qTreeIntraCnt := fun _ => 1,
        qTreeInterCnt := fun _ => 0, qTreeSkipCnt := fun _ => 0, decisions := cuAddr }
    encodeCTU := fun e cu => ⟨e.engine + 1, e.contexts + cu.decisions + 1⟩
    finishSlice := fun e => e
    rowDiagonalVbvRateControl := fun n row q => (if row = 2 ∧ n = 1 then -1 else 0, q)
    x265_qp2qScale := fun q => q
    roundedQp := fun q _ _ => q
    dequeueRow := fun _ => true }

/-- An all-zero frame record. -/
def demoFrame : Frame :=
  { m_avgQpRc := 30, m_rowDiagQp := fun _ => 0, m_rowDiagQScale := fun _ => 0,
    m_qpaAq := some (fun _ => 0), m_qpaRc := fun _ => 0, m_rowEncodedBits := fun _ => 0,
    m_numEncodedCusPerRow := fun _ => 0, m_rowDiagSatd := fun _ => 0,
    m_rowDiagIntraSatd := fun _ => 0, m_cuCostsForVbv := fun _ => 0,
    m_intraCuCostsForVbv := fun _ => 0, m_baseQp := fun _ => 0, m_totalBits := fun _ => 0,
    m_qp := fun _ => 0 }

/-- A freshly initialised encoder state. -/
def demoState : EncState :=
  { m_rows := fun _ => ⟨0, false, false, FrameStats.zero, ⟨0, 0⟩⟩
    rdEntropyCoders := fun _ => ⟨0, 0⟩
    m_bAllRowsStop := false
    m_vbvResetTriggerRow := -1
    m_frame := demoFrame
    pc := fun _ => Pc.loop
    rcCalls := 0
    nCompress := 0
    col1Ctx := fun _ => none
    log := [] }

/-- An intra slice: no reference pictures. -/
def demoSliceI : Slice :=
  { m_sliceType := SliceType.I_SLICE, m_numRefIdx := fun _ => 0, bUseWeightPred := false,
    bUseWeightedBiPred := false, isWeighted := fun _ _ => false,
    m_reconRowCount := fun _ _ _ => (0, []) }

/-- A P slice with one reference picture whose counter advances 1, 2, 3, 4
while each row looks at it. -/
def demoSliceP : Slice :=
  { m_sliceType := SliceType.P_SLICE, m_numRefIdx := fun l => if l = 0 then 1 else 0,
    bUseWeightPred := false, bUseWeightedBiPred := false, isWeighted := fun _ _ => false,
    m_reconRowCount := fun _ _ _ => (1, [2, 3, 4]) }

/-- The 4 by 4 frame in the middle of its compression with VBV: rows 0 and 1
are done, the worker of row 2 is about to compress the CTU of column 2 (its
diagonal checkpoint), row 3 has been activated and waits for a worker. Rate
control has been asked once (at the checkpoint of row 1). -/
def demoRollbackState : EncState :=
  { demoState with
    m_rows := fun r =>
      if r = 0 then ⟨4, true, false, ⟨12, 20, 8, 256, 0, 0⟩, ⟨0, 3⟩⟩
      else if r = 1 then ⟨4, true, false, ⟨12, 20, 8, 256, 0, 0⟩, ⟨0, 14⟩⟩
      else if r = 2 then ⟨2, true, true, ⟨6, 10, 4, 128, 0, 0⟩, ⟨0, 33⟩⟩
      else ⟨0, true, false, FrameStats.zero, ⟨0, 0⟩⟩
    m_frame :=
      { demoFrame with
        m_qpaRc := fun r => if r < 2 then 120 else if r = 2 then 60 else 0
        m_rowEncodedBits := fun r => if r < 2 then 40 else if r = 2 then 20 else 0
        m_rowDiagSatd := fun r => if r < 2 then 64 else if r = 2 then 32 else 0 }
    rcCalls := 1
    nCompress := 10 }

/-- The 4 by 4 frame with a worker pool. -/
def demoCfgPool : Cfg := { demoCfg with hasPool := true }

/-! ## init (lines 82-128) -/

/-- Outcome of the allocations and initialisations `init` performs: the result
of `WaveFront::init`, and whether each allocation returned a non-null
pointer. -/
structure InitEnv where
  waveFrontInit : Bool
  picTimingSEI : Bool
  hrdTiming : Bool
  nrMalloc : Bool
deriving DecidableEq, Repr

/-- The members `init` sets, and its return value `ok`. `m_pool` and `m_nr`
say whether the pointer is non-null; `noiseReduction` is the parameter as
`init` leaves it. -/
structure InitResult where
  ok : Bool
  m_pool : Bool
  m_numRows : Int
  m_numCols : Int
  m_filterRowDelay : Nat
  m_filterRowDelayCus : Int
  m_refLagRows : Nat
  m_nr : Bool
  noiseReduction : Nat
deriving DecidableEq, Repr

/-- The function `FrameEncoder::init`. `pool` says whether a worker pool was set before
the call. -/
def init (p : Param) (g : Globals) (env : InitEnv) (pool : Bool) (numRows numCols : Int) :
    InitResult :=
  let ok0 : Bool := decide (numRows ≠ 0)
  let range := p.searchRange + 1 + 2 + g.NTAPS_LUMA / 2
  let m_pool := if !env.waveFrontInit then false else pool
  let ok1 : Bool := if p.bEmitHRDSEI then ok0 && (env.picTimingSEI && env.hrdTiming) else ok0
  let m_nr : Bool := if p.noiseReduction ≠ 0 then env.nrMalloc else false
  { ok := ok1
    m_pool := m_pool
    m_numRows := numRows
    m_numCols := numCols
    m_filterRowDelay := filterRowDelay p
    m_filterRowDelayCus := (filterRowDelay p : Int) * numCols
    m_refLagRows := 1 + ((range + g.g_maxCUSize - 1) / g.g_maxCUSize)
    m_nr := m_nr
    noiseReduction := if m_nr then p.noiseReduction else 0 }

/-- The conditions the failure claim lists: zero rows, or a failing wavefront
queue initialisation, HRD timing record allocation, or noise-reduction buffer
allocation. -/
def InitFailureListed (p : Param) (env : InitEnv) (numRows : Int) : Prop :=
  numRows = 0 ∨ env.waveFrontInit = false
    ∨ (p.bEmitHRDSEI = true ∧ (env.picTimingSEI = false ∨ env.hrdTiming = false))
    ∨ (p.noiseReduction ≠ 0 ∧ env.nrMalloc = false)

/-- An environment in which only the wavefront queue fails to initialise. -/
def demoInitEnvNoQueue : InitEnv :=
  { waveFrontInit := false, picTimingSEI := true, hrdTiming := true, nrMalloc := true }

/-- An environment in which only the noise-reduction buffer cannot be
allocated. -/
def demoInitEnvNoNr : InitEnv :=
  { waveFrontInit := true, picTimingSEI := true, hrdTiming := true, nrMalloc := false }

/-! ## startCompressFrame, threadMain, getEncodedPicture -/

/-- The members of the frame encoder that the hand-over of a picture touches.
Frames are named by a number; `m_enable` and `m_done` count the pending
triggers of the two events. -/
structure Handover where
  m_frame : Option Nat
  m_nalList : List Nal
  m_enable : Nat
  m_done : Nat
  m_threadActive : Bool
deriving DecidableEq, Repr

/-- Lines 130-135. The assignment of `m_mref` to the slice of the picture is
not part of `Handover`. -/
def startCompressFrame (pic : Nat) (s : Handover) : Handover :=
  { s with m_frame := some pic, m_enable := s.m_enable + 1 }

/-- One round of the loop of `threadMain` (lines 140-148): wait for `m_enable`,
compress, trigger `m_done`. `compressFrame` stands for what `compressFrame`
leaves in `m_nalList`. `none` while `m_enable` has not been triggered. -/
def threadMain (compressFrame : Option Nat → List Nal → List Nal) (s : Handover) :
    Option Handover :=
  if s.m_enable = 0 then none
  else if s.m_threadActive then
    some { s with
      m_enable := s.m_enable - 1
      m_nalList := compressFrame s.m_frame s.m_nalList
      m_done := s.m_done + 1 }
  else some { s with m_enable := s.m_enable - 1 }

/-- Modelled from the spec: `NALList::takeContents` is not in the translated
file; per the exposed interface the caller receives the encoded output of the
frame, so the output list takes over the units of the encoder's list, which is
left empty. The result is (output, emptied source). -/
def takeContents (_output : List Nal) (other : List Nal) : List Nal × List Nal :=
  (other, [])

/-- Lines 954-968: the returned frame pointer, the caller's output list and the
encoder afterwards. `none` while the call blocks in `m_done.wait()`. -/
def getEncodedPicture (output : List Nal) (s : Handover) :
    Option (Option Nat × List Nal × Handover) :=
  match s.m_frame with
  | some ret =>
    if s.m_done = 0 then none
    else
      let t := takeContents output s.m_nalList
      some (some ret, t.1, { s with m_done := s.m_done - 1, m_frame := none, m_nalList := t.2 })
  | none => some (none, output, s)

/-- An idle encoder with nothing pending. -/
def demoHandover : Handover :=
  { m_frame := none, m_nalList := [], m_enable := 0, m_done := 0, m_threadActive := true }

/-! ## Derived notions used in the statements -/

/-- The state an outcome carries, if any. -/
def Outcome.state : Outcome → Option EncState
  | Outcome.running s => some s
  | Outcome.returned s => some s
  | Outcome.blocked => none

/-- One whole iteration of the CTU loop of row `row`, a rollback included, run
without interference by other workers: worker steps until the worker is back
at the head of the loop or has returned. `none` when the worker gets stuck in
a wait loop or `fuel` steps do not suffice. -/
def ctuIteration (cfg : Cfg) (orc : Collab) (row : Nat) : Nat → EncState → Option Outcome
  | 0, _ => none
  | fuel + 1, s =>
    match workerStep cfg orc row s with
    | Outcome.running s1 =>
      if s1.pc row = Pc.loop then some (Outcome.running s1)
      else ctuIteration cfg orc row fuel s1
    | Outcome.returned s1 => some (Outcome.returned s1)
    | Outcome.blocked => none

/-- The per-row VBV accumulators of row `r` that a rollback resets
(lines 777-783), `m_qpaAq[r]` only when the array is present. -/
def rowAccum (f : Frame) (r : Nat) : Option Int × Int × Int × Int × Int × Int :=
  (f.m_qpaAq.map (fun a => a r), f.m_qpaRc r, f.m_rowEncodedBits r,
    f.m_numEncodedCusPerRow r, f.m_rowDiagSatd r, f.m_rowDiagIntraSatd r)

/-- The accumulators of a row after a reset: all zero. -/
def rowAccumZero (f : Frame) : Option Int × Int × Int × Int × Int × Int :=
  (f.m_qpaAq.map (fun _ => 0), 0, 0, 0, 0, 0)

/-- The events that `compressCTURows` and `processRow` issue themselves, as
opposed to those issued inside `processRowEncoder`. -/
def Event.isMain : Event → Bool
  | Event.processRowEncoder _ => true
  | Event.processRowFilter _ => true
  | Event.completionTrigger => true
  | Event.refReady _ _ _ _ _ => true
  | Event.applyWeight _ _ _ => true
  | Event.enableRowEncoder _ => true
  | Event.clearEnabledRowMask => true
  | Event.enqueue => true
  | Event.pokeIdleThread => true
  | Event.completionWait => true
  | Event.dequeue => true
  | _ => false

/-- The state `s1` has the log of `s` followed by events issued inside
`processRowEncoder` only. -/
def LogExt (s s1 : EncState) : Prop :=
  ∃ evs, s1.log = s.log ++ evs ∧ ∀ e ∈ evs, Event.isMain e = false

/-- Between `s` and `s1` the log grows, and the events of `compressCTURows`
and `processRow` among the new ones are exactly `main`. -/
def Emits (s s1 : EncState) (main : List Event) : Prop :=
  ∃ evs, s1.log = s.log ++ evs ∧ evs.filter Event.isMain = main

/-- A task handed to `processRow`, decoded: encode row or filter row. -/
inductive Task where
  | encode (row : Nat)
  | filter (row : Nat)
deriving DecidableEq, Repr

/-- The task a log entry stands for, if it is a dispatch of `processRow`. -/
def Event.task : Event → Option Task
  | Event.processRowEncoder r => some (Task.encode r)
  | Event.processRowFilter r => some (Task.filter r)
  | _ => none

/-- The tasks dispatched according to a log, in order. -/
def tasksOf (log : List Event) : List Task := log.filterMap Event.task

/-- The row of an encode task. -/
def Task.encodeRow : Task → Option Nat
  | Task.encode r => some r
  | Task.filter _ => none

/-- The row of a filter task. -/
def Task.filterRow : Task → Option Nat
  | Task.encode _ => none
  | Task.filter r => some r

/-- The task sequence as the claim describes it: for `i = 0 .. numRows+d-1`,
"encode row `i`" if `i < numRows`, then "filter row `i-d`" if `i >= d`. -/
def seqSchedule (numRows d : Nat) : List Task :=
  (List.range (numRows + d)).flatMap (fun i =>
    (if i < numRows then [Task.encode i] else [])
      ++ (if i ≥ d then [Task.filter (i - d)] else []))

/-- The events `compressCTURows` and `processRow` issue themselves in
iteration `i` of the sequential loop, given the events `sync` of the waits. -/
def seqIterationMain (cfg : Cfg) (i : Nat) (sync : List Event) : List Event :=
  (if i < cfg.m_numRows then sync ++ [Event.processRowEncoder i] else [])
    ++ (if i ≥ filterRowDelay cfg.param then
        [Event.processRowFilter (i - filterRowDelay cfg.param)]
          ++ (if ((i - filterRowDelay cfg.param : Nat) : Int) = (cfg.m_numRows : Int) - 1
              then [Event.completionTrigger] else [])
      else [])

/-- Rate control never asks for a re-encode: VBV is off, or the checkpoint
never answers with a negative value. -/
def NoReEncode (cfg : Cfg) (orc : Collab) : Prop :=
  bIsVbv cfg.param = false ∨ ∀ n row q, ¬ (orc.rowDiagonalVbvRateControl n row q).1 < 0

/-- The value `v` of a reconstruction-row counter lets row `row` start
(test of lines 509 and 544). -/
def Admissible (cfg : Cfg) (row : Nat) (v : Int) : Prop :=
  v = (cfg.m_numRows : Int) ∨ v ≥ (row : Int) + (cfg.m_refLagRows : Int)

instance (cfg : Cfg) (row : Nat) (v : Int) : Decidable (Admissible cfg row v) := by
  unfold Admissible; infer_instance

/-- The events of the waits for row `i` (empty when a wait never ends). -/
def syncEvents (cfg : Cfg) (sl : Slice) (i : Nat) : List Event :=
  (syncRefs cfg sl i (refSlots sl)).getD []

/-- The values the wait of row `row` on the reference slot (`l`, `ref`) sees,
in order: the value read by `get()` (lines 508 and 543), then what the
successive calls of `waitForChange` return. -/
def observed (sl : Slice) (row l ref : Nat) : List Int :=
  (sl.m_reconRowCount row l ref).1 :: (sl.m_reconRowCount row l ref).2

/-- In the event list `evs`, every start of a row `r` (the event `start r`)
comes after, for each reference slot of the slice, the end of a wait on that
slot for row `r`: the wait ended after `w` calls of `waitForChange` with the
value `v`, which is the value the counter showed at that moment (the entry
number `w` of the values observed) and is admissible, while every value
observed before it was not admissible; and a wait whose first read was
already admissible ended with that value after no wait at all. -/
def SyncedStarts (cfg : Cfg) (sl : Slice) (start : Nat → Event) (evs : List Event) : Prop :=
  ∀ i r, evs[i]? = some (start r) →
    ∀ l ref, l < numPredDir sl → ref < sl.m_numRefIdx l →
      ∃ v w, Event.refReady r l ref v w ∈ evs.take i ∧ Admissible cfg r v
        ∧ (observed sl r l ref)[w]? = some v
        ∧ (∀ j u, j < w → (observed sl r l ref)[j]? = some u → ¬ Admissible cfg r u)
        ∧ (Admissible cfg r (sl.m_reconRowCount r l ref).1 →
            w = 0 ∧ v = (sl.m_reconRowCount r l ref).1)

/-- The CTU address a log entry says was analysed, if it is an analysis. -/
def Event.compressed : Event → Option Nat
  | Event.compressCU a => some a
  | _ => none

/-- The log entry records that a row was suspended (lines 813-816). -/
def Event.isSuspend : Event → Bool
  | Event.suspend _ => true
  | _ => false

/-- Between `s` and `s1` the log grows by events among which the analysed CTU
addresses are `addrs`, in this order, and no row is suspended. -/
def Adds (s s1 : EncState) (addrs : List Nat) : Prop :=
  ∃ evs, s1.log = s.log ++ evs ∧ evs.filterMap Event.compressed = addrs
    ∧ ∀ e ∈ evs, Event.isSuspend e = false

/-- Loop invariant of the CTU loop of row `r` at `c` completed CTUs on the
sequential path without VBV: the worker owns the row, the row above is done,
and the row below has been activated exactly if two CTUs are done. -/
def RowLoopInv (cfg : Cfg) (r c : Nat) (u : EncState) : Prop :=
  (u.m_rows r).completed = c ∧ c ≤ cfg.m_numCols ∧ (u.m_rows r).busy = true
    ∧ (u.m_rows r).active = true ∧ u.pc r = Pc.loop ∧ u.m_bAllRowsStop = false
    ∧ (r > 0 → (u.m_rows (r - 1)).completed = cfg.m_numCols)
    ∧ (r + 1 < cfg.m_numRows → (u.m_rows (r + 1)).completed = 0
        ∧ ((u.m_rows (r + 1)).active = true ↔ 2 ≤ c))

/-- Invariant of the sequential loop before iteration `i`: the rows above `i`
are done, row `i` is activated and untouched, the rows below are inactive and
untouched. -/
def SeqInv (cfg : Cfg) (i : Nat) (s : EncState) : Prop :=
  (∀ r, r < i → r < cfg.m_numRows → (s.m_rows r).completed = cfg.m_numCols)
    ∧ (i < cfg.m_numRows → (s.m_rows i).active = true ∧ (s.m_rows i).busy = false
        ∧ (s.m_rows i).completed = 0)
    ∧ (∀ r, i < r → (s.m_rows r).active = false ∧ (s.m_rows r).completed = 0
        ∧ (s.m_rows r).busy = false)
    ∧ s.m_bAllRowsStop = false ∧ (∀ r, s.pc r = Pc.loop)

/-! ## Invariants of the rows under concurrent workers -/

/-- The worker of row `k` is inside the rollback loop with cursor `j`. -/
def InRollback (s : EncState) (k j : Nat) : Prop :=
  s.pc k = Pc.rbDeactivate j ∨ s.pc k = Pc.rbWaitIdle j

/-- The staircase invariant of the rows, as far as it does not concern the
readiness of one row to go on:
* `bound`: no row has more CTUs completed than there are columns;
* `stair`: a row that has completed something is behind the row above, unless
  that row is done;
* `rollback`: while the worker of row `k` is in the rollback loop with cursor
  `j`, it owns row `k`, the stop flag is set, `k` is the trigger row, row `k`
  has just completed its diagonal CTU, the rows below the cursor are reset,
  inactive and idle, and the row at the cursor is inactive once the busy wait
  on it has begun. -/
structure BaseInv (cfg : Cfg) (s : EncState) : Prop where
  bound : ∀ r, (s.m_rows r).completed ≤ cfg.m_numCols
  stair : ∀ r, 0 < r → r < cfg.m_numRows →
    (s.m_rows r).completed = 0 ∨ (s.m_rows (r - 1)).completed = cfg.m_numCols
      ∨ (s.m_rows r).completed + 1 ≤ (s.m_rows (r - 1)).completed
  rollback : ∀ k j, k < cfg.m_numRows → InRollback s k j →
    (s.m_rows k).busy = true ∧ s.m_bAllRowsStop = true ∧ s.m_vbvResetTriggerRow = (k : Int)
      ∧ k ≤ j ∧ j < cfg.m_numRows ∧ (s.m_rows k).completed = k + 1 ∧ 1 ≤ k
      ∧ (∀ m, j < m → m < cfg.m_numRows →
          (s.m_rows m).active = false ∧ (s.m_rows m).busy = false
            ∧ (s.m_rows m).completed = 0)
      ∧ (s.pc k = Pc.rbWaitIdle j → j ≠ k ∧ (s.m_rows j).active = false)

/-- Row `r` is ready to go on: if it is active or owned by a worker that is at
the head of the CTU loop, the row above has completed at least
`min (completed r + 2) numCols` CTUs. -/
def RowReady (cfg : Cfg) (s : EncState) (r : Nat) : Prop :=
  ((s.m_rows r).active = true ∨ (s.m_rows r).busy = true) → s.pc r = Pc.loop →
    min ((s.m_rows r).completed + 2) cfg.m_numCols ≤ (s.m_rows (r - 1)).completed

/-- The invariant of the reachable states: `BaseInv`, and every row other than
row 0 is ready. -/
structure SchedInv (cfg : Cfg) (s : EncState) : Prop where
  base : BaseInv cfg s
  ready : ∀ r, 0 < r → r < cfg.m_numRows → RowReady cfg s r

/-- The state in the middle of an iteration of row `row`, before lines 791-817
run: as `SchedInv`, but for row `row` itself only the weaker bound
`min (completed + 1) numCols` on the row above is known. -/
structure PreTail (cfg : Cfg) (row : Nat) (s : EncState) : Prop where
  base : BaseInv cfg s
  ready : ∀ r, 0 < r → r < cfg.m_numRows → r ≠ row → RowReady cfg s r
  own : (s.m_rows row).busy = true ∧ s.pc row = Pc.loop ∧ row < cfg.m_numRows
  weak : 0 < row →
    min ((s.m_rows row).completed + 1) cfg.m_numCols ≤ (s.m_rows (row - 1)).completed

/-- The worker cannot move. -/
def Outcome.isBlocked : Outcome → Bool
  | Outcome.blocked => true
  | _ => false

/-- The state an outcome carries, or `d` if the worker cannot move. -/
def Outcome.stateD : Outcome → EncState → EncState
  | Outcome.running s, _ => s
  | Outcome.returned s, _ => s
  | Outcome.blocked, d => d

/-- The state after the next step of the worker of `row`. -/
def stepRow (cfg : Cfg) (orc : Collab) (row : Nat) (s : EncState) : EncState :=
  (workerStep cfg orc row s).stateD s

/-- With wavefront on, a row that has completed two CTUs holds in its buffer
the contexts its coder had right after the CTU of column 1 in this pass. -/
def CtxInv (s : EncState) : Prop :=
  ∀ r, 2 ≤ (s.m_rows r).completed →
    s.col1Ctx r = some (s.m_rows r).bufferEntropyCoder.contexts

/-- The step from `s` to `s1` leaves the saved buffers, the numbers of
completed CTUs, the row coders and the recorded contexts alone. -/
def CtxSame (s s1 : EncState) : Prop :=
  (∀ q, (s1.m_rows q).bufferEntropyCoder = (s.m_rows q).bufferEntropyCoder
      ∧ (s1.m_rows q).completed = (s.m_rows q).completed)
    ∧ s1.col1Ctx = s.col1Ctx ∧ s1.rdEntropyCoders = s.rdEntropyCoders

/-- What the step from `s` to `s1` does to the saved buffer of row `q` and to
the context recorded for it. Either the buffer is left alone, and then the
recorded context is kept (and the row has not just reached two completed
CTUs) or the row has been reset and nothing is recorded for its new pass; or
the step has coded the CTU of column 1 of row `q`, and both the buffer and the
record hold the contexts of the row coder as the step leaves it. -/
def CtxEffect (cfg : Cfg) (s s1 : EncState) (q : Nat) : Prop :=
  ((s1.m_rows q).bufferEntropyCoder = (s.m_rows q).bufferEntropyCoder
      ∧ ((s1.col1Ctx q = s.col1Ctx q
            ∧ (2 ≤ (s1.m_rows q).completed → 2 ≤ (s.m_rows q).completed))
          ∨ (s1.col1Ctx q = none ∧ (s1.m_rows q).completed = 0)))
    ∨ ((s.m_rows q).completed = 1 ∧ (s1.m_rows q).completed = 2
      ∧ s1.col1Ctx q = some (s1.rdEntropyCoders (rowCoderIdx cfg.param q)).contexts
      ∧ (s1.m_rows q).bufferEntropyCoder.contexts
          = (s1.rdEntropyCoders (rowCoderIdx cfg.param q)).contexts)

/-! ## Concrete states of two workers -/

/-- The 4 by 4 frame after `compressCTURows` has set it up. -/
def demoS0 : EncState := startRows demoState

/-- A worker has taken row 0. -/
def demoS1 : EncState := (enterRow 0 demoS0).1

/-- Row 0 has completed one CTU. -/
def demoS2 : EncState := stepRow demoCfgPool demoCollab 0 demoS1

/-- Row 0 has completed two CTUs and has activated row 1. -/
def demoS3 : EncState := stepRow demoCfgPool demoCollab 0 demoS2

/-- A second worker has taken row 1 and is about to start its first CTU. -/
def demoS4 : EncState := (enterRow 1 demoS3).1

/-! ## compressFrame: release of the reference pictures (lines 396-404) -/

/-- One `ATOMIC_DEC(&refpic->m_countRefEncoders)` (line 402) on frame `f`.
The width of the counter is declared outside this file; it is carried as an
integer. -/
def atomicDec (counts : Nat → Int) (f : Nat) : Nat → Int :=
  upd counts f (counts f - 1)

/-- Lines 397-404: the loops over `l < numPredDir` and
`ref < slice->m_numRefIdx[l]` that decrement the count of the frame in every
reference slot. `m_refPicList l ref` names the frame held in slot (`l`, `ref`),
`counts` maps every frame to its `m_countRefEncoders`. -/
def releaseRefs (sl : Slice) (m_refPicList : Nat → Nat → Nat) (counts : Nat → Int) :
    Nat → Int :=
  (List.range (numPredDir sl)).foldl
    (fun c l => (List.range (sl.m_numRefIdx l)).foldl
      (fun c1 ref => atomicDec c1 (m_refPicList l ref)) c)
    counts

/-- The number of reference slots of the slice that hold frame `f`. -/
def slotsHolding (sl : Slice) (m_refPicList : Nat → Nat → Nat) (f : Nat) : Nat :=
  ((refSlots sl).filter (fun p => decide (m_refPicList p.1 p.2 = f))).length

/-- A B slice with two reference pictures in list 0 and one in list 1. -/
def demoSliceB : Slice :=
  { m_sliceType := SliceType.B_SLICE
    m_numRefIdx := fun l => if l = 0 then 2 else if l = 1 then 1 else 0
    bUseWeightPred := false, bUseWeightedBiPred := false, isWeighted := fun _ _ => false
    m_reconRowCount := fun _ _ _ => (4, []) }

/-- Reference lists in which frame 7 fills slots (0, 0) and (1, 0) and frame 5
fills slot (0, 1). -/
def demoRefPicList : Nat → Nat → Nat := fun l ref => if l = 0 ∧ ref = 1 then 5 else 7

/-! ## The diagonal checkpoint in the log -/

/-- The row and column of a call of `rowDiagonalVbvRateControl` (line 724)
that a log entry records, if it records one. -/
def Event.checkpoint : Event → Option (Nat × Nat)
  | Event.rowDiagonalVbvRateControl row col => some (row, col)
  | _ => none

/-- The calls of `rowDiagonalVbvRateControl` for row `r` among `evs`, in
order. -/
def checkpointsOf (r : Nat) (evs : List Event) : List (Nat × Nat) :=
  (evs.filterMap Event.checkpoint).filter (fun p => decide (p.1 = r))

/-- States the workers can reach from the freshly initialised state `s0`,
after `compressCTURows` has set it up (as `Reachable`, with the first state
named). -/
inductive ReachableFrom (cfg : Cfg) (orc : Collab) (s0 : EncState) : EncState → Prop where
  | start : ReachableFrom cfg orc s0 (startRows s0)
  | step (s s1 : EncState) (h : ReachableFrom cfg orc s0 s) (hs : Step cfg orc s s1) :
      ReachableFrom cfg orc s0 s1

/-- Collaborators as `demoCollab`, with a rate control that never asks for a
re-encode. -/
def demoCollabCalm : Collab :=
  { demoCollab with rowDiagonalVbvRateControl := fun _ _ q => (0, q) }

/-- A tall frame of 3 rows by 2 columns with VBV on, no worker pool. -/
def demoCfgTall : Cfg := { demoCfgVbv with m_numRows := 3, m_numCols := 2 }

/-- Between `s` and `s1` the log grows, and the calls of
`rowDiagonalVbvRateControl` among the new entries are `l`, in this order. -/
def Checks (s s1 : EncState) (l : List (Nat × Nat)) : Prop :=
  ∃ evs, s1.log = s.log ++ evs ∧ evs.filterMap Event.checkpoint = l

/-- The 4 by 4 frame with VBV on under two workers and a calm rate control:
the set-up state; row 0 entered; row 0 after one, two and three CTUs (row 1 is
activated by the second); row 1 entered; row 1 after one and two CTUs, the
second being its diagonal checkpoint. -/
def demoV0 : EncState := startRows demoState

/-- See `demoV0`: row 0 entered. -/
def demoV1 : EncState := (enterRow 0 demoV0).1

/-- See `demoV0`: row 0 after one CTU. -/
def demoV2 : EncState := stepRow demoCfgVbv demoCollabCalm 0 demoV1

/-- See `demoV0`: row 0 after two CTUs. -/
def demoV3 : EncState := stepRow demoCfgVbv demoCollabCalm 0 demoV2

/-- See `demoV0`: row 0 after three CTUs. -/
def demoV4 : EncState := stepRow demoCfgVbv demoCollabCalm 0 demoV3

/-- See `demoV0`: row 1 entered. -/
def demoV5 : EncState := (enterRow 1 demoV4).1

/-- See `demoV0`: row 1 after one CTU. -/
def demoV6 : EncState := stepRow demoCfgVbv demoCollabCalm 1 demoV5

/-- See `demoV0`: row 1 after two CTUs. -/
def demoV7 : EncState := stepRow demoCfgVbv demoCollabCalm 1 demoV6

/-! ## Inputs for the base QP of a CTU -/

/-- The freshly initialised state in which the base QP recorded for every CTU
is its own address, so that the source of a copy can be read off. -/
def demoQpState : EncState :=
  { demoState with m_frame := { demoFrame with m_baseQp := fun a => (a : Int) } }

/-! ## The filter rows triggered by the end of an encode row (lines 853-866) -/

/-- The index a log entry says was passed to `enableRowFilter`, if it is such
a call. -/
def Event.enabledFilterRow : Event → Option Int
  | Event.enableRowFilter i => some i
  | _ => none

/-- The filter row a log entry says was enqueued, if it is such a call. -/
def Event.enqueuedFilterRow : Event → Option Nat
  | Event.enqueueRowFilter i => some i
  | _ => none

/-- The indices passed to `enableRowFilter` by the end-of-row step of encode
row `row`, in order. -/
def enabledFilterRows (cfg : Cfg) (row : Nat) : List Int :=
  (filterTriggers cfg row).filterMap Event.enabledFilterRow

/-- The filter rows enqueued by the end-of-row step of encode row `row`. -/
def enqueuedFilterRows (cfg : Cfg) (row : Nat) : List Nat :=
  (filterTriggers cfg row).filterMap Event.enqueuedFilterRow

/-- A frame of a single row of 4 CTUs with SAO on non-deblocked pixels, so
that the filter row delay is 2. -/
def demoCfgOneRow : Cfg :=
  { demoCfg with
    m_numRows := 1
    param := { demoParam with bEnableSAO := true, bSaoNonDeblocked := true } }

/-- A frame of a single row of 4 CTUs with the loop filter on, so that the
filter row delay is 1; the rows are compressed by a worker pool. -/
def demoCfgOneRowLf : Cfg :=
  { demoCfg with
    m_numRows := 1
    hasPool := true
    param := { demoParam with bEnableLoopFilter := true } }

/-! ## Inputs for calcQpForCu -/

/-- A 200x100 picture with 64x64 CTUs: 4 by 2 CTUs, the last column and the
last row only partly inside the picture; 13 by 7 blocks of 16x16. -/
def demoCfgEdge : Cfg :=
  { demoCfg with
    lowres := { demoLowres with width := 200, height := 100 }
    m_numRows := 2 }

/-! ## The output substreams (lines 210-221) -/

/-- Line 210: the number of output substreams allocated for the frame,
`m_param->bEnableWavefront ? getFrameHeightInCU() : 1`. The frame height in
CTUs is the `numRows` the encoder was initialised with (as line 625 asserts
for the width). -/
def numSubstreams (cfg : Cfg) : Nat :=
  if cfg.param.bEnableWavefront then cfg.m_numRows else 1

/-- The index `r` of `m_outStreams[r].resetBits()` (line 774) that a log
entry records, if it records such a call. -/
def Event.resetIndex : Event → Option Nat
  | Event.resetBits r => some r
  | _ => none

/-- Between `s` and `s1` the log grows, and the indices of the output
substreams reset among the new entries are `l`, in this order. -/
def Resets (s s1 : EncState) (l : List Nat) : Prop :=
  ∃ evs, s1.log = s.log ++ evs ∧ evs.filterMap Event.resetIndex = l

/-- The 4 by 4 frame with VBV on and wavefront off. -/
def demoCfgVbvNoWpp : Cfg :=
  { demoCfgVbv with param := { demoParamVbv with bEnableWavefront := false } }

/-! ## Frames of a single column -/

/-- Invariant of a frame of one column: no rollback is under way, the worker
of row 0 is at the head of the CTU loop, and every row other than row 0 is
inactive, idle and untouched. -/
def SingleColInv (s : EncState) : Prop :=
  s.pc 0 = Pc.loop ∧ s.m_bAllRowsStop = false
    ∧ ∀ r, 1 ≤ r → (s.m_rows r).active = false ∧ (s.m_rows r).busy = false
        ∧ (s.m_rows r).completed = 0

/-- A frame of 4 rows by 1 column, no worker pool. -/
def demoCfgNarrow : Cfg := { demoCfg with m_numCols := 1 }

/-! ## Ownership of a row that has been deactivated -/

/-- A row that is owned by a worker although its `active` flag is cleared is
the row on which a rollback is waiting (lines 759-771): its flag was cleared
by the deactivation loop of the worker of a row `k`, which now spins until
the row is given up. -/
def ActiveInv (cfg : Cfg) (s : EncState) : Prop :=
  ∀ r, (s.m_rows r).busy = true → (s.m_rows r).active = false →
    ∃ k, k < cfg.m_numRows ∧ k ≠ r ∧ s.pc k = Pc.rbWaitIdle r

/-! ## A rollback under concurrent workers, step by step -/

/-- The 4 by 4 frame with VBV on and the rate control of `demoCollab`, which
asks for a re-encode at the checkpoint of row 2: the set-up state. The states
`demoW1 .. demoW17` follow it step by step: row 0 is entered and codes its
four CTUs (`demoW5`), row 1 is entered and codes its four CTUs (`demoW10`),
row 2 is entered and codes two CTUs (`demoW13`), activating row 3; its third
CTU is the checkpoint that asks for the re-encode (`demoW14`); the rollback
deactivates row 3 (`demoW15`), finds it idle and resets it (`demoW16`), and
resets row 2 and is left (`demoW17`). -/
def demoW0 : EncState := startRows demoState

/-- See `demoW0`. -/
def demoW1 : EncState := (enterRow 0 demoW0).1

/-- See `demoW0`. -/
def demoW2 : EncState := stepRow demoCfgVbv demoCollab 0 demoW1

/-- See `demoW0`. -/
def demoW3 : EncState := stepRow demoCfgVbv demoCollab 0 demoW2

/-- See `demoW0`. -/
def demoW4 : EncState := stepRow demoCfgVbv demoCollab 0 demoW3

/-- See `demoW0`. -/
def demoW5 : EncState := stepRow demoCfgVbv demoCollab 0 demoW4

/-- See `demoW0`. -/
def demoW6 : EncState := (enterRow 1 demoW5).1

/-- See `demoW0`. -/
def demoW7 : EncState := stepRow demoCfgVbv demoCollab 1 demoW6

/-- See `demoW0`. -/
def demoW8 : EncState := stepRow demoCfgVbv demoCollab 1 demoW7

/-- See `demoW0`. -/
def demoW9 : EncState := stepRow demoCfgVbv demoCollab 1 demoW8

/-- See `demoW0`. -/
def demoW10 : EncState := stepRow demoCfgVbv demoCollab 1 demoW9

/-- See `demoW0`. -/
def demoW11 : EncState := (enterRow 2 demoW10).1

/-- See `demoW0`. -/
def demoW12 : EncState := stepRow demoCfgVbv demoCollab 2 demoW11

/-- See `demoW0`. -/
def demoW13 : EncState := stepRow demoCfgVbv demoCollab 2 demoW12

/-- See `demoW0`. -/
def demoW14 : EncState := stepRow demoCfgVbv demoCollab 2 demoW13

/-- See `demoW0`. -/
def demoW15 : EncState := stepRow demoCfgVbv demoCollab 2 demoW14

/-- See `demoW0`. -/
def demoW16 : EncState := stepRow demoCfgVbv demoCollab 2 demoW15

/-- See `demoW0`. -/
def demoW17 : EncState := stepRow demoCfgVbv demoCollab 2 demoW16

/-! ## What the analysis of the CTUs leaves in the state -/

/-- The statistics of a row after the CTUs `cus` have been accumulated, one
after the other, on top of `st` (lines 693-710, once per CTU). -/
def accumAll (cfg : Cfg) (cus : List CuData) (st : FrameStats) : FrameStats :=
  cus.foldl (fun acc cu => accumRowStats cfg cu acc) st

/-- The row coder after the CTUs `cus` have been coded, one after the other,
starting from the coder `start` (line 683, once per CTU). -/
def codeAll (orc : Collab) (cus : List CuData) (start : Entropy) : Entropy :=
  cus.foldl orc.encodeCTU start

/-- Lines 823-824: the flush of the row coder once the row has been encoded
(with wavefront and no SAO, or for the last row without wavefront and
without SAO). -/
def rowFlush (cfg : Cfg) (orc : Collab) (row : Nat) (e : Entropy) : Entropy :=
  if !cfg.param.bEnableSAO &&
      (cfg.param.bEnableWavefront || decide ((row : Int) = (cfg.m_numRows : Int) - 1))
  then orc.finishSlice e else e

/-- The row coder as the next CTU of `row` finds it: after the seeding of
lines 664-675 when there is a next CTU, as it stands otherwise. -/
def nextCoder (cfg : Cfg) (row : Nat) (s : EncState) : Entropy :=
  if (s.m_rows row).completed < cfg.m_numCols then
    seedCoders cfg row (s.m_rows row).completed s (rowCoderIdx cfg.param row)
  else s.rdEntropyCoders (rowCoderIdx cfg.param row)

/-- What the compression of the CTUs of row `r` from column `c` on has left
in the state `s1`, when `n0` calls of `compressCU` had been made before it,
the row had the statistics `st0` and its coder was `start`: the CTU at column
`c + i` is `cus[i]`, which is what call number `n0 + i` of `compressCU`
returned, a call made for the address `r * numCols + c + i` with the row
coder as the coding of the CTUs before it (`encodeCTU`, from `start` on) had
left it; its bit count is stored for that address; and the statistics of the
row are those of the CTUs `cus` accumulated on `st0`. -/
def RowAnalysed (cfg : Cfg) (orc : Collab) (n0 r c : Nat) (st0 : FrameStats)
    (start : Entropy) (cus : List CuData) (s1 : EncState) : Prop :=
  (∀ i cu, cus[i]? = some cu →
      (∃ qp, cu = orc.compressCU (n0 + i) (r * cfg.m_numCols + c + i) qp
          (codeAll orc (cus.take i) start))
        ∧ s1.m_frame.m_totalBits (r * cfg.m_numCols + c + i) = cu.m_totalBits)
    ∧ (s1.m_rows r).rowStats = accumAll cfg cus st0

/-- Between `s` and `s1` the rows `i .. j-1` of the frame (as far as they
exist) have been compressed, row after row, and nothing else has: the number
of calls of `compressCU` has grown by the number of their CTUs; each of these
rows has been analysed from column 0 to the last column (`RowAnalysed`, the
calls numbered on from the calls made before `s`), starting with the coder
that the seeding of lines 664-675 gave it, which with wavefront is, for a row
after row `i`, the coder with the engine state of `m_initSliceContext` and
the contexts saved in the buffer of the row above; with wavefront the coder
of the row ends as the coding of its CTUs and the flush of lines 823-824 left
it, and its buffer holds the contexts its coder had after its first two
CTUs; the bit counts of the other addresses and the statistics of the other
rows are as in `s`, and so are the buffers (and with wavefront the coders) of
the rows before `i`. -/
def FrameAnalysed (cfg : Cfg) (orc : Collab) (s s1 : EncState) (i j : Nat) : Prop :=
  s1.nCompress = s.nCompress + (min j cfg.m_numRows - min i cfg.m_numRows) * cfg.m_numCols
    ∧ (∀ r, i ≤ r → r < j → r < cfg.m_numRows →
        ∃ (start : Entropy) (cus : List CuData), cus.length = cfg.m_numCols
          ∧ RowAnalysed cfg orc (s.nCompress + (r - i) * cfg.m_numCols) r 0
              (s.m_rows r).rowStats start cus s1
          ∧ (r = i → start = seedCoders cfg i 0 s (rowCoderIdx cfg.param i))
          ∧ (cfg.param.bEnableWavefront = true →
              (i < r → start =
                { engine := cfg.m_initSliceContext.engine
                  contexts := (s1.m_rows (r - 1)).bufferEntropyCoder.contexts })
              ∧ s1.rdEntropyCoders r = rowFlush cfg orc r (codeAll orc cus start)
              ∧ (s1.m_rows r).bufferEntropyCoder.contexts
                  = (codeAll orc (cus.take 2) start).contexts))
    ∧ (∀ a, (a < min i cfg.m_numRows * cfg.m_numCols
          ∨ min j cfg.m_numRows * cfg.m_numCols ≤ a) →
        s1.m_frame.m_totalBits a = s.m_frame.m_totalBits a)
    ∧ (∀ r, (r < i ∨ j ≤ r ∨ cfg.m_numRows ≤ r) →
        (s1.m_rows r).rowStats = (s.m_rows r).rowStats)
    ∧ (∀ r, r < i →
        (s1.m_rows r).bufferEntropyCoder = (s.m_rows r).bufferEntropyCoder
          ∧ (cfg.param.bEnableWavefront = true → s1.rdEntropyCoders r = s.rdEntropyCoders r))

/-! ## The rows reset by a rollback under concurrent workers -/

/-- While the worker of a row is in the rollback loop, the rows below its
cursor have been reset: their statistics and their VBV accumulators are all
zero. -/
def ResetInv (cfg : Cfg) (s : EncState) : Prop :=
  ∀ k j, k < cfg.m_numRows → InRollback s k j → ∀ m, j < m → m < cfg.m_numRows →
    (s.m_rows m).rowStats = FrameStats.zero ∧ rowAccum s.m_frame m = rowAccumZero s.m_frame

/-- The 4 by 4 frame with VBV on, as in `demoW0`, with a second worker busy
in row 3 while the rollback is under way. From `demoW13` (rows 0 and 1 done,
row 2 has coded two CTUs and activated row 3) a worker enters row 3
(`demoX14`); the third CTU of row 2 is the checkpoint that asks for the
re-encode (`demoX15`); the rollback deactivates row 3 (`demoX16`) and then
has to wait, row 3 being busy; the worker of row 3 codes its first CTU, sees
the stop flag and gives the row up (`demoX17`); the rollback resets row 3
(`demoX18`), and resets row 2 and is left (`demoX19`). -/
def demoX14 : EncState := (enterRow 3 demoW13).1

/-- See `demoX14`. -/
def demoX15 : EncState := stepRow demoCfgVbv demoCollab 2 demoX14

/-- See `demoX14`. -/
def demoX16 : EncState := stepRow demoCfgVbv demoCollab 2 demoX15

/-- See `demoX14`. -/
def demoX17 : EncState := stepRow demoCfgVbv demoCollab 3 demoX16

/-- See `demoX14`. -/
def demoX18 : EncState := stepRow demoCfgVbv demoCollab 2 demoX17

/-- See `demoX14`. -/
def demoX19 : EncState := stepRow demoCfgVbv demoCollab 2 demoX18
/-- C8: when `processRowEncoder` is invoked for a row that is already busy or
not active, it returns at once; the whole encoder state (every row's cursor,
statistics and flags, the frame accumulators, the coders, the count of analysis
calls) is as before, except that in the busy case of an active row the warning
is logged. No CTU is analysed or coded. -/
theorem processRowEncoder_guard (cfg : Cfg) (orc : Collab) (fuel row : Nat) (s : EncState)
    (h : (s.m_rows row).busy = true ∨ (s.m_rows row).active = false) :
    processRowEncoder cfg orc fuel row s = some s
      ∨ processRowEncoder cfg orc fuel row s
          = some { s with log := s.log ++ [Event.simultaneousRowAccess row] } := by
  unfold processRowEncoder enterRow
  by_cases ha : (s.m_rows row).active = false
  · left; simp [ha]
  · rcases h with hb | hna
    · right; simp [ha, hb]
    · exact absurd hna ha

/-- Witness of C8 on the 4 by 4 frame: row 1 is inactive in the fresh state;
and row 0 is active and busy once a worker has entered it (`demoS1`), so that
a second call for row 0 only logs the warning. -/
theorem processRowEncoder_guard_witness :
    (((demoState.m_rows 1).busy = true ∨ (demoState.m_rows 1).active = false)
      ∧ (processRowEncoder demoCfg demoCollab 8 1 demoState = some demoState
        ∨ processRowEncoder demoCfg demoCollab 8 1 demoState
            = some { demoState with
                log := demoState.log ++ [Event.simultaneousRowAccess 1] }))
      ∧ ((demoS1.m_rows 0).active = true ∧ (demoS1.m_rows 0).busy = true
        ∧ ((demoS1.m_rows 0).busy = true ∨ (demoS1.m_rows 0).active = false)
        ∧ (processRowEncoder demoCfg demoCollab 8 0 demoS1 = some demoS1
          ∨ processRowEncoder demoCfg demoCollab 8 0 demoS1
              = some { demoS1 with log := demoS1.log ++ [Event.simultaneousRowAccess 0] })
        ∧ (processRowEncoder demoCfg demoCollab 8 0 demoS1).map (fun s => s.log)
            = some (demoS1.log ++ [Event.simultaneousRowAccess 0])) :=
  ⟨⟨Or.inr rfl, processRowEncoder_guard demoCfg demoCollab 8 1 demoState (Or.inr rfl)⟩,
    by decide, by decide, Or.inl (by decide),
    processRowEncoder_guard demoCfg demoCollab 8 0 demoS1 (Or.inl (by decide)), by decide⟩

/-! ## init -/

/-- C9, counterexample: with 4 rows and every allocation succeeding, a failing
wavefront queue initialisation is among the listed failures, yet `init`
returns true. -/
theorem init_ok_despite_queue_failure :
    InitFailureListed demoParam demoInitEnvNoQueue 4
      ∧ (init demoParam demoGlobals demoInitEnvNoQueue true 4 4).ok = true := by
  constructor
  · right; left; rfl
  · decide

/-- C9, amended: `init` returns false exactly when it is configured with zero
rows or, with HRD SEI emission on, one of the two timing records cannot be
allocated. A failing wavefront queue initialisation only drops the worker pool
and a missing noise-reduction buffer only switches noise reduction off;
neither changes the return value. -/
theorem init_ok_iff (p : Param) (g : Globals) (env : InitEnv) (pool : Bool)
    (numRows numCols : Int) :
    ((init p g env pool numRows numCols).ok = false
        ↔ (numRows = 0
            ∨ (p.bEmitHRDSEI = true ∧ (env.picTimingSEI = false ∨ env.hrdTiming = false))))
      ∧ (env.waveFrontInit = false → (init p g env pool numRows numCols).m_pool = false)
      ∧ (env.nrMalloc = false → (init p g env pool numRows numCols).noiseReduction = 0
          ∧ (init p g env pool numRows numCols).m_nr = false)
      ∧ (init p g env pool numRows numCols).ok
          = (init p g { env with waveFrontInit := true, nrMalloc := true } pool numRows numCols).ok := by
  refine ⟨?_, ?_, ?_, ?_⟩
  · unfold init
    cases hh : p.bEmitHRDSEI <;> cases h1 : env.picTimingSEI <;> cases h2 : env.hrdTiming <;>
      by_cases h0 : numRows = 0 <;> simp [h0]
  · intro h; simp [init, h]
  · intro h; simp [init, h]
  · simp [init]

/-! ## Handing a picture over and getting it back -/

/-- C7: with an empty frame slot `getEncodedPicture` returns NULL and leaves
the caller's output list and the encoder as they are. After
`startCompressFrame pic` and the round of the worker thread that compresses
the picture, `getEncodedPicture` returns `pic`, the output list is the
encoder's NAL list, the encoder's list and frame slot are empty, and a second
call returns NULL. While the worker thread has not signalled completion, the
call blocks. -/
theorem getEncodedPicture_spec (compressFrame : Option Nat → List Nal → List Nal)
    (s : Handover) (pic : Nat) (output output2 : List Nal) :
    (s.m_frame = none → getEncodedPicture output s = some (none, output, s))
      ∧ (s.m_threadActive = true →
          ∃ s1 s2, threadMain compressFrame (startCompressFrame pic s) = some s1
            ∧ getEncodedPicture output s1 = some (some pic, s1.m_nalList, s2)
            ∧ s1.m_nalList = compressFrame (some pic) s.m_nalList
            ∧ s2.m_frame = none ∧ s2.m_nalList = []
            ∧ getEncodedPicture output2 s2 = some (none, output2, s2))
      ∧ (s.m_done = 0 → getEncodedPicture output (startCompressFrame pic s) = none) := by
  refine ⟨?_, ?_, ?_⟩
  · intro h; simp [getEncodedPicture, h]
  · intro ht
    refine ⟨{ s with m_frame := some pic, m_enable := s.m_enable,
                     m_nalList := compressFrame (some pic) s.m_nalList,
                     m_done := s.m_done + 1 },
      { s with m_frame := none, m_enable := s.m_enable, m_nalList := [], m_done := s.m_done },
      ?_, ?_, rfl, rfl, rfl, ?_⟩
    · simp [threadMain, startCompressFrame, ht]
    · simp [getEncodedPicture, takeContents]
    · simp [getEncodedPicture]
  · intro hd; simp [getEncodedPicture, startCompressFrame, hd]

/-- Witness of C7 on an idle encoder, picture 7. -/
theorem getEncodedPicture_spec_witness :
    (demoHandover.m_frame = none ∧ demoHandover.m_threadActive = true
        ∧ demoHandover.m_done = 0)
      ∧ getEncodedPicture [] demoHandover = some (none, [], demoHandover)
      ∧ getEncodedPicture [] (startCompressFrame 7 demoHandover) = none
      ∧ ∃ s1 s2, threadMain (fun _ l => l ++ [⟨1, 100⟩]) (startCompressFrame 7 demoHandover)
            = some s1
          ∧ getEncodedPicture [] s1 = some (some 7, s1.m_nalList, s2)
          ∧ s1.m_nalList = (fun (_ : Option Nat) (l : List Nal) => l ++ [⟨1, 100⟩]) (some 7)
              demoHandover.m_nalList
          ∧ s2.m_frame = none ∧ s2.m_nalList = []
          ∧ getEncodedPicture [] s2 = some (none, [], s2) :=
  ⟨⟨rfl, rfl, rfl⟩,
    (getEncodedPicture_spec (fun _ l => l ++ [⟨1, 100⟩]) demoHandover 7 [] []).1 rfl,
    (getEncodedPicture_spec (fun _ l => l ++ [⟨1, 100⟩]) demoHandover 7 [] []).2.2 rfl,
    (getEncodedPicture_spec (fun _ l => l ++ [⟨1, 100⟩]) demoHandover 7 [] []).2.1 rfl⟩

/-! ## Framing lemmas for the pieces of a worker step -/

@[simp] theorem upd_same {α : Type} (f : Nat → α) (i : Nat) (v : α) : upd f i v i = v := by
  simp [upd]

@[simp] theorem upd_ne {α : Type} (f : Nat → α) (i j : Nat) (v : α) (h : j ≠ i) :
    upd f i v j = f j := by
  simp [upd, h]

theorem upd_apply {α : Type} (f : Nat → α) (i j : Nat) (v : α) :
    upd f i v j = if j = i then v else f j := rfl

theorem calcQpForCu_rowAccum (cfg : Cfg) (orc : Collab) (f : Frame) (cuAddr : Nat) (q : Int)
    (r : Nat) : rowAccum (calcQpForCu cfg orc f cuAddr q).1 r = rowAccum f r := by
  unfold calcQpForCu
  simp only []
  split <;> rfl

theorem applyCuQp_rowAccum (cfg : Cfg) (orc : Collab) (row cuAddr r : Nat) (f : Frame)
    (h : r ≠ row) : rowAccum (applyCuQp cfg orc row cuAddr f).1 r = rowAccum f r := by
  unfold applyCuQp
  split
  · simp only []
    have hc := calcQpForCu_rowAccum cfg orc f cuAddr (f.m_baseQp cuAddr) r
    generalize calcQpForCu cfg orc f cuAddr (f.m_baseQp cuAddr) = c at hc ⊢
    rw [← hc]
    split
    · simp only [rowAccum, Option.map_map]
      congr 1
      cases c.1.m_qpaAq <;> simp [upd, h]
    · rfl
  · rfl

theorem deriveBaseQp_rowAccum (cfg : Cfg) (orc : Collab) (row col r : Nat) (s : EncState) :
    rowAccum (deriveBaseQp cfg orc row col s) r = rowAccum s.m_frame r := by
  unfold deriveBaseQp
  simp only []
  split
  · split <;> split <;> rfl
  · rfl

theorem ctuEncode_rowAccum (cfg : Cfg) (orc : Collab) (row r : Nat) (s : EncState)
    (h : r ≠ row) : rowAccum (ctuEncode cfg orc row s).1.m_frame r = rowAccum s.m_frame r := by
  have h1 := applyCuQp_rowAccum cfg orc row (row * cfg.m_numCols + (s.m_rows row).completed) r
    (deriveBaseQp cfg orc row (s.m_rows row).completed s) h
  rw [deriveBaseQp_rowAccum] at h1
  rw [← h1]
  rfl

theorem vbvCheckpoint_rowAccum (cfg : Cfg) (orc : Collab) (row col r : Nat) (cu : CuData)
    (s : EncState) (h : r ≠ row) :
    rowAccum (vbvCheckpoint cfg orc row col cu s).1.m_frame r = rowAccum s.m_frame r := by
  unfold vbvCheckpoint
  simp only []
  split
  · split
    · split <;> simp [rowAccum, vbvAccount, upd, h]
    · simp [rowAccum, vbvAccount, upd, h]
  · rfl

theorem ctuHead_rowAccum (cfg : Cfg) (orc : Collab) (row r : Nat) (s : EncState)
    (h : r ≠ row) : rowAccum (ctuHead cfg orc row s).1.m_frame r = rowAccum s.m_frame r := by
  unfold ctuHead
  simp only []
  rw [vbvCheckpoint_rowAccum cfg orc row _ r _ _ h, ctuEncode_rowAccum cfg orc row r s h]

/-- The fields of the state that the checkpoint leaves alone. -/
theorem vbvCheckpoint_rows (cfg : Cfg) (orc : Collab) (row col : Nat) (cu : CuData)
    (s : EncState) :
    (vbvCheckpoint cfg orc row col cu s).1.m_rows = s.m_rows
      ∧ (vbvCheckpoint cfg orc row col cu s).1.pc = s.pc
      ∧ (vbvCheckpoint cfg orc row col cu s).1.rdEntropyCoders = s.rdEntropyCoders
      ∧ (vbvCheckpoint cfg orc row col cu s).1.col1Ctx = s.col1Ctx
      ∧ (vbvCheckpoint cfg orc row col cu s).1.nCompress = s.nCompress := by
  unfold vbvCheckpoint
  simp only []
  split
  · split
    · split <;> exact ⟨rfl, rfl, rfl, rfl, rfl⟩
    · exact ⟨rfl, rfl, rfl, rfl, rfl⟩
  · exact ⟨rfl, rfl, rfl, rfl, rfl⟩

theorem ctuHead_m_rows (cfg : Cfg) (orc : Collab) (row : Nat) (s : EncState) :
    (ctuHead cfg orc row s).1.m_rows = (ctuEncode cfg orc row s).1.m_rows := by
  unfold ctuHead
  exact (vbvCheckpoint_rows cfg orc row _ _ _).1

theorem ctuHead_rows_ne (cfg : Cfg) (orc : Collab) (row r : Nat) (s : EncState)
    (h : r ≠ row) : (ctuHead cfg orc row s).1.m_rows r = s.m_rows r := by
  rw [ctuHead_m_rows]
  simp [ctuEncode, h]

theorem ctuHead_pc (cfg : Cfg) (orc : Collab) (row : Nat) (s : EncState) :
    (ctuHead cfg orc row s).1.pc = s.pc := by
  unfold ctuHead
  exact (vbvCheckpoint_rows cfg orc row _ _ _).2.1

/-- A re-encode is only signalled with VBV on, on the diagonal of a row other
than row 0; the stop flag and the trigger row are then set. -/
theorem vbvCheckpoint_reEncode (cfg : Cfg) (orc : Collab) (row col : Nat) (cu : CuData)
    (s : EncState) (h : (vbvCheckpoint cfg orc row col cu s).2 = true) :
    bIsVbv cfg.param = true ∧ row = col ∧ row ≠ 0
      ∧ (vbvCheckpoint cfg orc row col cu s).1.m_bAllRowsStop = true
      ∧ (vbvCheckpoint cfg orc row col cu s).1.m_vbvResetTriggerRow = (row : Int) := by
  unfold vbvCheckpoint at h ⊢
  simp only [] at h ⊢
  split at h
  · rename_i hv
    rw [if_pos hv]
    split at h
    · rename_i hd
      rw [if_pos hd]
      split at h
      · rename_i hr
        rw [if_pos hr]
        exact ⟨hv, hd.1, hd.2, rfl, rfl⟩
      · simp at h
    · simp at h
  · simp at h

theorem ctuHead_reEncode (cfg : Cfg) (orc : Collab) (row : Nat) (s : EncState)
    (h : (ctuHead cfg orc row s).2 = true) :
    bIsVbv cfg.param = true ∧ row = (s.m_rows row).completed ∧ row ≠ 0
      ∧ (ctuHead cfg orc row s).1.m_bAllRowsStop = true
      ∧ (ctuHead cfg orc row s).1.m_vbvResetTriggerRow = (row : Int) := by
  unfold ctuHead at h ⊢
  exact vbvCheckpoint_reEncode cfg orc row _ _ _ h

theorem rowAccumZero_resetRow (r : Nat) (s : EncState) :
    rowAccumZero (resetRow r s).m_frame = rowAccumZero s.m_frame := by
  unfold rowAccumZero resetRow
  cases h : s.m_frame.m_qpaAq <;> simp [h]

theorem rowAccum_resetRow_same (r : Nat) (s : EncState) :
    rowAccum (resetRow r s).m_frame r = rowAccumZero s.m_frame := by
  unfold rowAccumZero rowAccum resetRow
  cases h : s.m_frame.m_qpaAq <;> simp [h]

theorem rowAccum_resetRow_ne (r r1 : Nat) (s : EncState) (h : r1 ≠ r) :
    rowAccum (resetRow r s).m_frame r1 = rowAccum s.m_frame r1 := by
  unfold rowAccum resetRow
  cases h1 : s.m_frame.m_qpaAq <;> simp [h1, h]

/-- The parts of the state that `activateNext` leaves alone. -/
theorem activateNext_frame (cfg : Cfg) (row : Nat) (s : EncState) :
    (activateNext cfg row s).m_frame = s.m_frame ∧ (activateNext cfg row s).pc = s.pc
      ∧ (activateNext cfg row s).rdEntropyCoders = s.rdEntropyCoders
      ∧ (activateNext cfg row s).col1Ctx = s.col1Ctx
      ∧ (activateNext cfg row s).m_bAllRowsStop = s.m_bAllRowsStop
      ∧ (activateNext cfg row s).m_vbvResetTriggerRow = s.m_vbvResetTriggerRow
      ∧ (activateNext cfg row s).rcCalls = s.rcCalls
      ∧ (activateNext cfg row s).nCompress = s.nCompress := by
  unfold activateNext
  split <;> exact ⟨rfl, rfl, rfl, rfl, rfl, rfl, rfl, rfl⟩

theorem activateNext_rows (cfg : Cfg) (row r : Nat) (s : EncState) :
    ((activateNext cfg row s).m_rows r).completed = (s.m_rows r).completed
      ∧ ((activateNext cfg row s).m_rows r).busy = (s.m_rows r).busy
      ∧ ((activateNext cfg row s).m_rows r).rowStats = (s.m_rows r).rowStats
      ∧ ((activateNext cfg row s).m_rows r).bufferEntropyCoder = (s.m_rows r).bufferEntropyCoder
      ∧ (r ≠ row + 1 → (activateNext cfg row s).m_rows r = s.m_rows r) := by
  unfold activateNext
  split
  · by_cases h : r = row + 1
    · subst h; simp
    · simp [h]
  · exact ⟨rfl, rfl, rfl, rfl, fun _ => rfl⟩

theorem suspendRow_rows (row r : Nat) (s : EncState) :
    ((suspendRow row s).m_rows r).completed = (s.m_rows r).completed
      ∧ ((suspendRow row s).m_rows r).rowStats = (s.m_rows r).rowStats
      ∧ ((suspendRow row s).m_rows r).bufferEntropyCoder = (s.m_rows r).bufferEntropyCoder
      ∧ (r ≠ row → (suspendRow row s).m_rows r = s.m_rows r) := by
  unfold suspendRow
  by_cases h : r = row
  · subst h; simp
  · simp [h]

theorem saoStats_frame (cfg : Cfg) (row col : Nat) (s : EncState) :
    (saoStats cfg row col s).m_frame = s.m_frame ∧ (saoStats cfg row col s).pc = s.pc
      ∧ (saoStats cfg row col s).rdEntropyCoders = s.rdEntropyCoders
      ∧ (saoStats cfg row col s).col1Ctx = s.col1Ctx
      ∧ (saoStats cfg row col s).m_bAllRowsStop = s.m_bAllRowsStop
      ∧ (saoStats cfg row col s).m_vbvResetTriggerRow = s.m_vbvResetTriggerRow
      ∧ (saoStats cfg row col s).m_rows = s.m_rows
      ∧ (saoStats cfg row col s).rcCalls = s.rcCalls
      ∧ (saoStats cfg row col s).nCompress = s.nCompress := by
  unfold saoStats
  split <;> exact ⟨rfl, rfl, rfl, rfl, rfl, rfl, rfl, rfl, rfl⟩

/-- What the end of an iteration (lines 791-817) can change: the `active` flag
of the next row, the `active` and `busy` flags of this row, and the log. -/
theorem ctuTail_frame (cfg : Cfg) (row col : Nat) (s : EncState) :
    ∃ s1, (ctuTail cfg row col s = Outcome.running s1 ∨ ctuTail cfg row col s = Outcome.returned s1)
      ∧ s1.m_frame = s.m_frame ∧ s1.pc = s.pc ∧ s1.rdEntropyCoders = s.rdEntropyCoders
      ∧ s1.col1Ctx = s.col1Ctx ∧ s1.m_bAllRowsStop = s.m_bAllRowsStop
      ∧ s1.m_vbvResetTriggerRow = s.m_vbvResetTriggerRow
      ∧ (∀ r, (s1.m_rows r).completed = (s.m_rows r).completed
          ∧ (s1.m_rows r).rowStats = (s.m_rows r).rowStats
          ∧ (s1.m_rows r).bufferEntropyCoder = (s.m_rows r).bufferEntropyCoder)
      ∧ (∀ r, r ≠ row → r ≠ row + 1 → s1.m_rows r = s.m_rows r) := by
  unfold ctuTail
  obtain ⟨f1, f2, f3, f4, f5, f6, f7, _, _⟩ := saoStats_frame cfg row col s
  obtain ⟨a1, a2, a3, a4, a5, a6, _, _⟩ := activateNext_frame cfg row (saoStats cfg row col s)
  split
  · refine ⟨_, Or.inr rfl, ?_⟩
    refine ⟨by simp [suspendRow, a1, f1], by simp [suspendRow, a2, f2],
      by simp [suspendRow, a3, f3], by simp [suspendRow, a4, f4], by simp [suspendRow, a5, f5],
      by simp [suspendRow, a6, f6], ?_, ?_⟩
    · intro r
      obtain ⟨b1, b2, b3, _⟩ := suspendRow_rows row r (activateNext cfg row (saoStats cfg row col s))
      obtain ⟨c1, _, c3, c4, _⟩ := activateNext_rows cfg row r (saoStats cfg row col s)
      rw [b1, b2, b3, c1, c3, c4, f7]; exact ⟨rfl, rfl, rfl⟩
    · intro r h1 h2
      rw [(suspendRow_rows row r (activateNext cfg row (saoStats cfg row col s))).2.2.2 h1,
        (activateNext_rows cfg row r (saoStats cfg row col s)).2.2.2.2 h2, f7]
  · refine ⟨_, Or.inl rfl, ?_⟩
    refine ⟨by rw [a1, f1], by rw [a2, f2], by rw [a3, f3], by rw [a4, f4], by rw [a5, f5],
      by rw [a6, f6], ?_, ?_⟩
    · intro r
      obtain ⟨c1, _, c3, c4, _⟩ := activateNext_rows cfg row r (saoStats cfg row col s)
      rw [c1, c3, c4, f7]; exact ⟨rfl, rfl, rfl⟩
    · intro r h1 h2
      rw [(activateNext_rows cfg row r (saoStats cfg row col s)).2.2.2.2 h2, f7]

/-- The rollback loop from cursor `j` down to the trigger row `k`, run without
interference: when the rows between are idle and can be dequeued, it ends, the
rows `k..j` are reset, and no other row is touched. -/
theorem rollback_run (cfg : Cfg) (orc : Collab) (k : Nat) :
    ∀ (n : Nat) (t : EncState) (j fuel : Nat), j = k + n →
      t.pc k = Pc.rbDeactivate j →
      (∀ r, k < r → r ≤ j → (t.m_rows r).busy = false
        ∧ ((t.m_rows r).active = true → orc.dequeueRow (r * 2) = true)) →
      2 * n + 1 ≤ fuel →
      ∃ o t1, ctuIteration cfg orc k fuel t = some o ∧ o.state = some t1
        ∧ rowAccumZero t1.m_frame = rowAccumZero t.m_frame
        ∧ (∀ r, k ≤ r → r ≤ j → (t1.m_rows r).completed = 0
            ∧ (t1.m_rows r).rowStats = FrameStats.zero
            ∧ rowAccum t1.m_frame r = rowAccumZero t.m_frame)
        ∧ (∀ r, (r < k ∨ j < r) → (t1.m_rows r).completed = (t.m_rows r).completed
            ∧ (t1.m_rows r).rowStats = (t.m_rows r).rowStats
            ∧ rowAccum t1.m_frame r = rowAccum t.m_frame r)
        ∧ (∀ r, r < k → t1.m_rows r = t.m_rows r) := by
  intro n
  induction n with
  | zero =>
    intro t j fuel hj hpc _ hfuel
    simp only [Nat.add_zero] at hj
    subst hj
    obtain ⟨f, rfl⟩ : ∃ f, fuel = f + 1 := ⟨fuel - 1, by omega⟩
    have hstep : workerStep cfg orc j t
        = ctuTail cfg j j { resetRow j t with
            m_bAllRowsStop := false, pc := upd (resetRow j t).pc j Pc.loop } := by
      unfold workerStep
      rw [hpc]
      simp [rollbackNext]
    obtain ⟨s1, hs1, e1, e2, _, _, _, _, e7, e8⟩ := ctuTail_frame cfg j j
      { resetRow j t with m_bAllRowsStop := false, pc := upd (resetRow j t).pc j Pc.loop }
    have hres : ∃ o, ctuIteration cfg orc j (f + 1) t = some o ∧ o.state = some s1 := by
      rcases hs1 with h | h
      · refine ⟨Outcome.running s1, ?_, rfl⟩
        simp only [ctuIteration, hstep, h]
        simp [e2]
      · refine ⟨Outcome.returned s1, ?_, rfl⟩
        simp only [ctuIteration, hstep, h]
    obtain ⟨o, ho, hst⟩ := hres
    refine ⟨o, s1, ho, hst, ?_, ?_, ?_, ?_⟩
    · rw [e1]; exact rowAccumZero_resetRow j t
    · intro r h1 h2
      have : r = j := by omega
      subst this
      obtain ⟨c1, c2, _⟩ := e7 r
      rw [c1, c2, e1]
      refine ⟨by simp [resetRow], by simp [resetRow], ?_⟩
      exact rowAccum_resetRow_same r t
    · intro r h1
      have hne : r ≠ j := by omega
      obtain ⟨c1, c2, _⟩ := e7 r
      rw [c1, c2, e1]
      refine ⟨by simp [resetRow, hne], by simp [resetRow, hne], ?_⟩
      exact rowAccum_resetRow_ne j r t hne
    · intro r h1
      have hne : r ≠ j := by omega
      rw [e8 r hne (by omega)]
      simp [resetRow, hne]
  | succ n ih =>
    intro t j fuel hj hpc hidle hfuel
    obtain ⟨f, rfl⟩ : ∃ f, fuel = f + 2 := ⟨fuel - 2, by omega⟩
    have hjk : j ≠ k := by omega
    obtain ⟨hb, hdq⟩ := hidle j (by omega) (le_refl j)
    -- the state after the deactivation loop
    let t1 : EncState :=
      { t with
        m_rows := upd t.m_rows j { t.m_rows j with active := false }
        pc := upd t.pc k (Pc.rbWaitIdle j) }
    have hstep1 : workerStep cfg orc k t = Outcome.running t1 := by
      unfold workerStep
      rw [hpc]
      by_cases ha : (t.m_rows j).active = true
      · simp [hjk, ha, hdq ha, t1]
      · have hrows : upd t.m_rows j { t.m_rows j with active := false } = t.m_rows := by
          funext r
          simp only [upd]
          split
          · rename_i h; subst h
            cases hrow : t.m_rows r
            simp [hrow] at ha
            simp [ha]
          · rfl
        simp [hjk, ha, t1, hrows]
    let t2 : EncState :=
      { resetRow j t1 with pc := upd (resetRow j t1).pc k (Pc.rbDeactivate (j - 1)) }
    have hstep2 : workerStep cfg orc k t1 = Outcome.running t2 := by
      unfold workerStep
      have : t1.pc k = Pc.rbWaitIdle j := by simp [t1]
      rw [this]
      have hb1 : (t1.m_rows j).busy = false := by simp [t1, hb]
      have hge : (j : Int) - 1 ≥ (k : Int) := by omega
      simp [hb1, rollbackNext, hge, t2, hb]
    have hrun : ctuIteration cfg orc k (f + 2) t = ctuIteration cfg orc k f t2 := by
      have p1 : t1.pc k ≠ Pc.loop := by simp [t1]
      have p2 : t2.pc k ≠ Pc.loop := by simp [t2]
      simp only [ctuIteration, hstep1, hstep2, p1, p2, if_false]
    have hrows2 : ∀ r, r ≠ j → t2.m_rows r = t.m_rows r := by
      intro r hr; simp [t2, t1, resetRow, hr]
    have hacc2 : ∀ r, r ≠ j → rowAccum t2.m_frame r = rowAccum t.m_frame r := by
      intro r hr
      have := rowAccum_resetRow_ne j r t1 hr
      simpa [t2, t1] using this
    have hz2 : rowAccumZero t2.m_frame = rowAccumZero t.m_frame := by
      have := rowAccumZero_resetRow j t1
      simpa [t2, t1] using this
    obtain ⟨o, u, ho, hst, g0, g1, g2, g3⟩ := ih t2 (j - 1) f (by omega) (by simp [t2])
      (by
        intro r h1 h2
        rw [hrows2 r (by omega)]
        exact hidle r h1 (by omega))
      (by omega)
    refine ⟨o, u, by rw [hrun]; exact ho, hst, by rw [g0, hz2], ?_, ?_, ?_⟩
    · intro r h1 h2
      by_cases hr : r = j
      · subst hr
        obtain ⟨c1, c2, c3⟩ := g2 r (Or.inr (by omega))
        rw [c1, c2, c3]
        refine ⟨by simp [t2, resetRow], by simp [t2, resetRow], ?_⟩
        have := rowAccum_resetRow_same r t1
        simpa [t2, t1] using this
      · obtain ⟨c1, c2, c3⟩ := g1 r h1 (by omega)
        exact ⟨c1, c2, by rw [c3, hz2]⟩
    · intro r h1
      have hr : r ≠ j := by omega
      obtain ⟨c1, c2, c3⟩ := g2 r (by omega)
      rw [c1, c2, c3, hrows2 r hr, hacc2 r hr]
      exact ⟨rfl, rfl, rfl⟩
    · intro r h1
      rw [g3 r h1, hrows2 r (by omega)]

/-- The rollback run by the worker of row `k` without interference: when rate
control asks for a re-encode at the diagonal checkpoint of row `k` and the
rows below are idle (so that the waits of the rollback end), the iteration of
row `k` ends with every row `r` in `k..numRows-1` at completion cursor 0,
all-zero statistics and all-zero VBV accumulators, while every row above `k`
keeps its whole row record and its accumulators. -/
theorem rollback_scope_alone (cfg : Cfg) (orc : Collab) (k : Nat) (s : EncState) (fuel : Nat)
    (hk : k < cfg.m_numRows) (hloop : s.pc k = Pc.loop)
    (hcol : (s.m_rows k).completed < cfg.m_numCols)
    (hre : (ctuHead cfg orc k s).2 = true)
    (hidle : ∀ r, k < r → r < cfg.m_numRows → (s.m_rows r).busy = false
      ∧ ((s.m_rows r).active = true → orc.dequeueRow (r * 2) = true))
    (hfuel : 2 * (cfg.m_numRows - k) ≤ fuel) :
    (bIsVbv cfg.param = true ∧ (s.m_rows k).completed = k ∧ k ≠ 0)
      ∧ ∃ o s1, ctuIteration cfg orc k fuel s = some o ∧ o.state = some s1
        ∧ (∀ r, k ≤ r → r < cfg.m_numRows → (s1.m_rows r).completed = 0
            ∧ (s1.m_rows r).rowStats = FrameStats.zero
            ∧ rowAccum s1.m_frame r = rowAccumZero s1.m_frame)
        ∧ (∀ r, r < k → s1.m_rows r = s.m_rows r
            ∧ rowAccum s1.m_frame r = rowAccum s.m_frame r) := by
  obtain ⟨hv, hd, hk0, _, _⟩ := ctuHead_reEncode cfg orc k s hre
  refine ⟨⟨hv, hd.symm, hk0⟩, ?_⟩
  obtain ⟨f, rfl⟩ : ∃ f, fuel = f + 1 := ⟨fuel - 1, by omega⟩
  let t : EncState :=
    { (ctuHead cfg orc k s).1 with
      pc := upd (ctuHead cfg orc k s).1.pc k (Pc.rbDeactivate (cfg.m_numRows - 1)) }
  have hstep : workerStep cfg orc k s = Outcome.running t := by
    unfold workerStep
    rw [hloop]
    simp [hcol, hre, t]
  have hrun : ctuIteration cfg orc k (f + 1) s = ctuIteration cfg orc k f t := by
    have p1 : t.pc k ≠ Pc.loop := by simp [t]
    simp only [ctuIteration, hstep, p1, if_false]
  have hrows : ∀ r, r ≠ k → t.m_rows r = s.m_rows r := by
    intro r hr
    exact ctuHead_rows_ne cfg orc k r s hr
  obtain ⟨o, u, ho, hst, g0, g1, g2, g3⟩ := rollback_run cfg orc k (cfg.m_numRows - 1 - k) t
    (cfg.m_numRows - 1) f (by omega) (by simp [t])
    (by
      intro r h1 h2
      rw [hrows r (by omega)]
      exact hidle r h1 (by omega))
    (by omega)
  refine ⟨o, u, by rw [hrun]; exact ho, hst, ?_, ?_⟩
  · intro r h1 h2
    obtain ⟨c1, c2, c3⟩ := g1 r h1 (by omega)
    exact ⟨c1, c2, by rw [c3, g0]⟩
  · intro r h1
    refine ⟨by rw [g3 r h1, hrows r (by omega)], ?_⟩
    rw [(g2 r (Or.inl h1)).2.2]
    exact ctuHead_rowAccum cfg orc k r s (by omega)

/-! ## The log only grows, by worker events -/

theorem LogExt.refl_log (s : EncState) : LogExt s s := ⟨[], by simp, by simp⟩

theorem LogExt.trans_log {s s1 s2 : EncState} (h1 : LogExt s s1) (h2 : LogExt s1 s2) :
    LogExt s s2 := by
  obtain ⟨e1, h1, g1⟩ := h1
  obtain ⟨e2, h2, g2⟩ := h2
  refine ⟨e1 ++ e2, by rw [h2, h1, List.append_assoc], ?_⟩
  intro e he
  rcases List.mem_append.mp he with h | h
  · exact g1 e h
  · exact g2 e h

theorem LogExt.of_log_eq {s s1 s2 : EncState} (h1 : LogExt s s1) (h2 : s2.log = s1.log) :
    LogExt s s2 := by
  obtain ⟨e1, h1, g1⟩ := h1
  exact ⟨e1, by rw [h2, h1], g1⟩

theorem LogExt.single (s s1 : EncState) (e : Event) (h : s1.log = s.log ++ [e])
    (he : Event.isMain e = false) : LogExt s s1 :=
  ⟨[e], h, by intro x hx; simp at hx; subst hx; exact he⟩

theorem encodeEvents_not_main (cfg : Cfg) (row col : Nat) (s : EncState) (coded : Entropy) :
    ∀ e ∈ encodeEvents cfg row col s coded, Event.isMain e = false := by
  intro e he
  unfold encodeEvents at he
  simp only [List.mem_append, List.mem_cons, List.mem_singleton, List.not_mem_nil,
    or_false] at he
  rcases he with (h | h | h) | h
  · unfold seedEvents at h
    split at h
    · simp at h; subst h; rfl
    · simp at h
  · subst h; rfl
  · subst h; rfl
  · split at h
    · simp at h; subst h; rfl
    · simp at h

theorem ctuEncode_logExt (cfg : Cfg) (orc : Collab) (row : Nat) (s : EncState) :
    LogExt s (ctuEncode cfg orc row s).1 :=
  ⟨_, rfl, encodeEvents_not_main cfg row _ s _⟩

theorem vbvCheckpoint_logExt (cfg : Cfg) (orc : Collab) (row col : Nat) (cu : CuData)
    (s : EncState) : LogExt s (vbvCheckpoint cfg orc row col cu s).1 := by
  unfold vbvCheckpoint
  simp only []
  split
  · split
    · split
      · exact LogExt.single _ _ (Event.rowDiagonalVbvRateControl row col) rfl rfl
      · exact LogExt.single _ _ (Event.rowDiagonalVbvRateControl row col) rfl rfl
    · exact LogExt.of_log_eq (LogExt.refl_log s) rfl
  · exact LogExt.refl_log s

theorem ctuHead_logExt (cfg : Cfg) (orc : Collab) (row : Nat) (s : EncState) :
    LogExt s (ctuHead cfg orc row s).1 := by
  unfold ctuHead
  exact (ctuEncode_logExt cfg orc row s).trans_log (vbvCheckpoint_logExt cfg orc row _ _ _)

theorem activateNext_logExt (cfg : Cfg) (row : Nat) (s : EncState) :
    LogExt s (activateNext cfg row s) := by
  unfold activateNext
  split
  · exact LogExt.single _ _ (Event.enqueueRowEncoder (row + 1)) rfl rfl
  · exact LogExt.refl_log s

theorem saoStats_logExt (cfg : Cfg) (row col : Nat) (s : EncState) :
    LogExt s (saoStats cfg row col s) := by
  unfold saoStats
  split
  · exact LogExt.single _ _ (Event.calcSaoStatsCu_BeforeDblk col row) rfl rfl
  · exact LogExt.refl_log s

theorem ctuTail_logExt (cfg : Cfg) (row col : Nat) (s s1 : EncState)
    (h : ctuTail cfg row col s = Outcome.running s1 ∨ ctuTail cfg row col s = Outcome.returned s1) :
    LogExt s s1 := by
  unfold ctuTail at h
  have h1 := (saoStats_logExt cfg row col s).trans_log (activateNext_logExt cfg row _)
  split at h
  · rcases h with h | h
    · cases h
    · cases h
      exact h1.trans_log (LogExt.single _ _ (Event.suspend row) rfl rfl)
  · rcases h with h | h
    · cases h; exact h1
    · cases h

theorem resetRow_logExt (r : Nat) (s : EncState) : LogExt s (resetRow r s) :=
  LogExt.single _ _ (Event.resetBits r) rfl rfl

theorem filterTriggers_not_main (cfg : Cfg) (row : Nat) :
    ∀ e ∈ filterTriggers cfg row, Event.isMain e = false := by
  intro e he
  unfold filterTriggers at he
  simp only [List.mem_append] at he
  rcases he with h | h
  · split at h
    · simp only [List.mem_append, List.mem_singleton] at h
      rcases h with h | h
      · subst h; rfl
      · split at h
        · simp at h; subst h; rfl
        · simp at h
    · simp at h
  · split at h
    · simp only [List.mem_map] at h
      obtain ⟨j, _, rfl⟩ := h
      rfl
    · simp at h

theorem finishRow_logExt (cfg : Cfg) (orc : Collab) (row : Nat) (s : EncState) :
    LogExt s (finishRow cfg orc row s) := by
  unfold finishRow
  simp only []
  refine ⟨(if (!cfg.param.bEnableSAO &&
        (cfg.param.bEnableWavefront || decide ((row : Int) = (cfg.m_numRows : Int) - 1))) = true
      then [Event.finishSlice row] else [])
    ++ (if (row : Int) = statsRowCount cfg then
        [Event.rateControlUpdateStats
          (((List.range (row * cfg.m_numCols)).map s.m_frame.m_totalBits).sum)] else [])
    ++ filterTriggers cfg row, ?_, ?_⟩
  · simp only []
    split <;> split <;> simp
  · intro e he
    simp only [List.mem_append] at he
    rcases he with (h | h) | h
    · split at h
      · simp at h; subst h; rfl
      · simp at h
    · split at h
      · simp at h; subst h; rfl
      · simp at h
    · exact filterTriggers_not_main cfg row e h

theorem rollbackNext_logExt (cfg : Cfg) (row r : Nat) (s s1 : EncState)
    (h : rollbackNext cfg row r s = Outcome.running s1
      ∨ rollbackNext cfg row r s = Outcome.returned s1) : LogExt s s1 := by
  unfold rollbackNext at h
  split at h
  · rcases h with h | h
    · cases h; exact LogExt.of_log_eq (LogExt.refl_log s) rfl
    · cases h
  · have h2 := ctuTail_logExt cfg row row _ s1 h
    exact (LogExt.of_log_eq (LogExt.refl_log s) rfl).trans_log h2

/-- A worker step only appends worker events to the log. -/
theorem workerStep_logExt (cfg : Cfg) (orc : Collab) (row : Nat) (s s1 : EncState)
    (h : workerStep cfg orc row s = Outcome.running s1
      ∨ workerStep cfg orc row s = Outcome.returned s1) : LogExt s s1 := by
  unfold workerStep at h
  split at h
  · split at h
    · simp only [] at h
      split at h
      · rcases h with h | h
        · cases h; exact LogExt.of_log_eq (ctuHead_logExt cfg orc row s) rfl
        · cases h
      · exact (ctuHead_logExt cfg orc row s).trans_log (ctuTail_logExt cfg row _ _ s1 h)
    · rcases h with h | h
      · cases h
      · cases h; exact finishRow_logExt cfg orc row s
  · split at h
    · split at h
      · split at h
        · rcases h with h | h
          · cases h; exact LogExt.of_log_eq (LogExt.refl_log s) rfl
          · cases h
        · rcases h with h | h <;> cases h
      · rcases h with h | h
        · cases h; exact LogExt.of_log_eq (LogExt.refl_log s) rfl
        · cases h
    · exact (resetRow_logExt _ s).trans_log (rollbackNext_logExt cfg row _ _ s1 h)
  · split at h
    · rcases h with h | h <;> cases h
    · exact (resetRow_logExt _ s).trans_log (rollbackNext_logExt cfg row _ _ s1 h)

theorem runWorker_logExt (cfg : Cfg) (orc : Collab) (row : Nat) :
    ∀ (fuel : Nat) (s s1 : EncState), runWorker cfg orc row fuel s = some s1 → LogExt s s1 := by
  intro fuel
  induction fuel with
  | zero => intro s s1 h; simp [runWorker] at h
  | succ n ih =>
    intro s s1 h
    simp only [runWorker] at h
    split at h
    · rename_i s2 hs
      exact (workerStep_logExt cfg orc row s s2 (Or.inl hs)).trans_log (ih s2 s1 h)
    · rename_i s2 hs
      cases h
      exact workerStep_logExt cfg orc row s s1 (Or.inr hs)
    · cases h

theorem processRowEncoder_logExt (cfg : Cfg) (orc : Collab) (fuel row : Nat) (s s1 : EncState)
    (h : processRowEncoder cfg orc fuel row s = some s1) : LogExt s s1 := by
  unfold processRowEncoder enterRow at h
  simp only [] at h
  split at h
  · simp at h; subst h; exact LogExt.refl_log s
  · split at h
    · simp at h; subst h
      exact LogExt.single _ _ (Event.simultaneousRowAccess row) rfl rfl
    · simp at h
      have h2 := runWorker_logExt cfg orc row fuel _ s1 h
      exact (LogExt.of_log_eq (LogExt.refl_log s) rfl).trans_log h2

/-! ## Main-thread events of the sequential path -/

theorem Emits.trans_emits {s s1 s2 : EncState} {a b : List Event} (h1 : Emits s s1 a)
    (h2 : Emits s1 s2 b) : Emits s s2 (a ++ b) := by
  obtain ⟨e1, h1, g1⟩ := h1
  obtain ⟨e2, h2, g2⟩ := h2
  exact ⟨e1 ++ e2, by rw [h2, h1, List.append_assoc], by rw [List.filter_append, g1, g2]⟩

theorem Emits.of_logExt {s s1 : EncState} (h : LogExt s s1) : Emits s s1 [] := by
  obtain ⟨e, h, g⟩ := h
  refine ⟨e, h, ?_⟩
  rw [List.filter_eq_nil_iff]
  intro x hx
  simp [g x hx]

theorem Emits.refl_emits (s : EncState) : Emits s s [] := ⟨[], by simp, rfl⟩

theorem Emits.append_emits (s : EncState) (evs : List Event) (h : ∀ e ∈ evs, Event.isMain e = true) :
    Emits s { s with log := s.log ++ evs } evs := by
  refine ⟨evs, rfl, ?_⟩
  rw [List.filter_eq_self]
  exact h

theorem syncRefs_kind (cfg : Cfg) (sl : Slice) (row : Nat) :
    ∀ (slots : List (Nat × Nat)) (evs : List Event), syncRefs cfg sl row slots = some evs →
      ∀ e ∈ evs, (∃ l ref v w, e = Event.refReady row l ref v w)
        ∨ (∃ l ref n, e = Event.applyWeight l ref n) := by
  intro slots
  induction slots with
  | nil => intro evs h e he; simp [syncRefs] at h; subst h; simp at he
  | cons p rest ih =>
    intro evs h e he
    obtain ⟨l, ref⟩ := p
    simp only [syncRefs] at h
    split at h
    · cases h
    · rename_i v waits hw
      cases hr : syncRefs cfg sl row rest with
      | none => simp [hr] at h
      | some more =>
        simp [hr] at h
        subst h
        simp only [List.mem_append, List.mem_cons, List.mem_singleton] at he
        rcases he with h1 | h1 | h1
        · subst h1; exact Or.inl ⟨_, _, _, _, rfl⟩
        · split at h1
          · simp at h1; subst h1; exact Or.inr ⟨_, _, _, rfl⟩
          · simp at h1
        · exact ih more hr e h1

theorem syncRefs_main (cfg : Cfg) (sl : Slice) (row : Nat)
    (slots : List (Nat × Nat)) (evs : List Event) (h : syncRefs cfg sl row slots = some evs) :
    ∀ e ∈ evs, Event.isMain e = true ∧ Event.task e = none ∧ e ≠ Event.completionTrigger := by
  intro e he
  rcases syncRefs_kind cfg sl row slots evs h e he with ⟨l, ref, v, w, rfl⟩ | ⟨l, ref, n, rfl⟩
  · exact ⟨rfl, rfl, by simp⟩
  · exact ⟨rfl, rfl, by simp⟩

theorem processRow_emits (cfg : Cfg) (orc : Collab) (fuel id : Nat) (s s1 : EncState)
    (h : processRow cfg orc fuel id s = some s1) :
    Emits s s1 (if id &&& 1 = 0 then [Event.processRowEncoder (id >>> 1)]
      else [Event.processRowFilter (id >>> 1)]
        ++ (if ((id >>> 1 : Nat) : Int) = (cfg.m_numRows : Int) - 1
            then [Event.completionTrigger] else [])) := by
  unfold processRow at h
  simp only [] at h
  split at h
  · rename_i h0
    rw [if_pos h0]
    have h1 := processRowEncoder_logExt cfg orc fuel _ _ s1 h
    have h2 : Emits s { s with log := s.log ++ [Event.processRowEncoder (id >>> 1)] }
        [Event.processRowEncoder (id >>> 1)] :=
      Emits.append_emits s _ (by intro e he; simp at he; subst he; rfl)
    simpa using h2.trans_emits (Emits.of_logExt h1)
  · rename_i h0
    rw [if_neg h0]
    split at h
    · rename_i h3
      simp at h; subst h
      rw [if_neg h3]
      exact ⟨[Event.processRowFilter (id >>> 1), Event.enqueueRowFilter (id >>> 1 + 1)],
        by simp, by simp [List.filter, Event.isMain]⟩
    · rename_i h3
      simp at h; subst h
      rw [if_pos (by simpa using h3)]
      exact ⟨[Event.processRowFilter (id >>> 1), Event.completionTrigger],
        by simp, by simp [List.filter, Event.isMain]⟩

theorem task_id_encode (i : Nat) : (i * 2 + 0) &&& 1 = 0 ∧ (i * 2 + 0) >>> 1 = i := by
  constructor
  · rw [Nat.and_one_is_mod]; omega
  · rw [Nat.shiftRight_eq_div_pow]; omega

theorem task_id_filter (i : Nat) : (i * 2 + 1) &&& 1 = 1 ∧ (i * 2 + 1) >>> 1 = i := by
  constructor
  · rw [Nat.and_one_is_mod]; omega
  · rw [Nat.shiftRight_eq_div_pow]; omega

theorem seqEncode_emits (cfg : Cfg) (orc : Collab) (sl : Slice) (fuel i : Nat)
    (s s2 : EncState) (h2 : seqEncode cfg orc sl fuel i s = some s2) :
    ∃ sync, (i < cfg.m_numRows → syncRefs cfg sl i (refSlots sl) = some sync)
      ∧ Emits s s2 (if i < cfg.m_numRows then sync ++ [Event.processRowEncoder i] else []) := by
  unfold seqEncode at h2
  split at h2
  · rename_i hi
    cases hsync : syncRefs cfg sl i (refSlots sl) with
    | none => simp [hsync] at h2
    | some evs =>
      simp only [hsync] at h2
      refine ⟨evs, fun _ => rfl, ?_⟩
      have e1 : Emits s { s with log := s.log ++ evs } evs :=
        Emits.append_emits s evs (fun e he => (syncRefs_main cfg sl i _ evs hsync e he).1)
      have e2 := processRow_emits cfg orc fuel (i * 2 + 0) _ s2 h2
      rw [if_pos (task_id_encode i).1, (task_id_encode i).2] at e2
      rw [if_pos hi]
      exact e1.trans_emits e2
  · rename_i hi
    simp at h2; subst h2
    refine ⟨[], fun h => absurd h hi, ?_⟩
    rw [if_neg hi]
    exact Emits.refl_emits s

theorem seqIteration_emits (cfg : Cfg) (orc : Collab) (sl : Slice) (fuel i : Nat)
    (s s1 : EncState) (h : seqIteration cfg orc sl fuel i s = some s1) :
    ∃ sync, (i < cfg.m_numRows → syncRefs cfg sl i (refSlots sl) = some sync)
      ∧ Emits s s1 (seqIterationMain cfg i sync) := by
  unfold seqIteration at h
  cases hs2 : seqEncode cfg orc sl fuel i s with
  | none => simp [hs2] at h
  | some s2 =>
    simp only [hs2] at h
    obtain ⟨sync, hsync, e1⟩ := seqEncode_emits cfg orc sl fuel i s s2 hs2
    refine ⟨sync, hsync, ?_⟩
    unfold seqIterationMain
    split at h
    · rename_i hd
      rw [if_pos hd]
      have e2 := processRow_emits cfg orc fuel _ _ s1 h
      rw [if_neg (by rw [(task_id_filter _).1]; omega), (task_id_filter _).2] at e2
      exact e1.trans_emits e2
    · rename_i hd
      rw [if_neg hd]
      simp at h; subst h
      simpa using e1

/-! ## The claimed schedule as a list -/

/-- The tasks of iteration `i` of the schedule. -/
theorem seqSchedule_eq (n d : Nat) :
    seqSchedule n d = (List.range (n + d)).flatMap (fun i =>
      (if i < n then [Task.encode i] else []) ++ (if i ≥ d then [Task.filter (i - d)] else [])) :=
  rfl

theorem schedule_encodeRows (n d : Nat) : ∀ m,
    (((List.range m).flatMap (fun i =>
      (if i < n then [Task.encode i] else []) ++ (if i ≥ d then [Task.filter (i - d)] else []))
      ).filterMap Task.encodeRow) = List.range (min m n) := by
  intro m
  induction m with
  | zero => simp
  | succ m ih =>
    rw [List.range_succ, List.flatMap_append, List.filterMap_append, ih]
    by_cases h : m < n
    · have : min (m + 1) n = min m n + 1 := by omega
      rw [this, List.range_succ]
      have h2 : min m n = m := by omega
      by_cases hd : m ≥ d <;> simp [h, hd, h2, Task.encodeRow]
    · have : min (m + 1) n = min m n := by omega
      rw [this]
      by_cases hd : m ≥ d <;> simp [h, hd, Task.encodeRow]

theorem schedule_filterRows (n d : Nat) : ∀ m,
    (((List.range m).flatMap (fun i =>
      (if i < n then [Task.encode i] else []) ++ (if i ≥ d then [Task.filter (i - d)] else []))
      ).filterMap Task.filterRow) = List.range (m - d) := by
  intro m
  induction m with
  | zero => simp
  | succ m ih =>
    rw [List.range_succ, List.flatMap_append, List.filterMap_append, ih]
    by_cases hd : m ≥ d
    · have : m + 1 - d = (m - d) + 1 := by omega
      rw [this, List.range_succ]
      by_cases h : m < n <;> simp [h, hd, Task.filterRow]
    · have : m + 1 - d = m - d := by omega
      rw [this]
      by_cases h : m < n <;> simp [h, hd, Task.filterRow]

theorem flatMap_range_sublist {α : Type} (F : Nat → List α) (i0 : Nat) : ∀ m, i0 < m →
    List.Sublist ((List.range i0).flatMap F ++ F i0) ((List.range m).flatMap F) := by
  intro m
  induction m with
  | zero => intro h; omega
  | succ m ih =>
    intro h
    rw [List.range_succ, List.flatMap_append]
    by_cases h1 : i0 = m
    · subst h1
      simp
    · have := ih (by omega)
      exact this.trans (List.sublist_append_left _ _)

theorem flatMap_range_elem_sublist {α : Type} (F : Nat → List α) (i0 m : Nat) (h : i0 < m) :
    List.Sublist (F i0) ((List.range m).flatMap F) :=
  (List.sublist_append_right _ _).trans (flatMap_range_sublist F i0 m h)

theorem schedule_order (n d j : Nat) (hj : j < n) :
    List.Sublist [Task.encode (min (j + d) (n - 1)), Task.filter j] (seqSchedule n d) := by
  rw [seqSchedule_eq]
  by_cases h : j + d < n
  · have h1 : min (j + d) (n - 1) = j + d := by omega
    rw [h1]
    have := flatMap_range_elem_sublist (fun i =>
      (if i < n then [Task.encode i] else []) ++ (if i ≥ d then [Task.filter (i - d)] else []))
      (j + d) (n + d) (by omega)
    simpa [h] using this
  · have h1 : min (j + d) (n - 1) = n - 1 := by omega
    rw [h1]
    have hA := flatMap_range_elem_sublist (fun i =>
      (if i < n then [Task.encode i] else []) ++ (if i ≥ d then [Task.filter (i - d)] else []))
      (n - 1) (j + d) (by omega)
    have hB := flatMap_range_sublist (fun i =>
      (if i < n then [Task.encode i] else []) ++ (if i ≥ d then [Task.filter (i - d)] else []))
      (j + d) (n + d) (by omega)
    have h2 : List.Sublist [Task.encode (n - 1)]
        ((if n - 1 < n then [Task.encode (n - 1)] else [])
          ++ (if n - 1 ≥ d then [Task.filter (n - 1 - d)] else [])) := by
      have : n - 1 < n := by omega
      simp [this]
    have h3 : List.Sublist [Task.filter j]
        ((if j + d < n then [Task.encode (j + d)] else [])
          ++ (if j + d ≥ d then [Task.filter (j + d - d)] else [])) := by
      simp [h]
    exact ((h2.trans hA).append h3).trans hB

theorem schedule_last (n d : Nat) (hn : 1 ≤ n) :
    (seqSchedule n d).getLast? = some (Task.filter (n - 1)) := by
  rw [seqSchedule_eq]
  obtain ⟨m, hm⟩ : ∃ m, n + d = m + 1 := ⟨n + d - 1, by omega⟩
  rw [hm, List.range_succ, List.flatMap_append]
  have h1 : m ≥ d := by omega
  have h2 : m - d = n - 1 := by omega
  by_cases h : m < n <;> simp [h, h1, h2, List.getLast?_append]

theorem seqIteration_emits_sync (cfg : Cfg) (orc : Collab) (sl : Slice) (fuel i : Nat)
    (s s1 : EncState) (h : seqIteration cfg orc sl fuel i s = some s1) :
    Emits s s1 (seqIterationMain cfg i (syncEvents cfg sl i)) := by
  obtain ⟨sync, hsync, e⟩ := seqIteration_emits cfg orc sl fuel i s s1 h
  by_cases hi : i < cfg.m_numRows
  · have : syncEvents cfg sl i = sync := by simp [syncEvents, hsync hi]
    rw [this]; exact e
  · have : seqIterationMain cfg i (syncEvents cfg sl i) = seqIterationMain cfg i sync := by
      simp [seqIterationMain, hi]
    rw [this]; exact e

theorem seqLoop_emits (cfg : Cfg) (orc : Collab) (sl : Slice) (fuel : Nat) :
    ∀ (is : List Nat) (s s1 : EncState), seqLoop cfg orc sl fuel is s = some s1 →
      Emits s s1 (is.flatMap (fun i => seqIterationMain cfg i (syncEvents cfg sl i))) := by
  intro is
  induction is with
  | nil => intro s s1 h; simp [seqLoop] at h; subst h; exact Emits.refl_emits s
  | cons i rest ih =>
    intro s s1 h
    simp only [seqLoop] at h
    split at h
    · cases h
    · rename_i s2 hs2
      have e1 := seqIteration_emits_sync cfg orc sl fuel i s s2 hs2
      have e2 := ih s2 s1 h
      simpa [List.flatMap_cons] using e1.trans_emits e2

theorem startRows_log (s : EncState) : (startRows s).log = s.log := rfl

theorem tasksOf_filter_main (evs : List Event) :
    tasksOf (evs.filter Event.isMain) = tasksOf evs := by
  unfold tasksOf
  rw [List.filterMap_filter]
  congr 1
  funext e
  cases e <;> rfl

theorem syncEvents_props (cfg : Cfg) (sl : Slice) (i : Nat) :
    ∀ e ∈ syncEvents cfg sl i,
      Event.isMain e = true ∧ Event.task e = none ∧ e ≠ Event.completionTrigger := by
  intro e he
  unfold syncEvents at he
  cases h : syncRefs cfg sl i (refSlots sl) with
  | none => simp [h] at he
  | some evs =>
    simp [h] at he
    exact syncRefs_main cfg sl i _ evs h e he

theorem tasksOf_sync (cfg : Cfg) (sl : Slice) (i : Nat) : tasksOf (syncEvents cfg sl i) = [] := by
  unfold tasksOf
  rw [List.filterMap_eq_nil_iff]
  intro e he
  exact (syncEvents_props cfg sl i e he).2.1

theorem tasksOf_iteration (cfg : Cfg) (sl : Slice) (i : Nat) :
    tasksOf (seqIterationMain cfg i (syncEvents cfg sl i))
      = (if i < cfg.m_numRows then [Task.encode i] else [])
        ++ (if i ≥ filterRowDelay cfg.param then [Task.filter (i - filterRowDelay cfg.param)]
            else []) := by
  have hs := tasksOf_sync cfg sl i
  unfold tasksOf at hs ⊢
  unfold seqIterationMain
  rw [List.filterMap_append]
  congr 1
  · split
    · rw [List.filterMap_append, hs]; rfl
    · rfl
  · split
    · split <;> rfl
    · rfl

theorem tasksOf_flatMap (cfg : Cfg) (sl : Slice) (is : List Nat) :
    tasksOf (is.flatMap (fun i => seqIterationMain cfg i (syncEvents cfg sl i)))
      = is.flatMap (fun i => (if i < cfg.m_numRows then [Task.encode i] else [])
        ++ (if i ≥ filterRowDelay cfg.param then [Task.filter (i - filterRowDelay cfg.param)]
            else [])) := by
  induction is with
  | nil => rfl
  | cons i rest ih =>
    rw [List.flatMap_cons, List.flatMap_cons, ← ih, ← tasksOf_iteration]
    unfold tasksOf
    rw [List.filterMap_append]

theorem completion_count_iteration (cfg : Cfg) (sl : Slice) (i : Nat) :
    (seqIterationMain cfg i (syncEvents cfg sl i)).count Event.completionTrigger
      = if i ≥ filterRowDelay cfg.param
          ∧ ((i - filterRowDelay cfg.param : Nat) : Int) = (cfg.m_numRows : Int) - 1
        then 1 else 0 := by
  have hs : (syncEvents cfg sl i).count Event.completionTrigger = 0 := by
    rw [List.count_eq_zero]
    intro hmem
    exact (syncEvents_props cfg sl i _ hmem).2.2 rfl
  unfold seqIterationMain
  rw [List.count_append]
  have hA : (if i < cfg.m_numRows then syncEvents cfg sl i ++ [Event.processRowEncoder i]
      else []).count Event.completionTrigger = 0 := by
    split
    · rw [List.count_append, hs]; rfl
    · rfl
  rw [hA]
  by_cases h2 : i ≥ filterRowDelay cfg.param
  · by_cases h3 : ((i - filterRowDelay cfg.param : Nat) : Int) = (cfg.m_numRows : Int) - 1
    · rw [if_pos h2, if_pos h3, if_pos ⟨h2, h3⟩]; rfl
    · rw [if_pos h2, if_neg h3, if_neg (fun h => h3 h.2)]; rfl
  · rw [if_neg h2, if_neg (fun h => h2 h.1)]; rfl

theorem completion_count (cfg : Cfg) (sl : Slice) (hn : 1 ≤ cfg.m_numRows) : ∀ m,
    ((List.range m).flatMap (fun i => seqIterationMain cfg i (syncEvents cfg sl i))).count
        Event.completionTrigger
      = if cfg.m_numRows - 1 + filterRowDelay cfg.param < m then 1 else 0 := by
  intro m
  induction m with
  | zero => simp
  | succ m ih =>
    rw [List.range_succ, List.flatMap_append, List.count_append, ih]
    simp only [List.flatMap_cons, List.flatMap_nil, List.append_nil]
    rw [completion_count_iteration]
    by_cases h1 : cfg.m_numRows - 1 + filterRowDelay cfg.param < m
    · have h2 : ¬ (m ≥ filterRowDelay cfg.param
          ∧ ((m - filterRowDelay cfg.param : Nat) : Int) = (cfg.m_numRows : Int) - 1) := by
        omega
      have h3 : cfg.m_numRows - 1 + filterRowDelay cfg.param < m + 1 := by omega
      simp [h1, h2, h3]
    · by_cases h4 : cfg.m_numRows - 1 + filterRowDelay cfg.param = m
      · have h2 : (m ≥ filterRowDelay cfg.param
            ∧ ((m - filterRowDelay cfg.param : Nat) : Int) = (cfg.m_numRows : Int) - 1) := by
          omega
        have h3 : cfg.m_numRows - 1 + filterRowDelay cfg.param < m + 1 := by omega
        simp [h1, h2, h3]
      · have h2 : ¬ (m ≥ filterRowDelay cfg.param
            ∧ ((m - filterRowDelay cfg.param : Nat) : Int) = (cfg.m_numRows : Int) - 1) := by
          omega
        have h3 : ¬ cfg.m_numRows - 1 + filterRowDelay cfg.param < m + 1 := by omega
        simp [h1, h2, h3]

theorem main_last (cfg : Cfg) (sl : Slice) (hn : 1 ≤ cfg.m_numRows) :
    ∃ pre, (List.range (cfg.m_numRows + filterRowDelay cfg.param)).flatMap
        (fun i => seqIterationMain cfg i (syncEvents cfg sl i))
      = pre ++ [Event.processRowFilter (cfg.m_numRows - 1), Event.completionTrigger] := by
  obtain ⟨m, hm⟩ : ∃ m, cfg.m_numRows + filterRowDelay cfg.param = m + 1 :=
    ⟨cfg.m_numRows + filterRowDelay cfg.param - 1, by omega⟩
  rw [hm, List.range_succ, List.flatMap_append]
  have h1 : m ≥ filterRowDelay cfg.param := by omega
  have h2 : m - filterRowDelay cfg.param = cfg.m_numRows - 1 := by omega
  have h3 : ((m - filterRowDelay cfg.param : Nat) : Int) = (cfg.m_numRows : Int) - 1 := by omega
  refine ⟨(List.range m).flatMap (fun i => seqIterationMain cfg i (syncEvents cfg sl i))
    ++ (if m < cfg.m_numRows then syncEvents cfg sl m ++ [Event.processRowEncoder m] else []), ?_⟩
  simp only [List.flatMap_cons, List.flatMap_nil, List.append_nil, seqIterationMain]
  rw [if_pos h1, if_pos h3, h2]
  simp

/-! ## Termination of the sequential path when no re-encode is asked for -/

theorem ctuHead_noReEncode (cfg : Cfg) (orc : Collab) (row : Nat) (s : EncState)
    (h : NoReEncode cfg orc) : (ctuHead cfg orc row s).2 = false := by
  unfold ctuHead vbvCheckpoint
  simp only []
  rcases h with h | h
  · simp [h]
  · split
    · split
      · rw [if_neg (h _ _ _)]
      · rfl
    · rfl

theorem ctuHead_completed (cfg : Cfg) (orc : Collab) (row : Nat) (s : EncState) :
    ((ctuHead cfg orc row s).1.m_rows row).completed = (s.m_rows row).completed + 1 := by
  rw [ctuHead_m_rows]
  simp [ctuEncode]

theorem runWorker_total (cfg : Cfg) (orc : Collab) (row : Nat) (h : NoReEncode cfg orc) :
    ∀ (fuel : Nat) (s : EncState), s.pc row = Pc.loop →
      cfg.m_numCols - (s.m_rows row).completed + 1 ≤ fuel →
      ∃ s1, runWorker cfg orc row fuel s = some s1 ∧ s1.pc = s.pc := by
  intro fuel
  induction fuel with
  | zero => intro s _ hf; omega
  | succ n ih =>
    intro s hpc hf
    simp only [runWorker]
    unfold workerStep
    rw [hpc]
    simp only []
    by_cases hc : (s.m_rows row).completed < cfg.m_numCols
    · rw [if_pos hc]
      simp only [ctuHead_noReEncode cfg orc row s h, Bool.false_eq_true, if_false]
      obtain ⟨s1, hs1, _, e2, _, _, _, _, e7, _⟩ :=
        ctuTail_frame cfg row (s.m_rows row).completed (ctuHead cfg orc row s).1
      rcases hs1 with hs1 | hs1
      · rw [hs1]
        simp only []
        have hpc1 : s1.pc = s.pc := by rw [e2, ctuHead_pc]
        have hc1 : (s1.m_rows row).completed = (s.m_rows row).completed + 1 := by
          rw [(e7 row).1, ctuHead_completed]
        obtain ⟨s2, hs2, hp2⟩ := ih s1 (by rw [hpc1]; exact hpc) (by omega)
        exact ⟨s2, hs2, by rw [hp2, hpc1]⟩
      · rw [hs1]
        exact ⟨s1, rfl, by rw [e2, ctuHead_pc]⟩
    · rw [if_neg hc]
      exact ⟨_, rfl, rfl⟩

theorem processRowEncoder_total (cfg : Cfg) (orc : Collab) (row fuel : Nat) (s : EncState)
    (h : NoReEncode cfg orc) (hpc : ∀ r, s.pc r = Pc.loop) (hf : cfg.m_numCols + 1 ≤ fuel) :
    ∃ s1, processRowEncoder cfg orc fuel row s = some s1 ∧ s1.pc = s.pc := by
  unfold processRowEncoder enterRow
  simp only []
  split
  · exact ⟨s, by simp, rfl⟩
  · split
    · exact ⟨{ s with log := s.log ++ [Event.simultaneousRowAccess row] }, by simp, rfl⟩
    · simp only [if_true]
      obtain ⟨s1, h1, h2⟩ := runWorker_total cfg orc row h fuel
        { s with m_rows := upd s.m_rows row { s.m_rows row with busy := true } } (hpc row)
        (by simp only []; omega)
      exact ⟨s1, h1, h2⟩

theorem processRow_total (cfg : Cfg) (orc : Collab) (id fuel : Nat) (s : EncState)
    (h : NoReEncode cfg orc) (hpc : ∀ r, s.pc r = Pc.loop) (hf : cfg.m_numCols + 1 ≤ fuel) :
    ∃ s1, processRow cfg orc fuel id s = some s1 ∧ s1.pc = s.pc := by
  unfold processRow
  simp only []
  split
  · exact processRowEncoder_total cfg orc _ fuel
      { s with log := s.log ++ [Event.processRowEncoder (id >>> 1)] } h hpc hf
  · split
    · exact ⟨_, rfl, rfl⟩
    · exact ⟨_, rfl, rfl⟩

theorem seqEncode_total (cfg : Cfg) (orc : Collab) (sl : Slice) (fuel i : Nat)
    (s : EncState) (h : NoReEncode cfg orc) (hpc : ∀ r, s.pc r = Pc.loop)
    (hf : cfg.m_numCols + 1 ≤ fuel)
    (hsync : i < cfg.m_numRows → syncRefs cfg sl i (refSlots sl) ≠ none) :
    ∃ s1, seqEncode cfg orc sl fuel i s = some s1 ∧ s1.pc = s.pc := by
  unfold seqEncode
  split
  · rename_i hi
    cases hs : syncRefs cfg sl i (refSlots sl) with
    | none => exact absurd hs (hsync hi)
    | some evs =>
      simp only []
      exact processRow_total cfg orc _ fuel { s with log := s.log ++ evs } h hpc hf
  · exact ⟨s, rfl, rfl⟩

theorem seqIteration_total (cfg : Cfg) (orc : Collab) (sl : Slice) (fuel i : Nat)
    (s : EncState) (h : NoReEncode cfg orc) (hpc : ∀ r, s.pc r = Pc.loop)
    (hf : cfg.m_numCols + 1 ≤ fuel)
    (hsync : i < cfg.m_numRows → syncRefs cfg sl i (refSlots sl) ≠ none) :
    ∃ s1, seqIteration cfg orc sl fuel i s = some s1 ∧ s1.pc = s.pc := by
  unfold seqIteration
  obtain ⟨s2, h2, hp2⟩ := seqEncode_total cfg orc sl fuel i s h hpc hf hsync
  rw [h2]
  simp only []
  split
  · obtain ⟨s3, h3, hp3⟩ := processRow_total cfg orc
      ((i - filterRowDelay cfg.param) * 2 + 1) fuel s2 h (by rw [hp2]; exact hpc) hf
    exact ⟨s3, h3, by rw [hp3, hp2]⟩
  · exact ⟨s2, rfl, hp2⟩

theorem seqLoop_total (cfg : Cfg) (orc : Collab) (sl : Slice) (fuel : Nat)
    (h : NoReEncode cfg orc) (hf : cfg.m_numCols + 1 ≤ fuel)
    (hsync : ∀ i, i < cfg.m_numRows → syncRefs cfg sl i (refSlots sl) ≠ none) :
    ∀ (is : List Nat) (s : EncState), (∀ r, s.pc r = Pc.loop) →
      ∃ s1, seqLoop cfg orc sl fuel is s = some s1 ∧ s1.pc = s.pc := by
  intro is
  induction is with
  | nil => intro s _; exact ⟨s, rfl, rfl⟩
  | cons i rest ih =>
    intro s hpc
    simp only [seqLoop]
    obtain ⟨s2, h2, hp2⟩ := seqIteration_total cfg orc sl fuel i s h hpc hf (hsync i)
    rw [h2]
    simp only []
    obtain ⟨s3, h3, hp3⟩ := ih s2 (by rw [hp2]; exact hpc)
    exact ⟨s3, h3, by rw [hp3, hp2]⟩

theorem compressCTURows_seq (cfg : Cfg) (orc : Collab) (sl : Slice) (fuel : Nat) (s : EncState)
    (hseq : (cfg.hasPool && cfg.param.bEnableWavefront) = false) :
    compressCTURows cfg orc sl fuel s
      = seqLoop cfg orc sl fuel (List.range (cfg.m_numRows + filterRowDelay cfg.param))
          (startRows s) := by
  unfold compressCTURows
  simp [hseq]

/-- C6: on the sequential path (no worker pool, or wavefront off)
`compressCTURows` dispatches exactly the tasks "encode row `i`" (if
`i < numRows`) then "filter row `i - d`" (if `i >= d`) for
`i = 0 .. numRows+d-1`; so the encode rows and the filter rows are each
`0 .. numRows-1` once, in ascending order, filter row `j` comes after encode
row `min (j+d) (numRows-1)`, and the completion event is triggered exactly
once, right after the last task, filter row `numRows-1`, has been dispatched.
The call returns whenever the waits on the references end and rate control
asks for no re-encode. -/
theorem sequential_schedule (cfg : Cfg) (orc : Collab) (sl : Slice) (fuel : Nat) (s : EncState)
    (hseq : (cfg.hasPool && cfg.param.bEnableWavefront) = false)
    (hrows : 1 ≤ cfg.m_numRows) :
    (∀ s1, compressCTURows cfg orc sl fuel s = some s1 →
      ∃ evs, s1.log = s.log ++ evs
        ∧ tasksOf evs = seqSchedule cfg.m_numRows (filterRowDelay cfg.param)
        ∧ (tasksOf evs).filterMap Task.encodeRow = List.range cfg.m_numRows
        ∧ (tasksOf evs).filterMap Task.filterRow = List.range cfg.m_numRows
        ∧ (∀ j, j < cfg.m_numRows →
            List.Sublist [Task.encode (min (j + filterRowDelay cfg.param) (cfg.m_numRows - 1)),
              Task.filter j] (tasksOf evs))
        ∧ evs.count Event.completionTrigger = 1
        ∧ (tasksOf evs).getLast? = some (Task.filter (cfg.m_numRows - 1))
        ∧ ∃ pre, evs.filter Event.isMain
            = pre ++ [Event.processRowFilter (cfg.m_numRows - 1), Event.completionTrigger])
      ∧ (NoReEncode cfg orc → (∀ r, s.pc r = Pc.loop) → cfg.m_numCols + 1 ≤ fuel →
          (∀ i, i < cfg.m_numRows → syncRefs cfg sl i (refSlots sl) ≠ none) →
          ∃ s1, compressCTURows cfg orc sl fuel s = some s1) := by
  rw [compressCTURows_seq cfg orc sl fuel s hseq]
  constructor
  · intro s1 h
    obtain ⟨evs, hlog, hmain⟩ := seqLoop_emits cfg orc sl fuel _ _ s1 h
    have htasks : tasksOf evs = seqSchedule cfg.m_numRows (filterRowDelay cfg.param) := by
      rw [← tasksOf_filter_main, hmain, tasksOf_flatMap]
      rfl
    refine ⟨evs, by rw [hlog, startRows_log], htasks, ?_, ?_, ?_, ?_, ?_, ?_⟩
    · rw [htasks, seqSchedule_eq, schedule_encodeRows]
      congr 1; omega
    · rw [htasks, seqSchedule_eq, schedule_filterRows]
      congr 1; omega
    · intro j hj
      rw [htasks]
      exact schedule_order _ _ j hj
    · have hc := completion_count cfg sl hrows (cfg.m_numRows + filterRowDelay cfg.param)
      rw [← hmain, List.count_filter (by rfl)] at hc
      rw [hc, if_pos (by omega)]
    · rw [htasks]
      exact schedule_last _ _ hrows
    · rw [hmain]
      exact main_last cfg sl hrows
  · intro hre hpc hf hsync
    obtain ⟨s1, h1, _⟩ := seqLoop_total cfg orc sl fuel hre hf hsync
      (List.range (cfg.m_numRows + filterRowDelay cfg.param)) (startRows s) hpc
    exact ⟨s1, h1⟩

/-- Witness of C6: the 4 by 4 frame without worker pool, intra slice. -/
theorem sequential_schedule_witness :
    ((demoCfg.hasPool && demoCfg.param.bEnableWavefront) = false ∧ 1 ≤ demoCfg.m_numRows
        ∧ NoReEncode demoCfg demoCollab ∧ (∀ r, demoState.pc r = Pc.loop)
        ∧ demoCfg.m_numCols + 1 ≤ 5)
      ∧ ∃ s1, compressCTURows demoCfg demoCollab demoSliceI 5 demoState = some s1
        ∧ ∃ evs, s1.log = demoState.log ++ evs
          ∧ tasksOf evs = seqSchedule demoCfg.m_numRows (filterRowDelay demoCfg.param)
          ∧ evs.count Event.completionTrigger = 1 := by
  have hsync : ∀ i, i < demoCfg.m_numRows →
      syncRefs demoCfg demoSliceI i (refSlots demoSliceI) ≠ none := by
    intro i _
    simp [refSlots, numPredDir, demoSliceI, syncRefs]
  have hT := sequential_schedule demoCfg demoCollab demoSliceI 5 demoState (by decide)
    (by decide)
  obtain ⟨s1, h1⟩ := hT.2 (Or.inl (by decide)) (fun _ => rfl) (by decide) hsync
  obtain ⟨evs, e1, e2, _, _, _, e6, _⟩ := hT.1 s1 h1
  exact ⟨⟨by decide, by decide, Or.inl (by decide), fun _ => rfl, by decide⟩,
    s1, h1, evs, e1, e2, e6⟩

/-! ## Reference synchronisation -/

theorem waitLoop_spec (numRows need : Int) :
    ∀ (rest : List Int) (c v : Int) (w : Nat), waitLoop numRows need c rest = some (v, w) →
      (v = numRows ∨ v ≥ need) ∧ (c :: rest)[w]? = some v
        ∧ (∀ j u, j < w → (c :: rest)[j]? = some u → u ≠ numRows ∧ u < need)
        ∧ (¬ (c ≠ numRows ∧ c < need) → w = 0 ∧ v = c) := by
  intro rest
  induction rest with
  | nil =>
    intro c v w h
    simp only [waitLoop] at h
    split at h
    · cases h
    · rename_i hc
      simp at h
      obtain ⟨h1, h2⟩ := h
      subst h1 h2
      refine ⟨?_, by simp, fun j u hj => by omega, fun _ => ⟨rfl, rfl⟩⟩
      by_cases h1 : c = numRows
      · exact Or.inl h1
      · right
        have : ¬ c < need := fun h2 => hc ⟨h1, h2⟩
        omega
  | cons c1 rest ih =>
    intro c v w h
    simp only [waitLoop] at h
    split at h
    · rename_i hc
      cases hr : waitLoop numRows need c1 rest with
      | none => simp [hr] at h
      | some p =>
        obtain ⟨v1, w1⟩ := p
        simp [hr] at h
        obtain ⟨rfl, rfl⟩ := h
        obtain ⟨i1, i2, i3, _⟩ := ih c1 v1 w1 hr
        refine ⟨i1, by simpa using i2, ?_, fun hn => absurd hc hn⟩
        intro j u hj hu
        cases j with
        | zero =>
          simp at hu
          subst hu
          exact hc
        | succ j =>
          simp only [List.getElem?_cons_succ] at hu
          exact i3 j u (by omega) hu
    · rename_i hc
      simp at h
      obtain ⟨h1, h2⟩ := h
      subst h1 h2
      refine ⟨?_, by simp, fun j u hj => by omega, fun _ => ⟨rfl, rfl⟩⟩
      by_cases h1 : c = numRows
      · exact Or.inl h1
      · right
        have : ¬ c < need := fun h2 => hc ⟨h1, h2⟩
        omega

theorem waitLoop_total (numRows need : Int) :
    ∀ (rest : List Int) (c : Int), (∃ u ∈ c :: rest, u = numRows ∨ u ≥ need) →
      ∃ p, waitLoop numRows need c rest = some p := by
  intro rest
  induction rest with
  | nil =>
    intro c h
    obtain ⟨u, hu, hadm⟩ := h
    simp at hu
    subst hu
    simp only [waitLoop]
    rw [if_neg (by omega)]
    exact ⟨_, rfl⟩
  | cons c1 rest ih =>
    intro c h
    simp only [waitLoop]
    by_cases hc : c ≠ numRows ∧ c < need
    · rw [if_pos hc]
      obtain ⟨u, hu, hadm⟩ := h
      rcases List.mem_cons.mp hu with h1 | h1
      · subst h1; omega
      · obtain ⟨p, hp⟩ := ih c1 ⟨u, h1, hadm⟩
        rw [hp]
        exact ⟨_, rfl⟩
    · rw [if_neg hc]
      exact ⟨_, rfl⟩

theorem waitLoop_blocked (numRows need : Int) :
    ∀ (rest : List Int) (c : Int), (∀ u ∈ c :: rest, u ≠ numRows ∧ u < need) →
      waitLoop numRows need c rest = none := by
  intro rest
  induction rest with
  | nil =>
    intro c h
    simp only [waitLoop]
    rw [if_pos (h c (by simp))]
  | cons c1 rest ih =>
    intro c h
    simp only [waitLoop]
    rw [if_pos (h c (by simp)), ih c1 (fun u hu => h u (List.mem_cons_of_mem _ hu))]
    rfl

theorem syncRefs_complete (cfg : Cfg) (sl : Slice) (row : Nat) :
    ∀ (slots : List (Nat × Nat)) (evs : List Event), syncRefs cfg sl row slots = some evs →
      ∀ l ref, (l, ref) ∈ slots →
        ∃ v w, Event.refReady row l ref v w ∈ evs ∧ Admissible cfg row v
          ∧ (observed sl row l ref)[w]? = some v
          ∧ (∀ j u, j < w → (observed sl row l ref)[j]? = some u → ¬ Admissible cfg row u)
          ∧ (Admissible cfg row (sl.m_reconRowCount row l ref).1 →
              w = 0 ∧ v = (sl.m_reconRowCount row l ref).1) := by
  intro slots
  induction slots with
  | nil => intro evs _ l ref hm; simp at hm
  | cons p rest ih =>
    intro evs h l ref hm
    obtain ⟨l0, ref0⟩ := p
    simp only [syncRefs] at h
    split at h
    · cases h
    · rename_i v waits hw
      cases hr : syncRefs cfg sl row rest with
      | none => simp [hr] at h
      | some more =>
        simp [hr] at h
        subst h
        rcases List.mem_cons.mp hm with h1 | h1
        · cases h1
          obtain ⟨ha, hobs, hbefore, hb⟩ := waitLoop_spec _ _ _ _ _ _ hw
          refine ⟨v, waits, by simp, ha, hobs, ?_, ?_⟩
          · intro j u hj hu hadm
            have := hbefore j u hj hu
            unfold Admissible at hadm
            rcases hadm with h2 | h2
            · exact this.1 h2
            · omega
          · intro hadm
            apply hb
            unfold Admissible at hadm
            intro hc
            rcases hadm with h2 | h2
            · exact hc.1 h2
            · omega
        · obtain ⟨v1, w1, hmem, hrest⟩ := ih more hr l ref h1
          exact ⟨v1, w1, by simp [hmem], hrest⟩

theorem syncRefs_total (cfg : Cfg) (sl : Slice) (row : Nat) :
    ∀ (slots : List (Nat × Nat)),
      (∀ l ref, (l, ref) ∈ slots → ∃ u ∈ observed sl row l ref, Admissible cfg row u) →
      ∃ evs, syncRefs cfg sl row slots = some evs := by
  intro slots
  induction slots with
  | nil => intro _; exact ⟨[], rfl⟩
  | cons p rest ih =>
    intro h
    obtain ⟨l0, ref0⟩ := p
    simp only [syncRefs]
    obtain ⟨u, hu, hadm⟩ := h l0 ref0 (by simp)
    obtain ⟨q, hq⟩ := waitLoop_total (cfg.m_numRows : Int)
      ((row : Int) + (cfg.m_refLagRows : Int)) (sl.m_reconRowCount row l0 ref0).2
      (sl.m_reconRowCount row l0 ref0).1 ⟨u, hu, hadm⟩
    obtain ⟨more, hm⟩ := ih (fun l ref hmem => h l ref (List.mem_cons_of_mem _ hmem))
    rw [hq, hm]
    exact ⟨_, rfl⟩

theorem syncRefs_blocked (cfg : Cfg) (sl : Slice) (row : Nat) :
    ∀ (slots : List (Nat × Nat)) (l ref : Nat), (l, ref) ∈ slots →
      (∀ u ∈ observed sl row l ref, ¬ Admissible cfg row u) →
      syncRefs cfg sl row slots = none := by
  intro slots
  induction slots with
  | nil => intro l ref hm; simp at hm
  | cons p rest ih =>
    intro l ref hm hno
    obtain ⟨l0, ref0⟩ := p
    simp only [syncRefs]
    rcases List.mem_cons.mp hm with h1 | h1
    · cases h1
      have hb := waitLoop_blocked (cfg.m_numRows : Int)
        ((row : Int) + (cfg.m_refLagRows : Int)) (sl.m_reconRowCount row l ref).2
        (sl.m_reconRowCount row l ref).1
        (fun u hu => by
          have := hno u hu
          unfold Admissible at this
          omega)
      rw [hb]
    · split
      · rfl
      · rw [ih l ref h1 hno]
        rfl

theorem mem_refSlots_iff (sl : Slice) (l ref : Nat) :
    (l, ref) ∈ refSlots sl ↔ l < numPredDir sl ∧ ref < sl.m_numRefIdx l := by
  unfold refSlots
  rw [List.mem_flatMap]
  constructor
  · rintro ⟨a, ha, hm⟩
    rw [List.mem_map] at hm
    obtain ⟨b, hb, he⟩ := hm
    cases he
    exact ⟨List.mem_range.mp ha, List.mem_range.mp hb⟩
  · rintro ⟨hl, hr⟩
    exact ⟨l, List.mem_range.mpr hl, List.mem_map.mpr ⟨ref, List.mem_range.mpr hr, rfl⟩⟩

theorem mem_refSlots (sl : Slice) (l ref : Nat) (hl : l < numPredDir sl)
    (hr : ref < sl.m_numRefIdx l) : (l, ref) ∈ refSlots sl := by
  unfold refSlots
  rw [List.mem_flatMap]
  exact ⟨l, List.mem_range.mpr hl, List.mem_map.mpr ⟨ref, List.mem_range.mpr hr, rfl⟩⟩

theorem SyncedStarts.append_synced (cfg : Cfg) (sl : Slice) (start : Nat → Event)
    (a b : List Event) (ha : SyncedStarts cfg sl start a) (hb : SyncedStarts cfg sl start b) :
    SyncedStarts cfg sl start (a ++ b) := by
  intro i r hi l ref hl hr
  by_cases h : i < a.length
  · rw [List.getElem?_append_left h] at hi
    obtain ⟨v, w, hm, rest⟩ := ha i r hi l ref hl hr
    refine ⟨v, w, ?_, rest⟩
    rw [List.take_append_eq_append_take]
    exact List.mem_append_left _ hm
  · rw [List.getElem?_append_right (by omega)] at hi
    obtain ⟨v, w, hm, rest⟩ := hb (i - a.length) r hi l ref hl hr
    refine ⟨v, w, ?_, rest⟩
    rw [List.take_append_eq_append_take]
    exact List.mem_append_right _ hm

theorem SyncedStarts.of_no_start (cfg : Cfg) (sl : Slice) (start : Nat → Event)
    (a : List Event) (h : ∀ e ∈ a, ∀ r, e ≠ start r) : SyncedStarts cfg sl start a := by
  intro i r hi
  have := List.getElem?_mem hi
  exact absurd rfl (h _ this r)

theorem SyncedStarts.of_sync (cfg : Cfg) (sl : Slice) (start : Nat → Event) (row : Nat)
    (sync : List Event) (hs : syncRefs cfg sl row (refSlots sl) = some sync)
    (hinj : ∀ a b, start a = start b → a = b)
    (hkind : ∀ r, (∀ l ref v w, start r ≠ Event.refReady row l ref v w)
      ∧ (∀ l ref n, start r ≠ Event.applyWeight l ref n)) :
    SyncedStarts cfg sl start (sync ++ [start row]) := by
  intro i r hi l ref hl hr
  by_cases h : i < sync.length
  · rw [List.getElem?_append_left h] at hi
    have hm := List.getElem?_mem hi
    rcases syncRefs_kind cfg sl row _ sync hs _ hm with ⟨l1, r1, v1, w1, he⟩ | ⟨l1, r1, n1, he⟩
    · exact absurd he ((hkind r).1 _ _ _ _)
    · exact absurd he ((hkind r).2 _ _ _)
  · rw [List.getElem?_append_right (by omega)] at hi
    have h0 : i - sync.length = 0 := by
      by_contra hne
      have : ([start row] : List Event)[i - sync.length]? = none := by
        apply List.getElem?_eq_none
        simp; omega
      rw [this] at hi; cases hi
    rw [h0] at hi
    simp at hi
    have hrr := hinj _ _ hi
    subst hrr
    have hi2 : i = sync.length := by omega
    subst hi2
    obtain ⟨v, w, hm, rest⟩ := syncRefs_complete cfg sl row _ sync hs l ref
      (mem_refSlots sl l ref hl hr)
    refine ⟨v, w, ?_, rest⟩
    simp [hm]

theorem enableRows_synced (cfg : Cfg) (sl : Slice) :
    ∀ (rows : List Nat) (evs : List Event), enableRows cfg sl rows = some evs →
      SyncedStarts cfg sl Event.enableRowEncoder evs := by
  intro rows
  induction rows with
  | nil =>
    intro evs h
    simp [enableRows] at h; subst h
    exact SyncedStarts.of_no_start cfg sl _ [] (by simp)
  | cons row rest ih =>
    intro evs h
    simp only [enableRows] at h
    cases hs : syncRefs cfg sl row (refSlots sl) with
    | none => simp [hs] at h
    | some sync =>
      simp only [hs] at h
      cases hr : enableRows cfg sl rest with
      | none => simp [hr] at h
      | some more =>
        simp [hr] at h
        subst h
        have h1 : SyncedStarts cfg sl Event.enableRowEncoder
            (sync ++ [Event.enableRowEncoder row]) :=
          SyncedStarts.of_sync cfg sl _ row sync hs (by intro a b h; cases h; rfl)
            (by intro r; exact ⟨by intros; simp, by intros; simp⟩)
        have h2 : SyncedStarts cfg sl Event.enableRowEncoder
            (if row = 0 then [Event.enqueueRowEncoder 0] else [Event.pokeIdleThread]) := by
          apply SyncedStarts.of_no_start
          intro e he r
          split at he <;> (simp at he; subst he; simp)
        have h3 := ((h1.append_synced cfg sl _ _ _ h2).append_synced cfg sl _ _ _ (ih more hr))
        simpa [List.append_assoc] using h3

theorem processRow_encode_log (cfg : Cfg) (orc : Collab) (fuel i : Nat) (s s1 : EncState)
    (h : processRow cfg orc fuel (i * 2 + 0) s = some s1) :
    ∃ w, s1.log = s.log ++ [Event.processRowEncoder i] ++ w
      ∧ ∀ e ∈ w, Event.isMain e = false := by
  unfold processRow at h
  simp only [] at h
  rw [if_pos (task_id_encode i).1, (task_id_encode i).2] at h
  obtain ⟨w, hw, hm⟩ := processRowEncoder_logExt cfg orc fuel _ _ s1 h
  exact ⟨w, hw, hm⟩

theorem processRow_filter_log (cfg : Cfg) (orc : Collab) (fuel i : Nat) (s s1 : EncState)
    (h : processRow cfg orc fuel (i * 2 + 1) s = some s1) :
    ∃ w, s1.log = s.log ++ w ∧ ∀ e ∈ w, ∀ r, e ≠ Event.processRowEncoder r := by
  unfold processRow at h
  simp only [] at h
  rw [if_neg (by rw [(task_id_filter i).1]; omega), (task_id_filter i).2] at h
  split at h
  · simp at h; subst h
    exact ⟨[Event.processRowFilter i, Event.enqueueRowFilter (i + 1)], by simp,
      by intro e he r; simp at he; rcases he with rfl | rfl <;> simp⟩
  · simp at h; subst h
    exact ⟨[Event.processRowFilter i, Event.completionTrigger], by simp,
      by intro e he r; simp at he; rcases he with rfl | rfl <;> simp⟩

theorem seqEncode_synced (cfg : Cfg) (orc : Collab) (sl : Slice) (fuel i : Nat)
    (s s1 : EncState) (h : seqEncode cfg orc sl fuel i s = some s1) :
    ∃ evs, s1.log = s.log ++ evs ∧ SyncedStarts cfg sl Event.processRowEncoder evs := by
  unfold seqEncode at h
  split at h
  · cases hs : syncRefs cfg sl i (refSlots sl) with
    | none => simp [hs] at h
    | some sync =>
      simp only [hs] at h
      obtain ⟨w, hw, hm⟩ := processRow_encode_log cfg orc fuel i _ s1 h
      refine ⟨sync ++ [Event.processRowEncoder i] ++ w, by simp [hw, List.append_assoc], ?_⟩
      have h1 : SyncedStarts cfg sl Event.processRowEncoder
          (sync ++ [Event.processRowEncoder i]) :=
        SyncedStarts.of_sync cfg sl _ i sync hs (by intro a b h; cases h; rfl)
          (by intro r; exact ⟨by intros; simp, by intros; simp⟩)
      have h2 : SyncedStarts cfg sl Event.processRowEncoder w := by
        apply SyncedStarts.of_no_start
        intro e he r heq
        have := hm e he
        rw [heq] at this
        cases this
      exact h1.append_synced cfg sl _ _ _ h2
  · simp at h; subst h
    exact ⟨[], by simp, SyncedStarts.of_no_start cfg sl _ [] (by simp)⟩

theorem seqIteration_synced (cfg : Cfg) (orc : Collab) (sl : Slice) (fuel i : Nat)
    (s s1 : EncState) (h : seqIteration cfg orc sl fuel i s = some s1) :
    ∃ evs, s1.log = s.log ++ evs ∧ SyncedStarts cfg sl Event.processRowEncoder evs := by
  unfold seqIteration at h
  cases hs2 : seqEncode cfg orc sl fuel i s with
  | none => simp [hs2] at h
  | some s2 =>
    simp only [hs2] at h
    obtain ⟨e1, hl1, hs1⟩ := seqEncode_synced cfg orc sl fuel i s s2 hs2
    split at h
    · obtain ⟨w, hw, hm⟩ := processRow_filter_log cfg orc fuel _ s2 s1 h
      refine ⟨e1 ++ w, by rw [hw, hl1, List.append_assoc], ?_⟩
      exact hs1.append_synced cfg sl _ _ _ (SyncedStarts.of_no_start cfg sl _ w hm)
    · simp at h; subst h
      exact ⟨e1, hl1, hs1⟩

theorem seqLoop_synced (cfg : Cfg) (orc : Collab) (sl : Slice) (fuel : Nat) :
    ∀ (is : List Nat) (s s1 : EncState), seqLoop cfg orc sl fuel is s = some s1 →
      ∃ evs, s1.log = s.log ++ evs ∧ SyncedStarts cfg sl Event.processRowEncoder evs := by
  intro is
  induction is with
  | nil =>
    intro s s1 h
    simp [seqLoop] at h; subst h
    exact ⟨[], by simp, SyncedStarts.of_no_start cfg sl _ [] (by simp)⟩
  | cons i rest ih =>
    intro s s1 h
    simp only [seqLoop] at h
    cases hs2 : seqIteration cfg orc sl fuel i s with
    | none => simp [hs2] at h
    | some s2 =>
      simp only [hs2] at h
      obtain ⟨e1, hl1, hs1⟩ := seqIteration_synced cfg orc sl fuel i s s2 hs2
      obtain ⟨e2, hl2, hs2⟩ := ih s2 s1 h
      exact ⟨e1 ++ e2, by rw [hl2, hl1, List.append_assoc], hs1.append_synced cfg sl _ _ _ hs2⟩

theorem enableRows_total (cfg : Cfg) (sl : Slice) :
    ∀ (rows : List Nat), (∀ i ∈ rows, syncRefs cfg sl i (refSlots sl) ≠ none) →
      ∃ evs, enableRows cfg sl rows = some evs := by
  intro rows
  induction rows with
  | nil => intro _; exact ⟨[], rfl⟩
  | cons row rest ih =>
    intro h
    simp only [enableRows]
    cases hs : syncRefs cfg sl row (refSlots sl) with
    | none => exact absurd hs (h row (by simp))
    | some sync =>
      obtain ⟨more, hm⟩ := ih (fun i hi => h i (by simp [hi]))
      simp [hm]

theorem enableRows_mem (cfg : Cfg) (sl : Slice) :
    ∀ (rows : List Nat) (evs : List Event), enableRows cfg sl rows = some evs →
      ∀ r ∈ rows, Event.enableRowEncoder r ∈ evs := by
  intro rows
  induction rows with
  | nil => intro evs _ r hr; simp at hr
  | cons row rest ih =>
    intro evs h r hr
    simp only [enableRows] at h
    cases hs : syncRefs cfg sl row (refSlots sl) with
    | none => simp [hs] at h
    | some sync =>
      simp only [hs] at h
      cases hm : enableRows cfg sl rest with
      | none => simp [hm] at h
      | some more =>
        simp [hm] at h
        subst h
        rcases List.mem_cons.mp hr with h1 | h1
        · subst h1; simp
        · have := ih more hm r h1
          simp [this]

theorem enableRows_blocked (cfg : Cfg) (sl : Slice) :
    ∀ (rows : List Nat) (r : Nat), r ∈ rows → syncRefs cfg sl r (refSlots sl) = none →
      enableRows cfg sl rows = none := by
  intro rows
  induction rows with
  | nil => intro r hr; simp at hr
  | cons row rest ih =>
    intro r hr hn
    simp only [enableRows]
    rcases List.mem_cons.mp hr with h1 | h1
    · subst h1
      rw [hn]
    · split
      · rfl
      · rw [ih r h1 hn]
        rfl

theorem seqIteration_started (cfg : Cfg) (orc : Collab) (sl : Slice) (fuel i : Nat)
    (s s1 : EncState) (h : seqIteration cfg orc sl fuel i s = some s1) :
    ∃ evs, s1.log = s.log ++ evs
      ∧ (i < cfg.m_numRows → Event.processRowEncoder i ∈ evs) := by
  unfold seqIteration at h
  cases hs2 : seqEncode cfg orc sl fuel i s with
  | none => simp [hs2] at h
  | some s2 =>
    simp only [hs2] at h
    have h2 : ∃ evs, s2.log = s.log ++ evs
        ∧ (i < cfg.m_numRows → Event.processRowEncoder i ∈ evs) := by
      unfold seqEncode at hs2
      split at hs2
      · cases hs : syncRefs cfg sl i (refSlots sl) with
        | none => simp [hs] at hs2
        | some sync =>
          simp only [hs] at hs2
          obtain ⟨w, hw, _⟩ := processRow_encode_log cfg orc fuel i _ s2 hs2
          exact ⟨sync ++ [Event.processRowEncoder i] ++ w, by simp [hw, List.append_assoc],
            fun _ => by simp⟩
      · rename_i hi
        simp at hs2; subst hs2
        exact ⟨[], by simp, fun hc => absurd hc hi⟩
    obtain ⟨e1, hl1, hm1⟩ := h2
    split at h
    · obtain ⟨w, hw, _⟩ := processRow_filter_log cfg orc fuel _ s2 s1 h
      exact ⟨e1 ++ w, by rw [hw, hl1, List.append_assoc],
        fun hi => List.mem_append_left _ (hm1 hi)⟩
    · simp at h; subst h
      exact ⟨e1, hl1, hm1⟩

theorem seqLoop_started (cfg : Cfg) (orc : Collab) (sl : Slice) (fuel : Nat) :
    ∀ (is : List Nat) (s s1 : EncState), seqLoop cfg orc sl fuel is s = some s1 →
      ∃ evs, s1.log = s.log ++ evs
        ∧ ∀ i ∈ is, i < cfg.m_numRows → Event.processRowEncoder i ∈ evs := by
  intro is
  induction is with
  | nil =>
    intro s s1 h
    simp [seqLoop] at h; subst h
    exact ⟨[], by simp, by intro i hi; simp at hi⟩
  | cons i rest ih =>
    intro s s1 h
    simp only [seqLoop] at h
    cases hs2 : seqIteration cfg orc sl fuel i s with
    | none => simp [hs2] at h
    | some s2 =>
      simp only [hs2] at h
      obtain ⟨e1, hl1, hm1⟩ := seqIteration_started cfg orc sl fuel i s s2 hs2
      obtain ⟨e2, hl2, hm2⟩ := ih s2 s1 h
      refine ⟨e1 ++ e2, by rw [hl2, hl1, List.append_assoc], ?_⟩
      intro j hj hlt
      rcases List.mem_cons.mp hj with h1 | h1
      · subst h1
        exact List.mem_append_left _ (hm1 hlt)
      · exact List.mem_append_right _ (hm2 j h1 hlt)

theorem waits_end_iff (cfg : Cfg) (sl : Slice) (r : Nat) :
    (∀ l ref, l < numPredDir sl → ref < sl.m_numRefIdx l →
        ∃ u ∈ observed sl r l ref, Admissible cfg r u)
      ↔ ∃ evs, syncRefs cfg sl r (refSlots sl) = some evs := by
  constructor
  · intro h
    exact syncRefs_total cfg sl r (refSlots sl)
      (fun l ref hm => h l ref ((mem_refSlots_iff sl l ref).mp hm).1
        ((mem_refSlots_iff sl l ref).mp hm).2)
  · rintro ⟨evs, he⟩ l ref hl hr
    obtain ⟨v, w, _, hadm, hobs, _⟩ := syncRefs_complete cfg sl r _ evs he l ref
      (mem_refSlots sl l ref hl hr)
    exact ⟨v, List.getElem?_mem hobs, hadm⟩

theorem compressCTURows_pool_none (cfg : Cfg) (orc : Collab) (sl : Slice) (fuel : Nat)
    (s : EncState) (hp : (cfg.hasPool && cfg.param.bEnableWavefront) = true)
    (he : enableRows cfg sl (List.range cfg.m_numRows) = none) :
    compressCTURows cfg orc sl fuel s = none := by
  unfold compressCTURows
  simp only [hp, if_true, he]

theorem compressCTURows_pool_some (cfg : Cfg) (orc : Collab) (sl : Slice) (fuel : Nat)
    (s : EncState) (evs : List Event)
    (hp : (cfg.hasPool && cfg.param.bEnableWavefront) = true)
    (he : enableRows cfg sl (List.range cfg.m_numRows) = some evs) :
    compressCTURows cfg orc sl fuel s
      = if completionPending (s.log ++ [Event.clearEnabledRowMask, Event.enqueue] ++ evs) then
          some { startRows s with
            log := s.log ++ [Event.clearEnabledRowMask, Event.enqueue] ++ evs
              ++ [Event.completionWait, Event.dequeue] }
        else none := by
  unfold compressCTURows
  simp only [hp, if_true, he, startRows_log]

/-- C2: on both paths of `compressCTURows`, every row `r` is started (its
encoder is enabled on the worker-pool path, processed on the sequential path)
only after, for each reference slot (`l`, `ref`) of the slice, the wait loop on
that reference's reconstruction-row counter has ended; it ends after `w`
waits with the value `v` the counter shows then (the entry number `w` of the
values observed, the first read being number 0), which satisfies
`v == numRows` or `v >= r + refLagRows`, while none of the values observed
before did; so when the first value read is already such a value, the loop
ends with it without waiting. The waits of a row end exactly when each
counter eventually shows such a value.

Worker-pool path: the enabling loop of lines 499-522 gets through all rows
when the waits end, and blocks for good at the first row with a wait that
does not; its events enable every row `0 .. numRows-1`, each after its waits.
The call itself returns only when the completion signal is pending at
line 524, and its log then is the record of the enabling loop between the
calls that frame it.

Sequential path: when the call returns, every row `0 .. numRows-1` has been
processed, each after its waits; and it does return when the waits end,
rate control never asks for a re-encode, and the fuel covers a row. -/
theorem reference_sync (cfg : Cfg) (orc : Collab) (sl : Slice) (fuel : Nat) (s : EncState) :
    (∀ r, (∀ l ref, l < numPredDir sl → ref < sl.m_numRefIdx l →
          ∃ u ∈ observed sl r l ref, Admissible cfg r u)
        ↔ ∃ evs, syncRefs cfg sl r (refSlots sl) = some evs)
      ∧ ((cfg.hasPool && cfg.param.bEnableWavefront) = true →
          ((∀ r, r < cfg.m_numRows → ∀ l ref, l < numPredDir sl → ref < sl.m_numRefIdx l →
              ∃ u ∈ observed sl r l ref, Admissible cfg r u) →
            ∃ evs, enableRows cfg sl (List.range cfg.m_numRows) = some evs)
          ∧ (∀ r l ref, r < cfg.m_numRows → l < numPredDir sl → ref < sl.m_numRefIdx l →
              (∀ u ∈ observed sl r l ref, ¬ Admissible cfg r u) →
              enableRows cfg sl (List.range cfg.m_numRows) = none
                ∧ compressCTURows cfg orc sl fuel s = none)
          ∧ (∀ evs, enableRows cfg sl (List.range cfg.m_numRows) = some evs →
              SyncedStarts cfg sl Event.enableRowEncoder evs
                ∧ (∀ r, r < cfg.m_numRows → Event.enableRowEncoder r ∈ evs)
                ∧ (completionPending
                      (s.log ++ [Event.clearEnabledRowMask, Event.enqueue] ++ evs) = false →
                    compressCTURows cfg orc sl fuel s = none))
          ∧ (∀ s1, compressCTURows cfg orc sl fuel s = some s1 →
              ∃ evs, enableRows cfg sl (List.range cfg.m_numRows) = some evs
                ∧ s1.log = s.log ++ [Event.clearEnabledRowMask, Event.enqueue] ++ evs
                    ++ [Event.completionWait, Event.dequeue]
                ∧ completionPending
                    (s.log ++ [Event.clearEnabledRowMask, Event.enqueue] ++ evs) = true))
      ∧ ((cfg.hasPool && cfg.param.bEnableWavefront) = false →
          (∀ s1, compressCTURows cfg orc sl fuel s = some s1 →
            ∃ evs, s1.log = s.log ++ evs
              ∧ SyncedStarts cfg sl Event.processRowEncoder evs
              ∧ ∀ r, r < cfg.m_numRows → Event.processRowEncoder r ∈ evs)
          ∧ (NoReEncode cfg orc → cfg.m_numCols + 1 ≤ fuel → (∀ r, s.pc r = Pc.loop) →
              (∀ r, r < cfg.m_numRows → ∀ l ref, l < numPredDir sl → ref < sl.m_numRefIdx l →
                ∃ u ∈ observed sl r l ref, Admissible cfg r u) →
              ∃ s1, compressCTURows cfg orc sl fuel s = some s1)) := by
  refine ⟨waits_end_iff cfg sl, ?_, ?_⟩
  · intro hp
    refine ⟨?_, ?_, ?_, ?_⟩
    · intro hw
      exact enableRows_total cfg sl (List.range cfg.m_numRows)
        (fun i hi => by
          obtain ⟨evs, he⟩ := (waits_end_iff cfg sl i).mp (hw i (List.mem_range.mp hi))
          rw [he]; exact fun hc => by cases hc)
    · intro r l ref hr hl href hno
      have hb := enableRows_blocked cfg sl (List.range cfg.m_numRows) r (List.mem_range.mpr hr)
        (syncRefs_blocked cfg sl r (refSlots sl) l ref (mem_refSlots sl l ref hl href) hno)
      exact ⟨hb, compressCTURows_pool_none cfg orc sl fuel s hp hb⟩
    · intro evs he
      refine ⟨enableRows_synced cfg sl _ evs he,
        fun r hr => enableRows_mem cfg sl _ evs he r (List.mem_range.mpr hr), ?_⟩
      intro hn
      rw [compressCTURows_pool_some cfg orc sl fuel s evs hp he, if_neg (by rw [hn]; simp)]
    · intro s1 h
      cases he : enableRows cfg sl (List.range cfg.m_numRows) with
      | none => rw [compressCTURows_pool_none cfg orc sl fuel s hp he] at h; cases h
      | some evs =>
        rw [compressCTURows_pool_some cfg orc sl fuel s evs hp he] at h
        split at h
        · rename_i hpend
          cases h
          exact ⟨evs, rfl, rfl, hpend⟩
        · cases h
  · intro hp
    rw [compressCTURows_seq cfg orc sl fuel s hp]
    constructor
    · intro s1 h
      obtain ⟨evs, hl, hs⟩ := seqLoop_synced cfg orc sl fuel _ _ s1 h
      obtain ⟨evs2, hl2, hm⟩ := seqLoop_started cfg orc sl fuel _ _ s1 h
      have : evs2 = evs := List.append_cancel_left (by rw [← hl2, ← hl])
      subst this
      refine ⟨evs2, by rw [hl, startRows_log], hs, ?_⟩
      intro r hr
      exact hm r (List.mem_range.mpr (by omega)) hr
    · intro hno hf hpc hw
      obtain ⟨s1, h1, _⟩ := seqLoop_total cfg orc sl fuel hno hf
        (fun i hi => by
          obtain ⟨evs, he⟩ := (waits_end_iff cfg sl i).mp (hw i hi)
          rw [he]; exact fun hc => by cases hc)
        (List.range (cfg.m_numRows + filterRowDelay cfg.param)) (startRows s) hpc
      exact ⟨s1, h1⟩

/-- Witness of C2: the 4 by 4 frame with a lag of 3 rows, a P slice with one
reference whose counter shows 1, 2, 3, 4 (so that row 0 waits twice and ends
with 3, and the other rows wait three times and end with 4); worker-pool path
(the enabling loop, and the call when a completion signal is pending) and
sequential path. -/
theorem reference_sync_witness :
    ((demoCfgPool.hasPool && demoCfgPool.param.bEnableWavefront) = true
        ∧ (demoCfg.hasPool && demoCfg.param.bEnableWavefront) = false
        ∧ (∀ r, r < 4 → ∀ l ref, l < numPredDir demoSliceP → ref < demoSliceP.m_numRefIdx l →
            ∃ u ∈ observed demoSliceP r l ref, Admissible demoCfg r u)
        ∧ NoReEncode demoCfg demoCollab ∧ (∀ r, demoState.pc r = Pc.loop))
      ∧ (∃ evs, enableRows demoCfgPool demoSliceP (List.range demoCfgPool.m_numRows) = some evs
          ∧ SyncedStarts demoCfgPool demoSliceP Event.enableRowEncoder evs
          ∧ (∀ r, r < demoCfgPool.m_numRows → Event.enableRowEncoder r ∈ evs)
          ∧ Event.refReady 0 0 0 3 2 ∈ evs ∧ Event.refReady 1 0 0 4 3 ∈ evs
          ∧ compressCTURows demoCfgPool demoCollab demoSliceP 5 demoState = none)
      ∧ (∃ s1, compressCTURows demoCfgPool demoCollab demoSliceP 5
            { demoState with log := [Event.completionTrigger] } = some s1)
      ∧ (∃ s1, compressCTURows demoCfg demoCollab demoSliceP 5 demoState = some s1
          ∧ ∃ evs, s1.log = demoState.log ++ evs
            ∧ SyncedStarts demoCfg demoSliceP Event.processRowEncoder evs
            ∧ ∀ r, r < demoCfg.m_numRows → Event.processRowEncoder r ∈ evs) := by
  have hobs : ∀ r, r < 4 → ∀ l ref, l < numPredDir demoSliceP →
      ref < demoSliceP.m_numRefIdx l →
      ∃ u ∈ observed demoSliceP r l ref, Admissible demoCfg r u := by
    intro r hr l ref _ _
    exact ⟨4, by simp [observed, demoSliceP], Or.inl rfl⟩
  have hP := reference_sync demoCfgPool demoCollab demoSliceP 5 demoState
  have hS := reference_sync demoCfg demoCollab demoSliceP 5 demoState
  refine ⟨⟨by decide, by decide, hobs, Or.inl (by decide), fun _ => rfl⟩, ?_,
    Option.isSome_iff_exists.mp (by decide), ?_⟩
  · obtain ⟨evs, he⟩ := (hP.2.1 (by decide)).1 hobs
    obtain ⟨h1, h2, h3⟩ := (hP.2.1 (by decide)).2.2.1 evs he
    have hev : enableRows demoCfgPool demoSliceP (List.range demoCfgPool.m_numRows)
        = some ([Event.refReady 0 0 0 3 2, Event.enableRowEncoder 0, Event.enqueueRowEncoder 0,
          Event.refReady 1 0 0 4 3, Event.enableRowEncoder 1, Event.pokeIdleThread,
          Event.refReady 2 0 0 4 3, Event.enableRowEncoder 2, Event.pokeIdleThread,
          Event.refReady 3 0 0 4 3, Event.enableRowEncoder 3, Event.pokeIdleThread]) := by
      decide
    rw [hev] at he
    cases he
    exact ⟨_, hev, h1, h2, by simp, by simp, h3 (by decide)⟩
  · obtain ⟨s1, h1⟩ := (hS.2.2 (by decide)).2 (Or.inl (by decide)) (by decide)
      (fun _ => rfl) hobs
    exact ⟨s1, h1, (hS.2.2 (by decide)).1 s1 h1⟩

/-! ## Scheduling view of the pieces of a worker step -/

theorem ctuEncode_sched (cfg : Cfg) (orc : Collab) (row : Nat) (s : EncState) :
    (∀ r1, ((ctuEncode cfg orc row s).1.m_rows r1).completed
        = (if r1 = row then (s.m_rows row).completed + 1 else (s.m_rows r1).completed)
      ∧ ((ctuEncode cfg orc row s).1.m_rows r1).active = (s.m_rows r1).active
      ∧ ((ctuEncode cfg orc row s).1.m_rows r1).busy = (s.m_rows r1).busy)
    ∧ (ctuEncode cfg orc row s).1.pc = s.pc
    ∧ (ctuEncode cfg orc row s).1.m_bAllRowsStop = s.m_bAllRowsStop
    ∧ (ctuEncode cfg orc row s).1.m_vbvResetTriggerRow = s.m_vbvResetTriggerRow := by
  refine ⟨?_, rfl, rfl, rfl⟩
  intro r1
  by_cases h : r1 = row
  · subst h; simp [ctuEncode]
  · simp [ctuEncode, h]

theorem ctuHead_sched (cfg : Cfg) (orc : Collab) (row : Nat) (s : EncState) :
    (∀ r1, ((ctuHead cfg orc row s).1.m_rows r1).completed
        = (if r1 = row then (s.m_rows row).completed + 1 else (s.m_rows r1).completed)
      ∧ ((ctuHead cfg orc row s).1.m_rows r1).active = (s.m_rows r1).active
      ∧ ((ctuHead cfg orc row s).1.m_rows r1).busy = (s.m_rows r1).busy)
    ∧ (ctuHead cfg orc row s).1.pc = s.pc := by
  rw [ctuHead_m_rows, ctuHead_pc]
  exact ⟨(ctuEncode_sched cfg orc row s).1, rfl⟩

theorem ctuHead_flags_of_noReEncode (cfg : Cfg) (orc : Collab) (row : Nat) (s : EncState)
    (h : (ctuHead cfg orc row s).2 = false) :
    (ctuHead cfg orc row s).1.m_bAllRowsStop = s.m_bAllRowsStop
      ∧ (ctuHead cfg orc row s).1.m_vbvResetTriggerRow = s.m_vbvResetTriggerRow := by
  unfold ctuHead vbvCheckpoint at h ⊢
  simp only [] at h ⊢
  split
  · rename_i hv
    rw [if_pos hv] at h
    split
    · rename_i hd
      rw [if_pos hd] at h
      split
      · rename_i hr
        rw [if_pos hr] at h
        simp at h
      · exact ⟨rfl, rfl⟩
    · exact ⟨rfl, rfl⟩
  · exact ⟨rfl, rfl⟩

theorem saoStats_sched (cfg : Cfg) (row col : Nat) (s : EncState) :
    (saoStats cfg row col s).m_rows = s.m_rows ∧ (saoStats cfg row col s).pc = s.pc
      ∧ (saoStats cfg row col s).m_bAllRowsStop = s.m_bAllRowsStop
      ∧ (saoStats cfg row col s).m_vbvResetTriggerRow = s.m_vbvResetTriggerRow := by
  obtain ⟨_, f2, _, _, f5, f6, f7, _, _⟩ := saoStats_frame cfg row col s
  exact ⟨f7, f2, f5, f6⟩

theorem activateNext_sched (cfg : Cfg) (row : Nat) (s : EncState) :
    (∀ r1, ((activateNext cfg row s).m_rows r1).completed = (s.m_rows r1).completed
      ∧ ((activateNext cfg row s).m_rows r1).busy = (s.m_rows r1).busy
      ∧ (((activateNext cfg row s).m_rows r1).active = true
          ↔ ((s.m_rows r1).active = true ∨ (r1 = row + 1 ∧ wantsNextRow cfg row s))))
    ∧ (activateNext cfg row s).pc = s.pc
    ∧ (activateNext cfg row s).m_bAllRowsStop = s.m_bAllRowsStop
    ∧ (activateNext cfg row s).m_vbvResetTriggerRow = s.m_vbvResetTriggerRow := by
  unfold activateNext
  by_cases hw : wantsNextRow cfg row s
  · rw [if_pos hw]
    refine ⟨?_, rfl, rfl, rfl⟩
    intro r1
    by_cases h : r1 = row + 1
    · subst h; simp [hw]
    · simp [h]
  · rw [if_neg hw]
    exact ⟨fun r1 => ⟨rfl, rfl, by simp [hw]⟩, rfl, rfl, rfl⟩

theorem suspendRow_sched (row : Nat) (s : EncState) :
    (∀ r1, ((suspendRow row s).m_rows r1).completed = (s.m_rows r1).completed
      ∧ ((suspendRow row s).m_rows r1).busy = (if r1 = row then false else (s.m_rows r1).busy)
      ∧ ((suspendRow row s).m_rows r1).active
          = (if r1 = row then false else (s.m_rows r1).active))
    ∧ (suspendRow row s).pc = s.pc
    ∧ (suspendRow row s).m_bAllRowsStop = s.m_bAllRowsStop
    ∧ (suspendRow row s).m_vbvResetTriggerRow = s.m_vbvResetTriggerRow := by
  refine ⟨?_, rfl, rfl, rfl⟩
  intro r1
  by_cases h : r1 = row
  · subst h; simp [suspendRow]
  · simp [suspendRow, h]

theorem finishRow_sched (cfg : Cfg) (orc : Collab) (row : Nat) (s : EncState) :
    (∀ r1, ((finishRow cfg orc row s).m_rows r1).completed = (s.m_rows r1).completed
      ∧ ((finishRow cfg orc row s).m_rows r1).busy
          = (if r1 = row then false else (s.m_rows r1).busy)
      ∧ ((finishRow cfg orc row s).m_rows r1).active = (s.m_rows r1).active)
    ∧ (finishRow cfg orc row s).pc = s.pc
    ∧ (finishRow cfg orc row s).m_bAllRowsStop = s.m_bAllRowsStop
    ∧ (finishRow cfg orc row s).m_vbvResetTriggerRow = s.m_vbvResetTriggerRow := by
  refine ⟨?_, rfl, rfl, rfl⟩
  intro r1
  by_cases h : r1 = row
  · subst h; simp [finishRow]
  · simp [finishRow, h]

theorem resetRow_sched (r : Nat) (s : EncState) :
    (∀ r1, ((resetRow r s).m_rows r1).completed
        = (if r1 = r then 0 else (s.m_rows r1).completed)
      ∧ ((resetRow r s).m_rows r1).busy = (s.m_rows r1).busy
      ∧ ((resetRow r s).m_rows r1).active = (s.m_rows r1).active)
    ∧ (resetRow r s).pc = s.pc
    ∧ (resetRow r s).m_bAllRowsStop = s.m_bAllRowsStop
    ∧ (resetRow r s).m_vbvResetTriggerRow = s.m_vbvResetTriggerRow := by
  refine ⟨?_, rfl, rfl, rfl⟩
  intro r1
  by_cases h : r1 = r
  · subst h; simp [resetRow]
  · simp [resetRow, h]

/-! ## A whole frame on the sequential path without VBV -/

theorem Adds.refl_adds (s : EncState) : Adds s s [] := ⟨[], by simp, rfl, by simp⟩

theorem Adds.trans_adds {s s1 s2 : EncState} {a b : List Nat} (h1 : Adds s s1 a) (h2 : Adds s1 s2 b) :
    Adds s s2 (a ++ b) := by
  obtain ⟨e1, h1, g1, k1⟩ := h1
  obtain ⟨e2, h2, g2, k2⟩ := h2
  refine ⟨e1 ++ e2, by rw [h2, h1, List.append_assoc], by rw [List.filterMap_append, g1, g2], ?_⟩
  intro e he
  rcases List.mem_append.mp he with h | h
  · exact k1 e h
  · exact k2 e h

theorem Adds.of_events (s s1 : EncState) (evs : List Event) (h : s1.log = s.log ++ evs)
    (hk : ∀ e ∈ evs, Event.compressed e = none ∧ Event.isSuspend e = false) : Adds s s1 [] := by
  refine ⟨evs, h, ?_, fun e he => (hk e he).2⟩
  rw [List.filterMap_eq_nil_iff]
  exact fun e he => (hk e he).1

theorem ctuHead_novbv (cfg : Cfg) (orc : Collab) (row : Nat) (s : EncState)
    (hv : bIsVbv cfg.param = false) :
    ctuHead cfg orc row s = ((ctuEncode cfg orc row s).1, false) := by
  unfold ctuHead vbvCheckpoint
  simp [hv]

theorem ctuEncode_adds (cfg : Cfg) (orc : Collab) (row : Nat) (s : EncState) :
    Adds s (ctuEncode cfg orc row s).1 [row * cfg.m_numCols + (s.m_rows row).completed] := by
  refine ⟨_, rfl, ?_, ?_⟩
  · unfold encodeEvents
    rw [List.filterMap_append, List.filterMap_append]
    have h1 : List.filterMap Event.compressed
        (seedEvents cfg row (s.m_rows row).completed s) = [] := by
      unfold seedEvents
      split <;> rfl
    rw [h1]
    split <;> rfl
  · intro e he
    unfold encodeEvents at he
    simp only [List.mem_append, List.mem_cons, List.mem_singleton, List.not_mem_nil,
      or_false] at he
    rcases he with (h | h | h) | h
    · unfold seedEvents at h
      split at h
      · simp at h; subst h; rfl
      · simp at h
    · subst h; rfl
    · subst h; rfl
    · split at h
      · simp at h; subst h; rfl
      · simp at h

theorem saoStats_adds (cfg : Cfg) (row col : Nat) (s : EncState) :
    Adds s (saoStats cfg row col s) [] := by
  unfold saoStats
  split
  · exact Adds.of_events _ _ [Event.calcSaoStatsCu_BeforeDblk col row] rfl
      (by intro e he; simp at he; subst he; exact ⟨rfl, rfl⟩)
  · exact Adds.refl_adds s

theorem activateNext_adds (cfg : Cfg) (row : Nat) (s : EncState) :
    Adds s (activateNext cfg row s) [] := by
  unfold activateNext
  split
  · exact Adds.of_events _ _ [Event.enqueueRowEncoder (row + 1)] rfl
      (by intro e he; simp at he; subst he; exact ⟨rfl, rfl⟩)
  · exact Adds.refl_adds s

theorem finishRow_adds (cfg : Cfg) (orc : Collab) (row : Nat) (s : EncState) :
    Adds s (finishRow cfg orc row s) [] := by
  obtain ⟨evs, h1, h2⟩ := finishRow_logExt cfg orc row s
  -- the events of the end of a row are not analyses or suspensions
  unfold finishRow
  simp only []
  refine Adds.of_events _ _ ((if (!cfg.param.bEnableSAO &&
        (cfg.param.bEnableWavefront || decide ((row : Int) = (cfg.m_numRows : Int) - 1))) = true
      then [Event.finishSlice row] else [])
    ++ (if (row : Int) = statsRowCount cfg then
        [Event.rateControlUpdateStats
          (((List.range (row * cfg.m_numCols)).map s.m_frame.m_totalBits).sum)] else [])
    ++ filterTriggers cfg row) ?_ ?_
  · simp only []
    split <;> split <;> simp
  · intro e he
    simp only [List.mem_append] at he
    rcases he with (h | h) | h
    · split at h
      · simp at h; subst h; exact ⟨rfl, rfl⟩
      · simp at h
    · split at h
      · simp at h; subst h; exact ⟨rfl, rfl⟩
      · simp at h
    · unfold filterTriggers at h
      simp only [List.mem_append] at h
      rcases h with h | h
      · split at h
        · simp only [List.mem_append, List.mem_singleton] at h
          rcases h with h | h
          · subst h; exact ⟨rfl, rfl⟩
          · split at h
            · simp at h; subst h; exact ⟨rfl, rfl⟩
            · simp at h
        · simp at h
      · split at h
        · simp only [List.mem_map] at h
          obtain ⟨j, _, rfl⟩ := h
          exact ⟨rfl, rfl⟩
        · simp at h

/-- One iteration of the CTU loop on the sequential path without VBV: the CTU
at column `c` is analysed, the row is not suspended, and the row below is
activated when the second CTU is done. -/
theorem rowLoop_step (cfg : Cfg) (orc : Collab) (r c : Nat) (u : EncState)
    (hv : bIsVbv cfg.param = false) (hinv : RowLoopInv cfg r c u) (hc : c < cfg.m_numCols) :
    ∃ u1, workerStep cfg orc r u = Outcome.running u1 ∧ RowLoopInv cfg r (c + 1) u1
      ∧ Adds u u1 [r * cfg.m_numCols + c]
      ∧ (∀ r1, r1 ≠ r → (u1.m_rows r1).completed = (u.m_rows r1).completed
          ∧ (u1.m_rows r1).busy = (u.m_rows r1).busy
          ∧ ((r1 ≠ r + 1 ∨ cfg.m_numRows ≤ r1) → (u1.m_rows r1).active = (u.m_rows r1).active))
      ∧ u1.pc = u.pc := by
  obtain ⟨i1, i2, i3, i4, i5, i6, i7, i8⟩ := hinv
  have hstep : workerStep cfg orc r u
      = ctuTail cfg r c (ctuEncode cfg orc r u).1 := by
    unfold workerStep
    rw [i5]
    simp only []
    rw [if_pos (by rw [i1]; exact hc), ctuHead_novbv cfg orc r u hv, i1]
    simp
  obtain ⟨a1, a2, a3, a4⟩ := ctuEncode_sched cfg orc r u
  obtain ⟨b1, b2, b3, b4⟩ := saoStats_sched cfg r c (ctuEncode cfg orc r u).1
  obtain ⟨c1, c2, c3, c4⟩ := activateNext_sched cfg r (saoStats cfg r c (ctuEncode cfg orc r u).1)
  -- scheduling fields of the state after activation, in terms of `u`
  have hcomp : ∀ r1, ((activateNext cfg r (saoStats cfg r c (ctuEncode cfg orc r u).1)).m_rows
      r1).completed = (if r1 = r then c + 1 else (u.m_rows r1).completed) := by
    intro r1
    rw [(c1 r1).1, b1, (a1 r1).1, i1]
  have hbusy : ∀ r1, ((activateNext cfg r (saoStats cfg r c (ctuEncode cfg orc r u).1)).m_rows
      r1).busy = (u.m_rows r1).busy := by
    intro r1
    rw [(c1 r1).2.1, b1, (a1 r1).2.2]
  have hwant : wantsNextRow cfg r (saoStats cfg r c (ctuEncode cfg orc r u).1)
      ↔ (c = 1 ∧ r + 1 < cfg.m_numRows) := by
    unfold wantsNextRow
    rw [b1, b3, a3, (a1 r).1, (a1 (r + 1)).1, (a1 (r + 1)).2.1, i1, i6]
    simp only [if_true, if_neg (show r + 1 ≠ r by omega)]
    constructor
    · rintro ⟨⟨h1, h2⟩, h3, h4, _⟩
      have hr1 : r + 1 < cfg.m_numRows := by omega
      obtain ⟨j1, j2⟩ := i8 hr1
      have : ¬ 2 ≤ c := by
        intro h; rw [j2.mpr h] at h3; cases h3
      exact ⟨by omega, hr1⟩
    · rintro ⟨h1, hr1⟩
      obtain ⟨j1, j2⟩ := i8 hr1
      refine ⟨⟨by omega, by omega⟩, ?_, by omega, Or.inl trivial⟩
      cases ha : (u.m_rows (r + 1)).active
      · rfl
      · have := j2.mp ha; omega
  have hnos : ¬ mustSuspend cfg r
      (activateNext cfg r (saoStats cfg r c (ctuEncode cfg orc r u).1)) := by
    unfold mustSuspend
    rw [c3, b3, a3, i6, hcomp r, hcomp (r - 1)]
    rintro (⟨h, _⟩ | ⟨h1, h2, h3⟩)
    · cases h
    · rw [if_neg (by omega), i7 h1] at h3
      simp only [if_true] at h2 h3
      omega
  refine ⟨activateNext cfg r (saoStats cfg r c (ctuEncode cfg orc r u).1), ?_, ?_, ?_, ?_, ?_⟩
  · rw [hstep]; unfold ctuTail; rw [if_neg hnos]
  · refine ⟨by rw [hcomp r]; simp, by omega, by rw [hbusy r, i3], ?_, by rw [c2, b2, a2, i5],
      by rw [c3, b3, a3, i6], ?_, ?_⟩
    · rw [(c1 r).2.2, b1, (a1 r).2.1, i4]; simp
    · intro h1
      rw [hcomp (r - 1), if_neg (by omega)]
      exact i7 h1
    · intro hr1
      obtain ⟨j1, j2⟩ := i8 hr1
      refine ⟨by rw [hcomp (r + 1), if_neg (by omega)]; exact j1, ?_⟩
      rw [(c1 (r + 1)).2.2, b1, (a1 (r + 1)).2.1, hwant, j2]
      constructor
      · rintro (h | ⟨_, h, _⟩) <;> omega
      · intro h
        by_cases h2 : 2 ≤ c
        · exact Or.inl h2
        · exact Or.inr ⟨rfl, by omega, hr1⟩
  · have e1 := ctuEncode_adds cfg orc r u
    rw [i1] at e1
    simpa using (e1.trans_adds (saoStats_adds cfg r c _)).trans_adds (activateNext_adds cfg r _)
  · intro r1 hr1
    refine ⟨by rw [hcomp r1, if_neg hr1], hbusy r1, ?_⟩
    intro h
    have hne : ¬ (r1 = r + 1 ∧ wantsNextRow cfg r (saoStats cfg r c (ctuEncode cfg orc r u).1)) := by
      rintro ⟨h1, h2⟩
      rw [hwant] at h2
      rcases h with h | h <;> omega
    have := (c1 r1).2.2
    rw [b1, (a1 r1).2.1] at this
    cases hu : (u.m_rows r1).active
    · rw [hu] at this
      cases hx : ((activateNext cfg r (saoStats cfg r c (ctuEncode cfg orc r u).1)).m_rows r1).active
      · rfl
      · rw [hx] at this
        rcases this.mp rfl with h3 | h3
        · cases h3
        · exact absurd h3 hne
    · rw [hu] at this
      exact this.mpr (Or.inl rfl)
  · rw [c2, b2, a2]

/-- The scheduling fields of the rows other than `r` are as before, except
that the row below `r` may have been activated. -/
theorem rowLoop_run (cfg : Cfg) (orc : Collab) (r : Nat)
    (hv : bIsVbv cfg.param = false) (hcols : 2 ≤ cfg.m_numCols) :
    ∀ (n c : Nat) (u : EncState) (fuel : Nat), c + n = cfg.m_numCols →
      RowLoopInv cfg r c u → n + 1 ≤ fuel →
      ∃ u1, runWorker cfg orc r fuel u = some u1
        ∧ Adds u u1 (List.range' (r * cfg.m_numCols + c) n)
        ∧ (u1.m_rows r).completed = cfg.m_numCols ∧ (u1.m_rows r).busy = false
        ∧ (u1.m_rows r).active = true
        ∧ (r + 1 < cfg.m_numRows → (u1.m_rows (r + 1)).active = true)
        ∧ (∀ r1, r1 ≠ r → (u1.m_rows r1).completed = (u.m_rows r1).completed
            ∧ (u1.m_rows r1).busy = (u.m_rows r1).busy
            ∧ ((r1 ≠ r + 1 ∨ cfg.m_numRows ≤ r1) →
                (u1.m_rows r1).active = (u.m_rows r1).active))
        ∧ u1.pc = u.pc ∧ u1.m_bAllRowsStop = false := by
  intro n
  induction n with
  | zero =>
    intro c u fuel hcn hinv hf
    obtain ⟨i1, i2, i3, i4, i5, i6, i7, i8⟩ := hinv
    obtain ⟨f, rfl⟩ : ∃ f, fuel = f + 1 := ⟨fuel - 1, by omega⟩
    have hstep : workerStep cfg orc r u = Outcome.returned (finishRow cfg orc r u) := by
      unfold workerStep
      rw [i5]
      simp only []
      rw [if_neg (by rw [i1]; omega)]
    obtain ⟨d1, d2, d3, _⟩ := finishRow_sched cfg orc r u
    refine ⟨finishRow cfg orc r u, by simp only [runWorker, hstep], ?_, ?_, ?_, ?_, ?_, ?_,
      d2, by rw [d3, i6]⟩
    · simpa using finishRow_adds cfg orc r u
    · rw [(d1 r).1, i1]; omega
    · rw [(d1 r).2.1]; simp
    · rw [(d1 r).2.2, i4]
    · intro hr1
      rw [(d1 (r + 1)).2.2]
      exact (i8 hr1).2.mpr (by omega)
    · intro r1 hr1
      exact ⟨(d1 r1).1, by rw [(d1 r1).2.1, if_neg hr1], fun _ => (d1 r1).2.2⟩
  | succ n ih =>
    intro c u fuel hcn hinv hf
    obtain ⟨f, rfl⟩ : ∃ f, fuel = f + 1 := ⟨fuel - 1, by omega⟩
    obtain ⟨u1, hstep, hinv1, hadd, hframe, hpc⟩ :=
      rowLoop_step cfg orc r c u hv hinv (by omega)
    obtain ⟨u2, hrun, hadd2, g1, g2, g3, g4, g5, g6, g7⟩ :=
      ih (c + 1) u1 f (by omega) hinv1 (by omega)
    refine ⟨u2, by simp only [runWorker, hstep]; exact hrun, ?_, g1, g2, g3, g4, ?_,
      by rw [g6, hpc], g7⟩
    · have := hadd.trans_adds hadd2
      rw [List.range'_succ]
      simpa [Nat.add_assoc] using this
    · intro r1 hr1
      obtain ⟨x1, x2, x3⟩ := g5 r1 hr1
      obtain ⟨y1, y2, y3⟩ := hframe r1 hr1
      exact ⟨by rw [x1, y1], by rw [x2, y2], fun h => by rw [x3 h, y3 h]⟩

/-- A row that is ready on the sequential path without VBV is compressed from
its first to its last CTU by one call of `processRowEncoder`. -/
theorem processRowEncoder_row (cfg : Cfg) (orc : Collab) (r fuel : Nat) (t : EncState)
    (hv : bIsVbv cfg.param = false) (hcols : 2 ≤ cfg.m_numCols)
    (hf : cfg.m_numCols + 1 ≤ fuel)
    (hact : (t.m_rows r).active = true) (hbusy : (t.m_rows r).busy = false)
    (hcomp : (t.m_rows r).completed = 0) (hpc : t.pc r = Pc.loop)
    (hstop : t.m_bAllRowsStop = false)
    (habove : r > 0 → (t.m_rows (r - 1)).completed = cfg.m_numCols)
    (hbelow : r + 1 < cfg.m_numRows → (t.m_rows (r + 1)).active = false
      ∧ (t.m_rows (r + 1)).completed = 0) :
    ∃ t1, processRowEncoder cfg orc fuel r t = some t1
      ∧ Adds t t1 (List.range' (r * cfg.m_numCols) cfg.m_numCols)
      ∧ (t1.m_rows r).completed = cfg.m_numCols ∧ (t1.m_rows r).busy = false
      ∧ (t1.m_rows r).active = true
      ∧ (r + 1 < cfg.m_numRows → (t1.m_rows (r + 1)).active = true)
      ∧ (∀ r1, r1 ≠ r → (t1.m_rows r1).completed = (t.m_rows r1).completed
          ∧ (t1.m_rows r1).busy = (t.m_rows r1).busy
          ∧ ((r1 ≠ r + 1 ∨ cfg.m_numRows ≤ r1) →
              (t1.m_rows r1).active = (t.m_rows r1).active))
      ∧ t1.pc = t.pc ∧ t1.m_bAllRowsStop = false := by
  let u : EncState := { t with m_rows := upd t.m_rows r { t.m_rows r with busy := true } }
  have hproc : processRowEncoder cfg orc fuel r t = runWorker cfg orc r fuel u := by
    unfold processRowEncoder enterRow
    simp [hact, hbusy, u]
  have hu : ∀ r1, r1 ≠ r → u.m_rows r1 = t.m_rows r1 := by
    intro r1 h; simp [u, h]
  have hinv : RowLoopInv cfg r 0 u := by
    refine ⟨by simp [u, hcomp], by omega, by simp [u], by simp [u, hact], hpc, hstop, ?_, ?_⟩
    · intro h; rw [hu _ (by omega)]; exact habove h
    · intro h
      rw [hu _ (by omega)]
      obtain ⟨b1, b2⟩ := hbelow h
      exact ⟨b2, by rw [b1]; simp⟩
  obtain ⟨u1, hrun, hadd, g1, g2, g3, g4, g5, g6, g7⟩ :=
    rowLoop_run cfg orc r hv hcols cfg.m_numCols 0 u fuel (by omega) hinv hf
  refine ⟨u1, by rw [hproc]; exact hrun, ?_, g1, g2, g3, g4, ?_, g6, g7⟩
  · obtain ⟨evs, e1, e2, e3⟩ := hadd
    exact ⟨evs, e1, by simpa using e2, e3⟩
  · intro r1 hr1
    rw [← hu r1 hr1]
    exact g5 r1 hr1

theorem SeqInv.of_same (cfg : Cfg) (i : Nat) (s s1 : EncState) (h : SeqInv cfg i s)
    (h1 : s1.m_rows = s.m_rows) (h2 : s1.pc = s.pc) (h3 : s1.m_bAllRowsStop = s.m_bAllRowsStop) :
    SeqInv cfg i s1 := by
  unfold SeqInv at h ⊢
  rw [h1, h2, h3]
  exact h

theorem processRow_filter_inv (cfg : Cfg) (orc : Collab) (fuel j : Nat) (s : EncState) :
    ∃ s1, processRow cfg orc fuel (j * 2 + 1) s = some s1 ∧ s1.m_rows = s.m_rows
      ∧ s1.pc = s.pc ∧ s1.m_bAllRowsStop = s.m_bAllRowsStop ∧ Adds s s1 [] := by
  unfold processRow
  simp only []
  rw [if_neg (by rw [(task_id_filter j).1]; omega), (task_id_filter j).2]
  split
  · refine ⟨_, rfl, rfl, rfl, rfl, ?_⟩
    exact Adds.of_events _ _ [Event.processRowFilter j, Event.enqueueRowFilter (j + 1)]
      (by simp) (by intro e he; simp at he; rcases he with rfl | rfl <;> exact ⟨rfl, rfl⟩)
  · refine ⟨_, rfl, rfl, rfl, rfl, ?_⟩
    exact Adds.of_events _ _ [Event.processRowFilter j, Event.completionTrigger]
      (by simp) (by intro e he; simp at he; rcases he with rfl | rfl <;> exact ⟨rfl, rfl⟩)

theorem seqEncode_inv (cfg : Cfg) (orc : Collab) (sl : Slice) (fuel i : Nat) (s : EncState)
    (hv : bIsVbv cfg.param = false) (hcols : 2 ≤ cfg.m_numCols)
    (hf : cfg.m_numCols + 1 ≤ fuel)
    (hsync : i < cfg.m_numRows → syncRefs cfg sl i (refSlots sl) ≠ none)
    (hinv : SeqInv cfg i s) :
    ∃ s2, seqEncode cfg orc sl fuel i s = some s2 ∧ SeqInv cfg (i + 1) s2
      ∧ Adds s s2 (if i < cfg.m_numRows then List.range' (i * cfg.m_numCols) cfg.m_numCols
          else []) := by
  obtain ⟨v1, v2, v3, v4, v5⟩ := hinv
  unfold seqEncode
  by_cases hi : i < cfg.m_numRows
  · rw [if_pos hi, if_pos hi]
    cases hs : syncRefs cfg sl i (refSlots sl) with
    | none => exact absurd hs (hsync hi)
    | some sync =>
      simp only []
      obtain ⟨w1, w2, w3⟩ := v2 hi
      let t : EncState :=
        { s with log := s.log ++ sync ++ [Event.processRowEncoder i] }
      have hproc : processRow cfg orc fuel (i * 2 + 0) { s with log := s.log ++ sync }
          = processRowEncoder cfg orc fuel i t := by
        unfold processRow
        simp only []
        rw [if_pos (task_id_encode i).1, (task_id_encode i).2]
      have hadd0 : Adds s t [] := by
        refine Adds.of_events s t (sync ++ [Event.processRowEncoder i])
          (by simp [t, List.append_assoc]) ?_
        intro e he
        rcases List.mem_append.mp he with h | h
        · rcases syncRefs_kind cfg sl i _ sync hs e h with ⟨_, _, _, _, rfl⟩ | ⟨_, _, _, rfl⟩
          · exact ⟨rfl, rfl⟩
          · exact ⟨rfl, rfl⟩
        · simp at h; subst h; exact ⟨rfl, rfl⟩
      obtain ⟨t1, hrun, hadd, g1, g2, g3, g4, g5, g6, g7⟩ :=
        processRowEncoder_row cfg orc i fuel t hv hcols hf w1 w2 w3 (v5 i) v4
          (fun h => v1 (i - 1) (by omega) (by omega))
          (fun h => ⟨(v3 (i + 1) (by omega)).1, (v3 (i + 1) (by omega)).2.1⟩)
      refine ⟨t1, by rw [hproc]; exact hrun, ?_, by simpa using hadd0.trans_adds hadd⟩
      refine ⟨?_, ?_, ?_, g7, by intro r; rw [g6]; exact v5 r⟩
      · intro r h1 h2
        by_cases hr : r = i
        · subst hr; exact g1
        · rw [(g5 r hr).1]
          exact v1 r (by omega) h2
      · intro h
        refine ⟨g4 h, ?_, ?_⟩
        · rw [(g5 (i + 1) (by omega)).2.1]; exact (v3 (i + 1) (by omega)).2.2
        · rw [(g5 (i + 1) (by omega)).1]; exact (v3 (i + 1) (by omega)).2.1
      · intro r h
        obtain ⟨x1, x2, x3⟩ := g5 r (by omega)
        obtain ⟨y1, y2, y3⟩ := v3 r (by omega)
        exact ⟨by rw [x3 (Or.inl (by omega))]; exact y1, by rw [x1]; exact y2,
          by rw [x2]; exact y3⟩
  · rw [if_neg hi, if_neg hi]
    refine ⟨s, rfl, ⟨?_, ?_, ?_, v4, v5⟩, Adds.refl_adds s⟩
    · intro r h1 h2; exact v1 r (by omega) h2
    · intro h; omega
    · intro r h; exact v3 r (by omega)

theorem seqIteration_inv (cfg : Cfg) (orc : Collab) (sl : Slice) (fuel i : Nat) (s : EncState)
    (hv : bIsVbv cfg.param = false) (hcols : 2 ≤ cfg.m_numCols)
    (hf : cfg.m_numCols + 1 ≤ fuel)
    (hsync : i < cfg.m_numRows → syncRefs cfg sl i (refSlots sl) ≠ none)
    (hinv : SeqInv cfg i s) :
    ∃ s2, seqIteration cfg orc sl fuel i s = some s2 ∧ SeqInv cfg (i + 1) s2
      ∧ Adds s s2 (if i < cfg.m_numRows then List.range' (i * cfg.m_numCols) cfg.m_numCols
          else []) := by
  obtain ⟨s2, h2, hinv2, hadd2⟩ := seqEncode_inv cfg orc sl fuel i s hv hcols hf hsync hinv
  unfold seqIteration
  rw [h2]
  simp only []
  split
  · obtain ⟨s3, h3, e1, e2, e3, hadd3⟩ :=
      processRow_filter_inv cfg orc fuel (i - filterRowDelay cfg.param) s2
    exact ⟨s3, h3, SeqInv.of_same cfg _ s2 s3 hinv2 e1 e2 e3, by simpa using hadd2.trans_adds hadd3⟩
  · exact ⟨s2, rfl, hinv2, hadd2⟩

theorem seqLoop_inv (cfg : Cfg) (orc : Collab) (sl : Slice) (fuel : Nat)
    (hv : bIsVbv cfg.param = false) (hcols : 2 ≤ cfg.m_numCols)
    (hf : cfg.m_numCols + 1 ≤ fuel)
    (hsync : ∀ i, i < cfg.m_numRows → syncRefs cfg sl i (refSlots sl) ≠ none) :
    ∀ (n i : Nat) (s : EncState), SeqInv cfg i s →
      ∃ s1, seqLoop cfg orc sl fuel (List.range' i n) s = some s1 ∧ SeqInv cfg (i + n) s1
        ∧ Adds s s1 (List.range' (min i cfg.m_numRows * cfg.m_numCols)
            ((min (i + n) cfg.m_numRows - min i cfg.m_numRows) * cfg.m_numCols)) := by
  intro n
  induction n with
  | zero =>
    intro i s hinv
    exact ⟨s, rfl, hinv, by simpa using Adds.refl_adds s⟩
  | succ n ih =>
    intro i s hinv
    rw [List.range'_succ]
    simp only [seqLoop]
    obtain ⟨s2, h2, hinv2, hadd2⟩ :=
      seqIteration_inv cfg orc sl fuel i s hv hcols hf (hsync i) hinv
    rw [h2]
    simp only []
    obtain ⟨s3, h3, hinv3, hadd3⟩ := ih (i + 1) s2 hinv2
    refine ⟨s3, h3, by rw [← Nat.add_assoc, Nat.add_right_comm]; exact hinv3, ?_⟩
    have hadd := hadd2.trans_adds hadd3
    have hidx : i + 1 + n = i + (n + 1) := by omega
    rw [hidx] at hadd
    by_cases hi : i < cfg.m_numRows
    · rw [if_pos hi] at hadd
      have e1 : min i cfg.m_numRows = i := by omega
      have e2 : min (i + 1) cfg.m_numRows = i + 1 := by omega
      rw [e2] at hadd
      rw [e1]
      have e3 : (i + 1) * cfg.m_numCols = i * cfg.m_numCols + cfg.m_numCols := by ring
      rw [e3, List.range'_append_1] at hadd
      have e4 : (min (i + (n + 1)) cfg.m_numRows - (i + 1)) * cfg.m_numCols + cfg.m_numCols
          = (min (i + (n + 1)) cfg.m_numRows - i) * cfg.m_numCols := by
        have : min (i + (n + 1)) cfg.m_numRows - i
            = (min (i + (n + 1)) cfg.m_numRows - (i + 1)) + 1 := by omega
        rw [this]; ring
      rw [e4] at hadd
      exact hadd
    · rw [if_neg hi] at hadd
      have e1 : min i cfg.m_numRows = cfg.m_numRows := by omega
      have e2 : min (i + 1) cfg.m_numRows = cfg.m_numRows := by omega
      have e3 : min (i + (n + 1)) cfg.m_numRows = cfg.m_numRows := by omega
      rw [e2, e3] at hadd
      rw [e1, e3]
      simpa using hadd

theorem ctuTail_nCompress (cfg : Cfg) (row col : Nat) (v s1 : EncState)
    (h : ctuTail cfg row col v = Outcome.running s1
      ∨ ctuTail cfg row col v = Outcome.returned s1) : s1.nCompress = v.nCompress := by
  have f := (saoStats_frame cfg row col v).2.2.2.2.2.2.2.2
  have a := (activateNext_frame cfg row (saoStats cfg row col v)).2.2.2.2.2.2.2
  unfold ctuTail at h
  split at h
  · rcases h with h | h
    · cases h
    · cases h
      show (activateNext cfg row (saoStats cfg row col v)).nCompress = v.nCompress
      rw [a, f]
  · rcases h with h | h
    · cases h
      rw [a, f]
    · cases h

/-- A row that lines 813-816 give up while no rollback is under way has not
reached its last but one column. -/
theorem ctuTail_returned (cfg : Cfg) (row col : Nat) (v s1 : EncState)
    (h : ctuTail cfg row col v = Outcome.returned s1) (hstop : v.m_bAllRowsStop = false) :
    (s1.m_rows row).completed < cfg.m_numCols - 1 := by
  obtain ⟨_, _, _, _, f5, _, f7, _, _⟩ := saoStats_frame cfg row col v
  obtain ⟨_, _, _, _, a5, _, _, _⟩ := activateNext_frame cfg row (saoStats cfg row col v)
  obtain ⟨c1, _⟩ := activateNext_rows cfg row row (saoStats cfg row col v)
  unfold ctuTail at h
  split at h
  · rename_i hsus
    cases h
    rw [(suspendRow_rows row row _).1]
    rcases hsus with ⟨h1, _⟩ | ⟨_, h2, _⟩
    · rw [a5, f5, hstop] at h1
      cases h1
    · exact h2
  · cases h

theorem applyCuQp_totalBits (cfg : Cfg) (orc : Collab) (row cuAddr : Nat) (f : Frame) :
    (applyCuQp cfg orc row cuAddr f).1.m_totalBits = f.m_totalBits := by
  unfold applyCuQp calcQpForCu
  simp only []
  split
  · split <;> split <;> rfl
  · rfl

theorem deriveBaseQp_totalBits (cfg : Cfg) (orc : Collab) (row col : Nat) (s : EncState) :
    (deriveBaseQp cfg orc row col s).m_totalBits = s.m_frame.m_totalBits := by
  unfold deriveBaseQp
  simp only []
  split
  · split <;> split <;> rfl
  · rfl

/-- The coder handed to the analysis of a CTU (the row's own coder) is in the
state of the coder that codes the CTU (the row coder). -/
theorem seedCoders_row_idx (cfg : Cfg) (row col : Nat) (s : EncState) :
    seedCoders cfg row col s row = seedCoders cfg row col s (rowCoderIdx cfg.param row) := by
  unfold seedCoders rowCoderIdx
  cases hw : cfg.param.bEnableWavefront
  · simp only [Bool.false_eq_true, if_false]
    by_cases hr : row = 0
    · subst hr; rfl
    · rw [if_pos hr]
      simp [upd, hr, Ne.symm hr]
  · simp

theorem seedCoders_next (cfg : Cfg) (row col : Nat) (s : EncState) (hcol : col ≠ 0) :
    seedCoders cfg row col s (rowCoderIdx cfg.param row)
      = s.rdEntropyCoders (rowCoderIdx cfg.param row) := by
  unfold seedCoders rowCoderIdx
  cases hw : cfg.param.bEnableWavefront
  · simp only [Bool.false_eq_true, if_false]
    by_cases hr : row = 0
    · subst hr; rfl
    · rw [if_pos hr]
      simp [upd, Ne.symm hr]
  · simp [hcol]

theorem seedCoders_other (cfg : Cfg) (row col r1 : Nat) (s : EncState)
    (hw : cfg.param.bEnableWavefront = true) (h : r1 ≠ row) :
    seedCoders cfg row col s r1 = s.rdEntropyCoders r1 := by
  unfold seedCoders
  rw [if_pos hw]
  split
  · simp [upd, h]
  · rfl

/-- What the coding of one CTU (`ctuEncode`) does to the data the analysis
leaves behind and to the coders. -/
theorem ctuEncode_analysed (cfg : Cfg) (orc : Collab) (row : Nat) (s : EncState) :
    (∃ qp, (ctuEncode cfg orc row s).2
        = orc.compressCU s.nCompress (row * cfg.m_numCols + (s.m_rows row).completed) qp
            (seedCoders cfg row (s.m_rows row).completed s (rowCoderIdx cfg.param row)))
      ∧ (ctuEncode cfg orc row s).1.nCompress = s.nCompress + 1
      ∧ (ctuEncode cfg orc row s).1.m_frame.m_totalBits
          = upd s.m_frame.m_totalBits (row * cfg.m_numCols + (s.m_rows row).completed)
              (ctuEncode cfg orc row s).2.m_totalBits
      ∧ ((ctuEncode cfg orc row s).1.m_rows row).rowStats
          = accumRowStats cfg (ctuEncode cfg orc row s).2 (s.m_rows row).rowStats
      ∧ (∀ r1, r1 ≠ row → (ctuEncode cfg orc row s).1.m_rows r1 = s.m_rows r1)
      ∧ ((ctuEncode cfg orc row s).1.m_rows row).completed = (s.m_rows row).completed + 1
      ∧ (ctuEncode cfg orc row s).1.pc = s.pc
      ∧ (ctuEncode cfg orc row s).1.rdEntropyCoders (rowCoderIdx cfg.param row)
          = orc.encodeCTU
              (seedCoders cfg row (s.m_rows row).completed s (rowCoderIdx cfg.param row))
              (ctuEncode cfg orc row s).2
      ∧ (cfg.param.bEnableWavefront = true → ∀ r1, r1 ≠ row →
          (ctuEncode cfg orc row s).1.rdEntropyCoders r1 = s.rdEntropyCoders r1)
      ∧ ((ctuEncode cfg orc row s).1.m_rows row).bufferEntropyCoder
          = (if cfg.param.bEnableWavefront && decide ((s.m_rows row).completed = 1) then
              { (s.m_rows row).bufferEntropyCoder with
                contexts := ((ctuEncode cfg orc row s).1.rdEntropyCoders
                  (rowCoderIdx cfg.param row)).contexts }
            else (s.m_rows row).bufferEntropyCoder)
      ∧ (ctuEncode cfg orc row s).1.m_bAllRowsStop = s.m_bAllRowsStop := by
  have h1 : ∃ qp, (ctuEncode cfg orc row s).2
      = orc.compressCU s.nCompress (row * cfg.m_numCols + (s.m_rows row).completed) qp
          (seedCoders cfg row (s.m_rows row).completed s (rowCoderIdx cfg.param row)) :=
    ⟨(applyCuQp cfg orc row (row * cfg.m_numCols + (s.m_rows row).completed)
        (deriveBaseQp cfg orc row (s.m_rows row).completed s)).2,
      by rw [← seedCoders_row_idx]; rfl⟩
  refine ⟨h1, rfl, ?_, by simp [ctuEncode], ?_, by simp [ctuEncode], rfl, ?_, ?_, ?_, rfl⟩
  · show upd (applyCuQp cfg orc row _ (deriveBaseQp cfg orc row _ s)).1.m_totalBits _ _ = _
    rw [applyCuQp_totalBits, deriveBaseQp_totalBits]
    rfl
  · intro r1 h
    simp [ctuEncode, h]
  · simp only [ctuEncode, upd_same]
  · intro hw r1 h
    have hidx : rowCoderIdx cfg.param row = row := by simp [rowCoderIdx, hw]
    simp only [ctuEncode]
    rw [hidx, upd_ne _ _ _ _ h, seedCoders_other cfg row _ r1 s hw h]
  · simp [ctuEncode]

/-- What a step of the worker of `row` that codes a CTU does, with VBV off, to
the data the analysis leaves behind and to the coders. -/
theorem workerStep_analysed (cfg : Cfg) (orc : Collab) (row : Nat) (u u1 : EncState)
    (hv : bIsVbv cfg.param = false) (hpc : u.pc row = Pc.loop)
    (hc : (u.m_rows row).completed < cfg.m_numCols)
    (h : workerStep cfg orc row u = Outcome.running u1
      ∨ workerStep cfg orc row u = Outcome.returned u1) :
    ∃ cu, (∃ qp, cu
          = orc.compressCU u.nCompress (row * cfg.m_numCols + (u.m_rows row).completed) qp
              (nextCoder cfg row u))
      ∧ u1.nCompress = u.nCompress + 1
      ∧ u1.m_frame.m_totalBits
          = upd u.m_frame.m_totalBits (row * cfg.m_numCols + (u.m_rows row).completed)
              cu.m_totalBits
      ∧ (u1.m_rows row).rowStats = accumRowStats cfg cu (u.m_rows row).rowStats
      ∧ (∀ r1, r1 ≠ row → (u1.m_rows r1).rowStats = (u.m_rows r1).rowStats
          ∧ (u1.m_rows r1).bufferEntropyCoder = (u.m_rows r1).bufferEntropyCoder)
      ∧ (u1.m_rows row).completed = (u.m_rows row).completed + 1
      ∧ u1.pc = u.pc
      ∧ u1.rdEntropyCoders (rowCoderIdx cfg.param row) = orc.encodeCTU (nextCoder cfg row u) cu
      ∧ nextCoder cfg row u1 = orc.encodeCTU (nextCoder cfg row u) cu
      ∧ (cfg.param.bEnableWavefront = true → ∀ r1, r1 ≠ row →
          u1.rdEntropyCoders r1 = u.rdEntropyCoders r1)
      ∧ (u1.m_rows row).bufferEntropyCoder
          = (if cfg.param.bEnableWavefront && decide ((u.m_rows row).completed = 1) then
              { (u.m_rows row).bufferEntropyCoder with
                contexts := (orc.encodeCTU (nextCoder cfg row u) cu).contexts }
            else (u.m_rows row).bufferEntropyCoder)
      ∧ u1.m_bAllRowsStop = u.m_bAllRowsStop
      ∧ (workerStep cfg orc row u = Outcome.returned u1 → u.m_bAllRowsStop = false →
          (u1.m_rows row).completed < cfg.m_numCols - 1) := by
  have hstep : workerStep cfg orc row u
      = ctuTail cfg row (u.m_rows row).completed (ctuEncode cfg orc row u).1 := by
    unfold workerStep
    rw [hpc]
    simp only []
    rw [if_pos hc, ctuHead_novbv cfg orc row u hv]
    simp
  rw [hstep] at h
  have hnext : nextCoder cfg row u
      = seedCoders cfg row (u.m_rows row).completed u (rowCoderIdx cfg.param row) := by
    unfold nextCoder
    rw [if_pos hc]
  obtain ⟨e1, e2, e3, e4, e5, e6, e7, e8, e9, e10, e11⟩ := ctuEncode_analysed cfg orc row u
  obtain ⟨t, ht, t1, t2, t3, _, t5, _, t7, _⟩ :=
    ctuTail_frame cfg row (u.m_rows row).completed (ctuEncode cfg orc row u).1
  have hn := ctuTail_nCompress cfg row _ _ u1 h
  have htu : t = u1 := by
    rcases h with h | h <;> rcases ht with ht | ht <;> rw [h] at ht <;> cases ht <;> rfl
  subst htu
  have hcoded : t.rdEntropyCoders (rowCoderIdx cfg.param row)
      = orc.encodeCTU (nextCoder cfg row u) (ctuEncode cfg orc row u).2 := by
    rw [t3, e8, hnext]
  have hcomp : (t.m_rows row).completed = (u.m_rows row).completed + 1 := by
    rw [(t7 row).1, e6]
  refine ⟨(ctuEncode cfg orc row u).2, by rw [hnext]; exact e1, by rw [hn, e2], by rw [t1, e3],
    by rw [(t7 row).2.1, e4], ?_, hcomp, by rw [t2, e7], hcoded, ?_, ?_, ?_, by rw [t5, e11], ?_⟩
  · intro r1 h1
    rw [(t7 r1).2.1, (t7 r1).2.2, e5 r1 h1]
    exact ⟨rfl, rfl⟩
  · rw [← hcoded]
    unfold nextCoder
    split
    · rw [seedCoders_next cfg row _ t (by omega)]
    · rfl
  · intro hw r1 h1
    rw [t3, e9 hw r1 h1]
  · rw [(t7 row).2.2, e10, e8, hnext]
  · intro hret hstop
    rw [hstep] at hret
    exact ctuTail_returned cfg row _ _ t hret (by rw [e11]; exact hstop)

theorem accumAll_cons (cfg : Cfg) (cu : CuData) (cus : List CuData) (st : FrameStats) :
    accumAll cfg (cu :: cus) st = accumAll cfg cus (accumRowStats cfg cu st) := rfl

theorem codeAll_cons (orc : Collab) (cu : CuData) (cus : List CuData) (e : Entropy) :
    codeAll orc (cu :: cus) e = codeAll orc cus (orc.encodeCTU e cu) := rfl

theorem finishRow_coder (cfg : Cfg) (orc : Collab) (row : Nat) (s : EncState) :
    (finishRow cfg orc row s).rdEntropyCoders (rowCoderIdx cfg.param row)
        = rowFlush cfg orc row (s.rdEntropyCoders (rowCoderIdx cfg.param row))
      ∧ (∀ r1, r1 ≠ rowCoderIdx cfg.param row →
          (finishRow cfg orc row s).rdEntropyCoders r1 = s.rdEntropyCoders r1) := by
  unfold finishRow rowFlush
  simp only []
  split
  · exact ⟨by simp, fun r1 h1 => by simp [upd, h1]⟩
  · exact ⟨rfl, fun _ _ => rfl⟩

/-- A run of the worker of `row` with VBV off and no rollback under way
analyses and codes the CTUs of the row from its cursor on, one call of
`compressCU` and one of `encodeCTU` each, and leaves their data in the
state. -/
theorem runWorker_analysed (cfg : Cfg) (orc : Collab) (row : Nat)
    (hv : bIsVbv cfg.param = false) :
    ∀ (fuel : Nat) (u s1 : EncState), u.pc row = Pc.loop → u.m_bAllRowsStop = false →
      runWorker cfg orc row fuel u = some s1 →
      ∃ cus : List CuData,
        (u.m_rows row).completed + cus.length = (s1.m_rows row).completed
          ∧ s1.nCompress = u.nCompress + cus.length
          ∧ RowAnalysed cfg orc u.nCompress row (u.m_rows row).completed
              (u.m_rows row).rowStats (nextCoder cfg row u) cus s1
          ∧ (∀ a, (a < row * cfg.m_numCols + (u.m_rows row).completed
                ∨ row * cfg.m_numCols + (u.m_rows row).completed + cus.length ≤ a) →
              s1.m_frame.m_totalBits a = u.m_frame.m_totalBits a)
          ∧ (∀ r1, r1 ≠ row → (s1.m_rows r1).rowStats = (u.m_rows r1).rowStats
              ∧ (s1.m_rows r1).bufferEntropyCoder = (u.m_rows r1).bufferEntropyCoder)
          ∧ ((s1.m_rows row).completed = cfg.m_numCols → 2 ≤ cfg.m_numCols →
              s1.rdEntropyCoders (rowCoderIdx cfg.param row)
                = rowFlush cfg orc row (codeAll orc cus (nextCoder cfg row u)))
          ∧ (cfg.param.bEnableWavefront = true → ∀ r1, r1 ≠ row →
              s1.rdEntropyCoders r1 = u.rdEntropyCoders r1)
          ∧ (cfg.param.bEnableWavefront = true → (u.m_rows row).completed ≤ 1 →
              2 ≤ (u.m_rows row).completed + cus.length →
              (s1.m_rows row).bufferEntropyCoder.contexts
                = (codeAll orc (cus.take (2 - (u.m_rows row).completed))
                    (nextCoder cfg row u)).contexts)
          ∧ (2 ≤ (u.m_rows row).completed →
              (s1.m_rows row).bufferEntropyCoder = (u.m_rows row).bufferEntropyCoder) := by
  intro fuel
  induction fuel with
  | zero => intro u s1 _ _ h; simp [runWorker] at h
  | succ n ih =>
    intro u s1 hpc hstop h
    simp only [runWorker] at h
    by_cases hc : (u.m_rows row).completed < cfg.m_numCols
    · cases hst : workerStep cfg orc row u with
      | blocked => rw [hst] at h; cases h
      | returned u1 =>
        rw [hst] at h
        obtain ⟨cu, c1, c2, c3, c4, c5, c6, _, c8, _, c10, c11, _, c13⟩ :=
          workerStep_analysed cfg orc row u u1 hv hpc hc (Or.inr hst)
        have hlt := c13 hst hstop
        cases h
        refine ⟨[cu], by simp [c6], by simp [c2], ⟨?_, by rw [c4]; rfl⟩, ?_, c5, ?_, c10, ?_, ?_⟩
        · intro i x hi
          cases i with
          | zero =>
            simp at hi; subst hi
            exact ⟨by simpa [codeAll] using c1, by rw [c3]; simp⟩
          | succ i => simp at hi
        · intro a ha
          rw [c3, upd_ne _ _ _ _ (by simp at ha; omega)]
        · intro hfin _
          omega
        · intro hw h1 h2
          have h3 : (u.m_rows row).completed = 1 := by simp at h2; omega
          rw [c11]
          simp [hw, h3, codeAll]
        · intro h2
          rw [c11]
          have : ¬ (u.m_rows row).completed = 1 := by omega
          simp [this]
      | running u1 =>
        rw [hst] at h
        simp only [] at h
        obtain ⟨cu, c1, c2, c3, c4, c5, c6, c7, c8, c9, c10, c11, c12, _⟩ :=
          workerStep_analysed cfg orc row u u1 hv hpc hc (Or.inl hst)
        obtain ⟨cus, d1, d2, ⟨d3, d4⟩, d5, d6, d7, d8, d9, d10⟩ :=
          ih u1 s1 (by rw [c7]; exact hpc) (by rw [c12]; exact hstop) h
        rw [c9] at d3 d7 d9
        refine ⟨cu :: cus, by simp; omega, by simp; omega, ⟨?_, ?_⟩, ?_, ?_, ?_, ?_, ?_, ?_⟩
        · intro i x hi
          cases i with
          | zero =>
            simp at hi; subst hi
            refine ⟨by simpa [codeAll] using c1, ?_⟩
            rw [d5 _ (Or.inl (by omega)), c3]
            simp
          | succ i =>
            simp only [List.getElem?_cons_succ] at hi
            obtain ⟨x1, x2⟩ := d3 i x hi
            rw [c2, c6] at x1
            rw [c6] at x2
            have e1 : u.nCompress + 1 + i = u.nCompress + (i + 1) := by omega
            have e2 : row * cfg.m_numCols + ((u.m_rows row).completed + 1) + i
                = row * cfg.m_numCols + (u.m_rows row).completed + (i + 1) := by omega
            rw [e1, e2] at x1
            rw [e2] at x2
            exact ⟨by simpa [List.take_succ_cons, codeAll_cons] using x1, x2⟩
        · rw [d4, c4, accumAll_cons]
        · intro a ha
          rw [d5 a (by simp at ha; omega), c3, upd_ne _ _ _ _ (by simp at ha; omega)]
        · intro r1 h1
          obtain ⟨x1, x2⟩ := d6 r1 h1
          obtain ⟨y1, y2⟩ := c5 r1 h1
          exact ⟨by rw [x1, y1], by rw [x2, y2]⟩
        · intro hfin h2
          rw [d7 hfin h2, codeAll_cons]
        · intro hw r1 h1
          rw [d8 hw r1 h1, c10 hw r1 h1]
        · intro hw h1 h2
          by_cases h0 : (u.m_rows row).completed = 0
          · have e : 2 - (u.m_rows row).completed = 1 + 1 := by omega
            rw [e, List.take_succ_cons, codeAll_cons]
            have := d9 hw (by omega) (by simp at h2; omega)
            rw [c6, h0] at this
            simpa using this
          · have h3 : (u.m_rows row).completed = 1 := by omega
            have e : 2 - (u.m_rows row).completed = 0 + 1 := by omega
            rw [e, List.take_succ_cons, codeAll_cons]
            rw [d10 (by omega), c11]
            simp [hw, h3, codeAll]
        · intro h2
          rw [d10 (by omega), c11]
          have : ¬ (u.m_rows row).completed = 1 := by omega
          simp [this]
    · have hst : workerStep cfg orc row u = Outcome.returned (finishRow cfg orc row u) := by
        unfold workerStep
        rw [hpc]
        simp only []
        rw [if_neg hc]
      rw [hst] at h
      cases h
      have hnext : nextCoder cfg row u = u.rdEntropyCoders (rowCoderIdx cfg.param row) := by
        unfold nextCoder
        rw [if_neg hc]
      refine ⟨[], by simp [finishRow], rfl, ⟨?_, ?_⟩, fun a _ => rfl, ?_, ?_, ?_, ?_, ?_⟩
      · intro i x hi; simp at hi
      · simp [finishRow, accumAll]
      · intro r1 h1
        simp [finishRow, h1]
      · intro _ _
        rw [(finishRow_coder cfg orc row u).1, hnext]
        rfl
      · intro hw r1 h1
        have hidx : rowCoderIdx cfg.param row = row := by simp [rowCoderIdx, hw]
        exact (finishRow_coder cfg orc row u).2 r1 (by rw [hidx]; exact h1)
      · intro _ h1 h2
        simp at h2
        omega
      · intro _
        simp [finishRow]

theorem nextCoder_enter (cfg : Cfg) (row : Nat) (t : EncState) :
    nextCoder cfg row
        { t with m_rows := upd t.m_rows row { t.m_rows row with busy := true } }
      = nextCoder cfg row t := by
  unfold nextCoder seedCoders
  simp only [upd_same]
  by_cases hr : row = 0
  · subst hr
    simp
  · have : row - 1 ≠ row := by omega
    simp [upd, this]

theorem seedCoders_seeded (cfg : Cfg) (row : Nat) (s : EncState)
    (hw : cfg.param.bEnableWavefront = true) (hr : row ≠ 0) :
    seedCoders cfg row 0 s row
      = { engine := cfg.m_initSliceContext.engine
          contexts := (s.m_rows (row - 1)).bufferEntropyCoder.contexts } := by
  unfold seedCoders
  rw [if_pos hw, if_pos ⟨rfl, hr⟩, upd_same]

theorem processRowEncoder_analysed (cfg : Cfg) (orc : Collab) (row fuel : Nat)
    (t t1 : EncState) (hv : bIsVbv cfg.param = false) (hpc : t.pc row = Pc.loop)
    (hstop : t.m_bAllRowsStop = false)
    (hact : (t.m_rows row).active = true) (hbusy : (t.m_rows row).busy = false)
    (h : processRowEncoder cfg orc fuel row t = some t1) :
    ∃ cus : List CuData,
      (t.m_rows row).completed + cus.length = (t1.m_rows row).completed
        ∧ t1.nCompress = t.nCompress + cus.length
        ∧ RowAnalysed cfg orc t.nCompress row (t.m_rows row).completed
            (t.m_rows row).rowStats (nextCoder cfg row t) cus t1
        ∧ (∀ a, (a < row * cfg.m_numCols + (t.m_rows row).completed
              ∨ row * cfg.m_numCols + (t.m_rows row).completed + cus.length ≤ a) →
            t1.m_frame.m_totalBits a = t.m_frame.m_totalBits a)
        ∧ (∀ r1, r1 ≠ row → (t1.m_rows r1).rowStats = (t.m_rows r1).rowStats
            ∧ (t1.m_rows r1).bufferEntropyCoder = (t.m_rows r1).bufferEntropyCoder)
        ∧ ((t1.m_rows row).completed = cfg.m_numCols → 2 ≤ cfg.m_numCols →
            t1.rdEntropyCoders (rowCoderIdx cfg.param row)
              = rowFlush cfg orc row (codeAll orc cus (nextCoder cfg row t)))
        ∧ (cfg.param.bEnableWavefront = true → ∀ r1, r1 ≠ row →
            t1.rdEntropyCoders r1 = t.rdEntropyCoders r1)
        ∧ (cfg.param.bEnableWavefront = true → (t.m_rows row).completed ≤ 1 →
            2 ≤ (t.m_rows row).completed + cus.length →
            (t1.m_rows row).bufferEntropyCoder.contexts
              = (codeAll orc (cus.take (2 - (t.m_rows row).completed))
                  (nextCoder cfg row t)).contexts) := by
  have hproc : processRowEncoder cfg orc fuel row t
      = runWorker cfg orc row fuel
          { t with m_rows := upd t.m_rows row { t.m_rows row with busy := true } } := by
    unfold processRowEncoder enterRow
    simp [hact, hbusy]
  rw [hproc] at h
  obtain ⟨cus, d1, d2, ⟨d3, d4⟩, d5, d6, d7, d8, d9, _⟩ :=
    runWorker_analysed cfg orc row hv fuel _ t1 (by simpa using hpc) (by simpa using hstop) h
  rw [nextCoder_enter] at d3 d7 d9
  refine ⟨cus, by simpa using d1, d2, ⟨?_, by simpa using d4⟩, ?_, ?_, ?_, ?_, ?_⟩
  · intro i x hi
    simpa using d3 i x hi
  · intro a ha
    simpa using d5 a (by simpa using ha)
  · intro r1 h1
    obtain ⟨x1, x2⟩ := d6 r1 h1
    rw [x1, x2]
    simp [h1]
  · intro hfin h2
    exact d7 hfin h2
  · intro hw r1 h1
    exact d8 hw r1 h1
  · intro hw h1 h2
    simpa using d9 hw (by simpa using h1) (by simpa using h2)

theorem processRow_filter_same (cfg : Cfg) (orc : Collab) (fuel j : Nat) (s s1 : EncState)
    (h : processRow cfg orc fuel (j * 2 + 1) s = some s1) :
    s1.m_rows = s.m_rows ∧ s1.nCompress = s.nCompress ∧ s1.m_frame = s.m_frame
      ∧ s1.rdEntropyCoders = s.rdEntropyCoders := by
  unfold processRow at h
  simp only [] at h
  rw [if_neg (by rw [(task_id_filter _).1]; omega)] at h
  split at h <;> (simp at h; subst h; exact ⟨rfl, rfl, rfl, rfl⟩)

/-- What one iteration of the sequential loop leaves of the compression of
row `i`, with VBV off, when the row is activated and no worker owns it. -/
theorem seqIteration_analysed (cfg : Cfg) (orc : Collab) (sl : Slice) (fuel i : Nat)
    (s s2 : EncState) (hv : bIsVbv cfg.param = false) (hpc : s.pc i = Pc.loop)
    (hstop : s.m_bAllRowsStop = false) (hi : i < cfg.m_numRows)
    (hact : (s.m_rows i).active = true) (hbusy : (s.m_rows i).busy = false)
    (h : seqIteration cfg orc sl fuel i s = some s2) :
    ∃ cus : List CuData,
      (s.m_rows i).completed + cus.length = (s2.m_rows i).completed
        ∧ s2.nCompress = s.nCompress + cus.length
        ∧ RowAnalysed cfg orc s.nCompress i (s.m_rows i).completed
            (s.m_rows i).rowStats (nextCoder cfg i s) cus s2
        ∧ (∀ a, (a < i * cfg.m_numCols + (s.m_rows i).completed
              ∨ i * cfg.m_numCols + (s.m_rows i).completed + cus.length ≤ a) →
            s2.m_frame.m_totalBits a = s.m_frame.m_totalBits a)
        ∧ (∀ r1, r1 ≠ i → (s2.m_rows r1).rowStats = (s.m_rows r1).rowStats
            ∧ (s2.m_rows r1).bufferEntropyCoder = (s.m_rows r1).bufferEntropyCoder)
        ∧ ((s2.m_rows i).completed = cfg.m_numCols → 2 ≤ cfg.m_numCols →
            s2.rdEntropyCoders (rowCoderIdx cfg.param i)
              = rowFlush cfg orc i (codeAll orc cus (nextCoder cfg i s)))
        ∧ (cfg.param.bEnableWavefront = true → ∀ r1, r1 ≠ i →
            s2.rdEntropyCoders r1 = s.rdEntropyCoders r1)
        ∧ (cfg.param.bEnableWavefront = true → (s.m_rows i).completed ≤ 1 →
            2 ≤ (s.m_rows i).completed + cus.length →
            (s2.m_rows i).bufferEntropyCoder.contexts
              = (codeAll orc (cus.take (2 - (s.m_rows i).completed))
                  (nextCoder cfg i s)).contexts) := by
  unfold seqIteration at h
  cases hs1 : seqEncode cfg orc sl fuel i s with
  | none => simp [hs1] at h
  | some s1 =>
    simp only [hs1] at h
    have hfil : s2.m_rows = s1.m_rows ∧ s2.nCompress = s1.nCompress
        ∧ s2.m_frame = s1.m_frame ∧ s2.rdEntropyCoders = s1.rdEntropyCoders := by
      split at h
      · exact processRow_filter_same cfg orc fuel _ s1 s2 h
      · simp at h; subst h; exact ⟨rfl, rfl, rfl, rfl⟩
    obtain ⟨f1, f2, f3, f4⟩ := hfil
    unfold seqEncode at hs1
    rw [if_pos hi] at hs1
    cases hsy : syncRefs cfg sl i (refSlots sl) with
    | none => simp [hsy] at hs1
    | some sync =>
      simp only [hsy] at hs1
      unfold processRow at hs1
      simp only [] at hs1
      rw [if_pos (task_id_encode i).1, (task_id_encode i).2] at hs1
      obtain ⟨cus, a1, a2, ⟨a4, a4b⟩, a5, a6, a7, a8, a9⟩ :=
        processRowEncoder_analysed cfg orc i fuel _ s1 hv (by simpa using hpc)
          (by simpa using hstop) (by simpa using hact) (by simpa using hbusy) hs1
      have hnc : nextCoder cfg i
          { s with log := s.log ++ sync ++ [Event.processRowEncoder i] } = nextCoder cfg i s := rfl
      rw [hnc] at a4 a7 a9
      exact ⟨cus, by rw [f1]; exact a1, by rw [f2]; exact a2,
        ⟨by intro k x hk; rw [f3]; exact a4 k x hk, by rw [f1]; exact a4b⟩,
        by intro a ha; rw [f3]; exact a5 a ha, by intro r1 h1; rw [f1]; exact a6 r1 h1,
        by rw [f1, f4]; exact a7, by rw [f4]; exact a8, by rw [f1]; exact a9⟩

/-- An iteration of the sequential loop past the last row only runs a filter
task. -/
theorem seqIteration_idle (cfg : Cfg) (orc : Collab) (sl : Slice) (fuel i : Nat)
    (s s2 : EncState) (hi : cfg.m_numRows ≤ i)
    (h : seqIteration cfg orc sl fuel i s = some s2) :
    s2.m_rows = s.m_rows ∧ s2.nCompress = s.nCompress ∧ s2.m_frame = s.m_frame
      ∧ s2.rdEntropyCoders = s.rdEntropyCoders := by
  unfold seqIteration seqEncode at h
  rw [if_neg (by omega)] at h
  simp only [] at h
  split at h
  · exact processRow_filter_same cfg orc fuel _ s s2 h
  · simp at h; subst h; exact ⟨rfl, rfl, rfl, rfl⟩

/-- The sequential loop over the iterations `i .. i+n-1`, with VBV off, from a
state in which the rows before `i` are done and the rows from `i` on are
untouched: the rows `i .. i+n-1` are compressed, row after row. -/
theorem seqLoop_analysed (cfg : Cfg) (orc : Collab) (sl : Slice) (fuel : Nat)
    (hv : bIsVbv cfg.param = false) (hcols : 2 ≤ cfg.m_numCols)
    (hf : cfg.m_numCols + 1 ≤ fuel)
    (hsync : ∀ i, i < cfg.m_numRows → syncRefs cfg sl i (refSlots sl) ≠ none) :
    ∀ (n i : Nat) (s s1 : EncState), SeqInv cfg i s →
      seqLoop cfg orc sl fuel (List.range' i n) s = some s1 →
      FrameAnalysed cfg orc s s1 i (i + n) := by
  intro n
  induction n with
  | zero =>
    intro i s s1 _ h
    simp [seqLoop] at h; subst h
    refine ⟨by simp, ?_, fun _ _ => rfl, fun _ _ => rfl, fun _ _ => ⟨rfl, fun _ => rfl⟩⟩
    intro r h1 h2; omega
  | succ n ih =>
    intro i s s1 hinv h
    rw [List.range'_succ] at h
    simp only [seqLoop] at h
    obtain ⟨s2, h2, hinv2, _⟩ := seqIteration_inv cfg orc sl fuel i s hv hcols hf (hsync i) hinv
    rw [h2] at h
    simp only [] at h
    obtain ⟨g1, g2, g3, g4, g5⟩ := ih (i + 1) s2 s1 hinv2 h
    have hj : i + 1 + n = i + (n + 1) := by omega
    rw [hj] at g1 g2 g3 g4
    by_cases hi : i < cfg.m_numRows
    · obtain ⟨w1, w2, hc0⟩ := hinv.2.1 hi
      obtain ⟨cus, c1, c3, ⟨c4, c4b⟩, c5, c6, c7, c8, c9⟩ :=
        seqIteration_analysed cfg orc sl fuel i s s2 hv (hinv.2.2.2.2 i) hinv.2.2.2.1 hi w1 w2 h2
      have hcn : (s2.m_rows i).completed = cfg.m_numCols := hinv2.1 i (by omega) hi
      have hlen : cus.length = cfg.m_numCols := by omega
      have hstart : nextCoder cfg i s = seedCoders cfg i 0 s (rowCoderIdx cfg.param i) := by
        unfold nextCoder
        rw [hc0, if_pos (by omega)]
      have m1 : min i cfg.m_numRows = i := by omega
      have m2 : min (i + 1) cfg.m_numRows = i + 1 := by omega
      have m3 : i + 1 ≤ min (i + (n + 1)) cfg.m_numRows := by omega
      have e1 : (i + 1) * cfg.m_numCols = i * cfg.m_numCols + cfg.m_numCols := by ring
      have e2 : (min (i + (n + 1)) cfg.m_numRows - i) * cfg.m_numCols
          = (min (i + (n + 1)) cfg.m_numRows - (i + 1)) * cfg.m_numCols + cfg.m_numCols := by
        have : min (i + (n + 1)) cfg.m_numRows - i
            = (min (i + (n + 1)) cfg.m_numRows - (i + 1)) + 1 := by omega
        rw [this]; ring
      have e3 : (i + 1) * cfg.m_numCols ≤ min (i + (n + 1)) cfg.m_numRows * cfg.m_numCols :=
        Nat.mul_le_mul_right _ m3
      rw [m2] at g1 g3
      rw [hc0] at c4 c5 c9
      rw [hstart] at c4 c7 c9
      refine ⟨?_, ?_, ?_, ?_, ?_⟩
      · rw [m1, g1, c3, hlen, e2]; omega
      · intro r h1 h2 h3
        by_cases hr : r = i
        · subst hr
          refine ⟨seedCoders cfg r 0 s (rowCoderIdx cfg.param r), cus, hlen, ⟨?_, ?_⟩,
            fun _ => rfl, ?_⟩
          · intro k x hk
            have hkl : k < cus.length := by
              by_contra hge
              rw [List.getElem?_eq_none (by omega)] at hk
              cases hk
            obtain ⟨x1, x2⟩ := c4 k x hk
            refine ⟨by simpa using x1, ?_⟩
            rw [g3 _ (Or.inl (by omega)), x2]
          · rw [g4 r (Or.inl (by omega)), c4b]
          · intro hw
            have hidx : rowCoderIdx cfg.param r = r := by simp [rowCoderIdx, hw]
            refine ⟨fun hlt => absurd hlt (by omega), ?_, ?_⟩
            · rw [(g5 r (by omega)).2 hw]
              have := c7 hcn hcols
              rw [hidx] at this ⊢
              exact this
            · rw [(g5 r (by omega)).1]
              simpa using c9 hw (by omega) (by omega)
        · obtain ⟨start2, cus2, l2, ⟨y1, y2⟩, y3, y4⟩ := g2 r (by omega) h2 h3
          have e4 : (r - i) * cfg.m_numCols
              = (r - (i + 1)) * cfg.m_numCols + cfg.m_numCols := by
            have : r - i = (r - (i + 1)) + 1 := by omega
            rw [this]; ring
          refine ⟨start2, cus2, l2, ⟨?_, ?_⟩, fun he => absurd he hr, ?_⟩
          · intro k x hk
            obtain ⟨x1, x2⟩ := y1 k x hk
            rw [c3, hlen] at x1
            have e5 : s.nCompress + cfg.m_numCols + (r - (i + 1)) * cfg.m_numCols + k
                = s.nCompress + (r - i) * cfg.m_numCols + k := by omega
            rw [e5] at x1
            exact ⟨x1, x2⟩
          · rw [y2, (c6 r hr).1]
          · intro hw
            obtain ⟨z1, z2, z3⟩ := y4 hw
            refine ⟨fun _ => ?_, z2, z3⟩
            by_cases hr1 : r = i + 1
            · subst hr1
              rw [y3 rfl]
              have hidx : rowCoderIdx cfg.param (i + 1) = i + 1 := by simp [rowCoderIdx, hw]
              rw [hidx, seedCoders_seeded cfg (i + 1) s2 hw (by omega)]
              have : i + 1 - 1 = i := by omega
              rw [this, (g5 i (by omega)).1]
            · exact z1 (by omega)
      · intro a ha
        rw [m1] at ha
        rw [g3 a (by omega), c5 a (by omega)]
      · intro r hr
        rw [g4 r (by omega), (c6 r (by omega)).1]
      · intro r hr
        refine ⟨by rw [(g5 r (by omega)).1, (c6 r (by omega)).2], fun hw => ?_⟩
        rw [(g5 r (by omega)).2 hw, c8 hw r (by omega)]
    · obtain ⟨q1, q2, q3, q4⟩ := seqIteration_idle cfg orc sl fuel i s s2 (by omega) h2
      have m1 : min i cfg.m_numRows = cfg.m_numRows := by omega
      have m2 : min (i + 1) cfg.m_numRows = cfg.m_numRows := by omega
      have m3 : min (i + (n + 1)) cfg.m_numRows = cfg.m_numRows := by omega
      rw [m2, m3] at g1 g3
      refine ⟨?_, ?_, ?_, ?_, ?_⟩
      · simp [m1, m3, g1, q2]
      · intro r h1 h2 h3; omega
      · intro a _
        rw [g3 a (by omega), q3]
      · intro r hr
        rw [g4 r (by omega), q1]
      · intro r hr
        refine ⟨by rw [(g5 r (by omega)).1, q1], fun hw => ?_⟩
        rw [(g5 r (by omega)).2 hw, q4]

theorem rowCoderIdx_zero (p : Param) : rowCoderIdx p 0 = 0 := by
  unfold rowCoderIdx
  split <;> rfl

/-- C4: with at least two columns (and any number of rows), VBV off and
freshly initialised rows, the sequential path of `compressCTURows` returns
(when the waits on the references end) with every row's `completed` cursor
equal to `numCols`, and it has compressed each CTU exactly once, in the order
of the addresses:

* `compressCU` has been called `numRows * numCols` times, and for every row
  `r` the CTU at column `c` is what call number `r * numCols + c` (counted
  from the calls made before) returned, a call made for the address
  `r * numCols + c` with the row coder as the coding (`encodeCTU`) of the
  CTUs before it in the row had left it; the bit count of that CTU is what
  the frame holds for the address, and the statistics of row `r` are those of
  its `numCols` CTUs accumulated, in the order of the columns, on what the
  row had; the bit counts of addresses beyond the frame are untouched;
* the coder of row 0 starts as it stands; with wavefront the coder of a row
  `r > 0` starts with the engine state of `m_initSliceContext` and the
  contexts saved in the buffer of row `r-1`, the coder of every row ends as
  the coding of its `numCols` CTUs and the flush of lines 823-824 left it,
  and the buffer of every row holds the contexts its coder had after its
  first two CTUs;
* the record of calls shows the analyses of the addresses
  `0, 1, .., numRows*numCols - 1` in this order, each once, and no row is
  ever suspended. -/
theorem frame_complete (cfg : Cfg) (orc : Collab) (sl : Slice) (fuel : Nat) (s : EncState)
    (hseq : (cfg.hasPool && cfg.param.bEnableWavefront) = false)
    (hcols : 2 ≤ cfg.m_numCols)
    (hv : bIsVbv cfg.param = false) (hfresh : FreshRows s)
    (hf : cfg.m_numCols + 1 ≤ fuel)
    (hsync : ∀ i, i < cfg.m_numRows → syncRefs cfg sl i (refSlots sl) ≠ none) :
    ∃ s1, compressCTURows cfg orc sl fuel s = some s1
      ∧ (∀ r, r < cfg.m_numRows → (s1.m_rows r).completed = cfg.m_numCols)
      ∧ s1.nCompress = s.nCompress + cfg.m_numRows * cfg.m_numCols
      ∧ (∀ r, r < cfg.m_numRows →
          ∃ (start : Entropy) (cus : List CuData), cus.length = cfg.m_numCols
            ∧ RowAnalysed cfg orc (s.nCompress + r * cfg.m_numCols) r 0
                (s.m_rows r).rowStats start cus s1
            ∧ (r = 0 → start = s.rdEntropyCoders 0)
            ∧ (cfg.param.bEnableWavefront = true →
                (0 < r → start =
                  { engine := cfg.m_initSliceContext.engine
                    contexts := (s1.m_rows (r - 1)).bufferEntropyCoder.contexts })
                ∧ s1.rdEntropyCoders r = rowFlush cfg orc r (codeAll orc cus start)
                ∧ (s1.m_rows r).bufferEntropyCoder.contexts
                    = (codeAll orc (cus.take 2) start).contexts))
      ∧ (∀ a, cfg.m_numRows * cfg.m_numCols ≤ a →
          s1.m_frame.m_totalBits a = s.m_frame.m_totalBits a)
      ∧ ∃ evs, s1.log = s.log ++ evs
        ∧ evs.filterMap Event.compressed = List.range (cfg.m_numRows * cfg.m_numCols)
        ∧ (evs.filterMap Event.compressed).length = cfg.m_numRows * cfg.m_numCols
        ∧ ∀ e ∈ evs, Event.isSuspend e = false := by
  rw [compressCTURows_seq cfg orc sl fuel s hseq, List.range_eq_range']
  have hinv0 : SeqInv cfg 0 (startRows s) := by
    refine ⟨by intro r h; omega, ?_, ?_, rfl, fun r => (hfresh r).2.2.2.1⟩
    · intro _
      obtain ⟨f1, f2, f3, _, _⟩ := hfresh 0
      exact ⟨by simp [startRows], by simp [startRows, f3], by simp [startRows, f1]⟩
    · intro r hr
      obtain ⟨f1, f2, f3, _, _⟩ := hfresh r
      have hne : r ≠ 0 := by omega
      exact ⟨by simp [startRows, hne, f2], by simp [startRows, hne, f1],
        by simp [startRows, hne, f3]⟩
  obtain ⟨s1, h1, hinv1, evs, e1, e2, e3⟩ := seqLoop_inv cfg orc sl fuel hv hcols hf hsync
    (cfg.m_numRows + filterRowDelay cfg.param) 0 (startRows s) hinv0
  obtain ⟨a1, a2, a3, _, _⟩ := seqLoop_analysed cfg orc sl fuel hv hcols hf hsync
    (cfg.m_numRows + filterRowDelay cfg.param) 0 (startRows s) s1 hinv0 h1
  have hmin : min (0 + (cfg.m_numRows + filterRowDelay cfg.param)) cfg.m_numRows
      = cfg.m_numRows := by omega
  have hst : ∀ r, ((startRows s).m_rows r).rowStats = (s.m_rows r).rowStats := by
    intro r
    by_cases hr : r = 0
    · subst hr; simp [startRows]
    · simp [startRows, hr]
  refine ⟨s1, h1, ?_, ?_, ?_, ?_, evs, by rw [e1, startRows_log], ?_, ?_, e3⟩
  · intro r hr
    exact hinv1.1 r (by omega) hr
  · rw [a1, hmin]
    simp [startRows]
  · intro r hr
    obtain ⟨start, cus, hl, hra, hp0, hpw⟩ := a2 r (by omega) (by omega) hr
    rw [hst r] at hra
    refine ⟨start, cus, hl, by simpa [startRows] using hra, ?_, fun hw => ?_⟩
    · intro h0
      rw [hp0 h0, rowCoderIdx_zero]
      simp [seedCoders, startRows]
    · obtain ⟨z1, z2, z3⟩ := hpw hw
      exact ⟨z1, z2, z3⟩
  · intro a ha
    rw [hmin] at a3
    exact a3 a (Or.inr ha)
  · rw [e2, hmin, List.range_eq_range']
    simp
  · rw [e2, hmin]
    simp

/-- Witness of C4: 4 rows by 4 columns give exactly 16 CTUs; with the
collaborators of `demoCollab` (every CTU costs 10 bits, 3 of them motion
vector bits and 5 coefficient bits, one intra block at each of the four
depths; coding the CTU at address `a` adds 1 to the engine state and `a + 1`
to the contexts) the frame ends with 16 calls of `compressCU`, 10 bits stored
for each of the 16 addresses, the statistics of four CTUs in every row, the
buffer of every row holding the contexts after its second CTU, and the coder
of every row the contexts after its fourth CTU, counted on from the buffer of
the row above. -/
theorem frame_complete_witness :
    ((demoCfg.hasPool && demoCfg.param.bEnableWavefront) = false ∧ 1 ≤ demoCfg.m_numRows
        ∧ 2 ≤ demoCfg.m_numCols ∧ bIsVbv demoCfg.param = false ∧ FreshRows demoState
        ∧ demoCfg.m_numCols + 1 ≤ 5)
      ∧ (∃ s1, compressCTURows demoCfg demoCollab demoSliceI 5 demoState = some s1
        ∧ (∀ r, r < demoCfg.m_numRows → (s1.m_rows r).completed = demoCfg.m_numCols)
        ∧ s1.nCompress = demoState.nCompress + demoCfg.m_numRows * demoCfg.m_numCols
        ∧ (∀ r, r < demoCfg.m_numRows →
            ∃ (start : Entropy) (cus : List CuData), cus.length = demoCfg.m_numCols
              ∧ RowAnalysed demoCfg demoCollab (demoState.nCompress + r * demoCfg.m_numCols) r 0
                  (demoState.m_rows r).rowStats start cus s1
              ∧ (r = 0 → start = demoState.rdEntropyCoders 0)
              ∧ (demoCfg.param.bEnableWavefront = true →
                  (0 < r → start =
                    { engine := demoCfg.m_initSliceContext.engine
                      contexts := (s1.m_rows (r - 1)).bufferEntropyCoder.contexts })
                  ∧ s1.rdEntropyCoders r
                      = rowFlush demoCfg demoCollab r (codeAll demoCollab cus start)
                  ∧ (s1.m_rows r).bufferEntropyCoder.contexts
                      = (codeAll demoCollab (cus.take 2) start).contexts))
        ∧ (∀ a, demoCfg.m_numRows * demoCfg.m_numCols ≤ a →
            s1.m_frame.m_totalBits a = demoState.m_frame.m_totalBits a)
        ∧ ∃ evs, s1.log = demoState.log ++ evs
          ∧ evs.filterMap Event.compressed = List.range (demoCfg.m_numRows * demoCfg.m_numCols)
          ∧ (evs.filterMap Event.compressed).length = demoCfg.m_numRows * demoCfg.m_numCols
          ∧ ∀ e ∈ evs, Event.isSuspend e = false)
      ∧ (compressCTURows demoCfg demoCollab demoSliceI 5 demoState).map
          (fun s1 => (s1.nCompress, (List.range 17).map s1.m_frame.m_totalBits,
            (List.range 4).map (fun r => ((s1.m_rows r).rowStats, s1.rdEntropyCoders r,
              (s1.m_rows r).bufferEntropyCoder))))
        = some (16, [10, 10, 10, 10, 10, 10, 10, 10, 10, 10, 10, 10, 10, 10, 10, 10, 0],
            [(⟨12, 20, 8, 340, 0, 0⟩, ⟨4, 10⟩, ⟨0, 3⟩), (⟨12, 20, 8, 340, 0, 0⟩, ⟨4, 29⟩, ⟨0, 14⟩),
              (⟨12, 20, 8, 340, 0, 0⟩, ⟨4, 56⟩, ⟨0, 33⟩),
              (⟨12, 20, 8, 340, 0, 0⟩, ⟨4, 91⟩, ⟨0, 60⟩)]) :=
  ⟨⟨by decide, by decide, by decide, by decide, fun _ => ⟨rfl, rfl, rfl, rfl, rfl⟩, by decide⟩,
    frame_complete demoCfg demoCollab demoSliceI 5 demoState (by decide)
      (by decide) (by decide) (fun _ => ⟨rfl, rfl, rfl, rfl, rfl⟩) (by decide)
      (fun i _ => by simp [refSlots, numPredDir, demoSliceI, syncRefs]),
    by decide⟩

/-! ## The staircase under concurrent workers -/

/-- The staircase over several rows: a row `a + d` that has completed
something is at least `d` CTUs behind row `a`, unless row `a` is done. -/
theorem stair_chain (cfg : Cfg) (s : EncState) (hb : BaseInv cfg s) :
    ∀ (d a : Nat), 1 ≤ d → a + d < cfg.m_numRows →
      (s.m_rows (a + d)).completed = 0 ∨ (s.m_rows a).completed = cfg.m_numCols
        ∨ (s.m_rows (a + d)).completed + d ≤ (s.m_rows a).completed := by
  intro d
  induction d with
  | zero => intro a h; omega
  | succ d ih =>
    intro a _ hlt
    have hs := hb.stair (a + (d + 1)) (by omega) hlt
    have e : a + (d + 1) - 1 = a + d := by omega
    rw [e] at hs
    by_cases hd : d = 0
    · subst hd
      simpa using hs
    · have hc := ih a (by omega) (by omega)
      have b1 := hb.bound (a + d)
      have b2 := hb.bound a
      have b3 := hb.bound (a + (d + 1))
      omega

/-- While the worker of row `k` is in the rollback loop, no other row stands
at its diagonal checkpoint. -/
theorem no_second_rollback (cfg : Cfg) (s : EncState) (hb : BaseInv cfg s) (k j r : Nat)
    (hk : k < cfg.m_numRows) (hroll : InRollback s k j) (hr : r < cfg.m_numRows)
    (hne : r ≠ k) (hdiag : (s.m_rows r).completed = r) (hcol : r < cfg.m_numCols)
    (hr1 : 1 ≤ r) : False := by
  obtain ⟨_, _, _, _, _, hck, hk1, _, _⟩ := hb.rollback k j hk hroll
  by_cases h : k < r
  · have := stair_chain cfg s hb (r - k) k (by omega) (by omega)
    have e : k + (r - k) = r := by omega
    rw [e] at this
    omega
  · have := stair_chain cfg s hb (k - r) r (by omega) (by omega)
    have e : r + (k - r) = k := by omega
    rw [e] at this
    omega

theorem InRollback.congr {s s1 : EncState} {k j : Nat} (h : s1.pc = s.pc) :
    InRollback s1 k j ↔ InRollback s k j := by
  unfold InRollback; rw [h]

/-- The end of an iteration (lines 791-817) re-establishes the invariant. -/
theorem tail_inv (cfg : Cfg) (row col : Nat) (v s1 : EncState) (hp : PreTail cfg row v)
    (h : ctuTail cfg row col v = Outcome.running s1
      ∨ ctuTail cfg row col v = Outcome.returned s1) :
    SchedInv cfg s1 := by
  obtain ⟨hbase, hready, ⟨hbusy, hpc, hrow⟩, hweak⟩ := hp
  obtain ⟨b1, b2, b3, b4⟩ := saoStats_sched cfg row col v
  obtain ⟨c1, c2, c3, c4⟩ := activateNext_sched cfg row (saoStats cfg row col v)
  -- the state after the activation of the next row
  have xcomp : ∀ r, ((activateNext cfg row (saoStats cfg row col v)).m_rows r).completed
      = (v.m_rows r).completed := by intro r; rw [(c1 r).1, b1]
  have xbusy : ∀ r, ((activateNext cfg row (saoStats cfg row col v)).m_rows r).busy
      = (v.m_rows r).busy := by intro r; rw [(c1 r).2.1, b1]
  have xact : ∀ r, ((activateNext cfg row (saoStats cfg row col v)).m_rows r).active = true
      ↔ ((v.m_rows r).active = true
          ∨ (r = row + 1 ∧ wantsNextRow cfg row (saoStats cfg row col v))) := by
    intro r; rw [(c1 r).2.2, b1]
  have xpc : (activateNext cfg row (saoStats cfg row col v)).pc = v.pc := by rw [c2, b2]
  have xstop : (activateNext cfg row (saoStats cfg row col v)).m_bAllRowsStop
      = v.m_bAllRowsStop := by rw [c3, b3]
  have xtrig : (activateNext cfg row (saoStats cfg row col v)).m_vbvResetTriggerRow
      = v.m_vbvResetTriggerRow := by rw [c4, b4]
  -- what activation means
  have hwant : wantsNextRow cfg row (saoStats cfg row col v) →
      (v.m_rows (row + 1)).completed + 2 ≤ (v.m_rows row).completed
        ∧ row + 1 < cfg.m_numRows
        ∧ (v.m_bAllRowsStop = false ∨ (row : Int) + 1 < v.m_vbvResetTriggerRow) := by
    unfold wantsNextRow
    rw [b1, b3, b4]
    rintro ⟨⟨_, h2⟩, _, h4, h5⟩
    exact ⟨h4, by omega, h5⟩
  -- rows that a rollback in progress covers are not activated
  have hnoact : ∀ k j m, k < cfg.m_numRows → InRollback v k j → k ≤ m →
      ¬ (m = row + 1 ∧ wantsNextRow cfg row (saoStats cfg row col v)) := by
    rintro k j m hk hroll hkm ⟨rfl, hw⟩
    obtain ⟨_, r2, r3, _⟩ := hbase.rollback k j hk hroll
    obtain ⟨_, _, h5⟩ := hwant hw
    rw [r2, r3] at h5
    rcases h5 with h5 | h5
    · cases h5
    · omega
  have xbase : BaseInv cfg (activateNext cfg row (saoStats cfg row col v)) := by
    refine ⟨fun r => by rw [xcomp r]; exact hbase.bound r, ?_, ?_⟩
    · intro r h0 hr
      rw [xcomp r, xcomp (r - 1)]
      exact hbase.stair r h0 hr
    · intro k j hk hroll
      rw [InRollback.congr xpc] at hroll
      obtain ⟨r1, r2, r3, r4, r5, r6, r7, r8, r9⟩ := hbase.rollback k j hk hroll
      refine ⟨by rw [xbusy k]; exact r1, by rw [xstop]; exact r2, by rw [xtrig]; exact r3,
        r4, r5, by rw [xcomp k]; exact r6, r7, ?_, ?_⟩
      · intro m hjm hm
        obtain ⟨m1, m2, m3⟩ := r8 m hjm hm
        refine ⟨?_, by rw [xbusy m]; exact m2, by rw [xcomp m]; exact m3⟩
        cases hx : ((activateNext cfg row (saoStats cfg row col v)).m_rows m).active
        · rfl
        · rcases (xact m).mp hx with h1 | h1
          · rw [m1] at h1; cases h1
          · exact absurd h1 (hnoact k j m hk hroll (by omega))
      · intro hw
        rw [xpc] at hw
        obtain ⟨w1, w2⟩ := r9 hw
        refine ⟨w1, ?_⟩
        cases hx : ((activateNext cfg row (saoStats cfg row col v)).m_rows j).active
        · rfl
        · rcases (xact j).mp hx with h1 | h1
          · rw [w2] at h1; cases h1
          · exact absurd h1 (hnoact k j j hk hroll r4)
  have xready : ∀ r, 0 < r → r < cfg.m_numRows → r ≠ row →
      RowReady cfg (activateNext cfg row (saoStats cfg row col v)) r := by
    intro r h0 hr hne
    unfold RowReady
    rw [xbusy r, xpc, xcomp r, xcomp (r - 1)]
    intro hab hloop
    by_cases hnew : r = row + 1 ∧ wantsNextRow cfg row (saoStats cfg row col v)
    · obtain ⟨rfl, hw⟩ := hnew
      obtain ⟨h1, _, _⟩ := hwant hw
      have e : row + 1 - 1 = row := by omega
      rw [e]
      omega
    · have hab2 : (v.m_rows r).active = true ∨ (v.m_rows r).busy = true := by
        rcases hab with h1 | h1
        · rcases (xact r).mp h1 with h2 | h2
          · exact Or.inl h2
          · exact absurd h2 hnew
        · exact Or.inr h1
      exact hready r h0 hr hne hab2 hloop
  unfold ctuTail at h
  by_cases hsus : mustSuspend cfg row (activateNext cfg row (saoStats cfg row col v))
  · rw [if_pos hsus] at h
    rcases h with h | h
    · cases h
    · cases h
      obtain ⟨d1, d2, d3, d4⟩ :=
        suspendRow_sched row (activateNext cfg row (saoStats cfg row col v))
      refine ⟨⟨fun r => by rw [(d1 r).1]; exact xbase.bound r, ?_, ?_⟩, ?_⟩
      · intro r h0 hr
        rw [(d1 r).1, (d1 (r - 1)).1]
        exact xbase.stair r h0 hr
      · intro k j hk hroll
        rw [InRollback.congr d2] at hroll
        obtain ⟨r1, r2, r3, r4, r5, r6, r7, r8, r9⟩ := xbase.rollback k j hk hroll
        have hkrow : k ≠ row := by
          intro he
          subst he
          rw [InRollback.congr xpc] at hroll
          rcases hroll with h1 | h1 <;> (rw [hpc] at h1; cases h1)
        refine ⟨by rw [(d1 k).2.1, if_neg hkrow]; exact r1, by rw [d3]; exact r2,
          by rw [d4]; exact r3, r4, r5, by rw [(d1 k).1]; exact r6, r7, ?_, ?_⟩
        · intro m hjm hm
          obtain ⟨m1, m2, m3⟩ := r8 m hjm hm
          refine ⟨?_, ?_, by rw [(d1 m).1]; exact m3⟩
          · rw [(d1 m).2.2]; split <;> [rfl; exact m1]
          · rw [(d1 m).2.1]; split <;> [rfl; exact m2]
        · intro hw
          rw [d2] at hw
          obtain ⟨w1, w2⟩ := r9 hw
          refine ⟨w1, ?_⟩
          rw [(d1 j).2.2]; split <;> [rfl; exact w2]
      · intro r h0 hr
        unfold RowReady
        by_cases hne : r = row
        · subst hne
          rw [(d1 r).2.1, (d1 r).2.2]
          simp
        · have := xready r h0 hr hne
          unfold RowReady at this
          rw [(d1 r).2.1, (d1 r).2.2, if_neg hne, if_neg hne, d2, (d1 r).1, (d1 (r - 1)).1]
          exact this
  · rw [if_neg hsus] at h
    rcases h with h | h
    · cases h
      refine ⟨xbase, ?_⟩
      intro r h0 hr
      by_cases hne : r = row
      · subst hne
        unfold RowReady
        rw [xcomp r, xcomp (r - 1)]
        intro _ _
        have hw := hweak h0
        unfold mustSuspend at hsus
        rw [xcomp r, xcomp (r - 1)] at hsus
        have h2 : ¬ (r > 0 ∧ (v.m_rows r).completed < cfg.m_numCols - 1
            ∧ (v.m_rows (r - 1)).completed < (v.m_rows r).completed + 2) :=
          fun hx => hsus (Or.inr hx)
        have hb2 := hbase.bound r
        omega
      · exact xready r h0 hr hne
    · cases h

theorem rollback_unique (cfg : Cfg) (s : EncState) (hb : BaseInv cfg s) (k j k1 j1 : Nat)
    (hk : k < cfg.m_numRows) (hk1 : k1 < cfg.m_numRows) (h : InRollback s k j)
    (h1 : InRollback s k1 j1) : k = k1 := by
  obtain ⟨_, _, r3, _⟩ := hb.rollback k j hk h
  obtain ⟨_, _, q3, _⟩ := hb.rollback k1 j1 hk1 h1
  rw [r3] at q3
  exact_mod_cast q3

theorem not_inRollback_of_loop (s : EncState) (k j : Nat) (h : s.pc k = Pc.loop) :
    ¬ InRollback s k j := by
  rintro (h1 | h1) <;> (rw [h] at h1; cases h1)

/-- An iteration that ends without a re-encode request: the state before
lines 791-817. -/
theorem head_pretail (cfg : Cfg) (orc : Collab) (row : Nat) (s : EncState)
    (hinv : SchedInv cfg s) (hrow : row < cfg.m_numRows) (hbusy : (s.m_rows row).busy = true)
    (hpc : s.pc row = Pc.loop) (hcol : (s.m_rows row).completed < cfg.m_numCols)
    (hre : (ctuHead cfg orc row s).2 = false) : PreTail cfg row (ctuHead cfg orc row s).1 := by
  obtain ⟨a1, a2⟩ := ctuHead_sched cfg orc row s
  obtain ⟨a3, a4⟩ := ctuHead_flags_of_noReEncode cfg orc row s hre
  obtain ⟨⟨hbound, hstair, hroll⟩, hready⟩ := hinv
  have hrdy : 0 < row → min ((s.m_rows row).completed + 2) cfg.m_numCols
      ≤ (s.m_rows (row - 1)).completed := fun h0 => hready row h0 hrow (Or.inr hbusy) hpc
  refine ⟨⟨?_, ?_, ?_⟩, ?_, ⟨by rw [(a1 row).2.2]; exact hbusy, by rw [a2]; exact hpc, hrow⟩, ?_⟩
  · intro r
    rw [(a1 r).1]
    have := hbound r
    split
    · omega
    · exact this
  · intro r h0 hr
    rw [(a1 r).1, (a1 (r - 1)).1]
    have hs := hstair r h0 hr
    have hb1 := hbound (r - 1)
    by_cases h1 : r = row
    · subst h1
      rw [if_pos rfl, if_neg (by omega)]
      have := hrdy h0
      omega
    · rw [if_neg h1]
      by_cases h2 : r - 1 = row
      · rw [if_pos h2]
        rw [h2] at hs
        omega
      · rw [if_neg h2]
        exact hs
  · intro k j hk hr
    rw [InRollback.congr a2] at hr
    have hkrow : k ≠ row := fun he => not_inRollback_of_loop s k j (he ▸ hpc) hr
    obtain ⟨r1, r2, r3, r4, r5, r6, r7, r8, r9⟩ := hroll k j hk hr
    refine ⟨by rw [(a1 k).2.2]; exact r1, by rw [a3]; exact r2, by rw [a4]; exact r3, r4, r5,
      by rw [(a1 k).1, if_neg hkrow]; exact r6, r7, ?_, ?_⟩
    · intro m hjm hm
      obtain ⟨m1, m2, m3⟩ := r8 m hjm hm
      have hmrow : m ≠ row := by
        intro he; subst he; rw [hbusy] at m2; cases m2
      exact ⟨by rw [(a1 m).2.1]; exact m1, by rw [(a1 m).2.2]; exact m2,
        by rw [(a1 m).1, if_neg hmrow]; exact m3⟩
    · intro hw
      rw [a2] at hw
      obtain ⟨w1, w2⟩ := r9 hw
      exact ⟨w1, by rw [(a1 j).2.1]; exact w2⟩
  · intro r h0 hr hne
    unfold RowReady
    rw [(a1 r).2.1, (a1 r).2.2, a2, (a1 r).1, (a1 (r - 1)).1, if_neg hne]
    intro hab hloop
    have := hready r h0 hr hab hloop
    split
    · rename_i h2
      rw [h2] at this
      omega
    · exact this
  · intro h0
    rw [(a1 row).1, (a1 (row - 1)).1, if_pos rfl, if_neg (by omega)]
    have := hrdy h0
    omega

/-- An iteration at whose checkpoint a re-encode is asked for: the state in
which the rollback loop starts. -/
theorem head_rollback_inv (cfg : Cfg) (orc : Collab) (row : Nat) (s : EncState)
    (hinv : SchedInv cfg s) (hrow : row < cfg.m_numRows) (hbusy : (s.m_rows row).busy = true)
    (hpc : s.pc row = Pc.loop) (hcol : (s.m_rows row).completed < cfg.m_numCols)
    (hre : (ctuHead cfg orc row s).2 = true) :
    SchedInv cfg { (ctuHead cfg orc row s).1 with
      pc := upd (ctuHead cfg orc row s).1.pc row (Pc.rbDeactivate (cfg.m_numRows - 1)) } := by
  obtain ⟨a1, a2⟩ := ctuHead_sched cfg orc row s
  obtain ⟨_, e2, e3, e4, e5⟩ := ctuHead_reEncode cfg orc row s hre
  have hbase := hinv.base
  obtain ⟨⟨hbound, hstair, hroll⟩, hready⟩ := hinv
  have hrdy : 0 < row → min ((s.m_rows row).completed + 2) cfg.m_numCols
      ≤ (s.m_rows (row - 1)).completed := fun h0 => hready row h0 hrow (Or.inr hbusy) hpc
  have hnone : ∀ k j, k < cfg.m_numRows → ¬ InRollback s k j := by
    intro k j hk hr
    have hkrow : k ≠ row := fun he => not_inRollback_of_loop s k j (he ▸ hpc) hr
    exact no_second_rollback cfg s hbase k j row hk hr hrow (Ne.symm hkrow) e2.symm
      (by omega) (by omega)
  refine ⟨⟨?_, ?_, ?_⟩, ?_⟩
  · intro r
    show ((ctuHead cfg orc row s).1.m_rows r).completed ≤ cfg.m_numCols
    rw [(a1 r).1]
    have := hbound r
    split
    · omega
    · exact this
  · intro r h0 hr
    show ((ctuHead cfg orc row s).1.m_rows r).completed = 0
      ∨ ((ctuHead cfg orc row s).1.m_rows (r - 1)).completed = cfg.m_numCols
      ∨ ((ctuHead cfg orc row s).1.m_rows r).completed + 1
          ≤ ((ctuHead cfg orc row s).1.m_rows (r - 1)).completed
    rw [(a1 r).1, (a1 (r - 1)).1]
    have hs := hstair r h0 hr
    have hb1 := hbound (r - 1)
    by_cases h1 : r = row
    · subst h1
      rw [if_pos rfl, if_neg (by omega)]
      have := hrdy h0
      omega
    · rw [if_neg h1]
      by_cases h2 : r - 1 = row
      · rw [if_pos h2]
        rw [h2] at hs
        omega
      · rw [if_neg h2]
        exact hs
  · intro k j hk hr
    by_cases hkrow : k = row
    · subst hkrow
      have hj : j = cfg.m_numRows - 1 := by
        rcases hr with h1 | h1
        · simp at h1; exact h1.symm
        · simp at h1
      subst hj
      refine ⟨?_, e4, e5, by omega, by omega, ?_, by omega, ?_, ?_⟩
      · show ((ctuHead cfg orc k s).1.m_rows k).busy = true
        rw [(a1 k).2.2]; exact hbusy
      · show ((ctuHead cfg orc k s).1.m_rows k).completed = k + 1
        rw [(a1 k).1, if_pos rfl]; omega
      · intro m h1 h2; omega
      · intro hw; simp at hw
    · exfalso
      apply hnone k j hk
      rcases hr with h1 | h1
      · left; simpa [hkrow, a2] using h1
      · right; simpa [hkrow, a2] using h1
  · intro r h0 hr
    unfold RowReady
    by_cases hne : r = row
    · subst hne
      intro _ hloop
      simp at hloop
    · show (((ctuHead cfg orc row s).1.m_rows r).active = true
          ∨ ((ctuHead cfg orc row s).1.m_rows r).busy = true) →
        upd (ctuHead cfg orc row s).1.pc row (Pc.rbDeactivate (cfg.m_numRows - 1)) r = Pc.loop →
        min (((ctuHead cfg orc row s).1.m_rows r).completed + 2) cfg.m_numCols
          ≤ ((ctuHead cfg orc row s).1.m_rows (r - 1)).completed
      rw [(a1 r).2.1, (a1 r).2.2, upd_ne _ _ _ _ hne, a2, (a1 r).1, (a1 (r - 1)).1, if_neg hne]
      intro hab hloop
      have := hready r h0 hr hab hloop
      split
      · rename_i h2
        rw [h2] at this
        omega
      · exact this

/-- The end of a row (lines 820-869) keeps the invariant. -/
theorem finish_inv (cfg : Cfg) (orc : Collab) (row : Nat) (s : EncState)
    (hinv : SchedInv cfg s) (hpc : s.pc row = Pc.loop) :
    SchedInv cfg (finishRow cfg orc row s) := by
  obtain ⟨d1, d2, d3, d4⟩ := finishRow_sched cfg orc row s
  obtain ⟨⟨hbound, hstair, hroll⟩, hready⟩ := hinv
  refine ⟨⟨fun r => by rw [(d1 r).1]; exact hbound r, ?_, ?_⟩, ?_⟩
  · intro r h0 hr
    rw [(d1 r).1, (d1 (r - 1)).1]
    exact hstair r h0 hr
  · intro k j hk hr
    rw [InRollback.congr d2] at hr
    have hkrow : k ≠ row := fun he => not_inRollback_of_loop s k j (he ▸ hpc) hr
    obtain ⟨r1, r2, r3, r4, r5, r6, r7, r8, r9⟩ := hroll k j hk hr
    refine ⟨by rw [(d1 k).2.1, if_neg hkrow]; exact r1, by rw [d3]; exact r2,
      by rw [d4]; exact r3, r4, r5, by rw [(d1 k).1]; exact r6, r7, ?_, ?_⟩
    · intro m hjm hm
      obtain ⟨m1, m2, m3⟩ := r8 m hjm hm
      refine ⟨by rw [(d1 m).2.2]; exact m1, ?_, by rw [(d1 m).1]; exact m3⟩
      rw [(d1 m).2.1]; split <;> [rfl; exact m2]
    · intro hw
      rw [d2] at hw
      obtain ⟨w1, w2⟩ := r9 hw
      exact ⟨w1, by rw [(d1 j).2.2]; exact w2⟩
  · intro r h0 hr
    unfold RowReady
    rw [(d1 r).2.1, (d1 r).2.2, d2, (d1 r).1, (d1 (r - 1)).1]
    intro hab hloop
    apply hready r h0 hr _ hloop
    rcases hab with h | h
    · exact Or.inl h
    · split at h
      · cases h
      · exact Or.inr h

/-- The entry guard (lines 590-609) keeps the invariant. -/
theorem enter_inv (cfg : Cfg) (row : Nat) (s : EncState) (hinv : SchedInv cfg s) :
    SchedInv cfg (enterRow row s).1 := by
  unfold enterRow
  by_cases ha : (s.m_rows row).active = false
  · rw [if_pos ha]; exact hinv
  · rw [if_neg ha]
    by_cases hb : (s.m_rows row).busy = true
    · rw [if_pos hb]
      exact ⟨⟨hinv.base.bound, hinv.base.stair, hinv.base.rollback⟩, hinv.ready⟩
    · rw [if_neg hb]
      have ha1 : (s.m_rows row).active = true := by simpa using ha
      obtain ⟨⟨hbound, hstair, hroll⟩, hready⟩ := hinv
      have hrows : ∀ r, ((upd s.m_rows row { s.m_rows row with busy := true }) r).completed
            = (s.m_rows r).completed
          ∧ ((upd s.m_rows row { s.m_rows row with busy := true }) r).active
            = (s.m_rows r).active
          ∧ (((upd s.m_rows row { s.m_rows row with busy := true }) r).busy = true
            ↔ ((s.m_rows r).busy = true ∨ r = row)) := by
        intro r
        by_cases h : r = row
        · subst h; simp
        · simp [h]
      refine ⟨⟨fun r => by simp only []; rw [(hrows r).1]; exact hbound r, ?_, ?_⟩, ?_⟩
      · intro r h0 hr
        simp only []
        rw [(hrows r).1, (hrows (r - 1)).1]
        exact hstair r h0 hr
      · intro k j hk hr
        have hr2 : InRollback s k j := hr
        obtain ⟨r1, r2, r3, r4, r5, r6, r7, r8, r9⟩ := hroll k j hk hr2
        refine ⟨?_, r2, r3, r4, r5, ?_, r7, ?_, ?_⟩
        · simp only []; rw [(hrows k).2.2]; exact Or.inl r1
        · simp only []; rw [(hrows k).1]; exact r6
        · intro m hjm hm
          obtain ⟨m1, m2, m3⟩ := r8 m hjm hm
          simp only []
          refine ⟨by rw [(hrows m).2.1]; exact m1, ?_, by rw [(hrows m).1]; exact m3⟩
          have hmrow : m ≠ row := by
            intro he; subst he; rw [ha1] at m1; cases m1
          cases hx : ((upd s.m_rows row { s.m_rows row with busy := true }) m).busy
          · rfl
          · rcases (hrows m).2.2.mp hx with h | h
            · rw [m2] at h; cases h
            · exact absurd h hmrow
        · intro hw
          obtain ⟨w1, w2⟩ := r9 hw
          exact ⟨w1, by simp only []; rw [(hrows j).2.1]; exact w2⟩
      · intro r h0 hr
        unfold RowReady
        simp only []
        rw [(hrows r).2.1, (hrows r).2.2, (hrows r).1, (hrows (r - 1)).1]
        intro hab hloop
        apply hready r h0 hr _ hloop
        rcases hab with h | h | h
        · exact Or.inl h
        · exact Or.inr h
        · subst h; exact Or.inl ha1

/-- The deactivation loop of lines 748-757 keeps the invariant. `s1` is the
state after it: the row at the cursor is inactive, the worker is at the busy
wait. -/
theorem deactivate_inv (cfg : Cfg) (row j : Nat) (s s1 : EncState) (hinv : SchedInv cfg s)
    (hrow : row < cfg.m_numRows) (hpc : s.pc row = Pc.rbDeactivate j) (hj : j ≠ row)
    (hcomp : ∀ r, (s1.m_rows r).completed = (s.m_rows r).completed)
    (hbusy : ∀ r, (s1.m_rows r).busy = (s.m_rows r).busy)
    (hact : ∀ r, (s1.m_rows r).active = (if r = j then false else (s.m_rows r).active))
    (hpc1 : s1.pc = upd s.pc row (Pc.rbWaitIdle j))
    (hstop : s1.m_bAllRowsStop = s.m_bAllRowsStop)
    (htrig : s1.m_vbvResetTriggerRow = s.m_vbvResetTriggerRow) : SchedInv cfg s1 := by
  have hbase := hinv.base
  obtain ⟨⟨hbound, hstair, hroll⟩, hready⟩ := hinv
  have hme : InRollback s row j := Or.inl hpc
  refine ⟨⟨fun r => by rw [hcomp r]; exact hbound r, ?_, ?_⟩, ?_⟩
  · intro r h0 hr
    rw [hcomp r, hcomp (r - 1)]
    exact hstair r h0 hr
  · intro k j1 hk hr
    have hkrow : k = row := by
      by_contra hne
      have : InRollback s k j1 := by
        rcases hr with h | h
        · left; rw [hpc1, upd_ne _ _ _ _ hne] at h; exact h
        · right; rw [hpc1, upd_ne _ _ _ _ hne] at h; exact h
      exact hne (rollback_unique cfg s hbase k j1 row j hk hrow this hme)
    subst hkrow
    have hjj : j1 = j := by
      rcases hr with h | h
      · rw [hpc1, upd_same] at h; cases h
      · rw [hpc1, upd_same] at h; cases h; rfl
    subst hjj
    obtain ⟨r1, r2, r3, r4, r5, r6, r7, r8, r9⟩ := hroll k j1 hk hme
    refine ⟨by rw [hbusy k]; exact r1, by rw [hstop]; exact r2, by rw [htrig]; exact r3, r4, r5,
      by rw [hcomp k]; exact r6, r7, ?_, ?_⟩
    · intro m hjm hm
      obtain ⟨m1, m2, m3⟩ := r8 m hjm hm
      refine ⟨?_, by rw [hbusy m]; exact m2, by rw [hcomp m]; exact m3⟩
      rw [hact m]; split <;> [rfl; exact m1]
    · intro _
      exact ⟨hj, by rw [hact j1, if_pos rfl]⟩
  · intro r h0 hr
    unfold RowReady
    rw [hbusy r, hcomp r, hcomp (r - 1), hpc1]
    intro hab hloop
    have hne : r ≠ row := by
      intro he; subst he; rw [upd_same] at hloop; cases hloop
    rw [upd_ne _ _ _ _ hne] at hloop
    apply hready r h0 hr _ hloop
    rcases hab with h | h
    · rw [hact r] at h
      split at h
      · cases h
      · exact Or.inl h
    · exact Or.inr h

/-- The reset of a row below the trigger row (lines 759-783), after the busy
wait on it has ended, keeps the invariant. -/
theorem waitidle_inv (cfg : Cfg) (row j : Nat) (s : EncState) (hinv : SchedInv cfg s)
    (hrow : row < cfg.m_numRows) (hpc : s.pc row = Pc.rbWaitIdle j)
    (hidle : (s.m_rows j).busy = false) :
    SchedInv cfg { resetRow j s with
      pc := upd (resetRow j s).pc row (Pc.rbDeactivate (j - 1)) } := by
  have hbase := hinv.base
  obtain ⟨⟨hbound, hstair, hroll⟩, hready⟩ := hinv
  have hme : InRollback s row j := Or.inr hpc
  obtain ⟨r1, r2, r3, r4, r5, r6, r7, r8, r9⟩ := hroll row j hrow hme
  obtain ⟨hjne, hjact⟩ := r9 hpc
  obtain ⟨d1, d2, d3, d4⟩ := resetRow_sched j s
  refine ⟨⟨?_, ?_, ?_⟩, ?_⟩
  · intro r
    show ((resetRow j s).m_rows r).completed ≤ cfg.m_numCols
    rw [(d1 r).1]
    split
    · omega
    · exact hbound r
  · intro r h0 hr
    show ((resetRow j s).m_rows r).completed = 0
      ∨ ((resetRow j s).m_rows (r - 1)).completed = cfg.m_numCols
      ∨ ((resetRow j s).m_rows r).completed + 1 ≤ ((resetRow j s).m_rows (r - 1)).completed
    rw [(d1 r).1, (d1 (r - 1)).1]
    by_cases h1 : r = j
    · rw [if_pos h1]; exact Or.inl rfl
    · rw [if_neg h1]
      by_cases h2 : r - 1 = j
      · left
        exact (r8 r (by omega) hr).2.2
      · rw [if_neg h2]
        exact hstair r h0 hr
  · intro k j1 hk hr
    have hkrow : k = row := by
      by_contra hne
      have : InRollback s k j1 := by
        rcases hr with h | h
        · left; simpa [hne, d2] using h
        · right; simpa [hne, d2] using h
      exact hne (rollback_unique cfg s hbase k j1 row j hk hrow this hme)
    subst hkrow
    have hjj : j1 = j - 1 := by
      rcases hr with h | h
      · simp at h; exact h.symm
      · simp at h
    subst hjj
    refine ⟨?_, r2, r3, by omega, by omega, ?_, r7, ?_, ?_⟩
    · show ((resetRow j s).m_rows k).busy = true
      rw [(d1 k).2.1]; exact r1
    · show ((resetRow j s).m_rows k).completed = k + 1
      rw [(d1 k).1, if_neg (Ne.symm hjne)]; exact r6
    · intro m hjm hm
      show ((resetRow j s).m_rows m).active = false ∧ ((resetRow j s).m_rows m).busy = false
        ∧ ((resetRow j s).m_rows m).completed = 0
      rw [(d1 m).1, (d1 m).2.1, (d1 m).2.2]
      by_cases hmj : m = j
      · subst hmj
        exact ⟨hjact, hidle, by rw [if_pos rfl]⟩
      · obtain ⟨m1, m2, m3⟩ := r8 m (by omega) hm
        exact ⟨m1, m2, by rw [if_neg hmj]; exact m3⟩
    · intro hw; simp at hw
  · intro r h0 hr
    unfold RowReady
    show (((resetRow j s).m_rows r).active = true ∨ ((resetRow j s).m_rows r).busy = true) →
      upd (resetRow j s).pc row (Pc.rbDeactivate (j - 1)) r = Pc.loop →
      min (((resetRow j s).m_rows r).completed + 2) cfg.m_numCols
        ≤ ((resetRow j s).m_rows (r - 1)).completed
    rw [(d1 r).1, (d1 r).2.1, (d1 r).2.2, (d1 (r - 1)).1, d2]
    intro hab hloop
    have hne : r ≠ row := by
      intro he; subst he; rw [upd_same] at hloop; cases hloop
    rw [upd_ne _ _ _ _ hne] at hloop
    by_cases h1 : r = j
    · subst h1
      rw [hjact, hidle] at hab
      rcases hab with h | h <;> cases h
    · by_cases h2 : r - 1 = j
      · obtain ⟨m1, m2, _⟩ := r8 r (by omega) hr
        rw [m1, m2] at hab
        rcases hab with h | h <;> cases h
      · rw [if_neg h1, if_neg h2]
        exact hready r h0 hr hab hloop

/-- The reset of the trigger row itself, with line 786: the state before
lines 791-817. -/
theorem selfreset_pretail (cfg : Cfg) (row : Nat) (s : EncState) (hinv : SchedInv cfg s)
    (hrow : row < cfg.m_numRows) (hpc : s.pc row = Pc.rbDeactivate row) :
    PreTail cfg row { resetRow row s with
      m_bAllRowsStop := false, pc := upd (resetRow row s).pc row Pc.loop } := by
  have hbase := hinv.base
  obtain ⟨⟨hbound, hstair, hroll⟩, hready⟩ := hinv
  have hme : InRollback s row row := Or.inl hpc
  obtain ⟨r1, r2, r3, r4, r5, r6, r7, r8, r9⟩ := hroll row row hrow hme
  obtain ⟨d1, d2, d3, d4⟩ := resetRow_sched row s
  refine ⟨⟨?_, ?_, ?_⟩, ?_, ⟨?_, by simp, hrow⟩, ?_⟩
  · intro r
    show ((resetRow row s).m_rows r).completed ≤ cfg.m_numCols
    rw [(d1 r).1]
    split
    · omega
    · exact hbound r
  · intro r h0 hr
    show ((resetRow row s).m_rows r).completed = 0
      ∨ ((resetRow row s).m_rows (r - 1)).completed = cfg.m_numCols
      ∨ ((resetRow row s).m_rows r).completed + 1 ≤ ((resetRow row s).m_rows (r - 1)).completed
    rw [(d1 r).1, (d1 (r - 1)).1]
    by_cases h1 : r = row
    · rw [if_pos h1]; exact Or.inl rfl
    · rw [if_neg h1]
      by_cases h2 : r - 1 = row
      · left
        exact (r8 r (by omega) hr).2.2
      · rw [if_neg h2]
        exact hstair r h0 hr
  · intro k j1 hk hr
    exfalso
    by_cases hkrow : k = row
    · subst hkrow
      rcases hr with h | h <;> simp at h
    · have : InRollback s k j1 := by
        rcases hr with h | h
        · left; simpa [hkrow, d2] using h
        · right; simpa [hkrow, d2] using h
      exact hkrow (rollback_unique cfg s hbase k j1 row row hk hrow this hme)
  · intro r h0 hr hne
    unfold RowReady
    show (((resetRow row s).m_rows r).active = true ∨ ((resetRow row s).m_rows r).busy = true) →
      upd (resetRow row s).pc row Pc.loop r = Pc.loop →
      min (((resetRow row s).m_rows r).completed + 2) cfg.m_numCols
        ≤ ((resetRow row s).m_rows (r - 1)).completed
    rw [(d1 r).1, (d1 r).2.1, (d1 r).2.2, (d1 (r - 1)).1, d2, upd_ne _ _ _ _ hne, if_neg hne]
    intro hab hloop
    by_cases h2 : r - 1 = row
    · obtain ⟨m1, m2, _⟩ := r8 r (by omega) hr
      rw [m1, m2] at hab
      rcases hab with h | h <;> cases h
    · rw [if_neg h2]
      exact hready r h0 hr hab hloop
  · show ((resetRow row s).m_rows row).busy = true
    rw [(d1 row).2.1]; exact r1
  · intro h0
    show min (((resetRow row s).m_rows row).completed + 1) cfg.m_numCols
      ≤ ((resetRow row s).m_rows (row - 1)).completed
    rw [(d1 row).1, (d1 (row - 1)).1, if_pos rfl, if_neg (by omega)]
    have := hstair row h0 hrow
    have := hbound (row - 1)
    omega

/-- Every atomic step of a worker keeps the invariant. -/
theorem workerStep_inv (cfg : Cfg) (orc : Collab) (row : Nat) (s s1 : EncState)
    (hinv : SchedInv cfg s) (hrow : row < cfg.m_numRows) (hbusy : (s.m_rows row).busy = true)
    (h : workerStep cfg orc row s = Outcome.running s1
      ∨ workerStep cfg orc row s = Outcome.returned s1) : SchedInv cfg s1 := by
  unfold workerStep at h
  cases hpc : s.pc row with
  | loop =>
    rw [hpc] at h
    simp only [] at h
    by_cases hc : (s.m_rows row).completed < cfg.m_numCols
    · rw [if_pos hc] at h
      cases hre : (ctuHead cfg orc row s).2 with
      | true =>
        rw [hre] at h
        simp only [if_true] at h
        rcases h with h | h
        · cases h
          exact head_rollback_inv cfg orc row s hinv hrow hbusy hpc hc hre
        · cases h
      | false =>
        rw [hre] at h
        simp only [Bool.false_eq_true, if_false] at h
        exact tail_inv cfg row _ _ s1 (head_pretail cfg orc row s hinv hrow hbusy hpc hc hre) h
    · rw [if_neg hc] at h
      rcases h with h | h
      · cases h
      · cases h
        exact finish_inv cfg orc row s hinv hpc
  | rbDeactivate j =>
    rw [hpc] at h
    simp only [] at h
    by_cases hj : j = row
    · subst hj
      rw [if_neg (by simp)] at h
      unfold rollbackNext at h
      rw [if_neg (by omega)] at h
      exact tail_inv cfg j j _ s1 (selfreset_pretail cfg j s hinv hrow hpc) h
    · rw [if_pos hj] at h
      by_cases ha : (s.m_rows j).active = true
      · rw [if_pos ha] at h
        by_cases hd : orc.dequeueRow (j * 2) = true
        · rw [if_pos hd] at h
          rcases h with h | h
          · cases h
            refine deactivate_inv cfg row j s _ hinv hrow hpc hj ?_ ?_ ?_ rfl rfl rfl
            · intro r
              by_cases hr : r = j
              · subst hr; simp
              · simp [hr]
            · intro r
              by_cases hr : r = j
              · subst hr; simp
              · simp [hr]
            · intro r
              by_cases hr : r = j
              · subst hr; simp
              · simp [hr]
          · cases h
        · rw [if_neg hd] at h
          rcases h with h | h <;> cases h
      · rw [if_neg ha] at h
        rcases h with h | h
        · cases h
          refine deactivate_inv cfg row j s _ hinv hrow hpc hj (fun _ => rfl) (fun _ => rfl)
            ?_ rfl rfl rfl
          intro r
          by_cases hr : r = j
          · subst hr; simpa using ha
          · simp [hr]
        · cases h
  | rbWaitIdle j =>
    rw [hpc] at h
    simp only [] at h
    by_cases hb : (s.m_rows j).busy = true
    · rw [if_pos hb] at h
      rcases h with h | h <;> cases h
    · rw [if_neg hb] at h
      obtain ⟨_, _, _, r4, _, _, _, _, r9⟩ := hinv.base.rollback row j hrow (Or.inr hpc)
      obtain ⟨hjne, _⟩ := r9 hpc
      unfold rollbackNext at h
      rw [if_pos (by omega)] at h
      rcases h with h | h
      · cases h
        exact waitidle_inv cfg row j s hinv hrow hpc (by simpa using hb)
      · cases h

theorem step_inv (cfg : Cfg) (orc : Collab) (s s1 : EncState) (hinv : SchedInv cfg s)
    (h : Step cfg orc s s1) : SchedInv cfg s1 := by
  cases h
  case enter row hrow => exact enter_inv cfg row s hinv
  case run row hrow hbusy hstep =>
    exact workerStep_inv cfg orc row s s1 hinv hrow hbusy (Or.inl hstep)
  case ret row hrow hbusy hstep =>
    exact workerStep_inv cfg orc row s s1 hinv hrow hbusy (Or.inr hstep)

theorem start_inv (cfg : Cfg) (s : EncState) (h : FreshRows s) : SchedInv cfg (startRows s) := by
  have hrows : ∀ r, ((startRows s).m_rows r).completed = 0
      ∧ ((startRows s).m_rows r).busy = false
      ∧ (r ≠ 0 → ((startRows s).m_rows r).active = false) := by
    intro r
    obtain ⟨f1, f2, f3, _, _⟩ := h r
    by_cases hr : r = 0
    · subst hr; simp [startRows, f1, f3]
    · simp [startRows, hr, f1, f2, f3]
  have hpc : ∀ r, (startRows s).pc r = Pc.loop := fun r => (h r).2.2.2.1
  refine ⟨⟨fun r => by rw [(hrows r).1]; omega, fun r _ _ => Or.inl (hrows r).1, ?_⟩, ?_⟩
  · intro k j _ hr
    exact absurd hr (not_inRollback_of_loop _ k j (hpc k))
  · intro r h0 _
    unfold RowReady
    rw [(hrows r).2.1, (hrows r).2.2 (by omega)]
    rintro (h | h) <;> cases h

/-- The invariant holds in every reachable state. -/
theorem reachable_inv (cfg : Cfg) (orc : Collab) (s : EncState) (h : Reachable cfg orc s) :
    SchedInv cfg s := by
  induction h with
  | start s0 hf => exact start_inv cfg s0 hf
  | step s0 s1 _ hs ih => exact step_inv cfg orc s0 s1 ih hs

/-! ## C1: the staircase -/

theorem tail_activation (cfg : Cfg) (row col r : Nat) (v s1 : EncState)
    (h : ctuTail cfg row col v = Outcome.running s1
      ∨ ctuTail cfg row col v = Outcome.returned s1)
    (h0 : (v.m_rows r).active = false) (h1 : (s1.m_rows r).active = true) :
    r = row + 1 ∧ (s1.m_rows r).completed + 2 ≤ (s1.m_rows (r - 1)).completed := by
  obtain ⟨b1, b2, b3, b4⟩ := saoStats_sched cfg row col v
  obtain ⟨c1, c2, c3, c4⟩ := activateNext_sched cfg row (saoStats cfg row col v)
  have key : ((activateNext cfg row (saoStats cfg row col v)).m_rows r).active = true →
      r = row + 1 ∧ (v.m_rows r).completed + 2 ≤ (v.m_rows (r - 1)).completed := by
    intro hx
    rcases ((c1 r).2.2).mp hx with h2 | ⟨h2, h3⟩
    · rw [b1, h0] at h2; cases h2
    · subst h2
      unfold wantsNextRow at h3
      rw [b1] at h3
      have e : row + 1 - 1 = row := by omega
      rw [e]
      exact ⟨rfl, h3.2.2.1⟩
  have xcomp : ∀ q, ((activateNext cfg row (saoStats cfg row col v)).m_rows q).completed
      = (v.m_rows q).completed := by intro q; rw [(c1 q).1, b1]
  unfold ctuTail at h
  split at h
  · rcases h with h | h
    · cases h
    · cases h
      obtain ⟨d1, _, _, _⟩ := suspendRow_sched row (activateNext cfg row (saoStats cfg row col v))
      rw [(d1 r).2.2] at h1
      split at h1
      · cases h1
      · obtain ⟨k1, k2⟩ := key h1
        exact ⟨k1, by rw [(d1 r).1, (d1 (r - 1)).1, xcomp r, xcomp (r - 1)]; exact k2⟩
  · rcases h with h | h
    · cases h
      obtain ⟨k1, k2⟩ := key h1
      exact ⟨k1, by rw [xcomp r, xcomp (r - 1)]; exact k2⟩
    · cases h

/-- A row is only ever activated by the row above, at the end of one of its
iterations, and then the row above is at least two CTUs ahead. -/
theorem workerStep_activation (cfg : Cfg) (orc : Collab) (row r : Nat) (s s1 : EncState)
    (h : workerStep cfg orc row s = Outcome.running s1
      ∨ workerStep cfg orc row s = Outcome.returned s1)
    (h0 : (s.m_rows r).active = false) (h1 : (s1.m_rows r).active = true) :
    r = row + 1 ∧ (s1.m_rows r).completed + 2 ≤ (s1.m_rows (r - 1)).completed := by
  unfold workerStep at h
  cases hpc : s.pc row with
  | loop =>
    rw [hpc] at h
    simp only [] at h
    obtain ⟨a1, _⟩ := ctuHead_sched cfg orc row s
    split at h
    · split at h
      · rcases h with h | h
        · cases h
          have : ((ctuHead cfg orc row s).1.m_rows r).active = true := h1
          rw [(a1 r).2.1, h0] at this; cases this
        · cases h
      · exact tail_activation cfg row _ r _ s1 h (by rw [(a1 r).2.1]; exact h0) h1
    · rcases h with h | h
      · cases h
      · cases h
        rw [((finishRow_sched cfg orc row s).1 r).2.2, h0] at h1; cases h1
  | rbDeactivate j =>
    rw [hpc] at h
    simp only [] at h
    split at h
    · split at h
      · split at h
        · rcases h with h | h
          · cases h
            have : ((upd s.m_rows j { s.m_rows j with active := false }) r).active = true := h1
            by_cases hr : r = j
            · subst hr; simp at this
            · simp [hr, h0] at this
          · cases h
        · rcases h with h | h <;> cases h
      · rcases h with h | h
        · cases h
          have : (s.m_rows r).active = true := h1
          rw [h0] at this; cases this
        · cases h
    · unfold rollbackNext at h
      split at h
      · rcases h with h | h
        · cases h
          have : ((resetRow j s).m_rows r).active = true := h1
          rw [((resetRow_sched j s).1 r).2.2, h0] at this; cases this
        · cases h
      · exact tail_activation cfg row row r _ s1 h
          (by
            show ((resetRow j s).m_rows r).active = false
            rw [((resetRow_sched j s).1 r).2.2]; exact h0) h1
  | rbWaitIdle j =>
    rw [hpc] at h
    simp only [] at h
    split at h
    · rcases h with h | h <;> cases h
    · unfold rollbackNext at h
      split at h
      · rcases h with h | h
        · cases h
          have : ((resetRow j s).m_rows r).active = true := h1
          rw [((resetRow_sched j s).1 r).2.2, h0] at this; cases this
        · cases h
      · exact tail_activation cfg row row r _ s1 h
          (by
            show ((resetRow j s).m_rows r).active = false
            rw [((resetRow_sched j s).1 r).2.2]; exact h0) h1

theorem enterRow_active (row r : Nat) (s : EncState) :
    ((enterRow row s).1.m_rows r).active = (s.m_rows r).active := by
  unfold enterRow
  split
  · rfl
  · split
    · rfl
    · by_cases h : r = row
      · subst h; simp
      · simp [h]

/-- C1: in every state reachable by atomic worker steps (any interleaving of
the rows, rollbacks included), for every row `r > 0`: either row `r` has
completed nothing, or row `r-1` is done, or row `r-1` is at least one CTU
ahead; while row `r` is active, or owned by a worker that is at the head of the
CTU loop and so about to start column `c = completed r`, row `r-1` has at
least `min (c+2) numCols` CTUs completed;
and whenever a step activates row `r`, row `r-1` has completed at least two
CTUs more than row `r`. -/
theorem staircase (cfg : Cfg) (orc : Collab) (s : EncState) (hs : Reachable cfg orc s)
    (r : Nat) (hr0 : 0 < r) (hr : r < cfg.m_numRows) :
    ((s.m_rows r).completed = 0 ∨ (s.m_rows (r - 1)).completed = cfg.m_numCols
        ∨ (s.m_rows r).completed + 1 ≤ (s.m_rows (r - 1)).completed)
      ∧ (((s.m_rows r).active = true ∨ (s.m_rows r).busy = true) → s.pc r = Pc.loop →
          min ((s.m_rows r).completed + 2) cfg.m_numCols ≤ (s.m_rows (r - 1)).completed)
      ∧ (∀ s1, Step cfg orc s s1 → (s.m_rows r).active = false →
          (s1.m_rows r).active = true →
          (s1.m_rows r).completed + 2 ≤ (s1.m_rows (r - 1)).completed) := by
  have hinv := reachable_inv cfg orc s hs
  refine ⟨hinv.base.stair r hr0 hr, ?_, ?_⟩
  · intro hb hpc
    exact hinv.ready r hr0 hr hb hpc
  · intro s1 hstep h0 h1
    cases hstep
    case enter row hrow =>
      rw [enterRow_active, h0] at h1; cases h1
    case run row hrow hbusy hst =>
      exact (workerStep_activation cfg orc row r s s1 (Or.inl hst) h0 h1).2
    case ret row hrow hbusy hst =>
      exact (workerStep_activation cfg orc row r s s1 (Or.inr hst) h0 h1).2

theorem Step.of_stepRow (cfg : Cfg) (orc : Collab) (row : Nat) (s : EncState)
    (hrow : row < cfg.m_numRows) (hbusy : (s.m_rows row).busy = true)
    (hb : (workerStep cfg orc row s).isBlocked = false) :
    Step cfg orc s (stepRow cfg orc row s) := by
  unfold stepRow
  cases h : workerStep cfg orc row s with
  | running s1 => exact Step.run s s1 row hrow hbusy h
  | returned s1 => exact Step.ret s s1 row hrow hbusy h
  | blocked => rw [h] at hb; cases hb

theorem demoS2_reachable : Reachable demoCfgPool demoCollab demoS2 :=
  Reachable.step _ _
    (Reachable.step _ _ (Reachable.start demoState (fun _ => ⟨rfl, rfl, rfl, rfl, rfl⟩))
      (Step.enter _ 0 (by decide)))
    (Step.of_stepRow _ _ 0 demoS1 (by decide) (by decide) (by decide))

theorem demoS3_step : Step demoCfgPool demoCollab demoS2 demoS3 :=
  Step.of_stepRow _ _ 0 demoS2 (by decide) (by decide) (by decide)

theorem demoS4_reachable : Reachable demoCfgPool demoCollab demoS4 :=
  Reachable.step _ _ (Reachable.step _ _ demoS2_reachable demoS3_step)
    (Step.enter _ 1 (by decide))

/-- Witness of C1 on the 4 by 4 frame: row 0 activates row 1 after its second
CTU, and the worker of row 1 then starts column 0 with row 0 two CTUs ahead. -/
theorem staircase_witness :
    (Reachable demoCfgPool demoCollab demoS2 ∧ Reachable demoCfgPool demoCollab demoS4
        ∧ 0 < 1 ∧ 1 < demoCfgPool.m_numRows
        ∧ (demoS4.m_rows 1).busy = true ∧ demoS4.pc 1 = Pc.loop
        ∧ Step demoCfgPool demoCollab demoS2 demoS3
        ∧ (demoS2.m_rows 1).active = false ∧ (demoS3.m_rows 1).active = true)
      ∧ min ((demoS4.m_rows 1).completed + 2) demoCfgPool.m_numCols
          ≤ (demoS4.m_rows (1 - 1)).completed
      ∧ (demoS3.m_rows 1).completed + 2 ≤ (demoS3.m_rows (1 - 1)).completed :=
  ⟨⟨demoS2_reachable, demoS4_reachable, by decide, by decide, by decide, by decide,
      demoS3_step, by decide, by decide⟩,
    (staircase demoCfgPool demoCollab demoS4 demoS4_reachable 1 (by decide) (by decide)).2.1
      (Or.inr (by decide)) (by decide),
    (staircase demoCfgPool demoCollab demoS2 demoS2_reachable 1 (by decide) (by decide)).2.2
      demoS3 demoS3_step (by decide) (by decide)⟩

/-! ## C5: the entropy-context hand-off -/

theorem CtxSame.refl_ctx (s : EncState) : CtxSame s s := ⟨fun _ => ⟨rfl, rfl⟩, rfl, rfl⟩

theorem CtxSame.trans_ctx {s v s1 : EncState} (h1 : CtxSame s v) (h2 : CtxSame v s1) :
    CtxSame s s1 := by
  obtain ⟨a1, a2, a3⟩ := h1
  obtain ⟨b1, b2, b3⟩ := h2
  exact ⟨fun q => ⟨(b1 q).1.trans (a1 q).1, (b1 q).2.trans (a1 q).2⟩, b2.trans a2, b3.trans a3⟩

theorem CtxSame.effect {s s1 : EncState} (cfg : Cfg) (h : CtxSame s s1) (q : Nat) :
    CtxEffect cfg s s1 q := by
  obtain ⟨a1, a2, _⟩ := h
  exact Or.inl ⟨(a1 q).1, Or.inl ⟨by rw [a2], fun h2 => by rw [← (a1 q).2]; exact h2⟩⟩

theorem CtxEffect.then_same {cfg : Cfg} {s v s1 : EncState} {q : Nat}
    (h1 : CtxEffect cfg s v q) (h2 : CtxSame v s1) : CtxEffect cfg s s1 q := by
  obtain ⟨b1, b2, b3⟩ := h2
  unfold CtxEffect at h1 ⊢
  rw [(b1 q).1, (b1 q).2, b2, b3]
  exact h1

theorem saoStats_ctx (cfg : Cfg) (row col : Nat) (s : EncState) :
    CtxSame s (saoStats cfg row col s) := by
  unfold saoStats
  split
  · exact ⟨fun _ => ⟨rfl, rfl⟩, rfl, rfl⟩
  · exact CtxSame.refl_ctx s

theorem activateNext_ctx (cfg : Cfg) (row : Nat) (s : EncState) :
    CtxSame s (activateNext cfg row s) := by
  unfold activateNext
  split
  · refine ⟨fun q => ?_, rfl, rfl⟩
    by_cases h : q = row + 1
    · subst h; simp
    · simp [h]
  · exact CtxSame.refl_ctx s

theorem suspendRow_ctx (row : Nat) (s : EncState) : CtxSame s (suspendRow row s) := by
  refine ⟨fun q => ?_, rfl, rfl⟩
  by_cases h : q = row
  · subst h; simp [suspendRow]
  · simp [suspendRow, h]

theorem ctuTail_ctx (cfg : Cfg) (row col : Nat) (v s1 : EncState)
    (h : ctuTail cfg row col v = Outcome.running s1
      ∨ ctuTail cfg row col v = Outcome.returned s1) : CtxSame v s1 := by
  have h1 := (saoStats_ctx cfg row col v).trans_ctx
    (activateNext_ctx cfg row (saoStats cfg row col v))
  unfold ctuTail at h
  split at h
  · rcases h with h | h
    · cases h
    · cases h
      exact h1.trans_ctx (suspendRow_ctx row _)
  · rcases h with h | h
    · cases h; exact h1
    · cases h

theorem ctuEncode_ctx (cfg : Cfg) (orc : Collab) (row : Nat) (s : EncState)
    (hw : cfg.param.bEnableWavefront = true) (q : Nat) :
    CtxEffect cfg s (ctuEncode cfg orc row s).1 q := by
  by_cases hq : q = row
  · subst hq
    by_cases hc : (s.m_rows q).completed = 1
    · right
      simp [ctuEncode, hw, hc, rowCoderIdx]
    · left
      refine ⟨?_, Or.inl ⟨?_, ?_⟩⟩
      · simp [ctuEncode, hw, hc]
      · simp [ctuEncode, hc]
      · intro h2
        have : ((ctuEncode cfg orc q s).1.m_rows q).completed = (s.m_rows q).completed + 1 := by
          simp [ctuEncode]
        omega
  · left
    refine ⟨?_, Or.inl ⟨?_, ?_⟩⟩
    · simp [ctuEncode, hq]
    · simp only [ctuEncode]
      split
      · simp [hq]
      · rfl
    · simp [ctuEncode, hq]

theorem vbvCheckpoint_ctx (cfg : Cfg) (orc : Collab) (row col : Nat) (cu : CuData)
    (s : EncState) : CtxSame s (vbvCheckpoint cfg orc row col cu s).1 := by
  obtain ⟨a1, _, a3, a4, _⟩ := vbvCheckpoint_rows cfg orc row col cu s
  exact ⟨fun q => by rw [a1]; exact ⟨rfl, rfl⟩, a4, a3⟩

theorem ctuHead_ctx (cfg : Cfg) (orc : Collab) (row : Nat) (s : EncState)
    (hw : cfg.param.bEnableWavefront = true) (q : Nat) :
    CtxEffect cfg s (ctuHead cfg orc row s).1 q := by
  unfold ctuHead
  exact (ctuEncode_ctx cfg orc row s hw q).then_same (vbvCheckpoint_ctx cfg orc row _ _ _)

theorem resetRow_ctx (cfg : Cfg) (j : Nat) (s : EncState) (q : Nat) :
    CtxEffect cfg s (resetRow j s) q := by
  left
  by_cases h : q = j
  · subst h
    exact ⟨by simp [resetRow], Or.inr ⟨by simp [resetRow], by simp [resetRow]⟩⟩
  · exact ⟨by simp [resetRow, h], Or.inl ⟨by simp [resetRow, h], by simp [resetRow, h]⟩⟩

theorem finishRow_ctx (cfg : Cfg) (orc : Collab) (row : Nat) (s : EncState) (q : Nat) :
    CtxEffect cfg s (finishRow cfg orc row s) q := by
  left
  by_cases h : q = row
  · subst h
    exact ⟨by simp [finishRow], Or.inl ⟨by simp [finishRow], by simp [finishRow]⟩⟩
  · exact ⟨by simp [finishRow, h], Or.inl ⟨by simp [finishRow, h], by simp [finishRow, h]⟩⟩

theorem enterRow_ctx (row : Nat) (s : EncState) : CtxSame s (enterRow row s).1 := by
  unfold enterRow
  split
  · exact CtxSame.refl_ctx s
  · split
    · exact ⟨fun _ => ⟨rfl, rfl⟩, rfl, rfl⟩
    · refine ⟨fun q => ?_, rfl, rfl⟩
      by_cases h : q = row
      · subst h; simp
      · simp [h]

theorem rollbackNext_ctx (cfg : Cfg) (row j : Nat) (v s1 : EncState)
    (h : rollbackNext cfg row j v = Outcome.running s1
      ∨ rollbackNext cfg row j v = Outcome.returned s1) : CtxSame v s1 := by
  unfold rollbackNext at h
  split at h
  · rcases h with h | h
    · cases h; exact ⟨fun _ => ⟨rfl, rfl⟩, rfl, rfl⟩
    · cases h
  · have h2 := ctuTail_ctx cfg row row _ s1 h
    exact CtxSame.trans_ctx (s := v) ⟨fun _ => ⟨rfl, rfl⟩, rfl, rfl⟩ h2

theorem workerStep_ctx (cfg : Cfg) (orc : Collab) (row : Nat) (s s1 : EncState)
    (hw : cfg.param.bEnableWavefront = true)
    (h : workerStep cfg orc row s = Outcome.running s1
      ∨ workerStep cfg orc row s = Outcome.returned s1) (q : Nat) :
    CtxEffect cfg s s1 q := by
  unfold workerStep at h
  cases hpc : s.pc row with
  | loop =>
    rw [hpc] at h
    simp only [] at h
    split at h
    · split at h
      · rcases h with h | h
        · cases h
          exact (ctuHead_ctx cfg orc row s hw q).then_same ⟨fun _ => ⟨rfl, rfl⟩, rfl, rfl⟩
        · cases h
      · exact (ctuHead_ctx cfg orc row s hw q).then_same (ctuTail_ctx cfg row _ _ s1 h)
    · rcases h with h | h
      · cases h
      · cases h
        exact finishRow_ctx cfg orc row s q
  | rbDeactivate j =>
    rw [hpc] at h
    simp only [] at h
    split at h
    · split at h
      · split at h
        · rcases h with h | h
          · cases h
            have hsame : CtxSame s
                { s with
                  m_rows := upd s.m_rows j { s.m_rows j with active := false }
                  pc := upd s.pc row (Pc.rbWaitIdle j) } := by
              refine ⟨fun q1 => ?_, rfl, rfl⟩
              by_cases hq : q1 = j
              · subst hq; simp
              · simp [hq]
            exact hsame.effect cfg q
          · cases h
        · rcases h with h | h <;> cases h
      · rcases h with h | h
        · cases h
          have hsame : CtxSame s { s with pc := upd s.pc row (Pc.rbWaitIdle j) } :=
            ⟨fun _ => ⟨rfl, rfl⟩, rfl, rfl⟩
          exact hsame.effect cfg q
        · cases h
    · exact (resetRow_ctx cfg j s q).then_same (rollbackNext_ctx cfg row j _ s1 h)
  | rbWaitIdle j =>
    rw [hpc] at h
    simp only [] at h
    split at h
    · rcases h with h | h <;> cases h
    · exact (resetRow_ctx cfg j s q).then_same (rollbackNext_ctx cfg row j _ s1 h)

theorem step_ctx (cfg : Cfg) (orc : Collab) (s s1 : EncState)
    (hw : cfg.param.bEnableWavefront = true) (h : Step cfg orc s s1) (q : Nat) :
    CtxEffect cfg s s1 q := by
  cases h
  case enter row hrow => exact (enterRow_ctx row s).effect cfg q
  case run row hrow hbusy hst => exact workerStep_ctx cfg orc row s s1 hw (Or.inl hst) q
  case ret row hrow hbusy hst => exact workerStep_ctx cfg orc row s s1 hw (Or.inr hst) q

theorem CtxInv.step {cfg : Cfg} {s s1 : EncState} (hinv : CtxInv s)
    (h : ∀ q, CtxEffect cfg s s1 q) : CtxInv s1 := by
  intro q h2
  rcases h q with ⟨e1, ⟨e2, e3⟩ | ⟨_, e3⟩⟩ | ⟨_, _, e3, e4⟩
  · rw [e1, e2]; exact hinv q (e3 h2)
  · omega
  · rw [e3, e4]

theorem reachable_ctx (cfg : Cfg) (orc : Collab) (s : EncState)
    (hw : cfg.param.bEnableWavefront = true) (h : Reachable cfg orc s) : CtxInv s := by
  induction h with
  | start s0 hf =>
    intro q h2
    have : ((startRows s0).m_rows q).completed = 0 := by
      obtain ⟨f1, _⟩ := hf q
      by_cases hq : q = 0
      · subst hq; simp [startRows, f1]
      · simp [startRows, hq, f1]
    omega
  | step s0 s1 _ hs ih => exact ih.step (step_ctx cfg orc s0 s1 hw hs)

theorem ctuHead_loop_same (cfg : Cfg) (orc : Collab) (row : Nat) (s : EncState) :
    CtxSame (ctuEncode cfg orc row s).1 (ctuHead cfg orc row s).1 := by
  unfold ctuHead
  exact vbvCheckpoint_ctx cfg orc row _ _ _

/-- A step of the worker of `row` that codes a CTU leaves the row coders, the
saved buffers and the recorded contexts as the coding of the CTU (`ctuEncode`)
left them. -/
theorem workerStep_loop_same (cfg : Cfg) (orc : Collab) (row : Nat) (s s1 : EncState)
    (hpc : s.pc row = Pc.loop) (hc : (s.m_rows row).completed < cfg.m_numCols)
    (h : workerStep cfg orc row s = Outcome.running s1
      ∨ workerStep cfg orc row s = Outcome.returned s1) :
    CtxSame (ctuEncode cfg orc row s).1 s1 := by
  unfold workerStep at h
  rw [hpc] at h
  simp only [] at h
  rw [if_pos hc] at h
  split at h
  · rcases h with h | h
    · cases h
      exact (ctuHead_loop_same cfg orc row s).trans_ctx ⟨fun _ => ⟨rfl, rfl⟩, rfl, rfl⟩
    · cases h
  · exact (ctuHead_loop_same cfg orc row s).trans_ctx (ctuTail_ctx cfg row _ _ s1 h)

/-- C5: the entropy-context hand-off with wavefront enabled and at least two
columns, in every state reachable by atomic worker steps, for every row
`r > 0`.

Loading: when the worker of row `r` is about to code column 0, the row above
has a recorded context `c`, the buffer of the row above holds `c`, and the
iteration of the row processor (`ctuEncode`, and so the worker step) hands to
the analysis (`compressCU`) and to the coding (`encodeCTU`) of the CTU the
coder of row `r` with the engine state of `m_initSliceContext` and exactly
the contexts `c`; the coder of row `r` after the step is what `encodeCTU`
returns for that coder.

Saving: a step changes the saved buffer of a row only by coding the CTU of
column 1 of that row; in that step the row coder as it stands is handed to
the analysis and to the coding, and the buffer and the record both take the
contexts of the coder that `encodeCTU` returns, which is the row coder after
the step; the record is otherwise only dropped, when the row is reset for a
new pass. So `c` is the context the coder of row `r-1` held right after
coding its CTU of column 1 in its most recent pass.

Row 0 is never seeded from a saved buffer: its coder is handed on as it
stands. -/
theorem entropy_handoff (cfg : Cfg) (orc : Collab) (s : EncState) (hs : Reachable cfg orc s)
    (hw : cfg.param.bEnableWavefront = true) (hcols : 2 ≤ cfg.m_numCols)
    (r : Nat) (hr0 : 0 < r) (hr : r < cfg.m_numRows) :
    ((s.m_rows r).busy = true → s.pc r = Pc.loop → (s.m_rows r).completed = 0 →
        ∃ c, s.col1Ctx (r - 1) = some c
          ∧ (s.m_rows (r - 1)).bufferEntropyCoder.contexts = c
          ∧ seedContext cfg r 0 s = some c
          ∧ (seedCoders cfg r 0 s r).contexts = c
          ∧ (ctuEncode cfg orc r s).1.log = s.log ++
              [Event.loadContexts r c, Event.compressCU (r * cfg.m_numCols),
                Event.encodeCTU (r * cfg.m_numCols)]
          ∧ (ctuEncode cfg orc r s).2
              = orc.compressCU s.nCompress (r * cfg.m_numCols)
                  (applyCuQp cfg orc r (r * cfg.m_numCols)
                    (deriveBaseQp cfg orc r 0 s)).2
                  { engine := cfg.m_initSliceContext.engine, contexts := c }
          ∧ (ctuEncode cfg orc r s).1.rdEntropyCoders r
              = orc.encodeCTU { engine := cfg.m_initSliceContext.engine, contexts := c }
                  (ctuEncode cfg orc r s).2
          ∧ ∀ s1, (workerStep cfg orc r s = Outcome.running s1
                ∨ workerStep cfg orc r s = Outcome.returned s1) →
              s1.rdEntropyCoders r
                = orc.encodeCTU { engine := cfg.m_initSliceContext.engine, contexts := c }
                    (orc.compressCU s.nCompress (r * cfg.m_numCols)
                      (applyCuQp cfg orc r (r * cfg.m_numCols)
                        (deriveBaseQp cfg orc r 0 s)).2
                      { engine := cfg.m_initSliceContext.engine, contexts := c }))
      ∧ (∀ s1, Step cfg orc s s1 → ∀ q, CtxEffect cfg s s1 q)
      ∧ (∀ q s1, s.pc q = Pc.loop → (s.m_rows q).completed = 1 →
          (workerStep cfg orc q s = Outcome.running s1
            ∨ workerStep cfg orc q s = Outcome.returned s1) →
          (ctuEncode cfg orc q s).2
              = orc.compressCU s.nCompress (q * cfg.m_numCols + 1)
                  (applyCuQp cfg orc q (q * cfg.m_numCols + 1)
                    (deriveBaseQp cfg orc q 1 s)).2 (s.rdEntropyCoders q)
            ∧ s1.rdEntropyCoders q
              = orc.encodeCTU (s.rdEntropyCoders q) (ctuEncode cfg orc q s).2
            ∧ (s1.m_rows q).bufferEntropyCoder.contexts
              = (orc.encodeCTU (s.rdEntropyCoders q) (ctuEncode cfg orc q s).2).contexts
            ∧ s1.col1Ctx q
              = some (orc.encodeCTU (s.rdEntropyCoders q) (ctuEncode cfg orc q s).2).contexts)
      ∧ (∀ (t : EncState),
          seedContext cfg 0 (t.m_rows 0).completed t = none
            ∧ seedCoders cfg 0 (t.m_rows 0).completed t = t.rdEntropyCoders
            ∧ (ctuEncode cfg orc 0 t).2
              = orc.compressCU t.nCompress (0 * cfg.m_numCols + (t.m_rows 0).completed)
                  (applyCuQp cfg orc 0 (0 * cfg.m_numCols + (t.m_rows 0).completed)
                    (deriveBaseQp cfg orc 0 (t.m_rows 0).completed t)).2 (t.rdEntropyCoders 0)
            ∧ (ctuEncode cfg orc 0 t).1.rdEntropyCoders 0
              = orc.encodeCTU (t.rdEntropyCoders 0) (ctuEncode cfg orc 0 t).2) := by
  refine ⟨?_, fun s1 hst q => step_ctx cfg orc s s1 hw hst q, ?_, ?_⟩
  · intro hb hpc hc
    have hready := (reachable_inv cfg orc s hs).ready r hr0 hr (Or.inr hb) hpc
    have h2 : 2 ≤ (s.m_rows (r - 1)).completed := by
      rw [hc] at hready
      have : min (0 + 2) cfg.m_numCols = 2 := by omega
      omega
    have hctx := reachable_ctx cfg orc s hw hs (r - 1) h2
    have hr1 : r ≠ 0 := by omega
    have hcu : (ctuEncode cfg orc r s).2
        = orc.compressCU s.nCompress (r * cfg.m_numCols)
            (applyCuQp cfg orc r (r * cfg.m_numCols) (deriveBaseQp cfg orc r 0 s)).2
            { engine := cfg.m_initSliceContext.engine
              contexts := (s.m_rows (r - 1)).bufferEntropyCoder.contexts } := by
      simp [ctuEncode, seedCoders, hw, hr1, hc, upd]
    have hcoded : (ctuEncode cfg orc r s).1.rdEntropyCoders r
        = orc.encodeCTU
            { engine := cfg.m_initSliceContext.engine
              contexts := (s.m_rows (r - 1)).bufferEntropyCoder.contexts }
            (ctuEncode cfg orc r s).2 := by
      simp [ctuEncode, seedCoders, hw, hr1, hc, upd, rowCoderIdx]
    refine ⟨_, hctx, rfl, ?_, ?_, ?_, hcu, hcoded, ?_⟩
    · simp [seedContext, hw, hr1]
    · simp [seedCoders, hw, hr1]
    · simp [ctuEncode, encodeEvents, seedEvents, seedContext, hw, hr1, hc]
    · intro s1 hst
      have hsame := workerStep_loop_same cfg orc r s s1 hpc (by omega) hst
      rw [hsame.2.2, hcoded, hcu]
  · intro q s1 hpc hc hst
    have hsame := workerStep_loop_same cfg orc q s s1 hpc (by omega) hst
    have hcu : (ctuEncode cfg orc q s).2
        = orc.compressCU s.nCompress (q * cfg.m_numCols + 1)
            (applyCuQp cfg orc q (q * cfg.m_numCols + 1) (deriveBaseQp cfg orc q 1 s)).2
            (s.rdEntropyCoders q) := by
      simp [ctuEncode, seedCoders, hw, hc]
    have hcoded : (ctuEncode cfg orc q s).1.rdEntropyCoders q
        = orc.encodeCTU (s.rdEntropyCoders q) (ctuEncode cfg orc q s).2 := by
      simp [ctuEncode, seedCoders, hw, hc, upd, rowCoderIdx]
    refine ⟨hcu, by rw [hsame.2.2, hcoded], ?_, ?_⟩
    · rw [(hsame.1 q).1, ← hcoded]
      simp [ctuEncode, hw, hc, upd, rowCoderIdx]
    · rw [hsame.2.1, ← hcoded]
      simp [ctuEncode, hw, hc, upd, rowCoderIdx]
  · intro t
    refine ⟨by simp [seedContext], by simp [seedCoders], ?_, ?_⟩
    · simp [ctuEncode, seedCoders]
    · simp [ctuEncode, seedCoders, hw, upd, rowCoderIdx]

/-- Witness of C5 on the 4 by 4 frame: the worker of row 1 is about to code
column 0 after row 0 has coded two CTUs; the contexts handed over are 3 (what
the coder of row 0 held after its CTUs 0 and 1), and the coder of row 1 after
the step is what `encodeCTU` makes of the coder (0, 3). -/
theorem entropy_handoff_witness :
    (Reachable demoCfgPool demoCollab demoS4 ∧ demoCfgPool.param.bEnableWavefront = true
        ∧ 2 ≤ demoCfgPool.m_numCols ∧ 0 < 1 ∧ 1 < demoCfgPool.m_numRows
        ∧ (demoS4.m_rows 1).busy = true ∧ demoS4.pc 1 = Pc.loop
        ∧ (demoS4.m_rows 1).completed = 0
        ∧ (demoS4.m_rows 0).bufferEntropyCoder.contexts = 3
        ∧ demoS4.rdEntropyCoders 1 = ⟨0, 0⟩)
      ∧ ∃ c, demoS4.col1Ctx (1 - 1) = some c
          ∧ (demoS4.m_rows (1 - 1)).bufferEntropyCoder.contexts = c
          ∧ seedContext demoCfgPool 1 0 demoS4 = some c
          ∧ (seedCoders demoCfgPool 1 0 demoS4 1).contexts = c
          ∧ (ctuEncode demoCfgPool demoCollab 1 demoS4).1.log = demoS4.log ++
              [Event.loadContexts 1 c, Event.compressCU (1 * demoCfgPool.m_numCols),
                Event.encodeCTU (1 * demoCfgPool.m_numCols)]
          ∧ (ctuEncode demoCfgPool demoCollab 1 demoS4).2
              = demoCollab.compressCU demoS4.nCompress (1 * demoCfgPool.m_numCols)
                  (applyCuQp demoCfgPool demoCollab 1 (1 * demoCfgPool.m_numCols)
                    (deriveBaseQp demoCfgPool demoCollab 1 0 demoS4)).2
                  { engine := demoCfgPool.m_initSliceContext.engine, contexts := c }
          ∧ (ctuEncode demoCfgPool demoCollab 1 demoS4).1.rdEntropyCoders 1
              = demoCollab.encodeCTU
                  { engine := demoCfgPool.m_initSliceContext.engine, contexts := c }
                  (ctuEncode demoCfgPool demoCollab 1 demoS4).2
          ∧ ∀ s1, (workerStep demoCfgPool demoCollab 1 demoS4 = Outcome.running s1
                ∨ workerStep demoCfgPool demoCollab 1 demoS4 = Outcome.returned s1) →
              s1.rdEntropyCoders 1
                = demoCollab.encodeCTU
                    { engine := demoCfgPool.m_initSliceContext.engine, contexts := c }
                    (demoCollab.compressCU demoS4.nCompress (1 * demoCfgPool.m_numCols)
                      (applyCuQp demoCfgPool demoCollab 1 (1 * demoCfgPool.m_numCols)
                        (deriveBaseQp demoCfgPool demoCollab 1 0 demoS4)).2
                      { engine := demoCfgPool.m_initSliceContext.engine, contexts := c }) :=
  ⟨⟨demoS4_reachable, by decide, by decide, by decide, by decide, by decide, by decide,
      by decide, by decide, by decide⟩,
    (entropy_handoff demoCfgPool demoCollab demoS4 demoS4_reachable (by decide) (by decide) 1
      (by decide) (by decide)).1 (by decide) (by decide) (by decide)⟩

/-! ## C11: release of the reference pictures -/

theorem atomicDec_fold (pics : List Nat) (counts : Nat → Int) (f : Nat) :
    pics.foldl atomicDec counts f
      = counts f - ((pics.filter (fun g => decide (g = f))).length : Int) := by
  induction pics generalizing counts with
  | nil => simp
  | cons g rest ih =>
    rw [List.foldl_cons, ih, List.filter_cons]
    by_cases h : g = f
    · subst h
      simp [atomicDec, upd]
      ring
    · simp [atomicDec, upd, h]
      intro h2
      exact absurd h2.symm h

theorem releaseRefs_eq_fold (sl : Slice) (pics : Nat → Nat → Nat) (counts : Nat → Int) :
    releaseRefs sl pics counts
      = ((refSlots sl).map (fun p => pics p.1 p.2)).foldl atomicDec counts := by
  unfold releaseRefs refSlots
  generalize List.range (numPredDir sl) = ls
  induction ls generalizing counts with
  | nil => rfl
  | cons l rest ih =>
    rw [List.foldl_cons, ih, List.flatMap_cons, List.map_append, List.foldl_append]
    congr 1
    rw [List.map_map, List.foldl_map]
    rfl

theorem refSlots_length (sl : Slice) :
    (refSlots sl).length = ((List.range (numPredDir sl)).map sl.m_numRefIdx).sum := by
  unfold refSlots
  generalize List.range (numPredDir sl) = ls
  induction ls with
  | nil => rfl
  | cons l rest ih =>
    rw [List.flatMap_cons, List.length_append, ih]
    simp

theorem refSlots_mem_iff (sl : Slice) (p : Nat × Nat) :
    p ∈ refSlots sl ↔ p.1 < numPredDir sl ∧ p.2 < sl.m_numRefIdx p.1 := by
  unfold refSlots
  rw [List.mem_flatMap]
  constructor
  · rintro ⟨l, hl, hp⟩
    rw [List.mem_map] at hp
    obtain ⟨ref, hr, rfl⟩ := hp
    exact ⟨List.mem_range.mp hl, List.mem_range.mp hr⟩
  · rintro ⟨h1, h2⟩
    exact ⟨p.1, List.mem_range.mpr h1, List.mem_map.mpr ⟨p.2, List.mem_range.mpr h2, rfl⟩⟩

theorem refSlots_nodup (sl : Slice) : (refSlots sl).Nodup := by
  unfold refSlots
  rw [List.nodup_flatMap]
  refine ⟨?_, ?_⟩
  · intro l _
    exact (List.nodup_range _).map (fun a b h => by simpa using h)
  · refine (List.nodup_range _).pairwise_of_forall_ne ?_
    intro a _ b _ hab
    intro p hp1 hp2
    rw [List.mem_map] at hp1 hp2
    obtain ⟨_, _, rfl⟩ := hp1
    obtain ⟨_, _, h⟩ := hp2
    exact hab (by simpa using (congrArg Prod.fst h).symm)

/-- C11: the loops at the end of `compressFrame` decrement the reference count
of the frame in slot (`l`, `ref`) once for each slot with `l < numPredDir` and
`ref < numRefIdx[l]`, where `numPredDir` is 0, 1, 2 for I, P, B slices: the
slots visited are exactly these, each once; the count of every frame goes down
by the number of slots it occupies; the number of decrements is the sum of
`numRefIdx[l]` over `l < numPredDir`; and the count of a frame in no slot is
unchanged. -/
theorem refcount_release (sl : Slice) (m_refPicList : Nat → Nat → Nat) (counts : Nat → Int) :
    releaseRefs sl m_refPicList counts
        = ((refSlots sl).map (fun p => m_refPicList p.1 p.2)).foldl atomicDec counts
      ∧ (∀ p, p ∈ refSlots sl ↔ p.1 < numPredDir sl ∧ p.2 < sl.m_numRefIdx p.1)
      ∧ (refSlots sl).Nodup
      ∧ numPredDir sl = (match sl.m_sliceType with
          | SliceType.I_SLICE => 0 | SliceType.P_SLICE => 1 | SliceType.B_SLICE => 2)
      ∧ (∀ f, releaseRefs sl m_refPicList counts f
          = counts f - (slotsHolding sl m_refPicList f : Int))
      ∧ (refSlots sl).length = ((List.range (numPredDir sl)).map sl.m_numRefIdx).sum
      ∧ (∀ f, (∀ l ref, l < numPredDir sl → ref < sl.m_numRefIdx l → m_refPicList l ref ≠ f) →
          releaseRefs sl m_refPicList counts f = counts f) := by
  have hcount : ∀ f, releaseRefs sl m_refPicList counts f
      = counts f - (slotsHolding sl m_refPicList f : Int) := by
    intro f
    rw [releaseRefs_eq_fold, atomicDec_fold]
    unfold slotsHolding
    rw [List.filter_map, List.length_map]
    rfl
  refine ⟨releaseRefs_eq_fold sl m_refPicList counts, refSlots_mem_iff sl, refSlots_nodup sl,
    ?_, hcount, refSlots_length sl, ?_⟩
  · unfold numPredDir
    cases sl.m_sliceType <;> simp
  · intro f hf
    rw [hcount]
    have : slotsHolding sl m_refPicList f = 0 := by
      unfold slotsHolding
      rw [List.length_eq_zero, List.filter_eq_nil_iff]
      intro p hp
      obtain ⟨h1, h2⟩ := (refSlots_mem_iff sl p).mp hp
      simpa using hf p.1 p.2 h1 h2
    rw [this]
    simp

/-- Witness of C11: a B slice with slots (0,0), (0,1), (1,0) holding frames
7, 5, 7: three decrements, two on frame 7, one on frame 5, none on frame 9. -/
theorem refcount_release_witness :
    releaseRefs demoSliceB demoRefPicList (fun _ => 3) 7 = 1
      ∧ releaseRefs demoSliceB demoRefPicList (fun _ => 3) 5 = 2
      ∧ (refSlots demoSliceB).length = 3
      ∧ (∀ l ref, l < numPredDir demoSliceB → ref < demoSliceB.m_numRefIdx l →
          demoRefPicList l ref ≠ 9)
      ∧ releaseRefs demoSliceB demoRefPicList (fun _ => 3) 9 = 3 :=
  have h := refcount_release demoSliceB demoRefPicList (fun _ => 3)
  have h9 : ∀ l ref, l < numPredDir demoSliceB → ref < demoSliceB.m_numRefIdx l →
      demoRefPicList l ref ≠ 9 := by
    intro l ref _ _
    unfold demoRefPicList
    split <;> decide
  ⟨by rw [h.2.2.2.2.1 7]; decide, by rw [h.2.2.2.2.1 5]; decide,
    by rw [h.2.2.2.2.2.1]; decide, h9, h.2.2.2.2.2.2 9 h9⟩

/-! ## C12: the diagonal checkpoint -/

theorem Checks.refl_checks (s : EncState) : Checks s s [] := ⟨[], by simp, rfl⟩

theorem Checks.trans_checks {s s1 s2 : EncState} {a b : List (Nat × Nat)}
    (h1 : Checks s s1 a) (h2 : Checks s1 s2 b) : Checks s s2 (a ++ b) := by
  obtain ⟨e1, h1, g1⟩ := h1
  obtain ⟨e2, h2, g2⟩ := h2
  exact ⟨e1 ++ e2, by rw [h2, h1, List.append_assoc], by rw [List.filterMap_append, g1, g2]⟩

theorem Checks.of_none_checks (s s1 : EncState) (evs : List Event) (h : s1.log = s.log ++ evs)
    (hk : ∀ e ∈ evs, Event.checkpoint e = none) : Checks s s1 [] :=
  ⟨evs, h, List.filterMap_eq_nil_iff.mpr hk⟩

theorem ctuEncode_checks (cfg : Cfg) (orc : Collab) (row : Nat) (s : EncState) :
    Checks s (ctuEncode cfg orc row s).1 [] := by
  refine Checks.of_none_checks _ _ _ rfl ?_
  intro e he
  unfold encodeEvents at he
  simp only [List.mem_append, List.mem_cons, List.mem_singleton, List.not_mem_nil,
    or_false] at he
  rcases he with (h | h | h) | h
  · unfold seedEvents at h
    split at h
    · simp at h; subst h; rfl
    · simp at h
  · subst h; rfl
  · subst h; rfl
  · split at h
    · simp at h; subst h; rfl
    · simp at h

theorem vbvCheckpoint_checks (cfg : Cfg) (orc : Collab) (row col : Nat) (cu : CuData)
    (s : EncState) :
    Checks s (vbvCheckpoint cfg orc row col cu s).1
      (if bIsVbv cfg.param = true ∧ row = col ∧ row ≠ 0 then [(row, col)] else []) := by
  unfold vbvCheckpoint
  simp only []
  by_cases hv : bIsVbv cfg.param = true
  · rw [if_pos hv]
    by_cases hd : row = col ∧ row ≠ 0
    · have e : (if bIsVbv cfg.param = true ∧ row = col ∧ row ≠ 0 then [(row, col)] else [])
          = [(row, col)] := if_pos ⟨hv, hd⟩
      rw [e, if_pos hd]
      split
      · exact ⟨[Event.rowDiagonalVbvRateControl row col], rfl, rfl⟩
      · exact ⟨[Event.rowDiagonalVbvRateControl row col], rfl, rfl⟩
    · have e : (if bIsVbv cfg.param = true ∧ row = col ∧ row ≠ 0 then [(row, col)] else [])
          = [] := if_neg (fun h => hd h.2)
      rw [e, if_neg hd]
      exact ⟨[], by simp, rfl⟩
  · have e : (if bIsVbv cfg.param = true ∧ row = col ∧ row ≠ 0 then [(row, col)] else [])
        = [] := if_neg (fun h => hv h.1)
    rw [e, if_neg hv]
    exact Checks.refl_checks s

theorem ctuHead_checks (cfg : Cfg) (orc : Collab) (row : Nat) (s : EncState) :
    Checks s (ctuHead cfg orc row s).1
      (if bIsVbv cfg.param = true ∧ row = (s.m_rows row).completed ∧ row ≠ 0
        then [(row, (s.m_rows row).completed)] else []) := by
  unfold ctuHead
  simpa using (ctuEncode_checks cfg orc row s).trans_checks
    (vbvCheckpoint_checks cfg orc row (s.m_rows row).completed _ _)

theorem saoStats_checks (cfg : Cfg) (row col : Nat) (s : EncState) :
    Checks s (saoStats cfg row col s) [] := by
  unfold saoStats
  split
  · exact Checks.of_none_checks _ _ [Event.calcSaoStatsCu_BeforeDblk col row] rfl
      (by intro e he; simp at he; subst he; rfl)
  · exact Checks.refl_checks s

theorem activateNext_checks (cfg : Cfg) (row : Nat) (s : EncState) :
    Checks s (activateNext cfg row s) [] := by
  unfold activateNext
  split
  · exact Checks.of_none_checks _ _ [Event.enqueueRowEncoder (row + 1)] rfl
      (by intro e he; simp at he; subst he; rfl)
  · exact Checks.refl_checks s

theorem suspendRow_checks (row : Nat) (s : EncState) : Checks s (suspendRow row s) [] :=
  Checks.of_none_checks _ _ [Event.suspend row] rfl (by intro e he; simp at he; subst he; rfl)

theorem ctuTail_checks (cfg : Cfg) (row col : Nat) (v s1 : EncState)
    (h : ctuTail cfg row col v = Outcome.running s1
      ∨ ctuTail cfg row col v = Outcome.returned s1) : Checks v s1 [] := by
  have h1 := (saoStats_checks cfg row col v).trans_checks
    (activateNext_checks cfg row (saoStats cfg row col v))
  unfold ctuTail at h
  split at h
  · rcases h with h | h
    · cases h
    · cases h
      simpa using h1.trans_checks (suspendRow_checks row _)
  · rcases h with h | h
    · cases h; simpa using h1
    · cases h

theorem filterTriggers_checks (cfg : Cfg) (row : Nat) :
    ∀ e ∈ filterTriggers cfg row, Event.checkpoint e = none := by
  intro e h
  unfold filterTriggers at h
  simp only [List.mem_append] at h
  rcases h with h | h
  · split at h
    · simp only [List.mem_append, List.mem_singleton] at h
      rcases h with h | h
      · subst h; rfl
      · split at h
        · simp at h; subst h; rfl
        · simp at h
    · simp at h
  · split at h
    · simp only [List.mem_map] at h
      obtain ⟨j, _, rfl⟩ := h
      rfl
    · simp at h

theorem finishRow_checks (cfg : Cfg) (orc : Collab) (row : Nat) (s : EncState) :
    Checks s (finishRow cfg orc row s) [] := by
  unfold finishRow
  simp only []
  refine Checks.of_none_checks _ _ ((if (!cfg.param.bEnableSAO &&
        (cfg.param.bEnableWavefront || decide ((row : Int) = (cfg.m_numRows : Int) - 1))) = true
      then [Event.finishSlice row] else [])
    ++ (if (row : Int) = statsRowCount cfg then
        [Event.rateControlUpdateStats
          (((List.range (row * cfg.m_numCols)).map s.m_frame.m_totalBits).sum)] else [])
    ++ filterTriggers cfg row) ?_ ?_
  · simp only []
    split <;> split <;> simp
  · intro e he
    simp only [List.mem_append] at he
    rcases he with (h | h) | h
    · split at h
      · simp at h; subst h; rfl
      · simp at h
    · split at h
      · simp at h; subst h; rfl
      · simp at h
    · exact filterTriggers_checks cfg row e h

theorem enterRow_checks (row : Nat) (s : EncState) : Checks s (enterRow row s).1 [] := by
  unfold enterRow
  split
  · exact Checks.refl_checks s
  · split
    · exact Checks.of_none_checks _ _ [Event.simultaneousRowAccess row] rfl
        (by intro e he; simp at he; subst he; rfl)
    · exact ⟨[], by simp, rfl⟩

/-- A step of the worker of `row` at the head of the CTU loop, when rate
control does not ask for a re-encode: the worker stays at the head of the
loop, only the cursor of `row` moves, and the checkpoint is called exactly if
the CTU just coded is the one of column `row` of a row other than row 0, with
VBV on. -/
theorem workerStep_checks (cfg : Cfg) (orc : Collab) (row : Nat) (s s1 : EncState)
    (hno : NoReEncode cfg orc) (hpc : s.pc row = Pc.loop)
    (h : workerStep cfg orc row s = Outcome.running s1
      ∨ workerStep cfg orc row s = Outcome.returned s1) :
    s1.pc = s.pc
      ∧ (∀ q, (s1.m_rows q).completed
          = if q = row ∧ (s.m_rows row).completed < cfg.m_numCols
            then (s.m_rows row).completed + 1 else (s.m_rows q).completed)
      ∧ Checks s s1
          (if (s.m_rows row).completed < cfg.m_numCols ∧ bIsVbv cfg.param = true
              ∧ row = (s.m_rows row).completed ∧ row ≠ 0
            then [(row, (s.m_rows row).completed)] else []) := by
  unfold workerStep at h
  rw [hpc] at h
  simp only [] at h
  by_cases hc : (s.m_rows row).completed < cfg.m_numCols
  · rw [if_pos hc] at h
    simp only [ctuHead_noReEncode cfg orc row s hno, Bool.false_eq_true, if_false] at h
    obtain ⟨a1, a2⟩ := ctuHead_sched cfg orc row s
    obtain ⟨s2, hs2, _, e2, _, _, _, _, e7, _⟩ :=
      ctuTail_frame cfg row (s.m_rows row).completed (ctuHead cfg orc row s).1
    have hs : s2 = s1 := by
      rcases h with h | h <;> rcases hs2 with g | g <;> rw [h] at g <;> cases g <;> rfl
    subst hs
    refine ⟨by rw [e2, a2], ?_, ?_⟩
    · intro q
      rw [(e7 q).1, (a1 q).1]
      by_cases hq : q = row
      · rw [if_pos hq, if_pos ⟨hq, hc⟩]
      · rw [if_neg hq, if_neg (fun hx => hq hx.1)]
    · have hh := ctuHead_checks cfg orc row s
      have ht := ctuTail_checks cfg row _ _ s2 h
      have := hh.trans_checks ht
      simp only [List.append_nil] at this
      by_cases hd : bIsVbv cfg.param = true ∧ row = (s.m_rows row).completed ∧ row ≠ 0
      · rw [if_pos hd] at this
        rw [if_pos ⟨hc, hd⟩]
        exact this
      · rw [if_neg hd] at this
        rw [if_neg (fun hx => hd hx.2)]
        exact this
  · rw [if_neg hc] at h
    rcases h with h | h
    · cases h
    · cases h
      obtain ⟨d1, d2, _, _⟩ := finishRow_sched cfg orc row s
      refine ⟨d2, ?_, ?_⟩
      · intro q
        rw [(d1 q).1, if_neg (fun hx => hc hx.2)]
      · rw [if_neg (fun hx => hc hx.1)]
        exact finishRow_checks cfg orc row s

theorem enterRow_pc (row : Nat) (s : EncState) : (enterRow row s).1.pc = s.pc := by
  unfold enterRow
  split
  · rfl
  · split <;> rfl

theorem checkpointsOf_append (r : Nat) (a b : List Event) :
    checkpointsOf r (a ++ b) = checkpointsOf r a ++ checkpointsOf r b := by
  unfold checkpointsOf
  rw [List.filterMap_append, List.filter_append]

theorem ReachableFrom.reachable {cfg : Cfg} {orc : Collab} {s0 s : EncState}
    (hfresh : FreshRows s0) (h : ReachableFrom cfg orc s0 s) : Reachable cfg orc s := by
  induction h with
  | start => exact Reachable.start s0 hfresh
  | step s1 s2 _ hs ih => exact Reachable.step s1 s2 ih hs

/-- Invariant of the rows under concurrent workers when no re-encode is asked
for: no worker ever leaves the CTU loop for the rollback, and the checkpoint
calls for row `r` so far are the single call at column `r`, once the row is
past that column (and none with VBV off or for row 0). -/
theorem checkpoint_inv (cfg : Cfg) (orc : Collab) (s0 s : EncState)
    (hno : NoReEncode cfg orc) (hfresh : FreshRows s0) (hs : ReachableFrom cfg orc s0 s) :
    (∀ r, s.pc r = Pc.loop)
      ∧ ∃ evs, s.log = s0.log ++ evs ∧ ∀ r, checkpointsOf r evs
          = if bIsVbv cfg.param = true ∧ 0 < r ∧ r < (s.m_rows r).completed
            then [(r, r)] else [] := by
  induction hs with
  | start =>
    refine ⟨fun r => (hfresh r).2.2.2.1, [], by rw [startRows_log]; simp, ?_⟩
    intro r
    have hc : ((startRows s0).m_rows r).completed = 0 := by
      obtain ⟨f1, _⟩ := hfresh r
      by_cases hq : r = 0
      · subst hq; simp [startRows, f1]
      · simp [startRows, hq, f1]
    rw [if_neg (by rw [hc]; omega)]
    rfl
  | step s1 s2 _ hstep ih =>
    obtain ⟨hpc, evs, hlog, hchk⟩ := ih
    have key : ∀ (row : Nat), s2.pc = s1.pc →
        (∀ q, (s2.m_rows q).completed
          = if q = row ∧ (s1.m_rows row).completed < cfg.m_numCols
            then (s1.m_rows row).completed + 1 else (s1.m_rows q).completed) →
        Checks s1 s2
          (if (s1.m_rows row).completed < cfg.m_numCols ∧ bIsVbv cfg.param = true
              ∧ row = (s1.m_rows row).completed ∧ row ≠ 0
            then [(row, (s1.m_rows row).completed)] else []) →
        (∀ r, s2.pc r = Pc.loop)
          ∧ ∃ evs, s2.log = s0.log ++ evs ∧ ∀ r, checkpointsOf r evs
              = if bIsVbv cfg.param = true ∧ 0 < r ∧ r < (s2.m_rows r).completed
                then [(r, r)] else [] := by
      intro row h1 h2 h3
      refine ⟨fun r => by rw [h1]; exact hpc r, ?_⟩
      obtain ⟨new, hn1, hn2⟩ := h3
      refine ⟨evs ++ new, by rw [hn1, hlog, List.append_assoc], ?_⟩
      intro r
      rw [checkpointsOf_append, hchk r, h2 r]
      have hnew : checkpointsOf r new
          = if (s1.m_rows row).completed < cfg.m_numCols ∧ bIsVbv cfg.param = true
              ∧ row = (s1.m_rows row).completed ∧ row ≠ 0 ∧ r = row
            then [(r, r)] else [] := by
        unfold checkpointsOf
        rw [hn2]
        by_cases hd : (s1.m_rows row).completed < cfg.m_numCols ∧ bIsVbv cfg.param = true
            ∧ row = (s1.m_rows row).completed ∧ row ≠ 0
        · rw [if_pos hd]
          by_cases hr : r = row
          · rw [if_pos ⟨hd.1, hd.2.1, hd.2.2.1, hd.2.2.2, hr⟩]
            subst hr
            rw [← hd.2.2.1]
            simp
          · rw [if_neg (fun hx => hr hx.2.2.2.2)]
            simp only [List.filter_cons, List.filter_nil]
            rw [if_neg (by simpa using fun hx => hr hx.symm)]
        · rw [if_neg hd, if_neg (fun hx => hd ⟨hx.1, hx.2.1, hx.2.2.1, hx.2.2.2.1⟩)]
          rfl
      rw [hnew]
      by_cases hv : bIsVbv cfg.param = true
      · by_cases hr : r = row
        · subst hr
          by_cases hc : (s1.m_rows r).completed < cfg.m_numCols
          · simp only [hv, hc, true_and, and_true, if_true]
            by_cases hd : r = (s1.m_rows r).completed
            · by_cases h0 : r = 0
              · simp [h0]
              · have p1 : ¬ (0 < r ∧ r < (s1.m_rows r).completed) := by omega
                have p2 : 0 < r ∧ r < (s1.m_rows r).completed + 1 := by omega
                have p3 : r = (s1.m_rows r).completed ∧ r ≠ 0 := ⟨hd, h0⟩
                rw [if_neg p1, if_pos p3, if_pos p2]
                rfl
            · have p3 : ¬ (r = (s1.m_rows r).completed ∧ r ≠ 0) := fun hx => hd hx.1
              rw [if_neg p3, List.append_nil]
              by_cases p1 : 0 < r ∧ r < (s1.m_rows r).completed
              · rw [if_pos p1, if_pos (by omega)]
              · rw [if_neg p1, if_neg (by omega)]
          · simp [hv, hc]
        · simp [hv, hr]
      · simp [hv]
    have key0 : s2.pc = s1.pc →
        (∀ q, (s2.m_rows q).completed = (s1.m_rows q).completed) → Checks s1 s2 [] →
        (∀ r, s2.pc r = Pc.loop)
          ∧ ∃ evs, s2.log = s0.log ++ evs ∧ ∀ r, checkpointsOf r evs
              = if bIsVbv cfg.param = true ∧ 0 < r ∧ r < (s2.m_rows r).completed
                then [(r, r)] else [] := by
      intro h1 h2 h3
      refine ⟨fun r => by rw [h1]; exact hpc r, ?_⟩
      obtain ⟨new, hn1, hn2⟩ := h3
      refine ⟨evs ++ new, by rw [hn1, hlog, List.append_assoc], ?_⟩
      intro r
      rw [checkpointsOf_append, hchk r, h2 r]
      unfold checkpointsOf
      rw [hn2]
      simp
    cases hstep
    case enter row hrow =>
      exact key0 (enterRow_pc row s1) (fun q => ((enterRow_ctx row s1).1 q).2)
        (enterRow_checks row s1)
    case run row hrow hbusy hst =>
      obtain ⟨w1, w2, w3⟩ := workerStep_checks cfg orc row s1 s2 hno (hpc row) (Or.inl hst)
      exact key row w1 w2 w3
    case ret row hrow hbusy hst =>
      obtain ⟨w1, w2, w3⟩ := workerStep_checks cfg orc row s1 s2 hno (hpc row) (Or.inr hst)
      exact key row w1 w2 w3

/-- C12, counterexample: a frame of 3 rows by 2 columns with VBV on and a rate
control that never asks for a re-encode is compressed on the sequential path;
row 2 ends fully coded (`completed = numCols = 2`) although the checkpoint was
never called for it, row 1 having had its single call at column 1. -/
theorem checkpoint_never_on_tall_row :
    bIsVbv demoCfgTall.param = true
      ∧ (0 < 2 ∧ 2 ≤ demoCfgTall.m_numRows - 1)
      ∧ (compressCTURows demoCfgTall demoCollabCalm demoSliceI 5 demoState).map
          (fun s1 => ((s1.m_rows 2).completed, checkpointsOf 1 s1.log,
            (checkpointsOf 2 s1.log).length))
        = some (demoCfgTall.m_numCols, [(1, 1)], 0) := by
  decide

/-- C12, amended: with VBV on and no re-encode asked for, in every state the
workers reach from a freshly initialised frame the checkpoint calls logged
for row `r` are: the single call at column `r` once the row has coded that
column, for `0 < r`; none before. So a row that is fully coded has had exactly
one call, at column `r`, if `0 < r < numCols`, and none if `r = 0` or
`r >= numCols` (a row below the last diagonal CTU). -/
theorem checkpoint_once (cfg : Cfg) (orc : Collab) (s0 s : EncState)
    (hv : bIsVbv cfg.param = true)
    (hno : ∀ n row q, ¬ (orc.rowDiagonalVbvRateControl n row q).1 < 0)
    (hfresh : FreshRows s0) (hs : ReachableFrom cfg orc s0 s) :
    ∃ evs, s.log = s0.log ++ evs
      ∧ (∀ r, checkpointsOf r evs
          = if 0 < r ∧ r < (s.m_rows r).completed then [(r, r)] else [])
      ∧ (∀ r, (s.m_rows r).completed = cfg.m_numCols → checkpointsOf r evs
          = if 0 < r ∧ r < cfg.m_numCols then [(r, r)] else [])
      ∧ (∀ r, r = 0 ∨ cfg.m_numCols ≤ r → checkpointsOf r evs = []) := by
  obtain ⟨_, evs, hlog, hchk⟩ := checkpoint_inv cfg orc s0 s (Or.inr hno) hfresh hs
  have hbound := (reachable_inv cfg orc s (hs.reachable hfresh)).base.bound
  have h1 : ∀ r, checkpointsOf r evs
      = if 0 < r ∧ r < (s.m_rows r).completed then [(r, r)] else [] := by
    intro r
    rw [hchk r]
    simp [hv]
  refine ⟨evs, hlog, h1, ?_, ?_⟩
  · intro r hr
    rw [h1 r, hr]
  · intro r hr
    rw [h1 r, if_neg]
    have := hbound r
    omega

theorem demoV7_reachable : ReachableFrom demoCfgVbv demoCollabCalm demoState demoV7 :=
  have h0 : ReachableFrom demoCfgVbv demoCollabCalm demoState demoV0 := ReachableFrom.start
  have h1 : ReachableFrom demoCfgVbv demoCollabCalm demoState demoV1 :=
    ReachableFrom.step _ _ h0 (Step.enter _ 0 (by decide))
  have h2 : ReachableFrom demoCfgVbv demoCollabCalm demoState demoV2 :=
    ReachableFrom.step _ _ h1 (Step.of_stepRow _ _ 0 demoV1 (by decide) (by decide) (by decide))
  have h3 : ReachableFrom demoCfgVbv demoCollabCalm demoState demoV3 :=
    ReachableFrom.step _ _ h2 (Step.of_stepRow _ _ 0 demoV2 (by decide) (by decide) (by decide))
  have h4 : ReachableFrom demoCfgVbv demoCollabCalm demoState demoV4 :=
    ReachableFrom.step _ _ h3 (Step.of_stepRow _ _ 0 demoV3 (by decide) (by decide) (by decide))
  have h5 : ReachableFrom demoCfgVbv demoCollabCalm demoState demoV5 :=
    ReachableFrom.step _ _ h4 (Step.enter _ 1 (by decide))
  have h6 : ReachableFrom demoCfgVbv demoCollabCalm demoState demoV6 :=
    ReachableFrom.step _ _ h5 (Step.of_stepRow _ _ 1 demoV5 (by decide) (by decide) (by decide))
  ReachableFrom.step _ _ h6 (Step.of_stepRow _ _ 1 demoV6 (by decide) (by decide) (by decide))

/-- Witness of C12 on the 4 by 4 frame: after row 1 has coded its second CTU
the log holds one checkpoint call for row 1, at column 1. -/
theorem checkpoint_once_witness :
    (bIsVbv demoCfgVbv.param = true ∧ FreshRows demoState
        ∧ ReachableFrom demoCfgVbv demoCollabCalm demoState demoV7
        ∧ (demoV7.m_rows 1).completed = 2)
      ∧ ∃ evs, demoV7.log = demoState.log ++ evs
        ∧ (∀ r, checkpointsOf r evs
            = if 0 < r ∧ r < (demoV7.m_rows r).completed then [(r, r)] else [])
        ∧ (∀ r, (demoV7.m_rows r).completed = demoCfgVbv.m_numCols → checkpointsOf r evs
            = if 0 < r ∧ r < demoCfgVbv.m_numCols then [(r, r)] else [])
        ∧ (∀ r, r = 0 ∨ demoCfgVbv.m_numCols ≤ r → checkpointsOf r evs = []) :=
  ⟨⟨by decide, fun _ => ⟨rfl, rfl, rfl, rfl, rfl⟩, demoV7_reachable, by decide⟩,
    checkpoint_once demoCfgVbv demoCollabCalm demoState demoV7 (by decide)
      (fun _ _ _ => by simp [demoCollabCalm])
      (fun _ => ⟨rfl, rfl, rfl, rfl, rfl⟩) demoV7_reachable⟩

/-! ## C13: the scheduler state on leaving the rollback -/

theorem ctuIteration_exit (cfg : Cfg) (orc : Collab) (k f : Nat) (t v : EncState)
    (hstep : workerStep cfg orc k t = ctuTail cfg k k v) (hv : v.pc k = Pc.loop) :
    ctuIteration cfg orc k (f + 1) t = some (ctuTail cfg k k v) := by
  obtain ⟨s1, hs1, _, e2, _⟩ := ctuTail_frame cfg k k v
  rcases hs1 with h | h
  · simp only [ctuIteration, hstep, h]
    simp [e2, hv]
  · simp only [ctuIteration, hstep, h]

/-- The rollback loop from cursor `j` down to the trigger row `k`, run without
interference: the scheduler state with which the rollback block is left
(line 787), before lines 791-817 run on it. -/
theorem rollback_exit (cfg : Cfg) (orc : Collab) (k : Nat) :
    ∀ (n : Nat) (t : EncState) (j fuel : Nat), j = k + n →
      t.pc k = Pc.rbDeactivate j →
      (∀ r, k < r → r ≤ j → (t.m_rows r).busy = false
        ∧ ((t.m_rows r).active = true → orc.dequeueRow (r * 2) = true)) →
      2 * n + 1 ≤ fuel →
      ∃ v, ctuIteration cfg orc k fuel t = some (ctuTail cfg k k v)
        ∧ v.m_bAllRowsStop = false ∧ v.pc k = Pc.loop
        ∧ v.m_vbvResetTriggerRow = t.m_vbvResetTriggerRow
        ∧ (∀ r, k < r → r ≤ j → (v.m_rows r).active = false ∧ (v.m_rows r).busy = false
            ∧ (v.m_rows r).completed = 0)
        ∧ (v.m_rows k).active = (t.m_rows k).active ∧ (v.m_rows k).busy = (t.m_rows k).busy
        ∧ (v.m_rows k).completed = 0
        ∧ (∀ r, (r < k ∨ j < r) → v.m_rows r = t.m_rows r)
        ∧ v.m_frame.m_rowDiagQp = t.m_frame.m_rowDiagQp := by
  intro n
  induction n with
  | zero =>
    intro t j fuel hj hpc _ hfuel
    simp only [Nat.add_zero] at hj
    subst hj
    obtain ⟨f, rfl⟩ : ∃ f, fuel = f + 1 := ⟨fuel - 1, by omega⟩
    have hstep : workerStep cfg orc j t
        = ctuTail cfg j j { resetRow j t with
            m_bAllRowsStop := false, pc := upd (resetRow j t).pc j Pc.loop } := by
      unfold workerStep
      rw [hpc]
      simp [rollbackNext]
    refine ⟨_, ctuIteration_exit cfg orc j f t _ hstep (by simp), rfl, by simp, rfl, ?_,
      by simp [resetRow], by simp [resetRow], by simp [resetRow], ?_, rfl⟩
    · intro r h1 h2; omega
    · intro r h1
      have hne : r ≠ j := by omega
      simp [resetRow, hne]
  | succ n ih =>
    intro t j fuel hj hpc hidle hfuel
    obtain ⟨f, rfl⟩ : ∃ f, fuel = f + 2 := ⟨fuel - 2, by omega⟩
    have hjk : j ≠ k := by omega
    obtain ⟨hb, hdq⟩ := hidle j (by omega) (le_refl j)
    let t1 : EncState :=
      { t with
        m_rows := upd t.m_rows j { t.m_rows j with active := false }
        pc := upd t.pc k (Pc.rbWaitIdle j) }
    have hstep1 : workerStep cfg orc k t = Outcome.running t1 := by
      unfold workerStep
      rw [hpc]
      by_cases ha : (t.m_rows j).active = true
      · simp [hjk, ha, hdq ha, t1]
      · have hrows : upd t.m_rows j { t.m_rows j with active := false } = t.m_rows := by
          funext r
          simp only [upd]
          split
          · rename_i h; subst h
            cases hrow : t.m_rows r
            simp [hrow] at ha
            simp [ha]
          · rfl
        simp [hjk, ha, t1, hrows]
    let t2 : EncState :=
      { resetRow j t1 with pc := upd (resetRow j t1).pc k (Pc.rbDeactivate (j - 1)) }
    have hstep2 : workerStep cfg orc k t1 = Outcome.running t2 := by
      unfold workerStep
      have : t1.pc k = Pc.rbWaitIdle j := by simp [t1]
      rw [this]
      have hb1 : (t1.m_rows j).busy = false := by simp [t1, hb]
      have hge : (j : Int) - 1 ≥ (k : Int) := by omega
      simp [hb1, rollbackNext, hge, t2, hb]
    have hrun : ctuIteration cfg orc k (f + 2) t = ctuIteration cfg orc k f t2 := by
      have p1 : t1.pc k ≠ Pc.loop := by simp [t1]
      have p2 : t2.pc k ≠ Pc.loop := by simp [t2]
      simp only [ctuIteration, hstep1, hstep2, p1, p2, if_false]
    have hrows2 : ∀ r, r ≠ j → t2.m_rows r = t.m_rows r := by
      intro r hr; simp [t2, t1, resetRow, hr]
    have hrowj : (t2.m_rows j).active = false ∧ (t2.m_rows j).busy = false
        ∧ (t2.m_rows j).completed = 0 := by
      simp [t2, t1, resetRow, hb]
    obtain ⟨v, hv, g1, g2, g3, g4, g5, g6, g7, g8, g9⟩ :=
      ih t2 (j - 1) f (by omega) (by simp [t2])
        (by
          intro r h1 h2
          rw [hrows2 r (by omega)]
          exact hidle r h1 (by omega))
        (by omega)
    refine ⟨v, by rw [hrun]; exact hv, g1, g2, by rw [g3]; rfl, ?_, ?_, ?_, g7, ?_, ?_⟩
    · intro r h1 h2
      by_cases hr : r = j
      · subst hr
        rw [g8 r (Or.inr (by omega))]
        exact hrowj
      · exact g4 r h1 (by omega)
    · rw [g5, hrows2 k (by omega)]
    · rw [g6, hrows2 k (by omega)]
    · intro r h1
      rw [g8 r (by omega), hrows2 r (by omega)]
    · rw [g9]; rfl

/-- When the checkpoint asks for a re-encode, the diagonal QP of the row has
just been replaced by the clipped value that rate control returned with its
request (lines 724-727). -/
theorem ctuHead_reEncode_qp (cfg : Cfg) (orc : Collab) (row : Nat) (s : EncState)
    (h : (ctuHead cfg orc row s).2 = true) :
    ∃ q, (orc.rowDiagonalVbvRateControl s.rcCalls row q).1 < 0
      ∧ (ctuHead cfg orc row s).1.m_frame.m_rowDiagQp row
          = Clip3 cfg.glob.QP_MIN cfg.glob.QP_MAX_MAX
              (orc.rowDiagonalVbvRateControl s.rcCalls row q).2 := by
  unfold ctuHead vbvCheckpoint at h ⊢
  simp only [] at h ⊢
  split at h
  · rename_i hv
    rw [if_pos hv]
    split at h
    · rename_i hd
      rw [if_pos hd]
      split at h
      · rename_i hr
        rw [if_pos hr]
        refine ⟨_, hr, ?_⟩
        simp [upd]
        rfl
      · cases h
    · cases h
  · cases h

theorem applyCuQp_baseQp (cfg : Cfg) (orc : Collab) (row cuAddr : Nat) (f : Frame) :
    (applyCuQp cfg orc row cuAddr f).1.m_baseQp = f.m_baseQp := by
  unfold applyCuQp calcQpForCu
  simp only []
  split
  · split <;> split <;> rfl
  · rfl

theorem ctuEncode_baseQp (cfg : Cfg) (orc : Collab) (row : Nat) (s : EncState) :
    (ctuEncode cfg orc row s).1.m_frame.m_baseQp
      = (deriveBaseQp cfg orc row (s.m_rows row).completed s).m_baseQp := by
  unfold ctuEncode
  simp only []
  exact applyCuQp_baseQp cfg orc row _ _

/-- The base QP of the CTU at column `col` of the trigger row is the recorded
diagonal QP of the row (lines 646-649). -/
theorem deriveBaseQp_trigger (cfg : Cfg) (orc : Collab) (k col : Nat) (s : EncState)
    (hv : bIsVbv cfg.param = true) (hk : k ≠ 0)
    (ht : s.m_vbvResetTriggerRow = (k : Int)) :
    (deriveBaseQp cfg orc k col s).m_baseQp (k * cfg.m_numCols + col)
      = s.m_frame.m_rowDiagQp k := by
  unfold deriveBaseQp
  simp [hv, hk, ht, upd]

/-- The rollback run by the worker of row `k` without interference: when
rate control asks for a re-encode at the checkpoint of row `k` and the rows
below are idle and can be dequeued, the rollback block is left in a state `v`
on which lines 791-817 then run. -/
theorem rollback_exit_alone (cfg : Cfg) (orc : Collab) (k : Nat) (s : EncState) (fuel : Nat)
    (hk : k < cfg.m_numRows) (hloop : s.pc k = Pc.loop)
    (hcol : (s.m_rows k).completed < cfg.m_numCols)
    (hown : (s.m_rows k).active = true ∧ (s.m_rows k).busy = true)
    (hre : (ctuHead cfg orc k s).2 = true)
    (hidle : ∀ r, k < r → r < cfg.m_numRows → (s.m_rows r).busy = false
      ∧ ((s.m_rows r).active = true → orc.dequeueRow (r * 2) = true))
    (hfuel : 2 * (cfg.m_numRows - k) ≤ fuel) :
    ∃ v, ctuIteration cfg orc k fuel s = some (ctuTail cfg k k v)
      ∧ v.m_bAllRowsStop = false ∧ v.m_vbvResetTriggerRow = (k : Int)
      ∧ (∀ r, k < r → r ≤ cfg.m_numRows - 1 →
          (v.m_rows r).active = false ∧ (v.m_rows r).busy = false
            ∧ (v.m_rows r).completed = 0)
      ∧ ((v.m_rows k).active = true ∧ (v.m_rows k).busy = true
          ∧ (v.m_rows k).completed = 0 ∧ v.pc k = Pc.loop)
      ∧ (∃ q, (orc.rowDiagonalVbvRateControl s.rcCalls k q).1 < 0
          ∧ v.m_frame.m_rowDiagQp k = Clip3 cfg.glob.QP_MIN cfg.glob.QP_MAX_MAX
              (orc.rowDiagonalVbvRateControl s.rcCalls k q).2)
      ∧ (2 ≤ (s.m_rows (k - 1)).completed →
          ∃ s1, ctuTail cfg k k v = Outcome.running s1
            ∧ s1.m_rows = v.m_rows ∧ s1.pc = v.pc ∧ s1.m_frame = v.m_frame
            ∧ s1.m_bAllRowsStop = false ∧ s1.m_vbvResetTriggerRow = (k : Int)
            ∧ (ctuEncode cfg orc k s1).1.m_frame.m_baseQp (k * cfg.m_numCols + 0)
                = v.m_frame.m_rowDiagQp k) := by
  obtain ⟨hvbv, hd, hk0, _, htrig⟩ := ctuHead_reEncode cfg orc k s hre
  obtain ⟨q, hq1, hq2⟩ := ctuHead_reEncode_qp cfg orc k s hre
  obtain ⟨f, rfl⟩ : ∃ f, fuel = f + 1 := ⟨fuel - 1, by omega⟩
  let t : EncState :=
    { (ctuHead cfg orc k s).1 with
      pc := upd (ctuHead cfg orc k s).1.pc k (Pc.rbDeactivate (cfg.m_numRows - 1)) }
  have hstep : workerStep cfg orc k s = Outcome.running t := by
    unfold workerStep
    rw [hloop]
    simp [hcol, hre, t]
  have hrun : ctuIteration cfg orc k (f + 1) s = ctuIteration cfg orc k f t := by
    have p1 : t.pc k ≠ Pc.loop := by simp [t]
    simp only [ctuIteration, hstep, p1, if_false]
  have hrows : ∀ r, r ≠ k → t.m_rows r = s.m_rows r := by
    intro r hr
    exact ctuHead_rows_ne cfg orc k r s hr
  obtain ⟨a1, _⟩ := ctuHead_sched cfg orc k s
  obtain ⟨v, hv, g1, g2, g3, g4, g5, g6, g7, g8, g9⟩ :=
    rollback_exit cfg orc k (cfg.m_numRows - 1 - k) t (cfg.m_numRows - 1) f (by omega)
      (by simp [t])
      (by
        intro r h1 h2
        rw [hrows r (by omega)]
        exact hidle r h1 (by omega))
      (by omega)
  have hqp : v.m_frame.m_rowDiagQp k = (ctuHead cfg orc k s).1.m_frame.m_rowDiagQp k := by
    rw [g9]
  refine ⟨v, by rw [hrun]; exact hv, g1, by rw [g3]; exact htrig, g4, ⟨?_, ?_, g7, g2⟩,
    ⟨q, hq1, by rw [hqp]; exact hq2⟩, ?_⟩
  · rw [g5]
    show ((ctuHead cfg orc k s).1.m_rows k).active = true
    rw [(a1 k).2.1]; exact hown.1
  · rw [g6]
    show ((ctuHead cfg orc k s).1.m_rows k).busy = true
    rw [(a1 k).2.2]; exact hown.2
  · intro habove
    have hk1 : v.m_rows (k - 1) = s.m_rows (k - 1) := by
      rw [g8 (k - 1) (Or.inl (by omega)), hrows (k - 1) (by omega)]
    obtain ⟨b1, b2, b3, b4⟩ := saoStats_sched cfg k k v
    obtain ⟨bf, _⟩ := saoStats_frame cfg k k v
    have hnw : ¬ wantsNextRow cfg k (saoStats cfg k k v) := by
      unfold wantsNextRow
      rw [b1, g7]
      rintro ⟨⟨h, _⟩, _⟩
      omega
    have hact : activateNext cfg k (saoStats cfg k k v) = saoStats cfg k k v := by
      unfold activateNext
      rw [if_neg hnw]
    have hns : ¬ mustSuspend cfg k (saoStats cfg k k v) := by
      unfold mustSuspend
      rw [b1, b3, g1, g7, hk1]
      rintro (⟨h, _⟩ | ⟨_, _, h⟩)
      · cases h
      · omega
    refine ⟨saoStats cfg k k v, ?_, b1, b2, bf, by rw [b3, g1], by rw [b4, g3]; exact htrig, ?_⟩
    · unfold ctuTail
      rw [hact, if_neg hns]
    · have hc0 : ((saoStats cfg k k v).m_rows k).completed = 0 := by rw [b1, g7]
      have : (ctuEncode cfg orc k (saoStats cfg k k v)).1.m_frame.m_baseQp
          (k * cfg.m_numCols + 0)
          = (deriveBaseQp cfg orc k 0 (saoStats cfg k k v)).m_baseQp (k * cfg.m_numCols + 0) := by
        rw [ctuEncode_baseQp, hc0]
      rw [this, deriveBaseQp_trigger cfg orc k 0 _ hvbv hk0 (by rw [b4, g3]; exact htrig), bf]

/-! ## C14: the base QP of a CTU -/

/-- C14: the base QP given to the CTU at (`row`, `col`) by lines 638-652.
With VBV on, `row > 0`, `col <= row` and `row` not the trigger row it is a
copy of the base QP of the CTU at address `cuAddr - numCols + 1`; this is the
CTU at (`row-1`, `col+1`) as long as `col + 1 < numCols`, but in the last
column (`col = numCols - 1`, reached with `col <= row` when the frame has at
least as many rows as columns) it is the CTU at (`row`, 0), the first CTU of
the same row. Every other CTU takes the diagonal QP recorded for its row with
VBV on, and the frame-average QP with VBV off. -/
theorem baseQp_source (cfg : Cfg) (orc : Collab) (row col : Nat) (s : EncState) :
    (bIsVbv cfg.param = true → 0 < row → col ≤ row → s.m_vbvResetTriggerRow ≠ (row : Int) →
        (deriveBaseQp cfg orc row col s).m_baseQp (row * cfg.m_numCols + col)
            = s.m_frame.m_baseQp (row * cfg.m_numCols + col - cfg.m_numCols + 1)
          ∧ (col + 1 < cfg.m_numCols →
              row * cfg.m_numCols + col - cfg.m_numCols + 1
                = (row - 1) * cfg.m_numCols + (col + 1))
          ∧ (col + 1 = cfg.m_numCols →
              row * cfg.m_numCols + col - cfg.m_numCols + 1 = row * cfg.m_numCols + 0))
      ∧ (bIsVbv cfg.param = true →
          ¬ (0 < row ∧ col ≤ row ∧ s.m_vbvResetTriggerRow ≠ (row : Int)) →
          (deriveBaseQp cfg orc row col s).m_baseQp (row * cfg.m_numCols + col)
              = (deriveBaseQp cfg orc row col s).m_rowDiagQp row
            ∧ (deriveBaseQp cfg orc row col s).m_rowDiagQp row
              = if row = 0 then s.m_frame.m_avgQpRc else s.m_frame.m_rowDiagQp row)
      ∧ (bIsVbv cfg.param = false →
          (deriveBaseQp cfg orc row col s).m_baseQp (row * cfg.m_numCols + col)
            = s.m_frame.m_avgQpRc) := by
  refine ⟨?_, ?_, ?_⟩
  · intro hv h0 hc ht
    have hr : row ≠ 0 := by omega
    have hmul : row * cfg.m_numCols = (row - 1) * cfg.m_numCols + cfg.m_numCols := by
      obtain ⟨p, rfl⟩ : ∃ p, row = p + 1 := ⟨row - 1, by omega⟩
      simp [Nat.add_mul]
    refine ⟨?_, ?_, ?_⟩
    · unfold deriveBaseQp
      simp [hv, hr, hc, ht, upd]
    · intro _
      rw [hmul]
      omega
    · intro h1
      rw [hmul]
      omega
  · intro hv hn
    unfold deriveBaseQp
    simp only [hv, if_true]
    by_cases hr : row = 0
    · subst hr
      simp [upd]
    · have hn2 : ¬ (row ≥ col ∧ row ≠ 0 ∧ s.m_vbvResetTriggerRow ≠ (row : Int)) := by
        rintro ⟨h1, h2, h3⟩
        exact hn ⟨by omega, h1, h3⟩
      rw [if_neg hn2]
      simp [hr, upd]
  · intro hv
    unfold deriveBaseQp
    simp [hv, upd]

/-- Evaluation of C14 on the 4 by 4 frame with VBV on: the CTU at row 3,
column 3 (address 15) takes the base QP recorded for address 12, the CTU at
row 3, column 0, and not one of the row above (addresses 8 to 11). -/
theorem baseQp_source_witness :
    (bIsVbv demoCfgVbv.param = true ∧ 0 < 3 ∧ 3 ≤ 3
        ∧ demoQpState.m_vbvResetTriggerRow ≠ ((3 : Nat) : Int)
        ∧ 3 + 1 = demoCfgVbv.m_numCols)
      ∧ (deriveBaseQp demoCfgVbv demoCollab 3 3 demoQpState).m_baseQp
            (3 * demoCfgVbv.m_numCols + 3)
          = demoQpState.m_frame.m_baseQp (3 * demoCfgVbv.m_numCols + 3 - demoCfgVbv.m_numCols + 1)
      ∧ 3 * demoCfgVbv.m_numCols + 3 - demoCfgVbv.m_numCols + 1 = 3 * demoCfgVbv.m_numCols + 0
      ∧ (deriveBaseQp demoCfgVbv demoCollab 3 3 demoQpState).m_baseQp 15 = 12 :=
  have h := (baseQp_source demoCfgVbv demoCollab 3 3 demoQpState).1 (by decide) (by decide)
    (by decide) (by decide)
  ⟨⟨by decide, by decide, by decide, by decide, by decide⟩, h.1, h.2.2 (by decide), by decide⟩

/-! ## C15, C16: the filter rows triggered by the row processor -/

theorem flatMap_congr_mem {α β : Type} (l : List α) (f g : α → List β)
    (h : ∀ x ∈ l, f x = g x) : l.flatMap f = l.flatMap g := by
  induction l with
  | nil => rfl
  | cons a rest ih =>
    rw [List.flatMap_cons, List.flatMap_cons, h a (List.mem_cons_self _ _),
      ih (fun x hx => h x (List.mem_cons_of_mem _ hx))]

/-- The calls of `enableRowFilter` of one end-of-row step: the row `row - d`
once the delay `d` is over, and the last `d` indices below `numRows` after the
last row. -/
theorem enabledFilterRows_eq (cfg : Cfg) (row : Nat) :
    enabledFilterRows cfg row
      = (if row ≥ filterRowDelay cfg.param
          then [(row : Int) - (filterRowDelay cfg.param : Int)] else [])
        ++ (if (row : Int) = (cfg.m_numRows : Int) - 1 then
            (List.range (filterRowDelay cfg.param)).map
              (fun (j : Nat) => (cfg.m_numRows : Int) - (filterRowDelay cfg.param : Int) + (j : Int))
          else []) := by
  unfold enabledFilterRows filterTriggers
  simp only []
  rw [List.filterMap_append]
  congr 1
  · split
    · split <;> rfl
    · rfl
  · split
    · rw [List.filterMap_map]
      have : (Event.enabledFilterRow ∘ fun j : Int =>
          Event.enableRowFilter ((cfg.m_numRows : Int) - (filterRowDelay cfg.param : Int) + j))
          = fun j : Int => some ((cfg.m_numRows : Int) - (filterRowDelay cfg.param : Int)
            + j) := rfl
      rw [this]
      have aux : ∀ (c : Int) (l : List Nat),
          List.filterMap (fun j : Int => some (c + j)) (l.flatMap fun a => [(a : Int)])
            = l.map (fun (j : Nat) => c + (j : Int)) := by
        intro c l
        induction l with
        | nil => rfl
        | cons a rest ih =>
          rw [List.flatMap_cons, List.singleton_append, List.map_cons, ← ih]
          rfl
      simpa using aux _ (List.range (filterRowDelay cfg.param))
    · rfl

theorem delayed_rows (d : Nat) :
    ∀ n, (List.range n).flatMap
        (fun row => if row ≥ d then [(row : Int) - (d : Int)] else [])
      = (List.range (n - d)).map (fun (i : Nat) => (i : Int)) := by
  intro n
  induction n with
  | zero => simp
  | succ n ih =>
    rw [List.range_succ, List.flatMap_append, ih, List.flatMap_singleton]
    by_cases h : n ≥ d
    · rw [if_pos h]
      have e : n + 1 - d = (n - d) + 1 := by omega
      rw [e, List.range_succ, List.map_append, List.map_singleton]
      congr 2
      omega
    · rw [if_neg h]
      have e : n + 1 - d = n - d := by omega
      rw [e, List.append_nil]

/-- All calls of `enableRowFilter` made while the encode rows
`0 .. numRows-1` run their end-of-row step once each, in the order of the
rows. -/
theorem enabledFilterRows_all (cfg : Cfg) (h : 0 < cfg.m_numRows) :
    (List.range cfg.m_numRows).flatMap (enabledFilterRows cfg)
      = (List.range (cfg.m_numRows - filterRowDelay cfg.param)).map (fun (i : Nat) => (i : Int))
        ++ (List.range (filterRowDelay cfg.param)).map
            (fun (j : Nat) => (cfg.m_numRows : Int) - (filterRowDelay cfg.param : Int) + (j : Int)) := by
  obtain ⟨n, hn⟩ : ∃ n, cfg.m_numRows = n + 1 := ⟨cfg.m_numRows - 1, by omega⟩
  have hbody : ∀ row ∈ List.range n, enabledFilterRows cfg row
      = (fun row => if row ≥ filterRowDelay cfg.param
          then [(row : Int) - (filterRowDelay cfg.param : Int)] else []) row := by
    intro row hrow
    have hr := List.mem_range.mp hrow
    have hne : ¬ ((row : Int) = (cfg.m_numRows : Int) - 1) := by omega
    rw [enabledFilterRows_eq, if_neg hne, List.append_nil]
  have hlast : enabledFilterRows cfg n
      = (if n ≥ filterRowDelay cfg.param
          then [(n : Int) - (filterRowDelay cfg.param : Int)] else [])
        ++ (List.range (filterRowDelay cfg.param)).map
            (fun (j : Nat) => (cfg.m_numRows : Int) - (filterRowDelay cfg.param : Int) + (j : Int)) := by
    have hl : (n : Int) = (cfg.m_numRows : Int) - 1 := by omega
    rw [enabledFilterRows_eq, if_pos hl]
  have hd := delayed_rows (filterRowDelay cfg.param) (n + 1)
  rw [List.range_succ, List.flatMap_append, List.flatMap_singleton] at hd
  conv_lhs => rw [hn, List.range_succ, List.flatMap_append, List.flatMap_singleton]
  rw [flatMap_congr_mem _ _ _ hbody, hlast, ← List.append_assoc, hd, hn]

theorem filterRowDelay_le (p : Param) : filterRowDelay p ≤ 2 := by
  unfold filterRowDelay
  split
  · exact le_refl 2
  · split <;> omega

theorem mem_enabledFilterRows (cfg : Cfg) (row j : Nat) (hrow : row < cfg.m_numRows)
    (h : (j : Int) ∈ enabledFilterRows cfg row) :
    row = min (j + filterRowDelay cfg.param) (cfg.m_numRows - 1) := by
  rw [enabledFilterRows_eq, List.mem_append] at h
  rcases h with h | h
  · split at h
    · simp only [List.mem_singleton] at h
      omega
    · simp at h
  · split at h
    · rw [List.mem_map] at h
      obtain ⟨i, hi, he⟩ := h
      have := List.mem_range.mp hi
      omega
    · simp at h

/-- C15: the indices passed to `enableRowFilter` while the encode rows
`0 .. numRows-1` each run their end-of-row step once (lines 853-866), with
`d` the filter row delay (0, 1 or 2). They are, in order,
`0 .. numRows-d-1` followed by `numRows-d .. numRows-1`. With `d <= numRows`
these are the rows `0 .. numRows-1`, each once, and filter row `j` is enabled
by the end-of-row step of encode row `min (j+d) (numRows-1)`. With
`numRows < d` (one row, delay 2) the second run starts below zero: the index
`numRows - d < 0` is passed to `enableRowFilter`. -/
theorem filter_enable_indices (cfg : Cfg) :
    filterRowDelay cfg.param ≤ 2
      ∧ (0 < cfg.m_numRows →
          (List.range cfg.m_numRows).flatMap (enabledFilterRows cfg)
            = (List.range (cfg.m_numRows - filterRowDelay cfg.param)).map
                (fun (i : Nat) => (i : Int))
              ++ (List.range (filterRowDelay cfg.param)).map
                (fun (j : Nat) =>
                  (cfg.m_numRows : Int) - (filterRowDelay cfg.param : Int) + (j : Int)))
      ∧ (0 < cfg.m_numRows → filterRowDelay cfg.param ≤ cfg.m_numRows →
          (List.range cfg.m_numRows).flatMap (enabledFilterRows cfg)
            = (List.range cfg.m_numRows).map (fun (i : Nat) => (i : Int)))
      ∧ (∀ row j : Nat, row < cfg.m_numRows → (j : Int) ∈ enabledFilterRows cfg row →
          row = min (j + filterRowDelay cfg.param) (cfg.m_numRows - 1))
      ∧ (0 < cfg.m_numRows → cfg.m_numRows < filterRowDelay cfg.param →
          (cfg.m_numRows : Int) - (filterRowDelay cfg.param : Int)
              ∈ (List.range cfg.m_numRows).flatMap (enabledFilterRows cfg)
            ∧ (cfg.m_numRows : Int) - (filterRowDelay cfg.param : Int) < 0) := by
  refine ⟨filterRowDelay_le cfg.param, enabledFilterRows_all cfg, ?_,
    mem_enabledFilterRows cfg, ?_⟩
  · intro h0 hd
    rw [enabledFilterRows_all cfg h0]
    have hsplit : cfg.m_numRows
        = (cfg.m_numRows - filterRowDelay cfg.param) + filterRowDelay cfg.param := by omega
    conv_rhs => rw [hsplit, List.range_add, List.map_append, List.map_map]
    congr 1
    apply List.map_congr_left
    intro j _
    simp only [Function.comp]
    omega
  · intro h0 hlt
    rw [enabledFilterRows_all cfg h0]
    refine ⟨List.mem_append_right _ (List.mem_map.mpr ⟨0, List.mem_range.mpr (by omega), ?_⟩), ?_⟩
    · simp
    · omega

/-- Evaluation of C15 on a frame of one row with filter row delay 2: the
end-of-row step of row 0 (the last row) calls `enableRowFilter(-1)` and then
`enableRowFilter(0)`. -/
theorem filter_enable_indices_witness :
    (0 < demoCfgOneRow.m_numRows ∧ filterRowDelay demoCfgOneRow.param = 2
        ∧ demoCfgOneRow.m_numRows < filterRowDelay demoCfgOneRow.param)
      ∧ ((demoCfgOneRow.m_numRows : Int) - (filterRowDelay demoCfgOneRow.param : Int)
            ∈ (List.range demoCfgOneRow.m_numRows).flatMap (enabledFilterRows demoCfgOneRow)
          ∧ (demoCfgOneRow.m_numRows : Int) - (filterRowDelay demoCfgOneRow.param : Int) < 0)
      ∧ enabledFilterRows demoCfgOneRow 0 = [-1, 0]
      ∧ filterTriggers demoCfgOneRow 0
          = [Event.enableRowFilter (-1), Event.enableRowFilter 0] :=
  ⟨⟨by decide, by decide, by decide⟩,
    (filter_enable_indices demoCfgOneRow).2.2.2.2 (by decide) (by decide), by decide, by decide⟩

theorem enqueuedFilterRows_eq (cfg : Cfg) (row : Nat) :
    enqueuedFilterRows cfg row = if row = filterRowDelay cfg.param then [0] else [] := by
  unfold enqueuedFilterRows filterTriggers
  simp only []
  rw [List.filterMap_append]
  have h2 : List.filterMap Event.enqueuedFilterRow
      (if (row : Int) = (cfg.m_numRows : Int) - 1 then
        (List.range (filterRowDelay cfg.param)).map
          (fun j => Event.enableRowFilter
            ((cfg.m_numRows : Int) - (filterRowDelay cfg.param : Int) + (j : Int)))
      else []) = [] := by
    rw [List.filterMap_eq_nil_iff]
    intro e he
    split at he
    · rw [List.mem_map] at he
      obtain ⟨_, _, rfl⟩ := he
      rfl
    · simp at he
  rw [h2, List.append_nil]
  by_cases h : row = filterRowDelay cfg.param
  · rw [if_pos (by omega), if_pos h, if_pos h]
    rfl
  · rw [if_neg h]
    split
    · rfl
    · rfl

theorem enqueued_rows (d : Nat) :
    ∀ n, (List.range n).flatMap (fun row => if row = d then [0] else [])
      = if d < n then [0] else [] := by
  intro n
  induction n with
  | zero => simp
  | succ n ih =>
    rw [List.range_succ, List.flatMap_append, ih, List.flatMap_singleton]
    by_cases h1 : d < n
    · rw [if_pos h1, if_neg (by omega), if_pos (by omega)]
      rfl
    · rw [if_neg h1]
      by_cases h2 : n = d
      · rw [if_pos h2, if_pos (by omega)]
        rfl
      · rw [if_neg h2, if_neg (by omega)]
        rfl

/-- C16: how the chain of filter rows is started and ended. While the encode
rows `0 .. numRows-1` each run their end-of-row step once, the row processor
enqueues filter row 0, and no other filter row, exactly once if the filter
row delay `d` is below `numRows` (by row `d`), and never if
`numRows <= d`. `processRow` for filter row `j` processes the row and then
enqueues filter row `j+1`, or raises the completion signal if `j` is the last
row. -/
theorem filter_chain (cfg : Cfg) :
    (List.range cfg.m_numRows).flatMap (enqueuedFilterRows cfg)
        = (if filterRowDelay cfg.param < cfg.m_numRows then [0] else [])
      ∧ (∀ row, enqueuedFilterRows cfg row
          = if row = filterRowDelay cfg.param then [0] else [])
      ∧ (∀ (orc : Collab) (fuel j : Nat) (s : EncState),
          processRow cfg orc fuel (j * 2 + 1) s
            = some { s with
                log := s.log ++ [Event.processRowFilter j]
                  ++ (if (j : Int) ≠ (cfg.m_numRows : Int) - 1
                      then [Event.enqueueRowFilter (j + 1)] else [Event.completionTrigger]) })
      ∧ (cfg.m_numRows ≤ filterRowDelay cfg.param →
          ∀ row, row < cfg.m_numRows → ∀ e ∈ filterTriggers cfg row,
            Event.enqueuedFilterRow e = none) := by
  refine ⟨?_, enqueuedFilterRows_eq cfg, ?_, ?_⟩
  · rw [← enqueued_rows (filterRowDelay cfg.param) cfg.m_numRows]
    exact flatMap_congr_mem _ _ _ (fun row _ => enqueuedFilterRows_eq cfg row)
  · intro orc fuel j s
    unfold processRow
    simp only []
    rw [if_neg (by rw [(task_id_filter j).1]; omega), (task_id_filter j).2]
    split <;> rfl
  · intro hle row hrow e he
    have := enqueuedFilterRows_eq cfg row
    rw [if_neg (by omega)] at this
    unfold enqueuedFilterRows at this
    exact List.filterMap_eq_nil_iff.mp this e he

/-- Evaluation of C16 on a frame of one row with the loop filter on (filter
row delay 1): the end-of-row step of the only encode row enables filter row 0
but does not enqueue it. -/
theorem filter_chain_witness :
    (demoCfgOneRowLf.m_numRows = 1 ∧ filterRowDelay demoCfgOneRowLf.param = 1
        ∧ demoCfgOneRowLf.m_numRows ≤ filterRowDelay demoCfgOneRowLf.param)
      ∧ (∀ row, row < demoCfgOneRowLf.m_numRows → ∀ e ∈ filterTriggers demoCfgOneRowLf row,
          Event.enqueuedFilterRow e = none)
      ∧ filterTriggers demoCfgOneRowLf 0 = [Event.enableRowFilter 0]
      ∧ (List.range demoCfgOneRowLf.m_numRows).flatMap (enqueuedFilterRows demoCfgOneRowLf)
          = [] :=
  ⟨⟨by decide, by decide, by decide⟩,
    (filter_chain demoCfgOneRowLf).2.2.2 (by decide), by decide, by decide⟩

/-! ## C17: the blocks averaged by calcQpForCu -/

theorem takeWhile_range'_lt (a b : Nat) :
    ∀ (n s : Nat), (List.range' s n).takeWhile (fun h => decide (a + h < b))
      = List.range' s (min n (b - (a + s))) := by
  intro n
  induction n with
  | zero => intro s; simp
  | succ n ih =>
    intro s
    rw [List.range'_succ, List.takeWhile_cons]
    by_cases h : a + s < b
    · simp only [h, decide_True, if_true]
      rw [ih (s + 1)]
      have e : min (n + 1) (b - (a + s)) = min n (b - (a + (s + 1))) + 1 := by omega
      rw [e, List.range'_succ]
    · simp only [h, decide_False]
      have e : min (n + 1) (b - (a + s)) = 0 := by omega
      rw [e]
      rfl

theorem takeWhile_range_lt (a b n : Nat) :
    (List.range n).takeWhile (fun h => decide (a + h < b)) = List.range (min n (b - a)) := by
  rw [List.range_eq_range', takeWhile_range'_lt, List.range_eq_range']
  rfl

/-- The block loops of `calcQpForCu`, with the loop bounds worked out. -/
theorem calcQpBlocks_eq (cfg : Cfg) (cuAddr : Nat) :
    calcQpBlocks cfg cuAddr
      = (List.range (min (cfg.glob.g_maxCUSize / 16)
            ((cfg.lowres.height + 15) / 16
              - (cuAddr / cfg.m_numCols) * (cfg.glob.g_maxCUSize / 16)))).flatMap
          (fun h => (List.range (min (cfg.glob.g_maxCUSize / 16)
              ((cfg.lowres.width + 15) / 16
                - ((cuAddr * (cfg.glob.g_maxCUSize / 16))
                    - (cuAddr / cfg.m_numCols) * (cfg.glob.g_maxCUSize / 16)
                      * cfg.m_numCols)))).map
            (fun w => (cuAddr * (cfg.glob.g_maxCUSize / 16))
                - (cuAddr / cfg.m_numCols) * (cfg.glob.g_maxCUSize / 16) * cfg.m_numCols + w
              + ((cuAddr / cfg.m_numCols) * (cfg.glob.g_maxCUSize / 16) + h)
                * ((cfg.lowres.width + 15) / 16))) := by
  unfold calcQpBlocks
  simp only []
  rw [takeWhile_range_lt, takeWhile_range_lt]

theorem length_flatMap_const {α β : Type} (l : List α) (f : α → List β) (k : Nat)
    (h : ∀ a ∈ l, (f a).length = k) : (l.flatMap f).length = l.length * k := by
  induction l with
  | nil => simp
  | cons a rest ih =>
    rw [List.flatMap_cons, List.length_append, h a (List.mem_cons_self _ _),
      ih (fun x hx => h x (List.mem_cons_of_mem _ hx)), List.length_cons]
    ring

theorem ctu_inside_picture (w size n c : Nat) (hn : 1 ≤ n) (hsize : size = 16 * n)
    (hc : c < (w + size - 1) / size) : n * c < (w + 15) / 16 := by
  have hs : 0 < size := by omega
  have h1 : (c + 1) * size ≤ w + size - 1 := (Nat.le_div_iff_mul_le hs).mp hc
  have h2 : (c + 1) * size = 16 * (n * c) + size := by rw [hsize]; ring
  omega

/-- C17: for a picture of width `w` and height `h`, a CTU size `16 * n` with
`n >= 1`, a frame of `W = ceil(w/size)` by `H = ceil(h/size)` CTUs and
`cuAddr < W * H` (so that `w >= 1` and `h >= 1`), with `row = cuAddr / W` and
`col = cuAddr mod W`:
the loops of `calcQpForCu` start at block (`n*col`, `n*row`); they visit, row
by row, exactly the 16x16 blocks (`x`, `y`) with
`n*col <= x < min (n*col+n) ceil(w/16)` and
`n*row <= y < min (n*row+n) ceil(h/16)`, using the index `x + y * ceil(w/16)`;
every index is below `ceil(w/16) * ceil(h/16)`; the count `cnt` is the
number of these blocks and at least 1; and the QP returned is computed from
the plain sum of the offsets of these blocks and from `cnt`. -/
theorem calcQp_block_coverage (cfg : Cfg) (cuAddr n : Nat)
    (hn : 1 ≤ n) (hsize : cfg.glob.g_maxCUSize = 16 * n)
    (hW : cfg.m_numCols
      = (cfg.lowres.width + cfg.glob.g_maxCUSize - 1) / cfg.glob.g_maxCUSize)
    (haddr : cuAddr < cfg.m_numCols
      * ((cfg.lowres.height + cfg.glob.g_maxCUSize - 1) / cfg.glob.g_maxCUSize)) :
    ((cuAddr / cfg.m_numCols) * (cfg.glob.g_maxCUSize / 16) = n * (cuAddr / cfg.m_numCols)
        ∧ (cuAddr * (cfg.glob.g_maxCUSize / 16))
            - (cuAddr / cfg.m_numCols) * (cfg.glob.g_maxCUSize / 16) * cfg.m_numCols
          = n * (cuAddr % cfg.m_numCols))
      ∧ calcQpBlocks cfg cuAddr
        = (List.range (min (n * (cuAddr / cfg.m_numCols) + n) ((cfg.lowres.height + 15) / 16)
              - n * (cuAddr / cfg.m_numCols))).flatMap
            (fun h => (List.range (min (n * (cuAddr % cfg.m_numCols) + n)
                ((cfg.lowres.width + 15) / 16) - n * (cuAddr % cfg.m_numCols))).map
              (fun w => n * (cuAddr % cfg.m_numCols) + w
                + (n * (cuAddr / cfg.m_numCols) + h) * ((cfg.lowres.width + 15) / 16)))
      ∧ (∀ idx, idx ∈ calcQpBlocks cfg cuAddr ↔
          ∃ x y, n * (cuAddr % cfg.m_numCols) ≤ x
            ∧ x < min (n * (cuAddr % cfg.m_numCols) + n) ((cfg.lowres.width + 15) / 16)
            ∧ n * (cuAddr / cfg.m_numCols) ≤ y
            ∧ y < min (n * (cuAddr / cfg.m_numCols) + n) ((cfg.lowres.height + 15) / 16)
            ∧ idx = x + y * ((cfg.lowres.width + 15) / 16))
      ∧ (∀ idx ∈ calcQpBlocks cfg cuAddr,
          idx < ((cfg.lowres.width + 15) / 16) * ((cfg.lowres.height + 15) / 16))
      ∧ (calcQpBlocks cfg cuAddr).length
          = (min (n * (cuAddr % cfg.m_numCols) + n) ((cfg.lowres.width + 15) / 16)
              - n * (cuAddr % cfg.m_numCols))
            * (min (n * (cuAddr / cfg.m_numCols) + n) ((cfg.lowres.height + 15) / 16)
              - n * (cuAddr / cfg.m_numCols))
      ∧ 1 ≤ (calcQpBlocks cfg cuAddr).length
      ∧ (∀ (orc : Collab) (f : Frame) (baseQp : Int),
          (calcQpForCu cfg orc f cuAddr baseQp).2
            = Clip3 cfg.glob.QP_MIN cfg.glob.QP_MAX_MAX
                (orc.roundedQp baseQp
                  (if cfg.param.aqMode ≠ 0 then
                    ((calcQpBlocks cfg cuAddr).map
                      (if cfg.lowres.isReferenced && cfg.param.cuTree
                        then cfg.lowres.qpCuTreeOffset else cfg.lowres.qpAqOffset)).sum
                  else 0)
                  (calcQpBlocks cfg cuAddr).length)) := by
  have hn16 : cfg.glob.g_maxCUSize / 16 = n := by rw [hsize]; omega
  have hWpos : 0 < cfg.m_numCols := by
    rcases Nat.eq_zero_or_pos cfg.m_numCols with h | h
    · rw [h] at haddr; simp at haddr
    · exact h
  have hrow : cuAddr / cfg.m_numCols
      < (cfg.lowres.height + cfg.glob.g_maxCUSize - 1) / cfg.glob.g_maxCUSize :=
    Nat.div_lt_of_lt_mul haddr
  have hcol : cuAddr % cfg.m_numCols
      < (cfg.lowres.width + cfg.glob.g_maxCUSize - 1) / cfg.glob.g_maxCUSize := by
    rw [← hW]; exact Nat.mod_lt _ hWpos
  have hy := ctu_inside_picture cfg.lowres.height _ n _ hn hsize hrow
  have hx := ctu_inside_picture cfg.lowres.width _ n _ hn hsize hcol
  have hby : (cuAddr / cfg.m_numCols) * (cfg.glob.g_maxCUSize / 16)
      = n * (cuAddr / cfg.m_numCols) := by rw [hn16]; ring
  have hbx : (cuAddr * (cfg.glob.g_maxCUSize / 16))
      - (cuAddr / cfg.m_numCols) * (cfg.glob.g_maxCUSize / 16) * cfg.m_numCols
      = n * (cuAddr % cfg.m_numCols) := by
    rw [hn16]
    have hdm := Nat.div_add_mod cuAddr cfg.m_numCols
    have e : cuAddr * n
        = cuAddr / cfg.m_numCols * n * cfg.m_numCols + n * (cuAddr % cfg.m_numCols) := by
      conv_lhs => rw [← hdm]
      ring
    omega
  have hlist : calcQpBlocks cfg cuAddr
      = (List.range (min (n * (cuAddr / cfg.m_numCols) + n) ((cfg.lowres.height + 15) / 16)
            - n * (cuAddr / cfg.m_numCols))).flatMap
          (fun h => (List.range (min (n * (cuAddr % cfg.m_numCols) + n)
              ((cfg.lowres.width + 15) / 16) - n * (cuAddr % cfg.m_numCols))).map
            (fun w => n * (cuAddr % cfg.m_numCols) + w
              + (n * (cuAddr / cfg.m_numCols) + h) * ((cfg.lowres.width + 15) / 16))) := by
    rw [calcQpBlocks_eq, hbx, hby, hn16]
    have e1 : min n ((cfg.lowres.height + 15) / 16 - n * (cuAddr / cfg.m_numCols))
        = min (n * (cuAddr / cfg.m_numCols) + n) ((cfg.lowres.height + 15) / 16)
          - n * (cuAddr / cfg.m_numCols) := by omega
    have e2 : min n ((cfg.lowres.width + 15) / 16 - n * (cuAddr % cfg.m_numCols))
        = min (n * (cuAddr % cfg.m_numCols) + n) ((cfg.lowres.width + 15) / 16)
          - n * (cuAddr % cfg.m_numCols) := by omega
    rw [e1, e2]
  have hmem : ∀ idx, idx ∈ calcQpBlocks cfg cuAddr ↔
      ∃ x y, n * (cuAddr % cfg.m_numCols) ≤ x
        ∧ x < min (n * (cuAddr % cfg.m_numCols) + n) ((cfg.lowres.width + 15) / 16)
        ∧ n * (cuAddr / cfg.m_numCols) ≤ y
        ∧ y < min (n * (cuAddr / cfg.m_numCols) + n) ((cfg.lowres.height + 15) / 16)
        ∧ idx = x + y * ((cfg.lowres.width + 15) / 16) := by
    intro idx
    rw [hlist, List.mem_flatMap]
    constructor
    · rintro ⟨h, hh1, hm⟩
      rw [List.mem_map] at hm
      obtain ⟨w, hw1, rfl⟩ := hm
      have := List.mem_range.mp hh1
      have := List.mem_range.mp hw1
      exact ⟨n * (cuAddr % cfg.m_numCols) + w, n * (cuAddr / cfg.m_numCols) + h,
        by omega, by omega, by omega, by omega, rfl⟩
    · rintro ⟨x, y, h1, h2, h3, h4, rfl⟩
      refine ⟨y - n * (cuAddr / cfg.m_numCols), List.mem_range.mpr (by omega), ?_⟩
      rw [List.mem_map]
      refine ⟨x - n * (cuAddr % cfg.m_numCols), List.mem_range.mpr (by omega), ?_⟩
      have e1 : n * (cuAddr % cfg.m_numCols) + (x - n * (cuAddr % cfg.m_numCols)) = x := by
        omega
      have e2 : n * (cuAddr / cfg.m_numCols) + (y - n * (cuAddr / cfg.m_numCols)) = y := by
        omega
      rw [e1, e2]
  have hlen : (calcQpBlocks cfg cuAddr).length
      = (min (n * (cuAddr % cfg.m_numCols) + n) ((cfg.lowres.width + 15) / 16)
          - n * (cuAddr % cfg.m_numCols))
        * (min (n * (cuAddr / cfg.m_numCols) + n) ((cfg.lowres.height + 15) / 16)
          - n * (cuAddr / cfg.m_numCols)) := by
    rw [hlist, length_flatMap_const _ _
      (min (n * (cuAddr % cfg.m_numCols) + n) ((cfg.lowres.width + 15) / 16)
        - n * (cuAddr % cfg.m_numCols)) (fun a _ => by simp), List.length_range]
    ring
  refine ⟨⟨hby, hbx⟩, hlist, hmem, ?_, hlen, ?_, fun _ _ _ => rfl⟩
  · intro idx hidx
    obtain ⟨x, y, _, h2, _, h4, rfl⟩ := (hmem idx).mp hidx
    have hxb : x < (cfg.lowres.width + 15) / 16 := by omega
    have hyb : y + 1 ≤ (cfg.lowres.height + 15) / 16 := by omega
    calc x + y * ((cfg.lowres.width + 15) / 16)
        < (cfg.lowres.width + 15) / 16 + y * ((cfg.lowres.width + 15) / 16) := by omega
      _ = ((cfg.lowres.width + 15) / 16) * (y + 1) := by ring
      _ ≤ ((cfg.lowres.width + 15) / 16) * ((cfg.lowres.height + 15) / 16) :=
          Nat.mul_le_mul_left _ hyb
  · rw [hlen]
    exact Nat.mul_pos (by omega) (by omega)

/-- Witness of C17: a 200x100 picture with 64x64 CTUs; the CTU at address 7
(row 1, column 3) covers the blocks with `x = 12` and `y = 4, 5, 6`. -/
theorem calcQp_block_coverage_witness :
    (1 ≤ demoCfgEdge.lowres.width ∧ 1 ≤ demoCfgEdge.lowres.height
        ∧ demoCfgEdge.glob.g_maxCUSize = 16 * 4
        ∧ demoCfgEdge.m_numCols = (demoCfgEdge.lowres.width + demoCfgEdge.glob.g_maxCUSize - 1)
            / demoCfgEdge.glob.g_maxCUSize
        ∧ 7 < demoCfgEdge.m_numCols
          * ((demoCfgEdge.lowres.height + demoCfgEdge.glob.g_maxCUSize - 1)
            / demoCfgEdge.glob.g_maxCUSize))
      ∧ calcQpBlocks demoCfgEdge 7 = [12 + 4 * 13, 12 + 5 * 13, 12 + 6 * 13]
      ∧ (∀ idx ∈ calcQpBlocks demoCfgEdge 7,
          idx < ((demoCfgEdge.lowres.width + 15) / 16) * ((demoCfgEdge.lowres.height + 15) / 16))
      ∧ 1 ≤ (calcQpBlocks demoCfgEdge 7).length :=
  have h := calcQp_block_coverage demoCfgEdge 7 4 (by decide) (by decide) (by decide)
    (by decide)
  ⟨⟨by decide, by decide, by decide, by decide, by decide⟩, by decide, h.2.2.2.1,
    h.2.2.2.2.2.1⟩

/-! ## C18: the output substreams reset by a rollback -/

theorem Resets.refl_resets (s : EncState) : Resets s s [] := ⟨[], by simp, rfl⟩

theorem Resets.trans_resets {s s1 s2 : EncState} {a b : List Nat}
    (h1 : Resets s s1 a) (h2 : Resets s1 s2 b) : Resets s s2 (a ++ b) := by
  obtain ⟨e1, h1, g1⟩ := h1
  obtain ⟨e2, h2, g2⟩ := h2
  exact ⟨e1 ++ e2, by rw [h2, h1, List.append_assoc], by rw [List.filterMap_append, g1, g2]⟩

theorem Resets.of_none_resets (s s1 : EncState) (evs : List Event) (h : s1.log = s.log ++ evs)
    (hk : ∀ e ∈ evs, Event.resetIndex e = none) : Resets s s1 [] :=
  ⟨evs, h, List.filterMap_eq_nil_iff.mpr hk⟩

theorem ctuEncode_resets (cfg : Cfg) (orc : Collab) (row : Nat) (s : EncState) :
    Resets s (ctuEncode cfg orc row s).1 [] := by
  refine Resets.of_none_resets _ _ _ rfl ?_
  intro e he
  unfold encodeEvents at he
  simp only [List.mem_append, List.mem_cons, List.mem_singleton, List.not_mem_nil,
    or_false] at he
  rcases he with (h | h | h) | h
  · unfold seedEvents at h
    split at h
    · simp at h; subst h; rfl
    · simp at h
  · subst h; rfl
  · subst h; rfl
  · split at h
    · simp at h; subst h; rfl
    · simp at h

theorem vbvCheckpoint_resets (cfg : Cfg) (orc : Collab) (row col : Nat) (cu : CuData)
    (s : EncState) : Resets s (vbvCheckpoint cfg orc row col cu s).1 [] := by
  unfold vbvCheckpoint
  simp only []
  split
  · split
    · split <;> exact ⟨[Event.rowDiagonalVbvRateControl row col], rfl, rfl⟩
    · exact ⟨[], by simp, rfl⟩
  · exact Resets.refl_resets s

theorem ctuHead_resets (cfg : Cfg) (orc : Collab) (row : Nat) (s : EncState) :
    Resets s (ctuHead cfg orc row s).1 [] := by
  unfold ctuHead
  simpa using (ctuEncode_resets cfg orc row s).trans_resets
    (vbvCheckpoint_resets cfg orc row (s.m_rows row).completed _ _)

theorem ctuTail_resets (cfg : Cfg) (row col : Nat) (v s1 : EncState)
    (h : ctuTail cfg row col v = Outcome.running s1
      ∨ ctuTail cfg row col v = Outcome.returned s1) : Resets v s1 [] := by
  have hs : Resets v (saoStats cfg row col v) [] := by
    unfold saoStats
    split
    · exact Resets.of_none_resets _ _ [Event.calcSaoStatsCu_BeforeDblk col row] rfl
        (by intro e he; simp at he; subst he; rfl)
    · exact Resets.refl_resets v
  have ha : Resets (saoStats cfg row col v) (activateNext cfg row (saoStats cfg row col v)) [] := by
    unfold activateNext
    split
    · exact Resets.of_none_resets _ _ [Event.enqueueRowEncoder (row + 1)] rfl
        (by intro e he; simp at he; subst he; rfl)
    · exact Resets.refl_resets _
  have h1 := hs.trans_resets ha
  unfold ctuTail at h
  split at h
  · rcases h with h | h
    · cases h
    · cases h
      have h2 : Resets (activateNext cfg row (saoStats cfg row col v))
          (suspendRow row (activateNext cfg row (saoStats cfg row col v))) [] :=
        Resets.of_none_resets _ _ [Event.suspend row] rfl (by intro e he; simp at he; subst he; rfl)
      simpa using h1.trans_resets h2
  · rcases h with h | h
    · cases h; simpa using h1
    · cases h

theorem resetRow_resets (j : Nat) (s : EncState) : Resets s (resetRow j s) [j] :=
  ⟨[Event.resetBits j], rfl, rfl⟩

/-- The rollback loop from cursor `j` down to the trigger row `k`, run without
interference, resets the output substreams `j, j-1, .., k`, in this order. -/
theorem rollback_resets (cfg : Cfg) (orc : Collab) (k : Nat) :
    ∀ (n : Nat) (t : EncState) (j fuel : Nat), j = k + n →
      t.pc k = Pc.rbDeactivate j →
      (∀ r, k < r → r ≤ j → (t.m_rows r).busy = false
        ∧ ((t.m_rows r).active = true → orc.dequeueRow (r * 2) = true)) →
      2 * n + 1 ≤ fuel →
      ∃ o t1, ctuIteration cfg orc k fuel t = some o ∧ o.state = some t1
        ∧ Resets t t1 (List.range' k (n + 1)).reverse := by
  intro n
  induction n with
  | zero =>
    intro t j fuel hj hpc _ hfuel
    simp only [Nat.add_zero] at hj
    subst hj
    obtain ⟨f, rfl⟩ : ∃ f, fuel = f + 1 := ⟨fuel - 1, by omega⟩
    have hstep : workerStep cfg orc j t
        = ctuTail cfg j j { resetRow j t with
            m_bAllRowsStop := false, pc := upd (resetRow j t).pc j Pc.loop } := by
      unfold workerStep
      rw [hpc]
      simp [rollbackNext]
    have hit := ctuIteration_exit cfg orc j f t _ hstep (by simp)
    obtain ⟨s1, hs1, _⟩ := ctuTail_frame cfg j j
      { resetRow j t with m_bAllRowsStop := false, pc := upd (resetRow j t).pc j Pc.loop }
    have hr : Resets t { resetRow j t with
        m_bAllRowsStop := false, pc := upd (resetRow j t).pc j Pc.loop } [j] :=
      ⟨[Event.resetBits j], rfl, rfl⟩
    have ht := ctuTail_resets cfg j j _ s1 hs1
    have hall : Resets t s1 (List.range' j (0 + 1)).reverse := by
      simpa using hr.trans_resets ht
    rcases hs1 with h | h
    · exact ⟨Outcome.running s1, s1, by rw [hit, h], rfl, hall⟩
    · exact ⟨Outcome.returned s1, s1, by rw [hit, h], rfl, hall⟩
  | succ n ih =>
    intro t j fuel hj hpc hidle hfuel
    obtain ⟨f, rfl⟩ : ∃ f, fuel = f + 2 := ⟨fuel - 2, by omega⟩
    have hjk : j ≠ k := by omega
    obtain ⟨hb, hdq⟩ := hidle j (by omega) (le_refl j)
    let t1 : EncState :=
      { t with
        m_rows := upd t.m_rows j { t.m_rows j with active := false }
        pc := upd t.pc k (Pc.rbWaitIdle j) }
    have hstep1 : workerStep cfg orc k t = Outcome.running t1 := by
      unfold workerStep
      rw [hpc]
      by_cases ha : (t.m_rows j).active = true
      · simp [hjk, ha, hdq ha, t1]
      · have hrows : upd t.m_rows j { t.m_rows j with active := false } = t.m_rows := by
          funext r
          simp only [upd]
          split
          · rename_i h; subst h
            cases hrow : t.m_rows r
            simp [hrow] at ha
            simp [ha]
          · rfl
        simp [hjk, ha, t1, hrows]
    let t2 : EncState :=
      { resetRow j t1 with pc := upd (resetRow j t1).pc k (Pc.rbDeactivate (j - 1)) }
    have hstep2 : workerStep cfg orc k t1 = Outcome.running t2 := by
      unfold workerStep
      have : t1.pc k = Pc.rbWaitIdle j := by simp [t1]
      rw [this]
      have hb1 : (t1.m_rows j).busy = false := by simp [t1, hb]
      have hge : (j : Int) - 1 ≥ (k : Int) := by omega
      simp [hb1, rollbackNext, hge, t2, hb]
    have hrun : ctuIteration cfg orc k (f + 2) t = ctuIteration cfg orc k f t2 := by
      have p1 : t1.pc k ≠ Pc.loop := by simp [t1]
      have p2 : t2.pc k ≠ Pc.loop := by simp [t2]
      simp only [ctuIteration, hstep1, hstep2, p1, p2, if_false]
    have hrows2 : ∀ r, r ≠ j → t2.m_rows r = t.m_rows r := by
      intro r hr; simp [t2, t1, resetRow, hr]
    have h12 : Resets t t2 [j] := ⟨[Event.resetBits j], rfl, rfl⟩
    obtain ⟨o, u, ho, hst, hres⟩ := ih t2 (j - 1) f (by omega) (by simp [t2])
      (by
        intro r h1 h2
        rw [hrows2 r (by omega)]
        exact hidle r h1 (by omega))
      (by omega)
    refine ⟨o, u, by rw [hrun]; exact ho, hst, ?_⟩
    have := h12.trans_resets hres
    have e : (List.range' k (n + 1 + 1)).reverse = [j] ++ (List.range' k (n + 1)).reverse := by
      rw [List.range'_concat k (n + 1), List.reverse_append]
      simp
      omega
    rw [e]
    exact this

/-- C18: when rate control asks for a re-encode at the checkpoint of row `k`
(and the waits of the rollback end), the rollback calls `resetBits` on the
output substreams `numRows-1, numRows-2, .., k`, in this order. With wavefront
on, every one of these indices is below `numSubstreams = numRows`. With
wavefront off, `numSubstreams` is 1 and, `k` being at least 1, none of them
is a valid index. -/
theorem rollback_substreams (cfg : Cfg) (orc : Collab) (k : Nat) (s : EncState) (fuel : Nat)
    (hk : k < cfg.m_numRows) (hloop : s.pc k = Pc.loop)
    (hcol : (s.m_rows k).completed < cfg.m_numCols)
    (hre : (ctuHead cfg orc k s).2 = true)
    (hidle : ∀ r, k < r → r < cfg.m_numRows → (s.m_rows r).busy = false
      ∧ ((s.m_rows r).active = true → orc.dequeueRow (r * 2) = true))
    (hfuel : 2 * (cfg.m_numRows - k) ≤ fuel) :
    ∃ o s1, ctuIteration cfg orc k fuel s = some o ∧ o.state = some s1
      ∧ Resets s s1 (List.range' k (cfg.m_numRows - k)).reverse
      ∧ (cfg.param.bEnableWavefront = true →
          ∀ r ∈ List.range' k (cfg.m_numRows - k), r < numSubstreams cfg)
      ∧ (cfg.param.bEnableWavefront = false →
          ∀ r ∈ List.range' k (cfg.m_numRows - k), ¬ r < numSubstreams cfg) := by
  obtain ⟨_, _, hk0, _, _⟩ := ctuHead_reEncode cfg orc k s hre
  obtain ⟨f, rfl⟩ : ∃ f, fuel = f + 1 := ⟨fuel - 1, by omega⟩
  let t : EncState :=
    { (ctuHead cfg orc k s).1 with
      pc := upd (ctuHead cfg orc k s).1.pc k (Pc.rbDeactivate (cfg.m_numRows - 1)) }
  have hstep : workerStep cfg orc k s = Outcome.running t := by
    unfold workerStep
    rw [hloop]
    simp [hcol, hre, t]
  have hrun : ctuIteration cfg orc k (f + 1) s = ctuIteration cfg orc k f t := by
    have p1 : t.pc k ≠ Pc.loop := by simp [t]
    simp only [ctuIteration, hstep, p1, if_false]
  have hrows : ∀ r, r ≠ k → t.m_rows r = s.m_rows r := by
    intro r hr
    exact ctuHead_rows_ne cfg orc k r s hr
  have hhead : Resets s t [] := by
    obtain ⟨evs, e1, e2⟩ := ctuHead_resets cfg orc k s
    exact ⟨evs, e1, e2⟩
  obtain ⟨o, u, ho, hst, hres⟩ := rollback_resets cfg orc k (cfg.m_numRows - 1 - k) t
    (cfg.m_numRows - 1) f (by omega) (by simp [t])
    (by
      intro r h1 h2
      rw [hrows r (by omega)]
      exact hidle r h1 (by omega))
    (by omega)
  have e : cfg.m_numRows - 1 - k + 1 = cfg.m_numRows - k := by omega
  rw [e] at hres
  refine ⟨o, u, by rw [hrun]; exact ho, hst, by simpa using hhead.trans_resets hres, ?_, ?_⟩
  · intro hw r hr
    rw [List.mem_range'_1] at hr
    unfold numSubstreams
    rw [hw]
    simp only [if_true]
    omega
  · intro hw r hr
    rw [List.mem_range'_1] at hr
    unfold numSubstreams
    rw [hw]
    simp only [Bool.false_eq_true, if_false]
    omega

/-- Evaluation of C18 on the 4 by 4 frame with VBV on and wavefront off: one
output substream is allocated; the re-encode asked for at the checkpoint of
row 2 resets the substreams 3 and 2. The same happens when the whole frame is
compressed on the sequential path from a freshly initialised state. -/
theorem rollback_substreams_witness :
    (demoCfgVbvNoWpp.param.bEnableWavefront = false ∧ bIsVbv demoCfgVbvNoWpp.param = true
        ∧ numSubstreams demoCfgVbvNoWpp = 1
        ∧ (ctuHead demoCfgVbvNoWpp demoCollab 2 demoRollbackState).2 = true)
      ∧ (∃ o s1, ctuIteration demoCfgVbvNoWpp demoCollab 2 4 demoRollbackState = some o
          ∧ o.state = some s1
          ∧ Resets demoRollbackState s1 (List.range' 2 (demoCfgVbvNoWpp.m_numRows - 2)).reverse
          ∧ (demoCfgVbvNoWpp.param.bEnableWavefront = true →
              ∀ r ∈ List.range' 2 (demoCfgVbvNoWpp.m_numRows - 2),
                r < numSubstreams demoCfgVbvNoWpp)
          ∧ (demoCfgVbvNoWpp.param.bEnableWavefront = false →
              ∀ r ∈ List.range' 2 (demoCfgVbvNoWpp.m_numRows - 2),
                ¬ r < numSubstreams demoCfgVbvNoWpp))
      ∧ (List.range' 2 (demoCfgVbvNoWpp.m_numRows - 2)).reverse = [3, 2]
      ∧ (compressCTURows demoCfgVbvNoWpp demoCollab demoSliceI 12 demoState).map
          (fun s => s.log.filterMap Event.resetIndex) = some [3, 2] :=
  ⟨⟨by decide, by decide, by decide, by decide⟩,
    rollback_substreams demoCfgVbvNoWpp demoCollab 2 demoRollbackState 4 (by decide) rfl
      (by decide) (by decide)
      (fun r h1 h2 => by
        have h3 : r = 3 := by
          have : r < 4 := h2
          omega
        subst h3
        exact ⟨rfl, fun _ => rfl⟩)
      (by decide),
    by decide, by decide⟩

/-! ## C19: frames of a single column -/

theorem vbvCheckpoint_adds (cfg : Cfg) (orc : Collab) (row col : Nat) (cu : CuData)
    (s : EncState) : Adds s (vbvCheckpoint cfg orc row col cu s).1 [] := by
  unfold vbvCheckpoint
  simp only []
  split
  · split
    · split <;> exact Adds.of_events _ _ [Event.rowDiagonalVbvRateControl row col] rfl
        (by intro e he; simp at he; subst he; exact ⟨rfl, rfl⟩)
    · exact Adds.of_events _ _ [] (by simp) (by simp)
  · exact Adds.refl_adds s

theorem ctuHead_adds (cfg : Cfg) (orc : Collab) (row : Nat) (s : EncState) :
    Adds s (ctuHead cfg orc row s).1 [row * cfg.m_numCols + (s.m_rows row).completed] := by
  unfold ctuHead
  simpa using (ctuEncode_adds cfg orc row s).trans_adds
    (vbvCheckpoint_adds cfg orc row (s.m_rows row).completed _ _)

/-- The first step of row 0 in a frame of one column: its only CTU is coded,
no row is activated and the row is not suspended. -/
theorem singleCol_first (cfg : Cfg) (orc : Collab) (u : EncState)
    (hcols : cfg.m_numCols = 1) (hinv : SingleColInv u)
    (hc : (u.m_rows 0).completed = 0) :
    ∃ u1, workerStep cfg orc 0 u = Outcome.running u1 ∧ SingleColInv u1
      ∧ (u1.m_rows 0).completed = 1 ∧ (u1.m_rows 0).busy = (u.m_rows 0).busy
      ∧ (u1.m_rows 0).active = (u.m_rows 0).active ∧ u1.pc = u.pc ∧ Adds u u1 [0] := by
  obtain ⟨i1, i2, i3⟩ := hinv
  have hre : (ctuHead cfg orc 0 u).2 = false := by
    cases h : (ctuHead cfg orc 0 u).2
    · rfl
    · exact absurd rfl (ctuHead_reEncode cfg orc 0 u h).2.2.1
  obtain ⟨a1, a2⟩ := ctuHead_sched cfg orc 0 u
  obtain ⟨a3, a4⟩ := ctuHead_flags_of_noReEncode cfg orc 0 u hre
  obtain ⟨b1, b2, b3, b4⟩ := saoStats_sched cfg 0 0 (ctuHead cfg orc 0 u).1
  have hnw : ¬ wantsNextRow cfg 0 (saoStats cfg 0 0 (ctuHead cfg orc 0 u).1) := by
    unfold wantsNextRow
    rw [b1, (a1 0).1, hc]
    rintro ⟨⟨h, _⟩, _⟩
    simp at h
  have hact : activateNext cfg 0 (saoStats cfg 0 0 (ctuHead cfg orc 0 u).1)
      = saoStats cfg 0 0 (ctuHead cfg orc 0 u).1 := by
    unfold activateNext
    rw [if_neg hnw]
  have hns : ¬ mustSuspend cfg 0 (saoStats cfg 0 0 (ctuHead cfg orc 0 u).1) := by
    unfold mustSuspend
    rw [b3, a3, i2]
    rintro (⟨h, _⟩ | ⟨h, _⟩)
    · cases h
    · omega
  have hstep : workerStep cfg orc 0 u
      = Outcome.running (saoStats cfg 0 0 (ctuHead cfg orc 0 u).1) := by
    unfold workerStep
    rw [i1]
    simp only []
    rw [if_pos (by rw [hc, hcols]; omega), hre]
    simp only [Bool.false_eq_true, if_false]
    unfold ctuTail
    rw [hc, hact, if_neg hns]
  refine ⟨_, hstep, ⟨by rw [b2, a2]; exact i1, by rw [b3, a3]; exact i2, ?_⟩,
    by rw [b1, (a1 0).1, hc]; rfl, by rw [b1, (a1 0).2.2], by rw [b1, (a1 0).2.1],
    by rw [b2, a2], ?_⟩
  · intro r hr
    obtain ⟨j1, j2, j3⟩ := i3 r hr
    rw [b1, (a1 r).1, (a1 r).2.1, (a1 r).2.2, if_neg (by omega)]
    exact ⟨j1, j2, j3⟩
  · have h1 := ctuHead_adds cfg orc 0 u
    rw [hc] at h1
    simpa using h1.trans_adds (saoStats_adds cfg 0 0 _)

/-- The second step of row 0 in a frame of one column: the row is finished. -/
theorem singleCol_second (cfg : Cfg) (orc : Collab) (u : EncState)
    (hcols : cfg.m_numCols = 1) (hinv : SingleColInv u)
    (hc : (u.m_rows 0).completed = 1) :
    workerStep cfg orc 0 u = Outcome.returned (finishRow cfg orc 0 u)
      ∧ SingleColInv (finishRow cfg orc 0 u)
      ∧ ((finishRow cfg orc 0 u).m_rows 0).completed = 1
      ∧ ((finishRow cfg orc 0 u).m_rows 0).busy = false
      ∧ (finishRow cfg orc 0 u).pc = u.pc
      ∧ Adds u (finishRow cfg orc 0 u) [] := by
  obtain ⟨i1, i2, i3⟩ := hinv
  obtain ⟨d1, d2, d3, _⟩ := finishRow_sched cfg orc 0 u
  have hstep : workerStep cfg orc 0 u = Outcome.returned (finishRow cfg orc 0 u) := by
    unfold workerStep
    rw [i1]
    simp only []
    rw [if_neg (by rw [hc, hcols]; omega)]
  refine ⟨hstep, ⟨by rw [d2]; exact i1, by rw [d3]; exact i2, ?_⟩, by rw [(d1 0).1]; exact hc,
    by rw [(d1 0).2.1]; rfl, d2, finishRow_adds cfg orc 0 u⟩
  intro r hr
  obtain ⟨j1, j2, j3⟩ := i3 r hr
  rw [(d1 r).1, (d1 r).2.1, (d1 r).2.2, if_neg (by omega)]
  exact ⟨j1, j2, j3⟩

theorem enterRow_singleCol (row : Nat) (s : EncState) (hinv : SingleColInv s) :
    SingleColInv (enterRow row s).1 := by
  obtain ⟨i1, i2, i3⟩ := hinv
  unfold enterRow
  by_cases ha : (s.m_rows row).active = false
  · rw [if_pos ha]; exact ⟨i1, i2, i3⟩
  · rw [if_neg ha]
    split
    · exact ⟨i1, i2, i3⟩
    · have h0 : row = 0 := by
        by_contra hne
        exact ha (i3 row (by omega)).1
      subst h0
      refine ⟨i1, i2, ?_⟩
      intro r hr
      have hne : r ≠ 0 := by omega
      simpa [hne] using i3 r hr

/-- In a frame of one column every reachable state satisfies
`SingleColInv`. -/
theorem reachable_singleCol (cfg : Cfg) (orc : Collab) (hcols : cfg.m_numCols = 1)
    (s : EncState) (h : Reachable cfg orc s) : SingleColInv s := by
  induction h with
  | start s0 hf =>
    refine ⟨(hf 0).2.2.2.1, rfl, ?_⟩
    intro r hr
    obtain ⟨f1, f2, f3, _, _⟩ := hf r
    have hne : r ≠ 0 := by omega
    exact ⟨by simp [startRows, hne, f2], by simp [startRows, hne, f3],
      by simp [startRows, hne, f1]⟩
  | step s1 s2 hreach hs ih =>
    have hbound := (reachable_inv cfg orc s1 hreach).base.bound 0
    have key : ∀ row, (s1.m_rows row).busy = true →
        (workerStep cfg orc row s1 = Outcome.running s2
          ∨ workerStep cfg orc row s1 = Outcome.returned s2) → SingleColInv s2 := by
      intro row hbusy hst
      have h0 : row = 0 := by
        by_contra hne
        have := (ih.2.2 row (by omega)).2.1
        rw [this] at hbusy
        cases hbusy
      subst h0
      by_cases hc : (s1.m_rows 0).completed = 0
      · obtain ⟨u1, hu1, hinv1, _⟩ := singleCol_first cfg orc s1 hcols ih hc
        rw [hu1] at hst
        rcases hst with h | h
        · cases h; exact hinv1
        · cases h
      · obtain ⟨hu1, hinv1, _⟩ := singleCol_second cfg orc s1 hcols ih (by omega)
        rw [hu1] at hst
        rcases hst with h | h
        · cases h
        · cases h; exact hinv1
    cases hs
    case enter row hrow => exact enterRow_singleCol row s1 ih
    case run row hrow hbusy hst => exact key row hbusy (Or.inl hst)
    case ret row hrow hbusy hst => exact key row hbusy (Or.inr hst)

/-- State of a frame of one column before iteration `i` of the sequential
loop: `SingleColInv`, row 0 idle, and row 0 either ready and untouched
(`i = 0`) or coded (`i >= 1`). -/
theorem singleCol_encode (cfg : Cfg) (orc : Collab) (sl : Slice) (fuel i : Nat) (s : EncState)
    (hcols : cfg.m_numCols = 1) (hrows : 1 ≤ cfg.m_numRows) (hf : 2 ≤ fuel)
    (hsync : i < cfg.m_numRows → syncRefs cfg sl i (refSlots sl) ≠ none)
    (hinv : SingleColInv s) (hbusy : (s.m_rows 0).busy = false)
    (h0 : i = 0 → (s.m_rows 0).active = true ∧ (s.m_rows 0).completed = 0)
    (h1 : 1 ≤ i → (s.m_rows 0).completed = 1) :
    ∃ s2, seqEncode cfg orc sl fuel i s = some s2 ∧ SingleColInv s2
      ∧ (s2.m_rows 0).busy = false ∧ (s2.m_rows 0).completed = 1
      ∧ Adds s s2 (if i = 0 then [0] else []) := by
  unfold seqEncode
  by_cases hi : i < cfg.m_numRows
  · rw [if_pos hi]
    cases hs : syncRefs cfg sl i (refSlots sl) with
    | none => exact absurd hs (hsync hi)
    | some sync =>
      simp only []
      let t : EncState := { s with log := s.log ++ sync ++ [Event.processRowEncoder i] }
      have hproc : processRow cfg orc fuel (i * 2 + 0) { s with log := s.log ++ sync }
          = processRowEncoder cfg orc fuel i t := by
        unfold processRow
        simp only []
        rw [if_pos (task_id_encode i).1, (task_id_encode i).2]
      have hadd0 : Adds s t [] := by
        refine Adds.of_events s t (sync ++ [Event.processRowEncoder i])
          (by simp [t, List.append_assoc]) ?_
        intro e he
        rcases List.mem_append.mp he with h | h
        · rcases syncRefs_kind cfg sl i _ sync hs e h with ⟨_, _, _, _, rfl⟩ | ⟨_, _, _, rfl⟩
          · exact ⟨rfl, rfl⟩
          · exact ⟨rfl, rfl⟩
        · simp at h; subst h; exact ⟨rfl, rfl⟩
      have hinvt : SingleColInv t := hinv
      rw [hproc]
      by_cases hz : i = 0
      · subst hz
        obtain ⟨ha, hc⟩ := h0 rfl
        obtain ⟨f, rfl⟩ : ∃ f, fuel = f + 2 := ⟨fuel - 2, by omega⟩
        let u : EncState := { t with m_rows := upd t.m_rows 0 { t.m_rows 0 with busy := true } }
        have hent : enterRow 0 t = (u, true) := by
          unfold enterRow
          have e1 : (t.m_rows 0).active = true := ha
          have e2 : (t.m_rows 0).busy = false := hbusy
          rw [if_neg (by rw [e1]; simp), if_neg (by rw [e2]; simp)]
        have hinvu : SingleColInv u := by
          have := enterRow_singleCol 0 t hinvt
          rw [hent] at this
          exact this
        have hcu : (u.m_rows 0).completed = 0 := by simp [u, t, hc]
        obtain ⟨u1, hu1, hinv1, c1, _, _, _, hadd1⟩ :=
          singleCol_first cfg orc u hcols hinvu hcu
        obtain ⟨hu2, hinv2, c2, b2, _, hadd2⟩ := singleCol_second cfg orc u1 hcols hinv1 c1
        have haddu : Adds t u [] := ⟨[], by simp [u], rfl, by simp⟩
        refine ⟨finishRow cfg orc 0 u1, ?_, hinv2, b2, c2, ?_⟩
        · unfold processRowEncoder
          rw [hent]
          simp only [if_true, runWorker, hu1, hu2]
        · simpa using ((hadd0.trans_adds haddu).trans_adds hadd1).trans_adds hadd2
      · have hia : (t.m_rows i).active = false := (hinv.2.2 i (by omega)).1
        refine ⟨t, ?_, hinvt, hbusy, h1 (by omega), by rw [if_neg hz]; exact hadd0⟩
        unfold processRowEncoder enterRow
        rw [if_pos hia]
        simp
  · rw [if_neg hi]
    have hz : i ≠ 0 := by omega
    exact ⟨s, rfl, hinv, hbusy, h1 (by omega), by rw [if_neg hz]; exact Adds.refl_adds s⟩

theorem SingleColInv.of_same_rows {s s1 : EncState} (h : SingleColInv s)
    (h1 : s1.m_rows = s.m_rows) (h2 : s1.pc = s.pc)
    (h3 : s1.m_bAllRowsStop = s.m_bAllRowsStop) : SingleColInv s1 := by
  unfold SingleColInv at h ⊢
  rw [h1, h2, h3]
  exact h

theorem singleCol_iteration (cfg : Cfg) (orc : Collab) (sl : Slice) (fuel i : Nat)
    (s : EncState) (hcols : cfg.m_numCols = 1) (hrows : 1 ≤ cfg.m_numRows) (hf : 2 ≤ fuel)
    (hsync : i < cfg.m_numRows → syncRefs cfg sl i (refSlots sl) ≠ none)
    (hinv : SingleColInv s) (hbusy : (s.m_rows 0).busy = false)
    (h0 : i = 0 → (s.m_rows 0).active = true ∧ (s.m_rows 0).completed = 0)
    (h1 : 1 ≤ i → (s.m_rows 0).completed = 1) :
    ∃ s2, seqIteration cfg orc sl fuel i s = some s2 ∧ SingleColInv s2
      ∧ (s2.m_rows 0).busy = false ∧ (s2.m_rows 0).completed = 1
      ∧ Adds s s2 (if i = 0 then [0] else []) := by
  obtain ⟨s2, h2, hinv2, b2, c2, hadd2⟩ :=
    singleCol_encode cfg orc sl fuel i s hcols hrows hf hsync hinv hbusy h0 h1
  unfold seqIteration
  rw [h2]
  simp only []
  split
  · obtain ⟨s3, h3, e1, e2, e3, hadd3⟩ :=
      processRow_filter_inv cfg orc fuel (i - filterRowDelay cfg.param) s2
    exact ⟨s3, h3, hinv2.of_same_rows e1 e2 e3, by rw [e1]; exact b2, by rw [e1]; exact c2,
      by simpa using hadd2.trans_adds hadd3⟩
  · exact ⟨s2, rfl, hinv2, b2, c2, hadd2⟩

theorem singleCol_loop (cfg : Cfg) (orc : Collab) (sl : Slice) (fuel : Nat)
    (hcols : cfg.m_numCols = 1) (hrows : 1 ≤ cfg.m_numRows) (hf : 2 ≤ fuel)
    (hsync : ∀ i, i < cfg.m_numRows → syncRefs cfg sl i (refSlots sl) ≠ none) :
    ∀ (n i : Nat) (s : EncState), SingleColInv s → (s.m_rows 0).busy = false →
      (i = 0 → (s.m_rows 0).active = true ∧ (s.m_rows 0).completed = 0) →
      (1 ≤ i → (s.m_rows 0).completed = 1) →
      ∃ s1, seqLoop cfg orc sl fuel (List.range' i n) s = some s1 ∧ SingleColInv s1
        ∧ Adds s s1 (if i = 0 ∧ 0 < n then [0] else []) := by
  intro n
  induction n with
  | zero =>
    intro i s hinv _ _ _
    exact ⟨s, rfl, hinv, by simpa using Adds.refl_adds s⟩
  | succ n ih =>
    intro i s hinv hbusy h0 h1
    rw [List.range'_succ]
    simp only [seqLoop]
    obtain ⟨s2, h2, hinv2, b2, c2, hadd2⟩ :=
      singleCol_iteration cfg orc sl fuel i s hcols hrows hf (hsync i) hinv hbusy h0 h1
    rw [h2]
    simp only []
    obtain ⟨s3, h3, hinv3, hadd3⟩ := ih (i + 1) s2 hinv2 b2 (by omega) (fun _ => c2)
    refine ⟨s3, h3, hinv3, ?_⟩
    have hadd := hadd2.trans_adds hadd3
    have e : (if i + 1 = 0 ∧ 0 < n then [0] else ([] : List Nat)) = [] :=
      if_neg (by omega)
    rw [e, List.append_nil] at hadd
    by_cases hz : i = 0
    · rw [if_pos hz] at hadd
      rw [if_pos ⟨hz, by omega⟩]
      exact hadd
    · rw [if_neg hz] at hadd
      rw [if_neg (fun hx => hz hx.1)]
      exact hadd

/-- C19: a row is only ever activated by the row above it, at the end of one
of its iterations and with at least 2 CTUs completed there. Hence in a frame
with `numCols = 1` (and `numRows >= 2`): in every state the workers reach,
every row other than row 0 is inactive with `completed = 0`; and the
sequential path of `compressCTURows` returns with rows `1 .. numRows-1` still
inactive at `completed = 0`, the only CTU analysed being the one at
address 0. -/
theorem single_column (cfg : Cfg) (orc : Collab) :
    (∀ (s s1 : EncState) (row q : Nat),
        workerStep cfg orc row s = Outcome.running s1
          ∨ workerStep cfg orc row s = Outcome.returned s1 →
        (s.m_rows q).active = false → (s1.m_rows q).active = true →
        q = row + 1 ∧ 2 ≤ (s1.m_rows row).completed)
      ∧ (cfg.m_numCols = 1 → 2 ≤ cfg.m_numRows →
          (∀ s, Reachable cfg orc s → ∀ r, 1 ≤ r →
            (s.m_rows r).active = false ∧ (s.m_rows r).completed = 0)
          ∧ (∀ (sl : Slice) (fuel : Nat) (s : EncState),
            (cfg.hasPool && cfg.param.bEnableWavefront) = false → FreshRows s → 2 ≤ fuel →
            (∀ i, i < cfg.m_numRows → syncRefs cfg sl i (refSlots sl) ≠ none) →
            ∃ s1, compressCTURows cfg orc sl fuel s = some s1
              ∧ (∀ r, 1 ≤ r → (s1.m_rows r).active = false ∧ (s1.m_rows r).completed = 0)
              ∧ ∃ evs, s1.log = s.log ++ evs ∧ evs.filterMap Event.compressed = [0])) := by
  refine ⟨?_, fun hcols hrows => ⟨?_, ?_⟩⟩
  · intro s s1 row q hst h0 h1
    obtain ⟨e1, e2⟩ := workerStep_activation cfg orc row q s s1 hst h0 h1
    subst e1
    have e : row + 1 - 1 = row := by omega
    rw [e] at e2
    exact ⟨rfl, by omega⟩
  · intro s hs r hr
    obtain ⟨j1, _, j3⟩ := (reachable_singleCol cfg orc hcols s hs).2.2 r hr
    exact ⟨j1, j3⟩
  · intro sl fuel s hseq hfresh hf hsync
    rw [compressCTURows_seq cfg orc sl fuel s hseq, List.range_eq_range']
    have hinv0 : SingleColInv (startRows s) := by
      refine ⟨(hfresh 0).2.2.2.1, rfl, ?_⟩
      intro r hr
      obtain ⟨f1, f2, f3, _, _⟩ := hfresh r
      have hne : r ≠ 0 := by omega
      exact ⟨by simp [startRows, hne, f2], by simp [startRows, hne, f3],
        by simp [startRows, hne, f1]⟩
    obtain ⟨f1, _, f3, _, _⟩ := hfresh 0
    obtain ⟨s1, h1, hinv1, evs, e1, e2, _⟩ :=
      singleCol_loop cfg orc sl fuel hcols (by omega) hf hsync
        (cfg.m_numRows + filterRowDelay cfg.param) 0 (startRows s) hinv0
        (by simp [startRows, f3]) (fun _ => ⟨by simp [startRows], by simp [startRows, f1]⟩)
        (by omega)
    refine ⟨s1, h1, ?_, evs, by rw [e1, startRows_log], ?_⟩
    · intro r hr
      obtain ⟨j1, _, j3⟩ := hinv1.2.2 r hr
      exact ⟨j1, j3⟩
    · rw [e2, if_pos ⟨rfl, by omega⟩]

/-- Witness of C19: a frame of 4 rows by 1 column on the sequential path;
only the CTU of row 0 is compressed. -/
theorem single_column_witness :
    (demoCfgNarrow.m_numCols = 1 ∧ 2 ≤ demoCfgNarrow.m_numRows
        ∧ (demoCfgNarrow.hasPool && demoCfgNarrow.param.bEnableWavefront) = false
        ∧ FreshRows demoState)
      ∧ (∃ s1, compressCTURows demoCfgNarrow demoCollab demoSliceI 2 demoState = some s1
          ∧ (∀ r, 1 ≤ r → (s1.m_rows r).active = false ∧ (s1.m_rows r).completed = 0)
          ∧ ∃ evs, s1.log = demoState.log ++ evs ∧ evs.filterMap Event.compressed = [0])
      ∧ (compressCTURows demoCfgNarrow demoCollab demoSliceI 2 demoState).map
          (fun s => (List.range 4).map (fun r => (s.m_rows r).completed))
        = some [1, 0, 0, 0] :=
  ⟨⟨by decide, by decide, by decide, fun _ => ⟨rfl, rfl, rfl, rfl, rfl⟩⟩,
    ((single_column demoCfgNarrow demoCollab).2 (by decide) (by decide)).2 demoSliceI 2
      demoState
      (by decide) (fun _ => ⟨rfl, rfl, rfl, rfl, rfl⟩) (by decide)
      (fun i _ => by simp [refSlots, numPredDir, demoSliceI, syncRefs]),
    by decide⟩

/-! ## C13 under concurrent workers -/

theorem ctuTail_flags (cfg : Cfg) (row col : Nat) (v s1 : EncState)
    (h : ctuTail cfg row col v = Outcome.running s1
      ∨ ctuTail cfg row col v = Outcome.returned s1) :
    s1.pc = v.pc
      ∧ (∀ r, (s1.m_rows r).busy = true → (v.m_rows r).busy = true)
      ∧ (∀ r, (v.m_rows r).active = true → (s1.m_rows r).active = false →
          (s1.m_rows r).busy = false) := by
  obtain ⟨b1, b2, _, _⟩ := saoStats_sched cfg row col v
  obtain ⟨c1, c2, _, _⟩ := activateNext_sched cfg row (saoStats cfg row col v)
  have hact : ∀ r, (v.m_rows r).active = true →
      ((activateNext cfg row (saoStats cfg row col v)).m_rows r).active = true := by
    intro r hr
    exact ((c1 r).2.2).mpr (Or.inl (by rw [b1]; exact hr))
  have hbusy : ∀ r, ((activateNext cfg row (saoStats cfg row col v)).m_rows r).busy
      = (v.m_rows r).busy := by
    intro r; rw [(c1 r).2.1, b1]
  unfold ctuTail at h
  split at h
  · rcases h with h | h
    · cases h
    · cases h
      obtain ⟨d1, d2, _, _⟩ := suspendRow_sched row (activateNext cfg row (saoStats cfg row col v))
      refine ⟨by rw [d2, c2, b2], ?_, ?_⟩
      · intro r hr
        rw [(d1 r).2.1] at hr
        split at hr
        · cases hr
        · rw [hbusy r] at hr; exact hr
      · intro r hr hn
        rw [(d1 r).2.2] at hn
        rw [(d1 r).2.1]
        split at hn
        · rename_i hq
          rw [if_pos hq]
        · rw [hact r hr] at hn
          cases hn
  · rcases h with h | h
    · cases h
      refine ⟨by rw [c2, b2], ?_, ?_⟩
      · intro r hr
        rw [hbusy r] at hr; exact hr
      · intro r hr hn
        rw [hact r hr] at hn
        cases hn
    · cases h

theorem rollbackNext_flags (cfg : Cfg) (row j : Nat) (v s1 : EncState)
    (h : rollbackNext cfg row j v = Outcome.running s1
      ∨ rollbackNext cfg row j v = Outcome.returned s1) :
    (∀ k, k ≠ row → s1.pc k = v.pc k)
      ∧ (∀ r, (s1.m_rows r).busy = true → (v.m_rows r).busy = true)
      ∧ (∀ r, (v.m_rows r).active = true → (s1.m_rows r).active = false →
          (s1.m_rows r).busy = false) := by
  unfold rollbackNext at h
  split at h
  · rcases h with h | h
    · cases h
      refine ⟨fun k hk => by simp [upd, hk], fun r hr => hr, ?_⟩
      intro r hr hn
      have : (v.m_rows r).active = false := hn
      rw [hr] at this
      cases this
    · cases h
  · obtain ⟨t1, t2, t3⟩ := ctuTail_flags cfg row row _ s1 h
    refine ⟨fun k hk => by rw [t1]; simp [upd, hk], fun r hr => t2 r hr, fun r hr hn => t3 r hr hn⟩

/-- What a step of the worker of `row` can do to the flags of the rows and to
the program counters: only its own counter moves; no row becomes busy; and a
row whose `active` flag it clears is either given up at once (its own row,
suspended) or is the row it now waits for. It only leaves a busy wait on a
row that is idle. -/
theorem workerStep_flags (cfg : Cfg) (orc : Collab) (row : Nat) (s s1 : EncState)
    (h : workerStep cfg orc row s = Outcome.running s1
      ∨ workerStep cfg orc row s = Outcome.returned s1) :
    (∀ k, k ≠ row → s1.pc k = s.pc k)
      ∧ (∀ r, (s1.m_rows r).busy = true → (s.m_rows r).busy = true)
      ∧ (∀ r, (s.m_rows r).active = true → (s1.m_rows r).active = false →
          (s1.m_rows r).busy = false ∨ (r ≠ row ∧ s1.pc row = Pc.rbWaitIdle r))
      ∧ (∀ r, s.pc row = Pc.rbWaitIdle r → (s.m_rows r).busy = false) := by
  unfold workerStep at h
  cases hpc : s.pc row with
  | loop =>
    rw [hpc] at h
    simp only [] at h
    obtain ⟨a1, a2⟩ := ctuHead_sched cfg orc row s
    refine ⟨?_, ?_, ?_, fun r hr => by cases hr⟩
    all_goals split at h
    · split at h
      · rcases h with h | h
        · cases h
          intro k hk
          show upd (ctuHead cfg orc row s).1.pc row _ k = s.pc k
          rw [a2]; simp [upd, hk]
        · cases h
      · obtain ⟨t1, _, _⟩ := ctuTail_flags cfg row _ _ s1 h
        intro k _
        rw [t1, a2]
    · rcases h with h | h
      · cases h
      · cases h
        intro k _
        rw [(finishRow_sched cfg orc row s).2.1]
    · split at h
      · rcases h with h | h
        · cases h
          intro r hr
          have : ((ctuHead cfg orc row s).1.m_rows r).busy = true := hr
          rw [(a1 r).2.2] at this; exact this
        · cases h
      · obtain ⟨_, t2, _⟩ := ctuTail_flags cfg row _ _ s1 h
        intro r hr
        have := t2 r hr
        rw [(a1 r).2.2] at this; exact this
    · rcases h with h | h
      · cases h
      · cases h
        intro r hr
        rw [((finishRow_sched cfg orc row s).1 r).2.1] at hr
        split at hr
        · cases hr
        · exact hr
    · split at h
      · rcases h with h | h
        · cases h
          intro r hr hn
          have : ((ctuHead cfg orc row s).1.m_rows r).active = false := hn
          rw [(a1 r).2.1, hr] at this; cases this
        · cases h
      · obtain ⟨_, _, t3⟩ := ctuTail_flags cfg row _ _ s1 h
        intro r hr hn
        exact Or.inl (t3 r (by rw [(a1 r).2.1]; exact hr) hn)
    · rcases h with h | h
      · cases h
      · cases h
        intro r hr hn
        rw [((finishRow_sched cfg orc row s).1 r).2.2, hr] at hn; cases hn
  | rbDeactivate j =>
    rw [hpc] at h
    simp only [] at h
    refine ⟨?_, ?_, ?_, fun r hr => by cases hr⟩
    all_goals split at h
    · split at h
      · split at h
        · rcases h with h | h
          · cases h
            intro k hk
            simp [upd, hk]
          · cases h
        · rcases h with h | h <;> cases h
      · rcases h with h | h
        · cases h
          intro k hk
          simp [upd, hk]
        · cases h
    · obtain ⟨t1, _, _⟩ := rollbackNext_flags cfg row j _ s1 h
      intro k hk
      rw [t1 k hk, (resetRow_sched j s).2.1]
    · split at h
      · split at h
        · rcases h with h | h
          · cases h
            intro r hr
            by_cases hq : r = j
            · subst hq; simpa using hr
            · simpa [hq] using hr
          · cases h
        · rcases h with h | h <;> cases h
      · rcases h with h | h
        · cases h
          intro r hr; exact hr
        · cases h
    · obtain ⟨_, t2, _⟩ := rollbackNext_flags cfg row j _ s1 h
      intro r hr
      have := t2 r hr
      rw [((resetRow_sched j s).1 r).2.1] at this; exact this
    · rename_i hj
      split at h
      · split at h
        · rcases h with h | h
          · cases h
            intro r hr hn
            by_cases hq : r = j
            · subst hq
              exact Or.inr ⟨hj, by simp [upd]⟩
            · have : (s.m_rows r).active = false := by simpa [hq] using hn
              rw [hr] at this; cases this
          · cases h
        · rcases h with h | h <;> cases h
      · rcases h with h | h
        · cases h
          intro r hr hn
          have : (s.m_rows r).active = false := hn
          rw [hr] at this; cases this
        · cases h
    · obtain ⟨_, _, t3⟩ := rollbackNext_flags cfg row j _ s1 h
      intro r hr hn
      exact Or.inl (t3 r (by rw [((resetRow_sched j s).1 r).2.2]; exact hr) hn)
  | rbWaitIdle j =>
    rw [hpc] at h
    simp only [] at h
    split at h
    · rcases h with h | h <;> cases h
    · rename_i hb
      obtain ⟨t1, t2, t3⟩ := rollbackNext_flags cfg row j _ s1 h
      refine ⟨?_, ?_, ?_, ?_⟩
      · intro k hk
        rw [t1 k hk, (resetRow_sched j s).2.1]
      · intro r hr
        have := t2 r hr
        rw [((resetRow_sched j s).1 r).2.1] at this; exact this
      · intro r hr hn
        exact Or.inl (t3 r (by rw [((resetRow_sched j s).1 r).2.2]; exact hr) hn)
      · intro r hr
        cases hr
        simpa using hb

theorem enterRow_activeInv (cfg : Cfg) (row : Nat) (s : EncState) (hinv : ActiveInv cfg s) :
    ActiveInv cfg (enterRow row s).1 := by
  unfold enterRow
  by_cases ha : (s.m_rows row).active = false
  · rw [if_pos ha]; exact hinv
  · rw [if_neg ha]
    split
    · exact hinv
    · intro r hb hn
      by_cases hq : r = row
      · subst hq
        have : (s.m_rows r).active = false := by simpa using hn
        exact absurd this ha
      · have hb1 : (s.m_rows r).busy = true := by simpa [hq] using hb
        have hn1 : (s.m_rows r).active = false := by simpa [hq] using hn
        exact hinv r hb1 hn1

theorem workerStep_activeInv (cfg : Cfg) (orc : Collab) (row : Nat) (s s1 : EncState)
    (hrow : row < cfg.m_numRows) (hinv : ActiveInv cfg s)
    (h : workerStep cfg orc row s = Outcome.running s1
      ∨ workerStep cfg orc row s = Outcome.returned s1) : ActiveInv cfg s1 := by
  obtain ⟨f1, f2, f3, f4⟩ := workerStep_flags cfg orc row s s1 h
  intro r hb hn
  have hbs := f2 r hb
  cases ha : (s.m_rows r).active with
  | true =>
    rcases f3 r ha hn with h1 | ⟨h1, h2⟩
    · rw [hb] at h1; cases h1
    · exact ⟨row, hrow, fun hx => h1 hx.symm, h2⟩
  | false =>
    obtain ⟨k, hk, hne, hpc⟩ := hinv r hbs ha
    by_cases hkr : k = row
    · subst hkr
      have := f4 r hpc
      rw [hbs] at this; cases this
    · exact ⟨k, hk, hne, by rw [f1 k hkr]; exact hpc⟩

/-- In every reachable state a row that is owned by a worker has its `active`
flag set, unless a rollback is waiting for that row. -/
theorem reachable_activeInv (cfg : Cfg) (orc : Collab) (s : EncState)
    (h : Reachable cfg orc s) : ActiveInv cfg s := by
  induction h with
  | start s0 hf =>
    intro r hb _
    have : ((startRows s0).m_rows r).busy = false := by
      obtain ⟨_, _, f3, _, _⟩ := hf r
      by_cases hq : r = 0
      · subst hq; simp [startRows, f3]
      · simp [startRows, hq, f3]
    rw [this] at hb; cases hb
  | step s1 s2 _ hs ih =>
    cases hs
    case enter row hrow => exact enterRow_activeInv cfg row s1 ih
    case run row hrow hbusy hst => exact workerStep_activeInv cfg orc row s1 s2 hrow ih (Or.inl hst)
    case ret row hrow hbusy hst => exact workerStep_activeInv cfg orc row s1 s2 hrow ih (Or.inr hst)

/-- The step with which the worker of row `k` leaves the rollback, in any
reachable state: it is the step at cursor `k`, it resets row `k`, clears the
stop flag and runs lines 791-817, which neither activate nor suspend a row.
-/
theorem rollback_exit_reachable (cfg : Cfg) (orc : Collab) (k : Nat) (s s1 : EncState)
    (hk : k < cfg.m_numRows) (hs : Reachable cfg orc s) (hpc : s.pc k ≠ Pc.loop)
    (hst : workerStep cfg orc k s = Outcome.running s1
      ∨ workerStep cfg orc k s = Outcome.returned s1)
    (hout : s1.pc k = Pc.loop) :
    workerStep cfg orc k s = Outcome.running s1
      ∧ s1.m_bAllRowsStop = false ∧ s1.m_vbvResetTriggerRow = (k : Int)
      ∧ (∀ r, k < r → r ≤ cfg.m_numRows - 1 →
          (s1.m_rows r).active = false ∧ (s1.m_rows r).busy = false
            ∧ (s1.m_rows r).completed = 0)
      ∧ ((s1.m_rows k).active = true ∧ (s1.m_rows k).busy = true
          ∧ (s1.m_rows k).completed = 0)
      ∧ s1.m_frame.m_rowDiagQp k = s.m_frame.m_rowDiagQp k
      ∧ (bIsVbv cfg.param = true →
          (ctuEncode cfg orc k s1).1.m_frame.m_baseQp (k * cfg.m_numCols + 0)
            = s1.m_frame.m_rowDiagQp k) := by
  have hinv := reachable_inv cfg orc s hs
  have hact := reachable_activeInv cfg orc s hs
  have hexit : s.pc k = Pc.rbDeactivate k := by
    cases hp : s.pc k with
    | loop => exact absurd hp hpc
    | rbDeactivate j =>
      by_cases hj : j = k
      · rw [hj]
      · exfalso
        unfold workerStep at hst
        rw [hp] at hst
        simp only [] at hst
        rw [if_pos hj] at hst
        split at hst
        · split at hst
          · rcases hst with h | h
            · cases h; simp [upd] at hout
            · cases h
          · rcases hst with h | h <;> cases h
        · rcases hst with h | h
          · cases h; simp [upd] at hout
          · cases h
    | rbWaitIdle j =>
      exfalso
      obtain ⟨_, _, _, r4, _, _, _, _, r9⟩ := hinv.base.rollback k j hk (Or.inr hp)
      have hjk : j ≠ k := (r9 hp).1
      unfold workerStep at hst
      rw [hp] at hst
      simp only [] at hst
      split at hst
      · rcases hst with h | h <;> cases h
      · unfold rollbackNext at hst
        rw [if_pos (by omega)] at hst
        rcases hst with h | h
        · cases h; simp [upd] at hout
        · cases h
  obtain ⟨r1, r2, r3, _, _, r6, r7, r8, _⟩ := hinv.base.rollback k k hk (Or.inl hexit)
  -- row k is active: no other rollback waits for it
  have hka : (s.m_rows k).active = true := by
    cases ha : (s.m_rows k).active with
    | true => rfl
    | false =>
      obtain ⟨k1, hk1, hne, hp1⟩ := hact k r1 ha
      exact absurd (rollback_unique cfg s hinv.base k k k1 k hk hk1 (Or.inl hexit)
        (Or.inr hp1)).symm hne
  -- the row above is at least two CTUs ahead
  have habove : 2 ≤ (s.m_rows (k - 1)).completed := by
    have h1 := hinv.base.stair k (by omega) hk
    have h2 := hinv.base.bound k
    omega
  let v : EncState :=
    { resetRow k s with m_bAllRowsStop := false, pc := upd (resetRow k s).pc k Pc.loop }
  have hstep : workerStep cfg orc k s = ctuTail cfg k k v := by
    unfold workerStep
    rw [hexit]
    simp [rollbackNext, v]
  have hvrows : ∀ r, r ≠ k → v.m_rows r = s.m_rows r := by
    intro r hr; simp [v, resetRow, hr]
  have hvk : (v.m_rows k).completed = 0 ∧ (v.m_rows k).active = true
      ∧ (v.m_rows k).busy = true := by
    simp [v, resetRow, hka, r1]
  obtain ⟨b1, b2, b3, b4⟩ := saoStats_sched cfg k k v
  obtain ⟨bf, _⟩ := saoStats_frame cfg k k v
  have hnw : ¬ wantsNextRow cfg k (saoStats cfg k k v) := by
    unfold wantsNextRow
    rw [b1, hvk.1]
    rintro ⟨⟨h, _⟩, _⟩
    omega
  have hactn : activateNext cfg k (saoStats cfg k k v) = saoStats cfg k k v := by
    unfold activateNext
    rw [if_neg hnw]
  have hns : ¬ mustSuspend cfg k (saoStats cfg k k v) := by
    unfold mustSuspend
    rw [b1, b3, hvk.1, hvrows (k - 1) (by omega)]
    rintro (⟨h, _⟩ | ⟨_, _, h⟩)
    · cases h
    · omega
  have htail : ctuTail cfg k k v = Outcome.running (saoStats cfg k k v) := by
    unfold ctuTail
    rw [hactn, if_neg hns]
  have hs1 : s1 = saoStats cfg k k v := by
    rw [hstep, htail] at hst
    rcases hst with h | h
    · cases h; rfl
    · cases h
  subst hs1
  have htrig : (saoStats cfg k k v).m_vbvResetTriggerRow = (k : Int) := by
    rw [b4]; exact r3
  refine ⟨by rw [hstep, htail], by rw [b3], htrig, ?_, ?_, ?_, ?_⟩
  · intro r h1 h2
    rw [b1, hvrows r (by omega)]
    exact r8 r h1 (by omega)
  · rw [b1]
    exact ⟨hvk.2.1, hvk.2.2, hvk.1⟩
  · rw [bf]
    simp [v, resetRow]
  · intro hv
    have hc0 : ((saoStats cfg k k v).m_rows k).completed = 0 := by rw [b1]; exact hvk.1
    rw [ctuEncode_baseQp, hc0, deriveBaseQp_trigger cfg orc k 0 _ hv (by omega) htrig]

theorem stepRow_spec (cfg : Cfg) (orc : Collab) (row : Nat) (s : EncState)
    (hb : (workerStep cfg orc row s).isBlocked = false) :
    workerStep cfg orc row s = Outcome.running (stepRow cfg orc row s)
      ∨ workerStep cfg orc row s = Outcome.returned (stepRow cfg orc row s) := by
  unfold stepRow
  cases h : workerStep cfg orc row s with
  | running s1 => exact Or.inl rfl
  | returned s1 => exact Or.inr rfl
  | blocked => rw [h] at hb; cases hb

/-- C13: the scheduler state on leaving the rollback block (line 787), in two
settings.

Run by the worker of row `k` without interference: when rate control asks for
a re-encode at the checkpoint of row `k` and the waits of the rollback end
(the rows below are idle and can be dequeued), the block is left in a state
`v`, on which lines 791-817 then run, with the stop flag false, the trigger
row equal to `k`, every row `r` with `k < r <= numRows-1` inactive, not busy
and at cursor 0, and row `k` still active and busy, at cursor 0, its worker
at the head of the CTU loop; the diagonal QP of row `k` is the clipped value
rate control returned with its request; lines 791-817 neither activate nor
suspend a row (the row above being at least two CTUs ahead), so the same
worker goes on with column 0 of row `k`, whose base QP is that diagonal QP.

Under concurrent workers: in every reachable state, the step with which the
worker of row `k` leaves the rollback ends in a state with the same
properties (whatever the other workers did in between), the worker going on
(the step does not return), and the diagonal QP of row `k` is not touched by
the step and is the base QP of column 0. -/
theorem rollback_postcondition (cfg : Cfg) (orc : Collab) (k : Nat)
    (hk : k < cfg.m_numRows) :
    (∀ (s : EncState) (fuel : Nat), s.pc k = Pc.loop →
        (s.m_rows k).completed < cfg.m_numCols →
        (s.m_rows k).active = true ∧ (s.m_rows k).busy = true →
        (ctuHead cfg orc k s).2 = true →
        (∀ r, k < r → r < cfg.m_numRows → (s.m_rows r).busy = false
          ∧ ((s.m_rows r).active = true → orc.dequeueRow (r * 2) = true)) →
        2 * (cfg.m_numRows - k) ≤ fuel →
        ∃ v, ctuIteration cfg orc k fuel s = some (ctuTail cfg k k v)
          ∧ v.m_bAllRowsStop = false ∧ v.m_vbvResetTriggerRow = (k : Int)
          ∧ (∀ r, k < r → r ≤ cfg.m_numRows - 1 →
              (v.m_rows r).active = false ∧ (v.m_rows r).busy = false
                ∧ (v.m_rows r).completed = 0)
          ∧ ((v.m_rows k).active = true ∧ (v.m_rows k).busy = true
              ∧ (v.m_rows k).completed = 0 ∧ v.pc k = Pc.loop)
          ∧ (∃ q, (orc.rowDiagonalVbvRateControl s.rcCalls k q).1 < 0
              ∧ v.m_frame.m_rowDiagQp k = Clip3 cfg.glob.QP_MIN cfg.glob.QP_MAX_MAX
                  (orc.rowDiagonalVbvRateControl s.rcCalls k q).2)
          ∧ (2 ≤ (s.m_rows (k - 1)).completed →
              ∃ s1, ctuTail cfg k k v = Outcome.running s1
                ∧ s1.m_rows = v.m_rows ∧ s1.pc = v.pc ∧ s1.m_frame = v.m_frame
                ∧ s1.m_bAllRowsStop = false ∧ s1.m_vbvResetTriggerRow = (k : Int)
                ∧ (ctuEncode cfg orc k s1).1.m_frame.m_baseQp (k * cfg.m_numCols + 0)
                    = v.m_frame.m_rowDiagQp k))
      ∧ (∀ (s s1 : EncState), Reachable cfg orc s → s.pc k ≠ Pc.loop →
          (workerStep cfg orc k s = Outcome.running s1
            ∨ workerStep cfg orc k s = Outcome.returned s1) →
          s1.pc k = Pc.loop →
          workerStep cfg orc k s = Outcome.running s1
            ∧ s1.m_bAllRowsStop = false ∧ s1.m_vbvResetTriggerRow = (k : Int)
            ∧ (∀ r, k < r → r ≤ cfg.m_numRows - 1 →
                (s1.m_rows r).active = false ∧ (s1.m_rows r).busy = false
                  ∧ (s1.m_rows r).completed = 0)
            ∧ ((s1.m_rows k).active = true ∧ (s1.m_rows k).busy = true
                ∧ (s1.m_rows k).completed = 0)
            ∧ s1.m_frame.m_rowDiagQp k = s.m_frame.m_rowDiagQp k
            ∧ (bIsVbv cfg.param = true →
                (ctuEncode cfg orc k s1).1.m_frame.m_baseQp (k * cfg.m_numCols + 0)
                  = s1.m_frame.m_rowDiagQp k)) :=
  ⟨fun s fuel hloop hcol hown hre hidle hfuel =>
      rollback_exit_alone cfg orc k s fuel hk hloop hcol hown hre hidle hfuel,
    fun s s1 hs hpc hst hout => rollback_exit_reachable cfg orc k s s1 hk hs hpc hst hout⟩

theorem demoW16_reachable : Reachable demoCfgVbv demoCollab demoW16 :=
  have h0 : Reachable demoCfgVbv demoCollab demoW0 :=
    Reachable.start demoState (fun _ => ⟨rfl, rfl, rfl, rfl, rfl⟩)
  have h1 : Reachable demoCfgVbv demoCollab demoW1 :=
    Reachable.step _ _ h0 (Step.enter _ 0 (by decide))
  have h2 : Reachable demoCfgVbv demoCollab demoW2 :=
    Reachable.step _ _ h1 (Step.of_stepRow _ _ 0 demoW1 (by decide) (by decide) (by decide))
  have h3 : Reachable demoCfgVbv demoCollab demoW3 :=
    Reachable.step _ _ h2 (Step.of_stepRow _ _ 0 demoW2 (by decide) (by decide) (by decide))
  have h4 : Reachable demoCfgVbv demoCollab demoW4 :=
    Reachable.step _ _ h3 (Step.of_stepRow _ _ 0 demoW3 (by decide) (by decide) (by decide))
  have h5 : Reachable demoCfgVbv demoCollab demoW5 :=
    Reachable.step _ _ h4 (Step.of_stepRow _ _ 0 demoW4 (by decide) (by decide) (by decide))
  have h6 : Reachable demoCfgVbv demoCollab demoW6 :=
    Reachable.step _ _ h5 (Step.enter _ 1 (by decide))
  have h7 : Reachable demoCfgVbv demoCollab demoW7 :=
    Reachable.step _ _ h6 (Step.of_stepRow _ _ 1 demoW6 (by decide) (by decide) (by decide))
  have h8 : Reachable demoCfgVbv demoCollab demoW8 :=
    Reachable.step _ _ h7 (Step.of_stepRow _ _ 1 demoW7 (by decide) (by decide) (by decide))
  have h9 : Reachable demoCfgVbv demoCollab demoW9 :=
    Reachable.step _ _ h8 (Step.of_stepRow _ _ 1 demoW8 (by decide) (by decide) (by decide))
  have h10 : Reachable demoCfgVbv demoCollab demoW10 :=
    Reachable.step _ _ h9 (Step.of_stepRow _ _ 1 demoW9 (by decide) (by decide) (by decide))
  have h11 : Reachable demoCfgVbv demoCollab demoW11 :=
    Reachable.step _ _ h10 (Step.enter _ 2 (by decide))
  have h12 : Reachable demoCfgVbv demoCollab demoW12 :=
    Reachable.step _ _ h11 (Step.of_stepRow _ _ 2 demoW11 (by decide) (by decide) (by decide))
  have h13 : Reachable demoCfgVbv demoCollab demoW13 :=
    Reachable.step _ _ h12 (Step.of_stepRow _ _ 2 demoW12 (by decide) (by decide) (by decide))
  have h14 : Reachable demoCfgVbv demoCollab demoW14 :=
    Reachable.step _ _ h13 (Step.of_stepRow _ _ 2 demoW13 (by decide) (by decide) (by decide))
  have h15 : Reachable demoCfgVbv demoCollab demoW15 :=
    Reachable.step _ _ h14 (Step.of_stepRow _ _ 2 demoW14 (by decide) (by decide) (by decide))
  Reachable.step _ _ h15 (Step.of_stepRow _ _ 2 demoW15 (by decide) (by decide) (by decide))

/-- Witness of C13 on the 4 by 4 frame, the re-encode being asked for at the
checkpoint of row 2 while row 3 is activated and waits for a worker: run by
the worker alone from `demoRollbackState`, and as the last of the steps that
lead two workers from the freshly initialised frame through the rollback. -/
theorem rollback_postcondition_witness :
    (2 < demoCfgVbv.m_numRows ∧ demoRollbackState.pc 2 = Pc.loop
        ∧ (demoRollbackState.m_rows 2).completed < demoCfgVbv.m_numCols
        ∧ ((demoRollbackState.m_rows 2).active = true ∧ (demoRollbackState.m_rows 2).busy = true)
        ∧ (ctuHead demoCfgVbv demoCollab 2 demoRollbackState).2 = true
        ∧ Reachable demoCfgVbv demoCollab demoW16 ∧ demoW16.pc 2 ≠ Pc.loop
        ∧ demoW17.pc 2 = Pc.loop)
      ∧ (∃ v, ctuIteration demoCfgVbv demoCollab 2 4 demoRollbackState
            = some (ctuTail demoCfgVbv 2 2 v)
          ∧ v.m_bAllRowsStop = false ∧ v.m_vbvResetTriggerRow = ((2 : Nat) : Int)
          ∧ (∀ r, 2 < r → r ≤ demoCfgVbv.m_numRows - 1 →
              (v.m_rows r).active = false ∧ (v.m_rows r).busy = false
                ∧ (v.m_rows r).completed = 0)
          ∧ ((v.m_rows 2).active = true ∧ (v.m_rows 2).busy = true
              ∧ (v.m_rows 2).completed = 0 ∧ v.pc 2 = Pc.loop)
          ∧ (∃ q, (demoCollab.rowDiagonalVbvRateControl demoRollbackState.rcCalls 2 q).1 < 0
              ∧ v.m_frame.m_rowDiagQp 2
                = Clip3 demoCfgVbv.glob.QP_MIN demoCfgVbv.glob.QP_MAX_MAX
                    (demoCollab.rowDiagonalVbvRateControl demoRollbackState.rcCalls 2 q).2)
          ∧ (2 ≤ (demoRollbackState.m_rows (2 - 1)).completed →
              ∃ s1, ctuTail demoCfgVbv 2 2 v = Outcome.running s1
                ∧ s1.m_rows = v.m_rows ∧ s1.pc = v.pc ∧ s1.m_frame = v.m_frame
                ∧ s1.m_bAllRowsStop = false ∧ s1.m_vbvResetTriggerRow = ((2 : Nat) : Int)
                ∧ (ctuEncode demoCfgVbv demoCollab 2 s1).1.m_frame.m_baseQp
                      (2 * demoCfgVbv.m_numCols + 0)
                    = v.m_frame.m_rowDiagQp 2))
      ∧ (workerStep demoCfgVbv demoCollab 2 demoW16 = Outcome.running demoW17
          ∧ demoW17.m_bAllRowsStop = false ∧ demoW17.m_vbvResetTriggerRow = ((2 : Nat) : Int)
          ∧ (∀ r, 2 < r → r ≤ demoCfgVbv.m_numRows - 1 →
              (demoW17.m_rows r).active = false ∧ (demoW17.m_rows r).busy = false
                ∧ (demoW17.m_rows r).completed = 0)
          ∧ ((demoW17.m_rows 2).active = true ∧ (demoW17.m_rows 2).busy = true
              ∧ (demoW17.m_rows 2).completed = 0)
          ∧ demoW17.m_frame.m_rowDiagQp 2 = demoW16.m_frame.m_rowDiagQp 2
          ∧ (bIsVbv demoCfgVbv.param = true →
              (ctuEncode demoCfgVbv demoCollab 2 demoW17).1.m_frame.m_baseQp
                  (2 * demoCfgVbv.m_numCols + 0)
                = demoW17.m_frame.m_rowDiagQp 2)) :=
  have h := rollback_postcondition demoCfgVbv demoCollab 2 (by decide)
  ⟨⟨by decide, rfl, by decide, ⟨rfl, rfl⟩, by decide, demoW16_reachable, by decide, by decide⟩,
    h.1 demoRollbackState 4 rfl (by decide) ⟨rfl, rfl⟩ (by decide)
      (fun r h1 h2 => by
        have h3 : r = 3 := by
          have : r < 4 := h2
          omega
        subst h3
        exact ⟨rfl, fun _ => rfl⟩)
      (by decide),
    h.2 demoW16 demoW17 demoW16_reachable (by decide)
      (stepRow_spec demoCfgVbv demoCollab 2 demoW16 (by decide)) (by decide)⟩

/-! ## C3 under concurrent workers -/

theorem calcQpForCu_qpaAq (cfg : Cfg) (orc : Collab) (f : Frame) (cuAddr : Nat) (q : Int) :
    (calcQpForCu cfg orc f cuAddr q).1.m_qpaAq = f.m_qpaAq := by
  unfold calcQpForCu
  simp only []
  split <;> rfl

theorem applyCuQp_rowAccumZero (cfg : Cfg) (orc : Collab) (row cuAddr : Nat) (f : Frame) :
    rowAccumZero (applyCuQp cfg orc row cuAddr f).1 = rowAccumZero f := by
  unfold applyCuQp
  split
  · simp only []
    have hc := calcQpForCu_qpaAq cfg orc f cuAddr (f.m_baseQp cuAddr)
    generalize calcQpForCu cfg orc f cuAddr (f.m_baseQp cuAddr) = c at hc ⊢
    split
    · simp only [rowAccumZero, Option.map_map, hc]
      rfl
    · simp only [rowAccumZero, hc]
  · rfl

theorem deriveBaseQp_rowAccumZero (cfg : Cfg) (orc : Collab) (row col : Nat) (s : EncState) :
    rowAccumZero (deriveBaseQp cfg orc row col s) = rowAccumZero s.m_frame := by
  unfold deriveBaseQp
  simp only []
  split
  · split <;> split <;> rfl
  · rfl

theorem ctuEncode_rowAccumZero (cfg : Cfg) (orc : Collab) (row : Nat) (s : EncState) :
    rowAccumZero (ctuEncode cfg orc row s).1.m_frame = rowAccumZero s.m_frame := by
  have h1 := applyCuQp_rowAccumZero cfg orc row (row * cfg.m_numCols + (s.m_rows row).completed)
    (deriveBaseQp cfg orc row (s.m_rows row).completed s)
  rw [deriveBaseQp_rowAccumZero] at h1
  rw [← h1]
  rfl

theorem vbvCheckpoint_rowAccumZero (cfg : Cfg) (orc : Collab) (row col : Nat) (cu : CuData)
    (s : EncState) :
    rowAccumZero (vbvCheckpoint cfg orc row col cu s).1.m_frame = rowAccumZero s.m_frame := by
  unfold vbvCheckpoint
  simp only []
  split
  · split
    · split <;> rfl
    · rfl
  · rfl

theorem ctuHead_rowAccumZero (cfg : Cfg) (orc : Collab) (row : Nat) (s : EncState) :
    rowAccumZero (ctuHead cfg orc row s).1.m_frame = rowAccumZero s.m_frame := by
  unfold ctuHead
  simp only []
  rw [vbvCheckpoint_rowAccumZero, ctuEncode_rowAccumZero]

/-- What a step of the worker of `row` does to the statistics and the VBV
accumulators of the other rows while it is at the head of its CTU loop:
nothing. -/
theorem workerStep_loop_frame (cfg : Cfg) (orc : Collab) (row : Nat) (s s1 : EncState)
    (hpc : s.pc row = Pc.loop)
    (h : workerStep cfg orc row s = Outcome.running s1
      ∨ workerStep cfg orc row s = Outcome.returned s1) :
    (∀ m, m ≠ row → (s1.m_rows m).rowStats = (s.m_rows m).rowStats
        ∧ (s1.m_rows m).completed = (s.m_rows m).completed
        ∧ rowAccum s1.m_frame m = rowAccum s.m_frame m)
      ∧ rowAccumZero s1.m_frame = rowAccumZero s.m_frame := by
  unfold workerStep at h
  rw [hpc] at h
  simp only [] at h
  split at h
  · have hh : ∀ m, m ≠ row →
        ((ctuHead cfg orc row s).1.m_rows m).rowStats = (s.m_rows m).rowStats
          ∧ ((ctuHead cfg orc row s).1.m_rows m).completed = (s.m_rows m).completed
          ∧ rowAccum (ctuHead cfg orc row s).1.m_frame m = rowAccum s.m_frame m := by
      intro m hm
      rw [ctuHead_rows_ne cfg orc row m s hm]
      exact ⟨rfl, rfl, ctuHead_rowAccum cfg orc row m s hm⟩
    split at h
    · rcases h with h | h
      · cases h
        exact ⟨hh, ctuHead_rowAccumZero cfg orc row s⟩
      · cases h
    · obtain ⟨t, ht, t1, _, _, _, _, _, t7, _⟩ :=
        ctuTail_frame cfg row (s.m_rows row).completed (ctuHead cfg orc row s).1
      have htu : t = s1 := by
        rcases h with h | h <;> rcases ht with ht | ht <;> rw [h] at ht <;> cases ht <;> rfl
      subst htu
      refine ⟨?_, by rw [t1, ctuHead_rowAccumZero]⟩
      intro m hm
      obtain ⟨x1, x2, x3⟩ := hh m hm
      exact ⟨by rw [(t7 m).2.1, x1], by rw [(t7 m).1, x2], by rw [t1, x3]⟩
  · rcases h with h | h
    · cases h
    · cases h
      refine ⟨?_, rfl⟩
      intro m hm
      simp [finishRow, hm]

/-- What a step of the worker of `row` does while it is in the rollback loop
with cursor `j`: it resets row `j` and moves the cursor, or it only clears the
`active` flag of row `j`; the statistics, the cursor and the VBV accumulators
of every other row stay as they are. -/
theorem workerStep_rollback_frame (cfg : Cfg) (orc : Collab) (row j : Nat) (s s1 : EncState)
    (hpc : InRollback s row j)
    (h : workerStep cfg orc row s = Outcome.running s1
      ∨ workerStep cfg orc row s = Outcome.returned s1) :
    (∀ m, m ≠ j → (s1.m_rows m).rowStats = (s.m_rows m).rowStats
        ∧ (s1.m_rows m).completed = (s.m_rows m).completed
        ∧ rowAccum s1.m_frame m = rowAccum s.m_frame m)
      ∧ rowAccumZero s1.m_frame = rowAccumZero s.m_frame
      ∧ (∀ m, m ≠ j → m ≠ row → m ≠ row + 1 → s1.m_rows m = s.m_rows m)
      ∧ ((s1.pc row = Pc.rbWaitIdle j
            ∧ (s1.m_rows j).rowStats = (s.m_rows j).rowStats
            ∧ (s1.m_rows j).completed = (s.m_rows j).completed
            ∧ rowAccum s1.m_frame j = rowAccum s.m_frame j)
          ∨ ((s1.pc row = Pc.rbDeactivate (j - 1) ∨ s1.pc row = Pc.loop)
            ∧ (s1.pc row = Pc.rbDeactivate (j - 1) → row ≤ j - 1 ∧ 1 ≤ j)
            ∧ (s1.pc row = Pc.loop → j ≤ row)
            ∧ (s1.m_rows j).rowStats = FrameStats.zero
            ∧ (s1.m_rows j).completed = 0
            ∧ rowAccum s1.m_frame j = rowAccumZero s1.m_frame)) := by
  have hreset : ∀ v, (rollbackNext cfg row j (resetRow j s) = Outcome.running v
        ∨ rollbackNext cfg row j (resetRow j s) = Outcome.returned v) →
      (∀ m, m ≠ j → (v.m_rows m).rowStats = (s.m_rows m).rowStats
          ∧ (v.m_rows m).completed = (s.m_rows m).completed
          ∧ rowAccum v.m_frame m = rowAccum s.m_frame m)
        ∧ rowAccumZero v.m_frame = rowAccumZero s.m_frame
        ∧ (∀ m, m ≠ j → m ≠ row → m ≠ row + 1 → v.m_rows m = s.m_rows m)
        ∧ (v.pc row = Pc.rbDeactivate (j - 1) ∨ v.pc row = Pc.loop)
        ∧ (v.pc row = Pc.rbDeactivate (j - 1) → row ≤ j - 1 ∧ 1 ≤ j)
        ∧ (v.pc row = Pc.loop → j ≤ row)
        ∧ (v.m_rows j).rowStats = FrameStats.zero
        ∧ (v.m_rows j).completed = 0
        ∧ rowAccum v.m_frame j = rowAccumZero v.m_frame := by
    intro v hv
    have hrr : ∀ m, m ≠ j → (resetRow j s).m_rows m = s.m_rows m := by
      intro m hm; simp [resetRow, hm]
    have hrj : ((resetRow j s).m_rows j).rowStats = FrameStats.zero
        ∧ ((resetRow j s).m_rows j).completed = 0 := by
      simp [resetRow]
    unfold rollbackNext at hv
    split at hv
    · rename_i hge
      rcases hv with hv | hv
      · cases hv
        refine ⟨?_, rowAccumZero_resetRow j s, fun m hm _ _ => hrr m hm, Or.inl (by simp),
          fun _ => by omega, fun hc => by simp at hc, hrj.1, hrj.2, ?_⟩
        · intro m hm
          exact ⟨by rw [hrr m hm], by rw [hrr m hm], rowAccum_resetRow_ne j m s hm⟩
        · show rowAccum (resetRow j s).m_frame j = rowAccumZero (resetRow j s).m_frame
          rw [rowAccum_resetRow_same, rowAccumZero_resetRow]
      · cases hv
    · rename_i hlt
      obtain ⟨t, ht, t1, t2, _, _, _, _, t7, t8⟩ := ctuTail_frame cfg row row
        { resetRow j s with m_bAllRowsStop := false, pc := upd (resetRow j s).pc row Pc.loop }
      have htu : t = v := by
        rcases hv with hv | hv <;> rcases ht with ht | ht <;> rw [hv] at ht <;> cases ht <;> rfl
      subst htu
      refine ⟨?_, by rw [t1]; exact rowAccumZero_resetRow j s, ?_, Or.inr (by rw [t2]; simp),
        fun hc => by rw [t2] at hc; simp at hc, fun _ => by omega,
        by rw [(t7 j).2.1]; exact hrj.1, by rw [(t7 j).1]; exact hrj.2, ?_⟩
      · intro m hm
        refine ⟨by rw [(t7 m).2.1]; show ((resetRow j s).m_rows m).rowStats = _; rw [hrr m hm],
          by rw [(t7 m).1]; show ((resetRow j s).m_rows m).completed = _; rw [hrr m hm], ?_⟩
        rw [t1]
        exact rowAccum_resetRow_ne j m s hm
      · intro m h1 h2 h3
        rw [t8 m h2 h3]
        exact hrr m h1
      · rw [t1]
        show rowAccum (resetRow j s).m_frame j = rowAccumZero (resetRow j s).m_frame
        rw [rowAccum_resetRow_same, rowAccumZero_resetRow]
  have hwait : ∀ v : EncState, v.m_frame = s.m_frame → v.pc row = Pc.rbWaitIdle j →
      (∀ m, (v.m_rows m).rowStats = (s.m_rows m).rowStats
        ∧ (v.m_rows m).completed = (s.m_rows m).completed) →
      (∀ m, m ≠ j → v.m_rows m = s.m_rows m) →
      (∀ m, m ≠ j → (v.m_rows m).rowStats = (s.m_rows m).rowStats
          ∧ (v.m_rows m).completed = (s.m_rows m).completed
          ∧ rowAccum v.m_frame m = rowAccum s.m_frame m)
        ∧ rowAccumZero v.m_frame = rowAccumZero s.m_frame
        ∧ (∀ m, m ≠ j → m ≠ row → m ≠ row + 1 → v.m_rows m = s.m_rows m)
        ∧ ((v.pc row = Pc.rbWaitIdle j
              ∧ (v.m_rows j).rowStats = (s.m_rows j).rowStats
              ∧ (v.m_rows j).completed = (s.m_rows j).completed
              ∧ rowAccum v.m_frame j = rowAccum s.m_frame j)
            ∨ ((v.pc row = Pc.rbDeactivate (j - 1) ∨ v.pc row = Pc.loop)
              ∧ (v.pc row = Pc.rbDeactivate (j - 1) → row ≤ j - 1 ∧ 1 ≤ j)
              ∧ (v.pc row = Pc.loop → j ≤ row)
              ∧ (v.m_rows j).rowStats = FrameStats.zero
              ∧ (v.m_rows j).completed = 0
              ∧ rowAccum v.m_frame j = rowAccumZero v.m_frame)) := by
    intro v hf hp hr hrne
    exact ⟨fun m _ => ⟨(hr m).1, (hr m).2, by rw [hf]⟩, by rw [hf],
      fun m hm _ _ => hrne m hm, Or.inl ⟨hp, (hr j).1, (hr j).2, by rw [hf]⟩⟩
  unfold workerStep at h
  rcases hpc with hp | hp
  · rw [hp] at h
    simp only [] at h
    split at h
    · split at h
      · split at h
        · rcases h with h | h
          · cases h
            refine hwait _ ?_ ?_ ?_ ?_
            · rfl
            · simp
            · intro m
              by_cases hm : m = j
              · subst hm; simp
              · simp [hm]
            · intro m hm; simp [hm]
          · cases h
        · rcases h with h | h <;> cases h
      · rcases h with h | h
        · cases h
          refine hwait _ ?_ ?_ ?_ ?_
          · rfl
          · simp
          · exact fun m => ⟨rfl, rfl⟩
          · exact fun m _ => rfl
        · cases h
    · obtain ⟨a1, a2, a3, a4⟩ := hreset s1 h
      exact ⟨a1, a2, a3, Or.inr a4⟩
  · rw [hp] at h
    simp only [] at h
    split at h
    · rcases h with h | h <;> cases h
    · obtain ⟨a1, a2, a3, a4⟩ := hreset s1 h
      exact ⟨a1, a2, a3, Or.inr a4⟩

theorem enterRow_frame (row : Nat) (s : EncState) :
    (enterRow row s).1.pc = s.pc ∧ (enterRow row s).1.m_frame = s.m_frame
      ∧ ∀ m, ((enterRow row s).1.m_rows m).rowStats = (s.m_rows m).rowStats
        ∧ ((enterRow row s).1.m_rows m).completed = (s.m_rows m).completed := by
  unfold enterRow
  split
  · exact ⟨rfl, rfl, fun _ => ⟨rfl, rfl⟩⟩
  · split
    · exact ⟨rfl, rfl, fun _ => ⟨rfl, rfl⟩⟩
    · refine ⟨rfl, rfl, fun m => ?_⟩
      by_cases hm : m = row
      · subst hm; simp
      · simp [hm]

/-- A worker at the head of its CTU loop either stays there or enters the
rollback loop at the last row. -/
theorem workerStep_loop_pc (cfg : Cfg) (orc : Collab) (row : Nat) (s s1 : EncState)
    (hpc : s.pc row = Pc.loop)
    (h : workerStep cfg orc row s = Outcome.running s1
      ∨ workerStep cfg orc row s = Outcome.returned s1) :
    s1.pc row = Pc.loop ∨ s1.pc row = Pc.rbDeactivate (cfg.m_numRows - 1) := by
  unfold workerStep at h
  rw [hpc] at h
  simp only [] at h
  split at h
  · split at h
    · rcases h with h | h
      · cases h
        right
        simp
      · cases h
    · obtain ⟨t1, _, _⟩ := ctuTail_flags cfg row _ _ s1 h
      left
      rw [t1, ctuHead_pc, hpc]
  · rcases h with h | h
    · cases h
    · cases h
      left
      rw [(finishRow_sched cfg orc row s).2.1, hpc]

theorem workerStep_resetInv (cfg : Cfg) (orc : Collab) (row : Nat) (s s1 : EncState)
    (hrow : row < cfg.m_numRows) (hbusy : (s.m_rows row).busy = true)
    (hinv : SchedInv cfg s) (hres : ResetInv cfg s)
    (h : workerStep cfg orc row s = Outcome.running s1
      ∨ workerStep cfg orc row s = Outcome.returned s1) : ResetInv cfg s1 := by
  obtain ⟨f1, _, _, _⟩ := workerStep_flags cfg orc row s s1 h
  intro k j hk hroll m hjm hm
  cases hp : s.pc row with
  | loop =>
    by_cases hkr : k = row
    · subst hkr
      rcases workerStep_loop_pc cfg orc k s s1 hp h with h1 | h1
      · exact absurd hroll (not_inRollback_of_loop s1 k j h1)
      · rcases hroll with h2 | h2
        · rw [h1] at h2
          cases h2
          omega
        · rw [h1] at h2
          cases h2
    · have hroll0 : InRollback s k j := by
        unfold InRollback at hroll ⊢
        rw [f1 k hkr] at hroll
        exact hroll
      obtain ⟨_, _, _, _, _, _, _, r8, _⟩ := hinv.base.rollback k j hk hroll0
      have hmr : m ≠ row := by
        intro he
        subst he
        rw [(r8 m hjm hm).2.1] at hbusy
        cases hbusy
      obtain ⟨g1, g2⟩ := workerStep_loop_frame cfg orc row s s1 hp h
      obtain ⟨x1, _, x3⟩ := g1 m hmr
      obtain ⟨y1, y2⟩ := hres k j hk hroll0 m hjm hm
      exact ⟨by rw [x1, y1], by rw [x3, g2, y2]⟩
  | rbDeactivate j0 =>
    have hroll0 : InRollback s row j0 := Or.inl hp
    have hkr : k = row := by
      by_contra hne
      have : InRollback s k j := by
        unfold InRollback at hroll ⊢
        rw [f1 k hne] at hroll
        exact hroll
      exact hne (rollback_unique cfg s hinv.base k j row j0 hk hrow this hroll0)
    subst hkr
    obtain ⟨g1, g2, _, g4⟩ := workerStep_rollback_frame cfg orc k j0 s s1 hroll0 h
    rcases g4 with ⟨p1, _⟩ | ⟨_, _, _, z1, _, z3⟩
    · have hj : j = j0 := by
        rcases hroll with h2 | h2 <;> (rw [p1] at h2; cases h2)
        rfl
      subst hj
      obtain ⟨x1, _, x3⟩ := g1 m (by omega)
      obtain ⟨y1, y2⟩ := hres k j hk hroll0 m hjm hm
      exact ⟨by rw [x1, y1], by rw [x3, g2, y2]⟩
    · by_cases hmj : m = j0
      · subst hmj
        exact ⟨z1, z3⟩
      · have hlt : j0 < m := by
          rcases hroll with h2 | h2
          · rcases workerStep_rollback_frame cfg orc k j0 s s1 hroll0 h with
              ⟨_, _, _, ⟨q1, _⟩ | ⟨q1, q2, q3, _⟩⟩
            · rw [q1] at h2; cases h2
            · rcases q1 with q1 | q1
              · rw [q1] at h2
                cases h2
                omega
              · rw [q1] at h2; cases h2
          · rcases workerStep_rollback_frame cfg orc k j0 s s1 hroll0 h with
              ⟨_, _, _, ⟨q1, _⟩ | ⟨q1, q2, q3, _⟩⟩
            · rw [q1] at h2
              cases h2
              omega
            · rcases q1 with q1 | q1 <;> (rw [q1] at h2; cases h2)
        obtain ⟨x1, _, x3⟩ := g1 m hmj
        obtain ⟨y1, y2⟩ := hres k j0 hk hroll0 m hlt hm
        exact ⟨by rw [x1, y1], by rw [x3, g2, y2]⟩
  | rbWaitIdle j0 =>
    have hroll0 : InRollback s row j0 := Or.inr hp
    have hkr : k = row := by
      by_contra hne
      have : InRollback s k j := by
        unfold InRollback at hroll ⊢
        rw [f1 k hne] at hroll
        exact hroll
      exact hne (rollback_unique cfg s hinv.base k j row j0 hk hrow this hroll0)
    subst hkr
    obtain ⟨g1, g2, _, g4⟩ := workerStep_rollback_frame cfg orc k j0 s s1 hroll0 h
    rcases g4 with ⟨p1, _⟩ | ⟨q1, _, _, z1, _, z3⟩
    · have hj : j = j0 := by
        rcases hroll with h2 | h2 <;> (rw [p1] at h2; cases h2)
        rfl
      subst hj
      obtain ⟨x1, _, x3⟩ := g1 m (by omega)
      obtain ⟨y1, y2⟩ := hres k j hk hroll0 m hjm hm
      exact ⟨by rw [x1, y1], by rw [x3, g2, y2]⟩
    · by_cases hmj : m = j0
      · subst hmj
        exact ⟨z1, z3⟩
      · have hlt : j0 < m := by
          rcases hroll with h2 | h2
          · rcases q1 with q1 | q1
            · rw [q1] at h2
              cases h2
              omega
            · rw [q1] at h2; cases h2
          · rcases q1 with q1 | q1 <;> (rw [q1] at h2; cases h2)
        obtain ⟨x1, _, x3⟩ := g1 m hmj
        obtain ⟨y1, y2⟩ := hres k j0 hk hroll0 m hlt hm
        exact ⟨by rw [x1, y1], by rw [x3, g2, y2]⟩

/-- In every reachable state, the rows below the cursor of a rollback have
all-zero statistics and all-zero VBV accumulators. -/
theorem reachable_resetInv (cfg : Cfg) (orc : Collab) (s : EncState)
    (h : Reachable cfg orc s) : ResetInv cfg s := by
  induction h with
  | start s0 hf =>
    intro k j _ hroll
    exact absurd hroll (not_inRollback_of_loop _ k j (by
      show (startRows s0).pc k = Pc.loop
      exact (hf k).2.2.2.1))
  | step s1 s2 hr hs ih =>
    have hinv := reachable_inv cfg orc s1 hr
    cases hs
    case enter row hrow =>
      obtain ⟨e1, e2, e3⟩ := enterRow_frame row s1
      intro k j hk hroll m hjm hm
      have hroll0 : InRollback s1 k j := by
        unfold InRollback at hroll ⊢
        rw [e1] at hroll
        exact hroll
      obtain ⟨y1, y2⟩ := ih k j hk hroll0 m hjm hm
      exact ⟨by rw [(e3 m).1, y1], by rw [e2, y2]⟩
    case run row hrow hbusy hst =>
      exact workerStep_resetInv cfg orc row s1 s2 hrow hbusy hinv ih (Or.inl hst)
    case ret row hrow hbusy hst =>
      exact workerStep_resetInv cfg orc row s1 s2 hrow hbusy hinv ih (Or.inr hst)

/-- The step with which the worker of row `k` leaves the rollback, in any
reachable state: every row from `k` on is at cursor 0 with all-zero
statistics and all-zero VBV accumulators. -/
theorem rollback_exit_reset (cfg : Cfg) (orc : Collab) (k : Nat) (s s1 : EncState)
    (hk : k < cfg.m_numRows) (hs : Reachable cfg orc s) (hpc : s.pc k ≠ Pc.loop)
    (hst : workerStep cfg orc k s = Outcome.running s1
      ∨ workerStep cfg orc k s = Outcome.returned s1)
    (hout : s1.pc k = Pc.loop) :
    ∀ r, k ≤ r → r < cfg.m_numRows → (s1.m_rows r).completed = 0
      ∧ (s1.m_rows r).rowStats = FrameStats.zero
      ∧ rowAccum s1.m_frame r = rowAccumZero s1.m_frame := by
  have hinv := reachable_inv cfg orc s hs
  have hres := reachable_resetInv cfg orc s hs
  obtain ⟨j, hroll⟩ : ∃ j, InRollback s k j := by
    cases hp : s.pc k with
    | loop => exact absurd hp hpc
    | rbDeactivate j => exact ⟨j, Or.inl hp⟩
    | rbWaitIdle j => exact ⟨j, Or.inr hp⟩
  obtain ⟨_, _, _, r4, _, _, _, r8, _⟩ := hinv.base.rollback k j hk hroll
  obtain ⟨g1, g2, _, g4⟩ := workerStep_rollback_frame cfg orc k j s s1 hroll hst
  rcases g4 with ⟨p1, _⟩ | ⟨_, _, q3, z1, z2, z3⟩
  · rw [p1] at hout; cases hout
  · have hjk : j = k := by
      have := q3 hout
      omega
    subst hjk
    intro r h1 h2
    by_cases hr : r = j
    · subst hr
      exact ⟨z2, z1, z3⟩
    · obtain ⟨x1, x2, x3⟩ := g1 r hr
      obtain ⟨y1, y2⟩ := hres j j hk hroll r (by omega) h2
      exact ⟨by rw [x2]; exact (r8 r (by omega) h2).2.2, by rw [x1, y1], by rw [x3, g2, y2]⟩

/-- The steps of the worker of row `k` from the checkpoint that asks for the
re-encode to the end of the rollback leave the rows above `k` alone. -/
theorem rollback_step_above (cfg : Cfg) (orc : Collab) (k : Nat) (s s1 : EncState)
    (hk : k < cfg.m_numRows) (hs : Reachable cfg orc s)
    (hst : workerStep cfg orc k s = Outcome.running s1
      ∨ workerStep cfg orc k s = Outcome.returned s1)
    (hin : s.pc k ≠ Pc.loop
      ∨ (s.pc k = Pc.loop ∧ (s.m_rows k).completed < cfg.m_numCols
          ∧ (ctuHead cfg orc k s).2 = true)) :
    ∀ r, r < k → s1.m_rows r = s.m_rows r
      ∧ rowAccum s1.m_frame r = rowAccum s.m_frame r := by
  rcases hin with hpc | ⟨hpc, hc, hre⟩
  · have hinv := reachable_inv cfg orc s hs
    obtain ⟨j, hroll⟩ : ∃ j, InRollback s k j := by
      cases hp : s.pc k with
      | loop => exact absurd hp hpc
      | rbDeactivate j => exact ⟨j, Or.inl hp⟩
      | rbWaitIdle j => exact ⟨j, Or.inr hp⟩
    obtain ⟨_, _, _, r4, _⟩ := hinv.base.rollback k j hk hroll
    obtain ⟨g1, _, g3, _⟩ := workerStep_rollback_frame cfg orc k j s s1 hroll hst
    intro r hr
    exact ⟨g3 r (by omega) (by omega) (by omega), (g1 r (by omega)).2.2⟩
  · unfold workerStep at hst
    rw [hpc] at hst
    simp only [] at hst
    rw [if_pos hc] at hst
    simp only [hre, if_true] at hst
    rcases hst with h | h
    · cases h
      intro r hr
      exact ⟨ctuHead_rows_ne cfg orc k r s (by omega), ctuHead_rowAccum cfg orc k r s (by omega)⟩
    · cases h

theorem reachable_steps (cfg : Cfg) (orc : Collab) (s s1 : EncState)
    (hs : Reachable cfg orc s) (h : Relation.ReflTransGen (Step cfg orc) s s1) :
    Reachable cfg orc s1 := by
  induction h with
  | refl => exact hs
  | tail _ hst ih => exact Reachable.step _ _ ih hst

/-- While a rollback is under way at row `k`, the next step of the worker of
a row below `k` gives that row up. -/
theorem rollback_idle_step (cfg : Cfg) (orc : Collab) (k j m : Nat) (s : EncState)
    (hs : Reachable cfg orc s) (hk : k < cfg.m_numRows) (hroll : InRollback s k j)
    (hm : m < cfg.m_numRows) (hkm : k < m) :
    ∃ s1, workerStep cfg orc m s = Outcome.returned s1 ∧ (s1.m_rows m).busy = false := by
  have hinv := reachable_inv cfg orc s hs
  obtain ⟨_, r2, r3, _, _, _, r7, _, _⟩ := hinv.base.rollback k j hk hroll
  have hpc : s.pc m = Pc.loop := by
    cases hp : s.pc m with
    | loop => rfl
    | rbDeactivate j1 =>
      exact absurd (rollback_unique cfg s hinv.base k j m j1 hk hm hroll (Or.inl hp)) (by omega)
    | rbWaitIdle j1 =>
      exact absurd (rollback_unique cfg s hinv.base k j m j1 hk hm hroll (Or.inr hp)) (by omega)
  unfold workerStep
  rw [hpc]
  simp only []
  by_cases hc : (s.m_rows m).completed < cfg.m_numCols
  · rw [if_pos hc]
    have hre : (ctuHead cfg orc m s).2 = false := by
      cases hh : (ctuHead cfg orc m s).2 with
      | false => rfl
      | true =>
        exfalso
        obtain ⟨_, hd, _, _, _⟩ := ctuHead_reEncode cfg orc m s hh
        exact no_second_rollback cfg s hinv.base k j m hk hroll hm (by omega) hd.symm
          (by omega) (by omega)
    simp only [hre, Bool.false_eq_true, if_false]
    obtain ⟨h1, h2⟩ := ctuHead_flags_of_noReEncode cfg orc m s hre
    obtain ⟨_, _, _, _, f5, f6, _, _, _⟩ :=
      saoStats_frame cfg m (s.m_rows m).completed (ctuHead cfg orc m s).1
    obtain ⟨_, _, _, _, a5, a6, _, _⟩ :=
      activateNext_frame cfg m (saoStats cfg m (s.m_rows m).completed (ctuHead cfg orc m s).1)
    have hsus : mustSuspend cfg m
        (activateNext cfg m (saoStats cfg m (s.m_rows m).completed (ctuHead cfg orc m s).1)) := by
      left
      rw [a5, a6, f5, f6, h1, h2, r3]
      exact ⟨r2, by exact_mod_cast hkm⟩
    unfold ctuTail
    rw [if_pos hsus]
    exact ⟨_, rfl, by simp [suspendRow]⟩
  · rw [if_neg hc]
    exact ⟨_, rfl, by simp [finishRow]⟩

/-- The deactivation loop of a rollback (lines 749-755) for a row below the
trigger row can be left, when `dequeueRow` answers true. -/
theorem rollback_deactivate_step (cfg : Cfg) (orc : Collab) (k j : Nat) (s : EncState)
    (hs : Reachable cfg orc s) (hk : k < cfg.m_numRows) (hp : s.pc k = Pc.rbDeactivate j)
    (hjk : j ≠ k) (hdq : orc.dequeueRow (j * 2) = true) :
    ∃ s1, Step cfg orc s s1 ∧ s1.pc k = Pc.rbWaitIdle j := by
  have hinv := reachable_inv cfg orc s hs
  obtain ⟨r1, _⟩ := hinv.base.rollback k j hk (Or.inl hp)
  cases ha : (s.m_rows j).active with
  | true =>
    refine ⟨{ s with
        m_rows := upd s.m_rows j { s.m_rows j with active := false }
        pc := upd s.pc k (Pc.rbWaitIdle j) }, Step.run s _ k hk r1 ?_, ?_⟩
    · unfold workerStep
      rw [hp]
      simp [hjk, ha, hdq]
    · simp
  | false =>
    refine ⟨{ s with pc := upd s.pc k (Pc.rbWaitIdle j) }, Step.run s _ k hk r1 ?_, ?_⟩
    · unfold workerStep
      rw [hp]
      simp [hjk, ha]
    · simp

/-- The busy wait of a rollback (lines 759-771) can be left: the row waited
for is given up by its worker, then it is reset and the cursor moves on. -/
theorem rollback_wait_step (cfg : Cfg) (orc : Collab) (k j : Nat) (s : EncState)
    (hs : Reachable cfg orc s) (hk : k < cfg.m_numRows) (hp : s.pc k = Pc.rbWaitIdle j) :
    ∃ s1, Relation.ReflTransGen (Step cfg orc) s s1 ∧ s1.pc k = Pc.rbDeactivate (j - 1)
      ∧ k ≤ j - 1 := by
  have hinv := reachable_inv cfg orc s hs
  obtain ⟨r1, _, _, r4, r5, _, _, _, r9⟩ := hinv.base.rollback k j hk (Or.inr hp)
  have hjk : j ≠ k := (r9 hp).1
  have hgo : ∀ t, Reachable cfg orc t → t.pc k = Pc.rbWaitIdle j → (t.m_rows j).busy = false →
      ∃ s1, Step cfg orc t s1 ∧ s1.pc k = Pc.rbDeactivate (j - 1) := by
    intro t ht hpt hb
    have hinvt := reachable_inv cfg orc t ht
    obtain ⟨q1, _⟩ := hinvt.base.rollback k j hk (Or.inr hpt)
    refine ⟨{ resetRow j t with pc := upd (resetRow j t).pc k (Pc.rbDeactivate (j - 1)) },
      Step.run t _ k hk q1 ?_, by simp⟩
    unfold workerStep
    rw [hpt]
    simp only [hb, Bool.false_eq_true, if_false]
    unfold rollbackNext
    rw [if_pos (by omega)]
  cases hb : (s.m_rows j).busy with
  | false =>
    obtain ⟨s1, h1, h2⟩ := hgo s hs hp hb
    exact ⟨s1, Relation.ReflTransGen.single h1, h2, by omega⟩
  | true =>
    obtain ⟨t, ht, hbt⟩ := rollback_idle_step cfg orc k j j s hs hk (Or.inr hp) r5 (by omega)
    have hstep : Step cfg orc s t := Step.ret s t j r5 hb ht
    have htr : Reachable cfg orc t := Reachable.step _ _ hs hstep
    have hpt : t.pc k = Pc.rbWaitIdle j := by
      rw [(workerStep_flags cfg orc j s t (Or.inr ht)).1 k (by omega)]
      exact hp
    obtain ⟨s1, h1, h2⟩ := hgo t htr hpt hbt
    exact ⟨s1, Relation.ReflTransGen.tail (Relation.ReflTransGen.single hstep) h1, h2, by omega⟩

/-- Wherever the other workers stand, a rollback that is under way at row `k`
can be completed (when `dequeueRow` answers true for the rows below `k`):
some steps of the workers lead to the state in which the worker of row `k`
has just left the rollback, and every row from `k` on is reset then. -/
theorem rollback_can_finish (cfg : Cfg) (orc : Collab) (k : Nat) (hk : k < cfg.m_numRows)
    (hdq : ∀ r, k < r → r < cfg.m_numRows → orc.dequeueRow (r * 2) = true) :
    ∀ (d : Nat) (s : EncState) (j : Nat), Reachable cfg orc s → InRollback s k j → j = k + d →
      ∃ s1, Relation.ReflTransGen (Step cfg orc) s s1 ∧ s1.pc k = Pc.loop
        ∧ ∀ r, k ≤ r → r < cfg.m_numRows → (s1.m_rows r).completed = 0
          ∧ (s1.m_rows r).rowStats = FrameStats.zero
          ∧ rowAccum s1.m_frame r = rowAccumZero s1.m_frame := by
  intro d
  induction d with
  | zero =>
    intro s j hs hroll hj
    have hjk : j = k := by omega
    subst hjk
    have hinv := reachable_inv cfg orc s hs
    obtain ⟨r1, _, _, _, _, _, _, _, r9⟩ := hinv.base.rollback j j hk hroll
    have hp : s.pc j = Pc.rbDeactivate j := by
      rcases hroll with h | h
      · exact h
      · exact absurd rfl (r9 h).1
    obtain ⟨t, ht, _, t2, _⟩ := ctuTail_frame cfg j j
      { resetRow j s with m_bAllRowsStop := false, pc := upd (resetRow j s).pc j Pc.loop }
    have hw : workerStep cfg orc j s = ctuTail cfg j j
        { resetRow j s with m_bAllRowsStop := false, pc := upd (resetRow j s).pc j Pc.loop } := by
      unfold workerStep
      rw [hp]
      simp [rollbackNext]
    rw [← hw] at ht
    have hout : t.pc j = Pc.loop := by rw [t2]; simp
    have hne : s.pc j ≠ Pc.loop := by rw [hp]; exact fun h => by cases h
    have hrun := (rollback_exit_reachable cfg orc j s t hk hs hne ht hout).1
    exact ⟨t, Relation.ReflTransGen.single (Step.run s t j hk r1 hrun), hout,
      rollback_exit_reset cfg orc j s t hk hs hne ht hout⟩
  | succ d ih =>
    intro s j hs hroll hj
    have hinv := reachable_inv cfg orc s hs
    obtain ⟨_, _, _, _, r5, _⟩ := hinv.base.rollback k j hk hroll
    have hwait : ∃ t, Relation.ReflTransGen (Step cfg orc) s t ∧ t.pc k = Pc.rbWaitIdle j := by
      rcases hroll with h | h
      · obtain ⟨t, h1, h2⟩ := rollback_deactivate_step cfg orc k j s hs hk h (by omega)
          (hdq j (by omega) r5)
        exact ⟨t, Relation.ReflTransGen.single h1, h2⟩
      · exact ⟨s, Relation.ReflTransGen.refl, h⟩
    obtain ⟨t, ht1, ht2⟩ := hwait
    have htr := reachable_steps cfg orc s t hs ht1
    obtain ⟨u, hu1, hu2, _⟩ := rollback_wait_step cfg orc k j t htr hk ht2
    have hur := reachable_steps cfg orc t u htr hu1
    obtain ⟨s1, g1, g2, g3⟩ := ih u (j - 1) hur (Or.inl hu2) (by omega)
    exact ⟨s1, (ht1.trans hu1).trans g1, g2, g3⟩

/-- C3: the scope of a VBV rollback at row `k`.

A re-encode is only signalled with VBV on, at column `k` of a row `k > 0`
(the diagonal checkpoint), and the step that signals it takes the worker of
row `k` into the rollback loop, at cursor `numRows - 1`.

Run by the worker of row `k` without interference (the rows below `k` idle,
so that the waits of the rollback end): the iteration ends with every row `r`
in `k..numRows-1` at completion cursor 0, all-zero statistics and all-zero
VBV accumulators (`m_qpaAq[r]` when that array is present, `m_qpaRc`,
`m_rowEncodedBits`, `m_numEncodedCusPerRow`, `m_rowDiagSatd`,
`m_rowDiagIntraSatd`), while every row above `k` keeps its whole row record
and its accumulators.

Under concurrent workers, in every reachable state, whatever the other
workers do in between (a row below `k` may be busy when the re-encode is
asked for, and code one more CTU before it is given up):
* while the rollback is under way, every row below its cursor is at
  completion cursor 0 with all-zero statistics and all-zero accumulators;
* the step with which the worker of row `k` leaves the rollback ends in a
  state in which this holds of every row `r` in `k..numRows-1`;
* every step of the worker of row `k` from the checkpoint to the end of the
  rollback leaves the row record and the accumulators of every row above `k`
  as they are;
* the rollback can always be completed, when `dequeueRow` answers true for
  the rows below `k`: some steps of the workers lead to a state in which the
  worker of row `k` has just left it, the rows `k..numRows-1` being reset as
  said. -/
theorem vbv_rollback_scope (cfg : Cfg) (orc : Collab) (k : Nat) (hk : k < cfg.m_numRows) :
    (∀ s : EncState, (ctuHead cfg orc k s).2 = true →
        bIsVbv cfg.param = true ∧ (s.m_rows k).completed = k ∧ k ≠ 0)
      ∧ (∀ s : EncState, s.pc k = Pc.loop → (s.m_rows k).completed < cfg.m_numCols →
          (ctuHead cfg orc k s).2 = true →
          ∃ s1, workerStep cfg orc k s = Outcome.running s1
            ∧ s1.pc k = Pc.rbDeactivate (cfg.m_numRows - 1))
      ∧ (∀ (s : EncState) (fuel : Nat), s.pc k = Pc.loop →
          (s.m_rows k).completed < cfg.m_numCols →
          (ctuHead cfg orc k s).2 = true →
          (∀ r, k < r → r < cfg.m_numRows → (s.m_rows r).busy = false
            ∧ ((s.m_rows r).active = true → orc.dequeueRow (r * 2) = true)) →
          2 * (cfg.m_numRows - k) ≤ fuel →
          ∃ o s1, ctuIteration cfg orc k fuel s = some o ∧ o.state = some s1
            ∧ (∀ r, k ≤ r → r < cfg.m_numRows → (s1.m_rows r).completed = 0
                ∧ (s1.m_rows r).rowStats = FrameStats.zero
                ∧ rowAccum s1.m_frame r = rowAccumZero s1.m_frame)
            ∧ (∀ r, r < k → s1.m_rows r = s.m_rows r
                ∧ rowAccum s1.m_frame r = rowAccum s.m_frame r))
      ∧ (∀ (s : EncState) (j : Nat), Reachable cfg orc s → InRollback s k j →
          ∀ m, j < m → m < cfg.m_numRows → (s.m_rows m).completed = 0
            ∧ (s.m_rows m).rowStats = FrameStats.zero
            ∧ rowAccum s.m_frame m = rowAccumZero s.m_frame)
      ∧ (∀ (s s1 : EncState), Reachable cfg orc s → s.pc k ≠ Pc.loop →
          (workerStep cfg orc k s = Outcome.running s1
            ∨ workerStep cfg orc k s = Outcome.returned s1) →
          s1.pc k = Pc.loop →
          ∀ r, k ≤ r → r < cfg.m_numRows → (s1.m_rows r).completed = 0
            ∧ (s1.m_rows r).rowStats = FrameStats.zero
            ∧ rowAccum s1.m_frame r = rowAccumZero s1.m_frame)
      ∧ (∀ (s s1 : EncState), Reachable cfg orc s →
          (workerStep cfg orc k s = Outcome.running s1
            ∨ workerStep cfg orc k s = Outcome.returned s1) →
          (s.pc k ≠ Pc.loop
            ∨ (s.pc k = Pc.loop ∧ (s.m_rows k).completed < cfg.m_numCols
                ∧ (ctuHead cfg orc k s).2 = true)) →
          ∀ r, r < k → s1.m_rows r = s.m_rows r
            ∧ rowAccum s1.m_frame r = rowAccum s.m_frame r)
      ∧ ((∀ r, k < r → r < cfg.m_numRows → orc.dequeueRow (r * 2) = true) →
          ∀ (s : EncState) (j : Nat), Reachable cfg orc s → InRollback s k j →
            ∃ s1, Relation.ReflTransGen (Step cfg orc) s s1 ∧ s1.pc k = Pc.loop
              ∧ ∀ r, k ≤ r → r < cfg.m_numRows → (s1.m_rows r).completed = 0
                ∧ (s1.m_rows r).rowStats = FrameStats.zero
                ∧ rowAccum s1.m_frame r = rowAccumZero s1.m_frame) := by
  refine ⟨?_, ?_, ?_, ?_, ?_, ?_, ?_⟩
  · intro s hre
    obtain ⟨hv, hd, hk0, _, _⟩ := ctuHead_reEncode cfg orc k s hre
    exact ⟨hv, hd.symm, hk0⟩
  · intro s hpc hc hre
    refine ⟨{ (ctuHead cfg orc k s).1 with
      pc := upd (ctuHead cfg orc k s).1.pc k (Pc.rbDeactivate (cfg.m_numRows - 1)) }, ?_, by simp⟩
    unfold workerStep
    rw [hpc]
    simp [hc, hre]
  · intro s fuel hloop hcol hre hidle hfuel
    exact (rollback_scope_alone cfg orc k s fuel hk hloop hcol hre hidle hfuel).2
  · intro s j hs hroll m hjm hm
    obtain ⟨_, _, _, _, _, _, _, r8, _⟩ := (reachable_inv cfg orc s hs).base.rollback k j hk hroll
    obtain ⟨y1, y2⟩ := reachable_resetInv cfg orc s hs k j hk hroll m hjm hm
    exact ⟨(r8 m hjm hm).2.2, y1, y2⟩
  · intro s s1 hs hpc hst hout
    exact rollback_exit_reset cfg orc k s s1 hk hs hpc hst hout
  · intro s s1 hs hst hin
    exact rollback_step_above cfg orc k s s1 hk hs hst hin
  · intro hdq s j hs hroll
    have hinv := reachable_inv cfg orc s hs
    obtain ⟨_, _, _, r4, _⟩ := hinv.base.rollback k j hk hroll
    exact rollback_can_finish cfg orc k hk hdq (j - k) s j hs hroll (by omega)

theorem demoW13_reachable : Reachable demoCfgVbv demoCollab demoW13 :=
  have h0 : Reachable demoCfgVbv demoCollab demoW0 :=
    Reachable.start demoState (fun _ => ⟨rfl, rfl, rfl, rfl, rfl⟩)
  have h1 : Reachable demoCfgVbv demoCollab demoW1 :=
    Reachable.step _ _ h0 (Step.enter _ 0 (by decide))
  have h2 : Reachable demoCfgVbv demoCollab demoW2 :=
    Reachable.step _ _ h1 (Step.of_stepRow _ _ 0 demoW1 (by decide) (by decide) (by decide))
  have h3 : Reachable demoCfgVbv demoCollab demoW3 :=
    Reachable.step _ _ h2 (Step.of_stepRow _ _ 0 demoW2 (by decide) (by decide) (by decide))
  have h4 : Reachable demoCfgVbv demoCollab demoW4 :=
    Reachable.step _ _ h3 (Step.of_stepRow _ _ 0 demoW3 (by decide) (by decide) (by decide))
  have h5 : Reachable demoCfgVbv demoCollab demoW5 :=
    Reachable.step _ _ h4 (Step.of_stepRow _ _ 0 demoW4 (by decide) (by decide) (by decide))
  have h6 : Reachable demoCfgVbv demoCollab demoW6 :=
    Reachable.step _ _ h5 (Step.enter _ 1 (by decide))
  have h7 : Reachable demoCfgVbv demoCollab demoW7 :=
    Reachable.step _ _ h6 (Step.of_stepRow _ _ 1 demoW6 (by decide) (by decide) (by decide))
  have h8 : Reachable demoCfgVbv demoCollab demoW8 :=
    Reachable.step _ _ h7 (Step.of_stepRow _ _ 1 demoW7 (by decide) (by decide) (by decide))
  have h9 : Reachable demoCfgVbv demoCollab demoW9 :=
    Reachable.step _ _ h8 (Step.of_stepRow _ _ 1 demoW8 (by decide) (by decide) (by decide))
  have h10 : Reachable demoCfgVbv demoCollab demoW10 :=
    Reachable.step _ _ h9 (Step.of_stepRow _ _ 1 demoW9 (by decide) (by decide) (by decide))
  have h11 : Reachable demoCfgVbv demoCollab demoW11 :=
    Reachable.step _ _ h10 (Step.enter _ 2 (by decide))
  have h12 : Reachable demoCfgVbv demoCollab demoW12 :=
    Reachable.step _ _ h11 (Step.of_stepRow _ _ 2 demoW11 (by decide) (by decide) (by decide))
  Reachable.step _ _ h12 (Step.of_stepRow _ _ 2 demoW12 (by decide) (by decide) (by decide))

theorem demoX14_reachable : Reachable demoCfgVbv demoCollab demoX14 :=
  Reachable.step _ _ demoW13_reachable (Step.enter _ 3 (by decide))

theorem demoX16_reachable : Reachable demoCfgVbv demoCollab demoX16 :=
  have h15 : Reachable demoCfgVbv demoCollab demoX15 :=
    Reachable.step _ _ demoX14_reachable
      (Step.of_stepRow _ _ 2 demoX14 (by decide) (by decide) (by decide))
  Reachable.step _ _ h15 (Step.of_stepRow _ _ 2 demoX15 (by decide) (by decide) (by decide))

theorem demoX18_reachable : Reachable demoCfgVbv demoCollab demoX18 :=
  have h17 : Reachable demoCfgVbv demoCollab demoX17 :=
    Reachable.step _ _ demoX16_reachable
      (Step.of_stepRow _ _ 3 demoX16 (by decide) (by decide) (by decide))
  Reachable.step _ _ h17 (Step.of_stepRow _ _ 2 demoX17 (by decide) (by decide) (by decide))

/-- Witness of C3 on the 4 by 4 frame, the re-encode being asked for at the
checkpoint of row 2. Run by the worker alone from `demoRollbackState` (row 3
activated and idle): rows 2 and 3 end reset, rows 0 and 1 are as they were.
With a second worker busy in row 3 (`demoX14`): the checkpoint step takes the
worker of row 2 into the rollback; on its own it would be stuck (row 3 is
busy and has meanwhile coded a CTU), but after the worker of row 3 has given
the row up, the step from `demoX18` to `demoX19` leaves the rollback with
rows 2 and 3 reset and rows 0 and 1 as they were; and from `demoX16`, where
the worker of row 2 cannot move, the rollback can be completed. -/
theorem vbv_rollback_scope_witness :
    (2 < demoCfgVbv.m_numRows ∧ demoRollbackState.pc 2 = Pc.loop
        ∧ (demoRollbackState.m_rows 2).completed < demoCfgVbv.m_numCols
        ∧ (ctuHead demoCfgVbv demoCollab 2 demoRollbackState).2 = true
        ∧ Reachable demoCfgVbv demoCollab demoX14 ∧ demoX14.pc 2 = Pc.loop
        ∧ (demoX14.m_rows 2).completed < demoCfgVbv.m_numCols
        ∧ (ctuHead demoCfgVbv demoCollab 2 demoX14).2 = true
        ∧ (demoX14.m_rows 3).busy = true
        ∧ (ctuIteration demoCfgVbv demoCollab 2 10 demoX14).isSome = false
        ∧ Reachable demoCfgVbv demoCollab demoX16 ∧ InRollback demoX16 2 3
        ∧ (workerStep demoCfgVbv demoCollab 2 demoX16).isBlocked = true
        ∧ (demoX17.m_rows 3).completed = 1
        ∧ Reachable demoCfgVbv demoCollab demoX18 ∧ demoX18.pc 2 ≠ Pc.loop
        ∧ demoX19.pc 2 = Pc.loop
        ∧ (∀ r, 2 < r → r < demoCfgVbv.m_numRows → demoCollab.dequeueRow (r * 2) = true))
      ∧ (∃ o s1, ctuIteration demoCfgVbv demoCollab 2 4 demoRollbackState = some o
        ∧ o.state = some s1
        ∧ (∀ r, 2 ≤ r → r < demoCfgVbv.m_numRows → (s1.m_rows r).completed = 0
            ∧ (s1.m_rows r).rowStats = FrameStats.zero
            ∧ rowAccum s1.m_frame r = rowAccumZero s1.m_frame)
        ∧ (∀ r, r < 2 → s1.m_rows r = demoRollbackState.m_rows r
            ∧ rowAccum s1.m_frame r = rowAccum demoRollbackState.m_frame r))
      ∧ (∃ s1, workerStep demoCfgVbv demoCollab 2 demoX14 = Outcome.running s1
          ∧ s1.pc 2 = Pc.rbDeactivate (demoCfgVbv.m_numRows - 1))
      ∧ (∀ r, 2 ≤ r → r < demoCfgVbv.m_numRows → (demoX19.m_rows r).completed = 0
          ∧ (demoX19.m_rows r).rowStats = FrameStats.zero
          ∧ rowAccum demoX19.m_frame r = rowAccumZero demoX19.m_frame)
      ∧ (∀ r, r < 2 → demoX19.m_rows r = demoX18.m_rows r
          ∧ rowAccum demoX19.m_frame r = rowAccum demoX18.m_frame r)
      ∧ (∃ s1, Relation.ReflTransGen (Step demoCfgVbv demoCollab) demoX16 s1
          ∧ s1.pc 2 = Pc.loop
          ∧ ∀ r, 2 ≤ r → r < demoCfgVbv.m_numRows → (s1.m_rows r).completed = 0
            ∧ (s1.m_rows r).rowStats = FrameStats.zero
            ∧ rowAccum s1.m_frame r = rowAccumZero s1.m_frame) :=
  have h := vbv_rollback_scope demoCfgVbv demoCollab 2 (by decide)
  have hstep : workerStep demoCfgVbv demoCollab 2 demoX18 = Outcome.running demoX19
      ∨ workerStep demoCfgVbv demoCollab 2 demoX18 = Outcome.returned demoX19 :=
    stepRow_spec demoCfgVbv demoCollab 2 demoX18 (by decide)
  ⟨⟨by decide, rfl, by decide, by decide, demoX14_reachable, by decide, by decide, by decide,
      by decide, by decide, demoX16_reachable, Or.inr (by decide), by decide, by decide,
      demoX18_reachable, by decide, by decide, fun _ _ _ => rfl⟩,
    h.2.2.1 demoRollbackState 4 rfl (by decide) (by decide)
      (fun r h1 h2 => by
        have h3 : r = 3 := by
          have : r < 4 := h2
          omega
        subst h3
        exact ⟨rfl, fun _ => rfl⟩)
      (by decide),
    h.2.1 demoX14 (by decide) (by decide) (by decide),
    h.2.2.2.2.1 demoX18 demoX19 demoX18_reachable (by decide) hstep (by decide),
    h.2.2.2.2.2.1 demoX18 demoX19 demoX18_reachable hstep (Or.inl (by decide)),
    h.2.2.2.2.2.2 (fun _ _ _ => rfl) demoX16 3 demoX16_reachable (Or.inr (by decide))⟩

end X265
